import Mathlib

/-! # RollingHorizon: the routing oracle and the RTV builder

A shallow embedding of `src/routeplanner.cpp` (`recursive_search`, `new_travel`,
`memory`, `format_path`, `travel`), of `src/generator.cpp` (`previoustrip`) and of the
per-vehicle part of `src/algorithms/ilp_full.cpp`.

Conventions of the embedding.
* A C++ `int` is an `Int`; no overflow is modelled.
* A `Request*` is a `ReqPtr` (an address, a natural number); the request arena is a
  function `Heap` from addresses to records.  Pointer comparisons are comparisons of
  addresses.
* The vectors `nodes` and `meta_nodes` of the planner are lists; a `NodeStop*` or a
  `MetaNodeStop*` is the index of the element in its vector (the vectors are reserved
  up front in the source, so addresses grow with the index).
* `std::set<T*>` is a strictly increasing list of addresses; the set ordered by
  `MnsSort` is a list strictly increasing for `mnsLt`.
* The recursion of `recursive_search` is bounded by a fuel argument; running out of
  fuel is the result `none`, never a cost.
-/

namespace RollingHorizon

/-! ## Settings (`headers/settings.hpp`, `src/settings.cpp`) -/

inductive Ctsp where
  | FULL
  | FIX_ONBOARD
  | FIX_PREFIX
  | MEGA_TSP
  deriving DecidableEq

inductive CtspObjective where
  | CTSP_VMT
  | CTSP_TOTALDROPOFFTIME
  | CTSP_TOTALWAITING
  deriving DecidableEq

/-- The process-wide configuration read by the planner. -/
structure Settings where
  CTSP : Ctsp
  CTSP_OBJECTIVE : CtspObjective
  DWELL_ALIGHT : Int
  DWELL_PICKUP : Int
  MAX_DETOUR : Int
  MAX_WAITING : Int
  RTV_TIMELIMIT : Int

/-- The constant `LP_LIMITVALUE` of `routeplanner.cpp`. -/
def LP_LIMITVALUE : Nat := 8

/-! ## Requests, stops, vehicles (`headers/request.hpp`, `headers/vehicle.hpp`) -/

structure Request where
  id : Int
  origin : Int
  destination : Int
  ideal_traveltime : Int
  entry_time : Int
  boarding_time : Int
  alighting_time : Int
  latest_boarding : Int
  latest_alighting : Int
  shared : Bool
  assigned : Bool
  deriving DecidableEq

/-- A `Request*`: the address of a request in the arena. -/
abbrev ReqPtr := Nat

/-- The request arena: what each address holds. -/
abbrev Heap := ReqPtr → Request

structure NodeStop where
  r : ReqPtr
  is_pickup : Bool
  node : Int
  deriving DecidableEq

/-- The `operator<` of `NodeStop`: by request address, then dropoff before pickup. -/
def NodeStop.lt (a b : NodeStop) : Bool :=
  if a.r < b.r then true
  else if a.r = b.r ∧ a.is_pickup < b.is_pickup then true
  else false

/-- The fields of `Vehicle` that the planner and the RTV builder read. -/
structure Vehicle where
  id : Int
  capacity : Int
  passengers : List ReqPtr
  pending_requests : List ReqPtr
  order_record : List NodeStop
  prev_node : Int
  node : Int
  offset : Int

/-! ## Network (`src/network.cpp`) -/

/-- The dense travel-time matrix, as a total function of the two node ids. -/
structure Network where
  time_matrix : Int → Int → Int

/-- The function `Network::get_time`: the three negative sentinels give the dwell
times, everything else is a matrix entry. -/
def Network.get_time (S : Settings) (net : Network) (node_one node_two : Int) : Int :=
  if node_one = -10 then S.DWELL_PICKUP
  else if node_one = -20 then S.DWELL_ALIGHT
  else if node_one = -30 then 0
  else net.time_matrix node_one node_two

/-- The function `Network::get_vehicle_time`. -/
def Network.get_vehicle_time (S : Settings) (net : Network) (v : Vehicle) (node : Int) : Int :=
  v.offset + net.get_time S v.node node

/-! ## The planner (`src/routeplanner.cpp`) -/

structure MetaNodeStop where
  node : Nat
  unlocks : List Nat
  deriving DecidableEq

/-- What `recursive_search` reads besides its arguments: the settings, the network,
the arena, and the two vectors its pointers point into. -/
structure Ctx where
  S : Settings
  net : Network
  heap : Heap
  nodes : List NodeStop
  metas : List MetaNodeStop

/-- The element `meta_nodes[m]`. -/
def Ctx.metaAt (ctx : Ctx) (m : Nat) : MetaNodeStop :=
  ctx.metas.getD m ⟨0, []⟩

/-- The element `nodes[i]`. -/
def Ctx.nodeAt (ctx : Ctx) (i : Nat) : NodeStop :=
  ctx.nodes.getD i ⟨0, false, 0⟩

/-- The stop `*m->node` of the meta node at address `m`. -/
def Ctx.stop (ctx : Ctx) (m : Nat) : NodeStop :=
  ctx.nodeAt (ctx.metaAt m).node

/-- The request `*m->node->r`. -/
def Ctx.req (ctx : Ctx) (m : Nat) : Request :=
  ctx.heap (ctx.stop m).r

/-- The `operator<` of `MetaNodeStop` on the meta nodes at addresses `a` and `b`: by
node id, then dropoff before pickup, then by the address of the stop, then by the
address of the meta node. -/
def mnsLt (ctx : Ctx) (a b : Nat) : Bool :=
  if (ctx.stop a).node < (ctx.stop b).node then true
  else if (ctx.stop a).node > (ctx.stop b).node then false
  else if (ctx.stop a).is_pickup < (ctx.stop b).is_pickup then true
  else if (ctx.stop a).is_pickup > (ctx.stop b).is_pickup then false
  else if (ctx.metaAt a).node < (ctx.metaAt b).node
      ∨ ((ctx.metaAt a).node = (ctx.metaAt b).node ∧ a < b) then true
  else false

/-- Insertion into an ordered set (`std::set::insert`) kept as a strictly increasing
list: an element equivalent to `x` keeps `x` out. -/
def setInsert (lt : Nat → Nat → Bool) (x : Nat) : List Nat → List Nat
  | [] => [x]
  | y :: ys =>
    if lt x y then x :: y :: ys
    else if lt y x then y :: setInsert lt x ys
    else y :: ys

/-- Insertion of a range into an ordered set. -/
def setInsertAll (lt : Nat → Nat → Bool) (xs : List Nat) (s : List Nat) : List Nat :=
  xs.foldl (fun acc x => setInsert lt x acc) s

/-- Removal from an ordered set (`std::set::erase` by key). -/
def setErase (lt : Nat → Nat → Bool) (x : Nat) (s : List Nat) : List Nat :=
  s.filter (fun y => lt x y || lt y x)

/-- The order of `std::set<T*>`: by address. -/
def ptrLt (a b : Nat) : Bool := decide (a < b)

/-- The function `get_alight_deadline`. -/
def get_alight_deadline (S : Settings) (r : Request) : Int :=
  r.entry_time + r.ideal_traveltime + S.MAX_DETOUR

inductive Action where
  | PICKUP
  | DROPOFF
  | NO_ACTION
  deriving DecidableEq

/-- The time of visit computed by the loop body of `recursive_search` (lines 114-126):
travel time, wait for the entry time at a pickup, the dwell of the previous batch, and
the entry time once more. -/
def arrival (S : Settings) (net : Network) (heap : Heap) (initial_location time : Int)
    (prev_action : Action) (ns : NodeStop) : Int :=
  let a0 := time + net.get_time S initial_location ns.node
  let a1 := if ns.is_pickup ∧ (heap ns.r).entry_time > a0 then (heap ns.r).entry_time else a0
  let a2 :=
    if prev_action = Action.DROPOFF ∧ (ns.is_pickup ∨ initial_location ≠ ns.node) then
      a1 + S.DWELL_ALIGHT
    else if prev_action = Action.PICKUP ∧ (ns.is_pickup = false ∨ initial_location ≠ ns.node) then
      a1 + S.DWELL_PICKUP
    else a1
  if ns.is_pickup ∧ (heap ns.r).entry_time > a2 then (heap ns.r).entry_time else a2

/-- The action of a stop: `this_action` of the source. -/
def actionOf (ns : NodeStop) : Action :=
  if ns.is_pickup then Action.PICKUP else Action.DROPOFF

/-- The value `new_residual_capacity` of the source: one seat less after a pickup, one
more after a dropoff. -/
def new_residual (ns : NodeStop) (residual_capacity : Int) : Int :=
  if ns.is_pickup then residual_capacity - 1 else residual_capacity + 1

/-- The set `remaining_nodes` built for the candidate `m`: the available set without
`m`, then the nodes `m` unlocks. -/
def remaining_nodes (ctx : Ctx) (initially_available : List Nat) (m : Nat) : List Nat :=
  setInsertAll (mnsLt ctx) (ctx.metaAt m).unlocks (initially_available.filter (fun x => x ≠ m))

/-- The flag `basic_reachability`: no node of `remaining` is out of reach already. -/
def basic_reachability (ctx : Ctx) (new_location arrival_time : Int) (remaining : List Nat) :
    Bool :=
  remaining.all (fun x =>
    let reaching_time := arrival_time + ctx.net.get_time ctx.S new_location (ctx.stop x).node
    !(((ctx.stop x).is_pickup && decide (reaching_time > (ctx.req x).latest_boarding))
      || (!(ctx.stop x).is_pickup && decide (reaching_time > (ctx.req x).latest_alighting))))

/-- The type of `recursive_search` once the context is fixed: location, residual
capacity, available set, time, best time, previous action. -/
abbrev Search := Int → Int → List Nat → Int → Int → Action → Option (Int × List Nat)

/-- The `for` loop of `recursive_search` over the available set, from the candidate
list `cands` on, with the loop variables `previous`, `best_time` and `best_tail`; the
recursive call is the argument `rec`. -/
def search_loop (ctx : Ctx) (rec : Search) (initial_location residual_capacity : Int)
    (initially_available : List Nat) (time : Int) (prev_action : Action) :
    List Nat → Option Nat → Int → List Nat → Option (Int × List Nat)
  | [], _, best_time, best_tail => some (best_time, best_tail)
  | m :: rest, previous, best_time, best_tail =>
    let continue_ := search_loop ctx rec initial_location residual_capacity
      initially_available time prev_action rest
    if previous.any (fun p => !(ctx.stop m).is_pickup
        && decide ((ctx.stop p).node = (ctx.stop m).node)) then
      continue_ previous best_time best_tail
    else
      let new_location := (ctx.stop m).node
      let arrival_time := arrival ctx.S ctx.net ctx.heap initial_location time prev_action
        (ctx.stop m)
      if best_time ≠ -1 ∧ arrival_time ≥ best_time then
        continue_ (some m) best_time best_tail
      else
        let new_residual_capacity := new_residual (ctx.stop m) residual_capacity
        if new_residual_capacity < 0 then
          continue_ (some m) best_time best_tail
        else if (ctx.stop m).is_pickup
            ∧ arrival_time > (ctx.req m).entry_time + ctx.S.MAX_WAITING then
          continue_ (some m) best_time best_tail
        else if get_alight_deadline ctx.S (ctx.req m) < arrival_time then
          continue_ (some m) best_time best_tail
        else
          let remaining := remaining_nodes ctx initially_available m
          if basic_reachability ctx new_location arrival_time remaining = false then
            continue_ (some m) best_time best_tail
          else
            match rec new_location new_residual_capacity remaining arrival_time best_time
                (actionOf (ctx.stop m)) with
            | none => none
            | some tail =>
              if tail.1 = -1 then
                continue_ (some m) best_time best_tail
              else if best_time = -1 ∨ tail.1 < best_time then
                continue_ (some m) tail.1 (tail.2 ++ [(ctx.metaAt m).node])
              else
                continue_ (some m) best_time best_tail

/-- The function `recursive_search` (the overload on the `MnsSort` set): the cost and
the reverse path, as addresses of stops.  The first argument bounds the depth of the
recursion. -/
def recursive_search (ctx : Ctx) : Nat → Search
  | 0 => fun _ _ _ _ _ _ => none
  | fuel + 1 => fun initial_location residual_capacity initially_available time best_time
      prev_action =>
    if initially_available.isEmpty then some (time, [])
    else
      search_loop ctx (recursive_search ctx fuel) initial_location residual_capacity
        initially_available time prev_action initially_available none best_time []

/-- The overload of `recursive_search` on a `std::set<MetaNodeStop*>`: re-sorts the set
with `MnsSort` and starts with no previous action. -/
def recursive_search_set (ctx : Ctx) (fuel : Nat) (initial_location residual_capacity : Int)
    (initially_available : List Nat) (time best_time : Int) : Option (Int × List Nat) :=
  recursive_search ctx fuel initial_location residual_capacity
    (setInsertAll (mnsLt ctx) initially_available []) time best_time Action.NO_ACTION

/-- The function `format_path`: subtracts the epoch time from a feasible cost under the
VMT objective, and reverses the path, copying the stops. -/
def format_path (S : Settings) (nodes : List NodeStop) (reverse_path : Int × List Nat)
    (time : Int) : Int × List NodeStop :=
  let cost := reverse_path.1
  let cost := if S.CTSP_OBJECTIVE = CtspObjective.CTSP_VMT ∧ cost ≥ 0 then cost - time else cost
  (cost, reverse_path.2.reverse.map (fun i => nodes.getD i ⟨0, false, 0⟩))

/-- How a call can end without a result: the `runtime_error`s of the planner, of the
RTV builder and of the simulator, an access outside a vector (undefined behaviour in the
source), the exhaustion of the fuel of the embedding, and an exception of the solver
library. -/
inductive Error where
  | algebra_done_incorrectly
  | no_valid_ctsp_objective
  | no_valid_ctsp_objective_timed
  | invalid_trigger
  | negative_cost_not_cleaned_up
  | previous_assignment_no_longer_feasible
  | i_was_not_included
  | i_was_a_pending_request
  | did_not_replicate_the_trip
  | out_of_bounds
  | out_of_fuel
  | solver_raised
  | this_is_an_error
  | delay_was_negative
  deriving DecidableEq

/-- The local variables `nodes`, `meta_nodes` and `initially_available` of
`new_travel`. -/
structure Build where
  nodes : List NodeStop
  meta_nodes : List MetaNodeStop
  initially_available : List Nat

/-- One round of the loop over `rs` (lines 221-229): the pickup and the dropoff stop of
`r`, the meta node of the dropoff, the meta node of the pickup that unlocks it, and the
pickup made available. -/
def add_request (heap : Heap) (b : Build) (r : ReqPtr) : Build :=
  let nodes := b.nodes ++ [⟨r, true, (heap r).origin⟩, ⟨r, false, (heap r).destination⟩]
  let meta_nodes := b.meta_nodes ++ [⟨nodes.length - 1, []⟩]
  let meta_nodes := meta_nodes ++ [⟨nodes.length - 2, [meta_nodes.length - 1]⟩]
  ⟨nodes, meta_nodes, setInsert ptrLt (meta_nodes.length - 1) b.initially_available⟩

/-- One round of the loop over `v.order_record` (lines 233-241), with the set
`onboard`: the first stop of each passenger still in `onboard` is copied. -/
def add_onboard (st : Build × List ReqPtr) (ns : NodeStop) : Build × List ReqPtr :=
  if ns.r ∈ st.2 then
    let nodes := st.1.nodes ++ [ns]
    (⟨nodes, st.1.meta_nodes ++ [⟨nodes.length - 1, []⟩], st.1.initially_available⟩,
      setErase ptrLt ns.r st.2)
  else st

/-- Assignment to `meta_nodes[i].unlocks`. -/
def set_unlocks (meta_nodes : List MetaNodeStop) (i : Nat) (unlocks : List Nat) :
    List MetaNodeStop :=
  meta_nodes.set i ⟨(meta_nodes.getD i ⟨0, []⟩).node, unlocks⟩

/-- Lines 242-251: under `FIX_ONBOARD` with more than four requests and passengers, the
last `|passengers|` meta nodes are chained and the first of them made available;
otherwise the last `|passengers|` meta nodes are all made available. -/
def link_onboard (S : Settings) (rs_size passengers_size : Nat) (b : Build) : Build :=
  let size := b.meta_nodes.length
  if S.CTSP = Ctsp.FIX_ONBOARD ∧ rs_size + passengers_size > 4 ∧ passengers_size ≠ 0 then
    let meta_nodes := (List.range (passengers_size - 1)).foldl
      (fun ms i => set_unlocks ms (size - 2 - i) [size - 1 - i]) b.meta_nodes
    ⟨b.nodes, meta_nodes, setInsert ptrLt (size - passengers_size) b.initially_available⟩
  else
    ⟨b.nodes, b.meta_nodes, (List.range passengers_size).foldl
      (fun s i => setInsert ptrLt (size - 1 - i) s) b.initially_available⟩

/-- The map `node_to_meta` of lines 267-269 at the key `ns`: the last meta node whose
stop has the request and the flag of `ns` (a later assignment replaces an earlier
one). -/
def node_to_meta (nodes : List NodeStop) (meta_nodes : List MetaNodeStop) (ns : NodeStop) :
    Option Nat :=
  (List.range meta_nodes.length).reverse.find? (fun m =>
    let k := nodes.getD (meta_nodes.getD m ⟨0, []⟩).node ⟨0, false, 0⟩
    !(NodeStop.lt k ns) && !(NodeStop.lt ns k))

/-- The vector `previous_order` of lines 270-273. -/
def previous_order (nodes : List NodeStop) (meta_nodes : List MetaNodeStop)
    (order_record : List NodeStop) : List Nat :=
  order_record.filterMap (node_to_meta nodes meta_nodes)

/-- One round of the loop of lines 283-292, on the pair (`meta_nodes`, `captured`). -/
def fix_step (previous_order : List Nat) (limit : Nat)
    (st : List MetaNodeStop × List Nat) (i : Nat) : List MetaNodeStop × List Nat :=
  let p := previous_order.getD i 0
  let captured := setErase ptrLt p st.2
  let captured := setInsertAll ptrLt (st.1.getD p ⟨0, []⟩).unlocks captured
  if i + 1 < limit then
    (set_unlocks st.1 p [previous_order.getD (i + 1) 0], captured)
  else
    (set_unlocks st.1 p captured, captured)

/-- The number of requests of `rs` that are not pending on the vehicle, as the size of
the set `new_requests` of lines 257-261. -/
def new_requests_size (v : Vehicle) (rs : List ReqPtr) : Nat :=
  (setInsertAll ptrLt (rs.filter (fun r => decide (r ∉ v.pending_requests))) []).length

/-- Lines 214-241 of `new_travel`: the stops and meta nodes of the requests `rs`, then
those of the passengers that `v.order_record` still holds. -/
def build_stops (heap : Heap) (v : Vehicle) (rs : List ReqPtr) : Build :=
  (v.order_record.foldl add_onboard
    (rs.foldl (add_request heap) ⟨[], [], []⟩, setInsertAll ptrLt v.passengers [])).1

/-- Lines 266-292 of `new_travel`: the meta nodes and the available set once the first
`meta_nodes.size() - LP_LIMITVALUE` stops of the previous order are frozen. -/
def fix_prefix_build (v : Vehicle) (b : Build) : Build :=
  let order := previous_order b.nodes b.meta_nodes v.order_record
  let limit := b.meta_nodes.length - LP_LIMITVALUE
  let st := (List.range limit).foldl (fix_step order limit)
    (b.meta_nodes, b.initially_available)
  ⟨b.nodes, st.1, [order.getD 0 0]⟩

/-- Lines 295-305 of `new_travel` and 325-334 of `memory`: the search from the vehicle
and the formatting of its result. -/
def run_search (S : Settings) (net : Network) (heap : Heap) (fuel : Nat) (v : Vehicle)
    (b : Build) (time : Int) : Except Error (Int × List NodeStop) :=
  if S.CTSP_OBJECTIVE = CtspObjective.CTSP_VMT then
    match recursive_search_set ⟨S, net, heap, b.nodes, b.meta_nodes⟩ fuel v.node
        (v.capacity - v.passengers.length) b.initially_available (time + v.offset) (-1) with
    | none => Except.error Error.out_of_fuel
    | some optimal => Except.ok (format_path S b.nodes optimal time)
  else Except.error Error.no_valid_ctsp_objective

/-- The function `new_travel`: the STANDARD oracle. -/
def new_travel (S : Settings) (net : Network) (heap : Heap) (fuel : Nat) (v : Vehicle)
    (rs : List ReqPtr) (time : Int) : Except Error (Int × List NodeStop) :=
  let b := build_stops heap v rs
  if b.meta_nodes.length < v.passengers.length then Except.error Error.out_of_bounds
  else
    let b := link_onboard S rs.length v.passengers.length b
    if S.CTSP = Ctsp.FIX_PREFIX ∧ b.meta_nodes.length > LP_LIMITVALUE then
      if 2 * new_requests_size v rs > LP_LIMITVALUE then Except.ok (-1, [])
      else if (previous_order b.nodes b.meta_nodes v.order_record).length
          < b.meta_nodes.length - LP_LIMITVALUE then
        Except.error Error.algebra_done_incorrectly
      else run_search S net heap fuel v (fix_prefix_build v b) time
    else run_search S net heap fuel v b time

/-- The chain of `memory` (lines 311-323): one meta node per stop of the order record,
each unlocking the next, the first one available. -/
def memory_build (v : Vehicle) : Build :=
  ⟨v.order_record,
    (List.range v.order_record.length).map (fun i =>
      ⟨i, if i + 1 < v.order_record.length then [i + 1] else []⟩),
    if v.order_record.length ≠ 0 then [0] else []⟩

/-- The function `memory`: the MEMORY oracle, the stops of `v.order_record` chained in
their order. -/
def memory (S : Settings) (net : Network) (heap : Heap) (fuel : Nat) (v : Vehicle)
    (time : Int) : Except Error (Int × List NodeStop) :=
  run_search S net heap fuel v (memory_build v) time

/-- The function `rebalance`: the REBALANCING oracle.  For a vehicle with passengers the
source prints a diagnostic and waits for a key before it goes on; this is not modelled.
The read of `rs[0]` in an empty vector is an access outside the vector. -/
def rebalance (S : Settings) (net : Network) (heap : Heap) (v : Vehicle) (rs : List ReqPtr) :
    Except Error (Int × List NodeStop) :=
  match rs with
  | [] => Except.error Error.out_of_bounds
  | r :: _ =>
    Except.ok (net.get_vehicle_time S v (heap r).origin
        + net.get_time S (heap r).origin (heap r).destination,
      [⟨r, true, (heap r).origin⟩, ⟨r, false, (heap r).destination⟩])

/-- The enumeration `Purpose` of the oracle (its header is not among the sources; the
three values are those `travel` dispatches on). -/
inductive Purpose where
  | STANDARD
  | MEMORY
  | REBALANCING
  deriving DecidableEq

/-- The function `travel`. -/
def travel (S : Settings) (net : Network) (heap : Heap) (fuel : Nat) (vehicle : Vehicle)
    (requests : List ReqPtr) (trigger : Purpose) (time : Int) :
    Except Error (Int × List NodeStop) :=
  if trigger = Purpose.MEMORY then memory S net heap fuel vehicle time
  else if trigger = Purpose.REBALANCING then rebalance S net heap vehicle requests
  else new_travel S net heap fuel vehicle requests time

/-! ## Runs of the planner

The relation `Run` lists, in the order of the visits, the meta nodes of a leaf that
`recursive_search` can reach from a state: each candidate is in the available set of
its level and passes the capacity, window and reachability tests of the loop body. -/

/-- The tests of the loop body of `recursive_search` that a candidate `m` must pass to
be recursed on (lines 132-169), the bound cut apart. -/
def stepOk (ctx : Ctx) (loc cap : Int) (avail : List Nat) (time : Int) (prev : Action)
    (m : Nat) : Prop :=
  m ∈ avail
  ∧ 0 ≤ new_residual (ctx.stop m) cap
  ∧ ¬ ((ctx.stop m).is_pickup ∧ arrival ctx.S ctx.net ctx.heap loc time prev (ctx.stop m)
      > (ctx.req m).entry_time + ctx.S.MAX_WAITING)
  ∧ ¬ (get_alight_deadline ctx.S (ctx.req m)
      < arrival ctx.S ctx.net ctx.heap loc time prev (ctx.stop m))
  ∧ basic_reachability ctx (ctx.stop m).node
      (arrival ctx.S ctx.net ctx.heap loc time prev (ctx.stop m))
      (remaining_nodes ctx avail m) = true

/-- The leaves of the search tree: `Run ctx loc cap avail time prev ms c` says that
visiting the meta nodes `ms` in this order from the state empties the available set and
ends at time `c`. -/
inductive Run (ctx : Ctx) : Int → Int → List Nat → Int → Action → List Nat → Int → Prop
  | nil (loc cap time : Int) (prev : Action) : Run ctx loc cap [] time prev [] time
  | cons (loc cap : Int) (avail : List Nat) (time : Int) (prev : Action) (m : Nat)
      (ms : List Nat) (c : Int) :
      stepOk ctx loc cap avail time prev m →
      Run ctx (ctx.stop m).node (new_residual (ctx.stop m) cap)
        (remaining_nodes ctx avail m)
        (arrival ctx.S ctx.net ctx.heap loc time prev (ctx.stop m))
        (actionOf (ctx.stop m)) ms c →
      Run ctx loc cap avail time prev (m :: ms) c

/-- The reverse path `recursive_search` returns for the visits `ms`. -/
def tailOf (ctx : Ctx) (ms : List Nat) : List Nat :=
  (ms.map (fun m => (ctx.metaAt m).node)).reverse

/-- A result of the search that stands for a leaf. -/
def GoodRun (ctx : Ctx) (loc cap : Int) (avail : List Nat) (time : Int) (prev : Action)
    (r : Int × List Nat) : Prop :=
  ∃ ms, Run ctx loc cap avail time prev ms r.1 ∧ r.2 = tailOf ctx ms

/-- What a result of the search is, given the bound it was called with: the bound
itself with no path, or a leaf. -/
def SearchPost (ctx : Ctx) (loc cap : Int) (avail : List Nat) (time best : Int)
    (prev : Action) (r : Int × List Nat) : Prop :=
  r = (best, []) ∨ GoodRun ctx loc cap avail time prev r

/-- An order whose only equivalent elements are equal ones. -/
def Separating (lt : Nat → Nat → Bool) : Prop :=
  ∀ a b, lt a b = false → lt b a = false → a = b

/-! ## Replaying a stop sequence

The planner's own arrival rule, applied to a sequence of stops from a position, a time
and a previous action. -/

/-- The time at which the replay of the stops ends: the arrival at the last stop, the
starting time when there is no stop. -/
def finalTime (S : Settings) (net : Network) (heap : Heap) :
    Int → Int → Action → List NodeStop → Int
  | _, time, _, [] => time
  | loc, time, prev, ns :: rest =>
    finalTime S net heap ns.node (arrival S net heap loc time prev ns) (actionOf ns) rest

/-- The replay of the stops from `loc` at `time` with `onboard` passengers on board
keeps every promise: a pickup is reached by `entry_time + MAX_WAITING`, a dropoff by
`entry_time + ideal_traveltime + MAX_DETOUR`, and after each stop no more than
`capacity` passengers are on board. -/
def ReplayOk (S : Settings) (net : Network) (heap : Heap) (capacity : Int) :
    Int → Int → Action → Int → List NodeStop → Prop
  | _, _, _, _, [] => True
  | loc, time, prev, onboard, ns :: rest =>
    (ns.is_pickup = true →
      arrival S net heap loc time prev ns ≤ (heap ns.r).entry_time + S.MAX_WAITING)
    ∧ (ns.is_pickup = false →
      arrival S net heap loc time prev ns
        ≤ (heap ns.r).entry_time + (heap ns.r).ideal_traveltime + S.MAX_DETOUR)
    ∧ (if ns.is_pickup then onboard + 1 else onboard - 1) ≤ capacity
    ∧ ReplayOk S net heap capacity ns.node (arrival S net heap loc time prev ns) (actionOf ns)
      (if ns.is_pickup then onboard + 1 else onboard - 1) rest

/-! ## The worked example of the specification

Three nodes with the travel times `[[0,60,120],[60,0,80],[120,80,0]]`, no dwell,
`MAX_WAITING = 300`, `MAX_DETOUR = 600`; request A at address 1 (0 to 1, entry 0) and
request B at address 2 (0 to 2, entry 0); an empty vehicle of capacity 2 at node 0. -/

/-- The settings of the worked example, for a given precedence mode. -/
def exSettings (mode : Ctsp) : Settings :=
  ⟨mode, CtspObjective.CTSP_VMT, 0, 0, 600, 300, 0⟩

/-- A travel-time matrix given by its rows; entries outside the rows are 0. -/
def matrixOf (rows : List (List Int)) : Network :=
  ⟨fun a b => (rows.getD a.toNat []).getD b.toNat 0⟩

/-- The network of the worked example. -/
def exNet : Network := matrixOf [[0, 60, 120], [60, 0, 80], [120, 80, 0]]

/-- A request with the windows of the data model: `latest_boarding` is the entry time
plus 300 and `latest_alighting` the entry time plus the ideal travel time plus 600. -/
def mkRequest (id origin destination entry_time ideal_traveltime : Int) : Request :=
  ⟨id, origin, destination, ideal_traveltime, entry_time, 0, 0, entry_time + 300,
    entry_time + ideal_traveltime + 600, false, false⟩

/-- The arena of the worked example: A at address 1, B at address 2. -/
def exHeap : Heap := fun p =>
  if p = 1 then mkRequest 1 0 1 0 60
  else if p = 2 then mkRequest 2 0 2 0 120
  else mkRequest 0 0 0 0 0

/-- The vehicle of the worked example. -/
def exVehicle : Vehicle := ⟨0, 2, [], [], [], 0, 0, 0⟩

/-- The plan of the worked example for A and B. -/
def exPlan : List NodeStop :=
  [⟨1, true, 0⟩, ⟨2, true, 0⟩, ⟨1, false, 1⟩, ⟨2, false, 2⟩]

/-- The vehicle of the worked example once A and B are assigned to it with `exPlan`. -/
def exVehiclePlan : Vehicle := ⟨0, 2, [], [1, 2], exPlan, 0, 0, 0⟩

/-- The checks the search makes along a fixed sequence of stops, each stop being the
only candidate of its level: capacity, the two windows, and the reachability of the
stop that follows. -/
def ChainOk (S : Settings) (net : Network) (heap : Heap) :
    Int → Int → Int → Action → List NodeStop → Prop
  | _, _, _, _, [] => True
  | loc, cap, time, prev, ns :: rest =>
    0 ≤ new_residual ns cap
    ∧ ¬ (ns.is_pickup ∧ arrival S net heap loc time prev ns
        > (heap ns.r).entry_time + S.MAX_WAITING)
    ∧ ¬ (get_alight_deadline S (heap ns.r) < arrival S net heap loc time prev ns)
    ∧ (∀ nx ∈ rest.head?,
        ¬ ((nx.is_pickup ∧ arrival S net heap loc time prev ns + net.get_time S ns.node nx.node
              > (heap nx.r).latest_boarding)
          ∨ (nx.is_pickup = false
            ∧ arrival S net heap loc time prev ns + net.get_time S ns.node nx.node
              > (heap nx.r).latest_alighting)))
    ∧ ChainOk S net heap ns.node (new_residual ns cap) (arrival S net heap loc time prev ns)
      (actionOf ns) rest

/-- The vehicle `v` with its order record set to `order`. -/
def Vehicle.withOrder (v : Vehicle) (order : List NodeStop) : Vehicle :=
  ⟨v.id, v.capacity, v.passengers, v.pending_requests, order, v.prev_node, v.node, v.offset⟩

/-- The times of the instance are not negative: the epoch time, the offset of the
vehicle, the entries of the matrix and the two dwell times. -/
def NonNegTimes (S : Settings) (net : Network) (v : Vehicle) (time : Int) : Prop :=
  0 ≤ time ∧ 0 ≤ v.offset ∧ (∀ a b, 0 ≤ net.time_matrix a b)
    ∧ 0 ≤ S.DWELL_ALIGHT ∧ 0 ≤ S.DWELL_PICKUP

/-! ## Availability

What the search can visit depends only on the available set and on what each visit
unlocks.  `Visits` keeps that part of `Run`, the available set being a predicate. -/

/-- The available set after the visit of `m`: `m` leaves, what `m` unlocks joins. -/
def nextAvail (unl : Nat → List Nat) (A : Nat → Prop) (m : Nat) : Nat → Prop :=
  fun x => (A x ∧ x ≠ m) ∨ x ∈ unl m

/-- The sequences of visits that empty the available set. -/
inductive Visits (unl : Nat → List Nat) : (Nat → Prop) → List Nat → Prop
  | nil (A : Nat → Prop) : (∀ x, ¬ A x) → Visits unl A []
  | cons (A : Nat → Prop) (m : Nat) (ms : List Nat) :
      A m → Visits unl (nextAvail unl A m) ms → Visits unl A (m :: ms)

/-- The unlock lists of the meta nodes of a context. -/
def Ctx.unl (ctx : Ctx) (m : Nat) : List Nat := (ctx.metaAt m).unlocks

/-- A precedence forest on the meta nodes `0 .. n-1`: `par` gives the one meta node that
unlocks a meta node, if any; `unl` lists the children; `rk` grows from parent to
child. -/
structure Forest (n : Nat) (unl : Nat → List Nat) (par : Nat → Option Nat)
    (rk : Nat → Nat) : Prop where
  children : ∀ x m, m ∈ unl x ↔ (x < n ∧ m < n ∧ par m = some x)
  parent_lt : ∀ m y, par m = some y → y < n
  rank : ∀ m y, par m = some y → rk y < rk m

/-- In a forest, the nodes that are available once the set `W` has been visited: not
visited yet, and with no parent or a visited parent. -/
def availAfter (n : Nat) (par : Nat → Option Nat) (W : Nat → Prop) : Nat → Prop :=
  fun x => x < n ∧ ¬ W x ∧ (par x = none ∨ ∃ y, par x = some y ∧ W y)

/-! ## The stop universe in closed form -/

/-- The stops `new_travel` creates for the requests `rs`: pickup then dropoff. -/
def requestNodes (heap : Heap) (rs : List ReqPtr) : List NodeStop :=
  rs.flatMap (fun r => [⟨r, true, (heap r).origin⟩, ⟨r, false, (heap r).destination⟩])

/-- The meta nodes `new_travel` creates for `k` requests when `off` stops exist already:
the meta node of the dropoff, then the meta node of the pickup, which unlocks it. -/
def requestMetas (off : Nat) : Nat → List MetaNodeStop
  | 0 => []
  | k + 1 => ⟨off + 1, []⟩ :: ⟨off, [off]⟩ :: requestMetas (off + 2) k

/-- The stops `new_travel` copies from the order record: the first stop of each request
of the set `onboard`. -/
def onboardStops : List ReqPtr → List NodeStop → List NodeStop
  | _, [] => []
  | onboard, ns :: rest =>
    if ns.r ∈ onboard then ns :: onboardStops (setErase ptrLt ns.r onboard) rest
    else onboardStops onboard rest

/-- The meta nodes of `k` copied stops when `off` stops exist already. -/
def onboardMetas (off k : Nat) : List MetaNodeStop :=
  (List.range' off k).map (fun i => ⟨i, []⟩)

/-- The meta nodes of `n` requests and `k` copied stops, before any relinking. -/
def baseMetas (n k : Nat) : List MetaNodeStop :=
  requestMetas 0 n ++ onboardMetas (2 * n) k

/-- Two vectors of meta nodes that differ at most in what the meta nodes unlock. -/
def SameNodes (ms ms2 : List MetaNodeStop) : Prop :=
  ms.length = ms2.length ∧ ∀ m, (ms.getD m ⟨0, []⟩).node = (ms2.getD m ⟨0, []⟩).node

/-- The set `onboard` of `new_travel`, from the passengers of the vehicle. -/
def onboardSet (v : Vehicle) : List ReqPtr := setInsertAll ptrLt v.passengers []

/-- The condition under which `new_travel` chains the dropoffs of the passengers. -/
def LinkChain (S : Settings) (n P : Nat) : Prop :=
  S.CTSP = Ctsp.FIX_ONBOARD ∧ n + P > 4 ∧ P ≠ 0

instance (S : Settings) (n P : Nat) : Decidable (LinkChain S n P) := by
  unfold LinkChain
  infer_instance

/-- The parent of a meta node after `link_onboard`, for `n` requests and `N` meta nodes:
the pickup for the dropoff of a request, the previous passenger in a chain. -/
def parOf (chain : Prop) [Decidable chain] (n N m : Nat) : Option Nat :=
  if m < 2 * n then (if m % 2 = 0 then some (m + 1) else none)
  else if chain ∧ 2 * n < m ∧ m < N then some (m - 1) else none

/-- A rank that grows from parent to child for `parOf`. -/
def rkOf (n m : Nat) : Nat :=
  if m < 2 * n then (if m % 2 = 0 then 1 else 0) else m

/-- What a meta node unlocks after `link_onboard`. -/
def unlOf (chain : Prop) [Decidable chain] (n N m : Nat) : List Nat :=
  if m < 2 * n then (if m % 2 = 0 then [] else [m - 1])
  else if chain ∧ m + 1 < N then [m + 1] else []

/-! ## The timed planner (`recursive_search_timed`, `new_time_travel`, `time_travel`)

The steady clock is an input of the embedding: `clock k` is the number of milliseconds
between the start time of the vehicle's task and the `k`-th reading of the clock.  The
functions that read the clock take the number of readings made so far and return it
with their result. -/

/-- The readings of the steady clock, in milliseconds since the start time. -/
abbrev Clock := Nat → Int

/-- The type of `recursive_search_timed` once the context is fixed: location, residual
capacity, available set, time, best time, readings made so far. -/
abbrev TimedSearch :=
  Int → Int → List Nat → Int → Int → Nat → Option ((Int × List Nat) × Nat)

/-- The time of visit computed by the loop body of `recursive_search_timed` (lines
388-392): travel time and the wait for the entry time at a pickup; no dwell. -/
def arrival_timed (S : Settings) (net : Network) (heap : Heap) (initial_location time : Int)
    (ns : NodeStop) : Int :=
  let a0 := time + net.get_time S initial_location ns.node
  if ns.is_pickup ∧ (heap ns.r).entry_time > a0 then (heap ns.r).entry_time else a0

/-- The number of clock readings after the timeout check of one round of the loop: the
clock is read only when a time limit is set. -/
def next_reading (S : Settings) (k : Nat) : Nat :=
  if S.RTV_TIMELIMIT ≠ 0 then k + 1 else k

/-- The `for` loop of `recursive_search_timed`: the loop of `recursive_search` without
the dwell rule, left at the first reading of the clock beyond `RTV_TIMELIMIT`. -/
def search_loop_timed (ctx : Ctx) (clock : Clock) (rec : TimedSearch)
    (initial_location residual_capacity : Int) (initially_available : List Nat) (time : Int) :
    List Nat → Option Nat → Int → List Nat → Nat → Option ((Int × List Nat) × Nat)
  | [], _, best_time, best_tail, k => some ((best_time, best_tail), k)
  | m :: rest, previous, best_time, best_tail, k =>
    if ctx.S.RTV_TIMELIMIT ≠ 0 ∧ clock k > ctx.S.RTV_TIMELIMIT then
      some ((best_time, best_tail), k + 1)
    else
      let k := next_reading ctx.S k
      let continue_ := search_loop_timed ctx clock rec initial_location residual_capacity
        initially_available time rest
      if previous.any (fun p => !(ctx.stop m).is_pickup
          && decide ((ctx.stop p).node = (ctx.stop m).node)) then
        continue_ previous best_time best_tail k
      else
        let new_location := (ctx.stop m).node
        let arrival_time := arrival_timed ctx.S ctx.net ctx.heap initial_location time
          (ctx.stop m)
        if best_time ≠ -1 ∧ arrival_time ≥ best_time then
          continue_ (some m) best_time best_tail k
        else
          let new_residual_capacity := new_residual (ctx.stop m) residual_capacity
          if new_residual_capacity < 0 then
            continue_ (some m) best_time best_tail k
          else if (ctx.stop m).is_pickup
              ∧ arrival_time > (ctx.req m).entry_time + ctx.S.MAX_WAITING then
            continue_ (some m) best_time best_tail k
          else if get_alight_deadline ctx.S (ctx.req m) < arrival_time then
            continue_ (some m) best_time best_tail k
          else
            let remaining := remaining_nodes ctx initially_available m
            if basic_reachability ctx new_location arrival_time remaining = false then
              continue_ (some m) best_time best_tail k
            else
              match rec new_location new_residual_capacity remaining arrival_time best_time k
              with
              | none => none
              | some tail =>
                if tail.1.1 = -1 then
                  continue_ (some m) best_time best_tail tail.2
                else if best_time = -1 ∨ tail.1.1 < best_time then
                  continue_ (some m) tail.1.1 (tail.1.2 ++ [(ctx.metaAt m).node]) tail.2
                else
                  continue_ (some m) best_time best_tail tail.2

/-- The function `recursive_search_timed` (the overload on the `MnsSort` set). -/
def recursive_search_timed (ctx : Ctx) (clock : Clock) : Nat → TimedSearch
  | 0 => fun _ _ _ _ _ _ => none
  | fuel + 1 => fun initial_location residual_capacity initially_available time best_time k =>
    if initially_available.isEmpty then some ((time, []), k)
    else
      search_loop_timed ctx clock (recursive_search_timed ctx clock fuel) initial_location
        residual_capacity initially_available time initially_available none best_time [] k

/-- Lines 547-557 of `new_time_travel`: the timed search from the vehicle and the
formatting of its result. -/
def run_search_timed (S : Settings) (net : Network) (heap : Heap) (fuel : Nat) (clock : Clock)
    (v : Vehicle) (b : Build) (time : Int) (k : Nat) :
    Except Error ((Int × List NodeStop) × Nat) :=
  if S.CTSP_OBJECTIVE = CtspObjective.CTSP_VMT then
    match recursive_search_timed ⟨S, net, heap, b.nodes, b.meta_nodes⟩ clock fuel v.node
        (v.capacity - v.passengers.length)
        (setInsertAll (mnsLt ⟨S, net, heap, b.nodes, b.meta_nodes⟩) b.initially_available [])
        (time + v.offset) (-1) k with
    | none => Except.error Error.out_of_fuel
    | some optimal => Except.ok (format_path S b.nodes optimal.1 time, optimal.2)
  else Except.error Error.no_valid_ctsp_objective_timed

/-- The function `new_time_travel`: the stop universe of `new_travel`, searched by
`recursive_search_timed`. -/
def new_time_travel (S : Settings) (net : Network) (heap : Heap) (fuel : Nat) (clock : Clock)
    (v : Vehicle) (rs : List ReqPtr) (time : Int) (k : Nat) :
    Except Error ((Int × List NodeStop) × Nat) :=
  let b := build_stops heap v rs
  if b.meta_nodes.length < v.passengers.length then Except.error Error.out_of_bounds
  else
    let b := link_onboard S rs.length v.passengers.length b
    if S.CTSP = Ctsp.FIX_PREFIX ∧ b.meta_nodes.length > LP_LIMITVALUE then
      if 2 * new_requests_size v rs > LP_LIMITVALUE then Except.ok ((-1, []), k)
      else if (previous_order b.nodes b.meta_nodes v.order_record).length
          < b.meta_nodes.length - LP_LIMITVALUE then
        Except.error Error.algebra_done_incorrectly
      else run_search_timed S net heap fuel clock v (fix_prefix_build v b) time k
    else run_search_timed S net heap fuel clock v b time k

/-- The function `time_travel`: the untimed oracle when no time limit is set, the timed
STANDARD oracle otherwise. -/
def time_travel (S : Settings) (net : Network) (heap : Heap) (fuel : Nat) (clock : Clock)
    (vehicle : Vehicle) (requests : List ReqPtr) (trigger : Purpose) (time : Int) (k : Nat) :
    Except Error ((Int × List NodeStop) × Nat) :=
  if S.RTV_TIMELIMIT = 0 then
    match travel S net heap fuel vehicle requests trigger time with
    | Except.error e => Except.error e
    | Except.ok r => Except.ok (r, k)
  else if trigger ≠ Purpose.STANDARD then Except.error Error.invalid_trigger
  else new_time_travel S net heap fuel clock vehicle requests time k

/-! ## The RTV builder (`src/algorithms/ilp_full.cpp`, `src/generator.cpp`) -/

/-- Modelled from the spec: the structure `Trip`, whose header `trip.hpp` is not among
the sources.  A trip has a request set, an ordered stop sequence, an integer cost and
the two flags `is_fake` and `use_memory`; the order of the fields is that of the
aggregate `{-1, false, false, {}, request_vector}` of `make_rtvgraph`, and a trip
declared with `{}` has the cost 0, both flags unset and no stop and no request. -/
structure Trip where
  cost : Int
  is_fake : Bool
  use_memory : Bool
  order_record : List NodeStop
  requests : List ReqPtr
  deriving DecidableEq

/-- A `std::set<Request*>` built from a range: the addresses in increasing order, each
once. -/
def requestSet (rs : List ReqPtr) : List ReqPtr := setInsertAll ptrLt rs []

/-- A left fold that stops at the first error. -/
def foldE {σ α : Type} (f : σ → α → Except Error σ) : σ → List α → Except Error σ
  | s, [] => Except.ok s
  | s, a :: rest =>
    match f s a with
    | Except.error e => Except.error e
    | Except.ok s2 => foldE f s2 rest

/-- The function `generator::previoustrip`: the MEMORY oracle on the vehicle, as a trip
with the pending requests and the flag `use_memory`. -/
def previoustrip (S : Settings) (net : Network) (heap : Heap) (fuel : Nat) (v : Vehicle)
    (time : Int) : Except Error Trip :=
  match travel S net heap fuel v v.pending_requests Purpose.MEMORY time with
  | Except.error e => Except.error e
  | Except.ok previouspair =>
    Except.ok ⟨previouspair.1, false, true, previouspair.2, v.pending_requests⟩

/-- The state of the enumeration of one rank: the list `round[k]`, the flag `timeout`,
and the number of clock readings made so far. -/
structure RankState where
  trips : List Trip
  timeout : Bool
  readings : Nat

/-- The RR test of lines 181-201 on the request sets `left` and `right`: every request of
one set that is not in the other has an RR edge, in one direction or the other, with
every request of the other set. -/
def rr_connected (rr_edges : ReqPtr → List ReqPtr) (left right : List ReqPtr) : Bool :=
  left.all (fun r => decide (r ∈ right)
      || right.all (fun rr => decide (rr ∈ rr_edges r) || decide (r ∈ rr_edges rr)))
    && right.all (fun r => decide (r ∈ left)
      || left.all (fun rr => decide (rr ∈ rr_edges r) || decide (r ∈ rr_edges rr)))

/-- The subset test of lines 204-223: every set obtained by removing one request is the
request set of a trip of the previous round. -/
def subset_test (previous_round : List Trip) (requests : List ReqPtr) : Bool :=
  requests.all (fun r =>
    previous_round.any (fun t => decide (requestSet t.requests = setErase ptrLt r requests)))

/-- The body of the loop over `second` (lines 135-243) for the rank `rank`, the trips
`previous_round` of the rank below and the request set `left` of the trip at `first`. -/
def rtv_pair (S : Settings) (net : Network) (heap : Heap) (fuel : Nat) (clock : Clock)
    (rr_edges : ReqPtr → List ReqPtr) (v : Vehicle) (time : Int) (rank : Nat)
    (previous_round : List Trip) (left : List ReqPtr) (st : RankState) (second : Nat) :
    Except Error RankState :=
  if st.timeout then Except.ok st
  else if S.RTV_TIMELIMIT ≠ 0 ∧ clock st.readings > S.RTV_TIMELIMIT then
    Except.ok ⟨st.trips, true, st.readings + 1⟩
  else
    let right := requestSet (previous_round.getD second ⟨0, false, false, [], []⟩).requests
    let requests := setInsertAll ptrLt right left
    let max_new : Int :=
      8 - 2 * (requests.filter (fun r => decide (r ∉ requestSet v.pending_requests))).length
    if max_new < 0 then Except.ok ⟨st.trips, false, st.readings + 1⟩
    else if requests.length ≠ rank then Except.ok ⟨st.trips, false, st.readings + 1⟩
    else if st.trips.any (fun t => decide (requestSet t.requests = requests)) then
      Except.ok ⟨st.trips, false, st.readings + 1⟩
    else
      let trips := st.trips ++ [⟨-1, false, false, [], requests⟩]
      if rr_connected rr_edges left right = false then
        Except.ok ⟨trips, false, st.readings + 1⟩
      else if subset_test previous_round requests = false then
        Except.ok ⟨trips, false, st.readings + 1⟩
      else
        match time_travel S net heap fuel clock v requests Purpose.STANDARD time
            (st.readings + 2) with
        | Except.error e => Except.error e
        | Except.ok path =>
          if path.1.1 < 0 then Except.ok ⟨trips, false, path.2⟩
          else
            Except.ok ⟨trips.set (trips.length - 1) ⟨path.1.1, false, false, path.1.2, requests⟩,
              false, path.2⟩

/-- The two nested loops of lines 128-244 for one rank. -/
def rtv_rank (S : Settings) (net : Network) (heap : Heap) (fuel : Nat) (clock : Clock)
    (rr_edges : ReqPtr → List ReqPtr) (v : Vehicle) (time : Int) (rank : Nat)
    (previous_round : List Trip) (readings : Nat) : Except Error RankState :=
  foldE (fun st first =>
      if st.timeout then Except.ok st
      else
        foldE (rtv_pair S net heap fuel clock rr_edges v time rank previous_round
            (requestSet (previous_round.getD first ⟨0, false, false, [], []⟩).requests))
          st (List.range' (first + 1) (previous_round.length - (first + 1))))
    ⟨[], false, readings⟩ (List.range previous_round.length)

/-- The loop of lines 246-252, from the index `i`: a trip with a negative cost is
replaced by the last trip of the list, which is dropped.  The first argument bounds the
number of rounds; the length of the list is enough. -/
def compact : Nat → List Trip → Nat → List Trip
  | 0, l, _ => l
  | fuel + 1, l, i =>
    if i < l.length then
      if (l.getD i ⟨0, false, false, [], []⟩).cost < 0 then
        compact fuel ((l.set i (l.getLastD ⟨0, false, false, [], []⟩)).dropLast) i
      else compact fuel l (i + 1)
    else l

/-- The `while` loop of lines 122-253 on the vector `round`; the first argument bounds
the number of ranks. -/
def rtv_rounds (S : Settings) (net : Network) (heap : Heap) (fuel : Nat) (clock : Clock)
    (rr_edges : ReqPtr → List ReqPtr) (v : Vehicle) (time : Int) :
    Nat → List (List Trip) → Bool → Nat → Except Error (List (List Trip))
  | 0, _, _, _ => Except.error Error.out_of_fuel
  | ranks + 1, round, timeout, readings =>
    if (round.getLastD []).length ≠ 0 ∧ timeout = false then
      if (round.length : Int) > v.capacity then Except.ok round
      else
        match rtv_rank S net heap fuel clock rr_edges v time round.length (round.getLastD [])
            readings with
        | Except.error e => Except.error e
        | Except.ok st =>
          rtv_rounds S net heap fuel clock rr_edges v time ranks
            (round ++ [compact st.trips.length st.trips 0]) st.timeout st.readings
    else Except.ok round

/-- One round of the loop of lines 106-118: the rank-1 trip of `r`, when the oracle finds
one. -/
def rtv_single (S : Settings) (net : Network) (heap : Heap) (fuel : Nat) (clock : Clock)
    (v : Vehicle) (time : Int) (st : List Trip × Nat) (r : ReqPtr) :
    Except Error (List Trip × Nat) :=
  match time_travel S net heap fuel clock v [r] Purpose.STANDARD time st.2 with
  | Except.error e => Except.error e
  | Except.ok path =>
    if path.1.1 ≥ 0 then Except.ok (st.1 ++ [⟨path.1.1, false, false, path.1.2, [r]⟩], path.2)
    else Except.ok (st.1, path.2)

/-- The body of the loop of `make_rtvgraph` for one vehicle `v`, with the RR edges and
the RV edges `vr_edges` of the vehicle: the trip list stored for `v`, or the error
raised. -/
def make_rtvgraph (S : Settings) (net : Network) (heap : Heap) (fuel : Nat) (clock : Clock)
    (rr_edges : ReqPtr → List ReqPtr) (vr_edges : List ReqPtr) (v : Vehicle) (time : Int) :
    Except Error (List Trip) :=
  match time_travel S net heap fuel clock v [] Purpose.STANDARD time 0 with
  | Except.error e => Except.error e
  | Except.ok result =>
    let baseline : Trip := ⟨result.1.1, false, false, result.1.2, []⟩
    let initial_pairing := setInsertAll ptrLt v.pending_requests (requestSet vr_edges)
    match foldE (rtv_single S net heap fuel clock v time) ([], result.2) initial_pairing with
    | Except.error e => Except.error e
    | Except.ok first_round =>
      match rtv_rounds S net heap fuel clock rr_edges v time (v.capacity.toNat + 1)
          [[baseline], first_round.1] false first_round.2 with
      | Except.error e => Except.error e
      | Except.ok round =>
        let potential_trip_list := round.flatten
        if potential_trip_list.any (fun t => decide (t.cost = -1)) then
          Except.error Error.negative_cost_not_cleaned_up
        else if v.order_record.length ≠ 0 then
          match previoustrip S net heap fuel v time with
          | Except.error e => Except.error e
          | Except.ok trip =>
            if trip.cost = -1 then Except.error Error.previous_assignment_no_longer_feasible
            else Except.ok (potential_trip_list ++ [trip])
        else Except.ok potential_trip_list

/-! ## The assignment step up to the solver (`ilp_full::assignment`)

Vehicles are named by their position in the vector `vehicles`; the maps keyed by
`Vehicle*` are lists in the order of that vector.  The tasks of the thread pool are run
one after the other. -/

/-- Insertion into a `std::multimap<int, Vehicle*>`: after the entries whose key is not
greater. -/
def multimapInsert (key : Int) (val : Nat) : List (Int × Nat) → List (Int × Nat)
  | [] => [(key, val)]
  | e :: rest =>
    if key < e.1 then (key, val) :: e :: rest else e :: multimapInsert key val rest

/-- The body of the loop of `make_rvgraph` for the request `r`: the vehicles that can
reach the origin in time, nearest first, kept when the STANDARD oracle finds a plan
(`PRUNING_RV_K` is 0). -/
def make_rvgraph (S : Settings) (net : Network) (heap : Heap) (fuel : Nat)
    (vehicles : List Vehicle) (time : Int) (r : ReqPtr) : Except Error (List Nat) :=
  let nearest_vs := (List.range vehicles.length).foldl (fun acc i =>
      let min_wait := net.get_vehicle_time S (vehicles.getD i ⟨0, 0, [], [], [], 0, 0, 0⟩)
        (heap r).origin
      if time + min_wait > (heap r).latest_boarding then acc
      else multimapInsert min_wait i acc) []
  foldE (fun compatible_vehicles x =>
      match travel S net heap fuel (vehicles.getD x.2 ⟨0, 0, [], [], [], 0, 0, 0⟩) [r]
          Purpose.STANDARD time with
      | Except.error e => Except.error e
      | Except.ok raw_path =>
        if raw_path.1 ≥ 0 then Except.ok (compatible_vehicles ++ [x.2])
        else Except.ok compatible_vehicles)
    [] nearest_vs

/-- The body of the loop of `make_rrgraph` for the request `r1`: the requests with
another id that pass the wait test and that the STANDARD oracle can serve with `r1` on
an empty vehicle of capacity 4 at the origin of `r1` (`PRUNING_RR_K` is 0, so the sort
by detour factor does not change the set). -/
def make_rrgraph (S : Settings) (net : Network) (heap : Heap) (fuel : Nat)
    (requests : List ReqPtr) (time : Int) (r1 : ReqPtr) : Except Error (List ReqPtr) :=
  match foldE (fun compatible_requests r2 =>
      if (heap r1).id = (heap r2).id then Except.ok compatible_requests
      else if net.get_time S (heap r1).origin (heap r2).origin + max time (heap r1).entry_time
          > (heap r2).latest_boarding then Except.ok compatible_requests
      else
        match travel S net heap fuel ⟨0, 4, [], [], [], (heap r1).origin, (heap r1).origin, 0⟩
            [r1, r2] Purpose.STANDARD time with
        | Except.error e => Except.error e
        | Except.ok raw_path =>
          if raw_path.1 ≥ 0 then Except.ok (compatible_requests ++ [r2])
          else Except.ok compatible_requests)
    [] requests with
  | Except.error e => Except.error e
  | Except.ok compatible_requests => Except.ok (requestSet compatible_requests)

/-- A map over a list that stops at the first error. -/
def mapE {α β : Type} (f : α → Except Error β) : List α → Except Error (List β)
  | [] => Except.ok []
  | a :: rest =>
    match f a with
    | Except.error e => Except.error e
    | Except.ok b =>
      match mapE f rest with
      | Except.error e => Except.error e
      | Except.ok bs => Except.ok (b :: bs)

/-- A map keyed by `Request*` given by the list of its entries in key order. -/
def lookupEdges {β : Type} (keys : List ReqPtr) (vals : List (List β)) (r : ReqPtr) : List β :=
  match (keys.zip vals).find? (fun e => decide (e.1 = r)) with
  | some e => e.2
  | none => []

/-- The three graph stages of `assignment` (lines 446-488): RV edges, inverted RV edges,
RR edges, and the trip list of each vehicle.  `clocks i` is the clock of the task of the
vehicle at position `i`. -/
def rtv_stage (S : Settings) (net : Network) (heap : Heap) (fuel : Nat) (clocks : Nat → Clock)
    (vehicles : List Vehicle) (requests : List ReqPtr) (time : Int) :
    Except Error (List (List Trip)) :=
  match mapE (make_rvgraph S net heap fuel vehicles time) (requestSet requests) with
  | Except.error e => Except.error e
  | Except.ok rv =>
    let vr_edges (i : Nat) : List ReqPtr :=
      ((requestSet requests).zip rv).filterMap (fun e => if i ∈ e.2 then some e.1 else none)
    match mapE (make_rrgraph S net heap fuel requests time) (requestSet requests) with
    | Except.error e => Except.error e
    | Except.ok rr =>
      mapE (fun i => make_rtvgraph S net heap fuel (clocks i)
          (lookupEdges (requestSet requests) rr) (vr_edges i)
          (vehicles.getD i ⟨0, 0, [], [], [], 0, 0, 0⟩) time)
        (List.range vehicles.length)

/-- The first check of `assignment` (lines 495-514): a request marked assigned that is
in no trip raises an error. -/
def check_included (heap : Heap) (vehicles : List Vehicle) (requests : List ReqPtr)
    (trip_list : List (List Trip)) : Except Error Unit :=
  match requests.find? (fun r => (heap r).assigned
      && !(trip_list.any (fun trips => trips.any (fun t => decide (r ∈ t.requests))))) with
  | none => Except.ok ()
  | some r =>
    if vehicles.any (fun v => decide (r ∈ v.pending_requests)) then
      Except.error Error.i_was_a_pending_request
    else Except.error Error.i_was_not_included

/-- The second check of `assignment` (lines 515-536): a vehicle none of whose trips has
exactly its pending requests raises an error. -/
def check_replicated (vehicles : List Vehicle) (trip_list : List (List Trip)) :
    Except Error Unit :=
  if (List.range vehicles.length).all (fun i =>
      (trip_list.getD i []).any (fun t => decide (requestSet t.requests
        = requestSet (vehicles.getD i ⟨0, 0, [], [], [], 0, 0, 0⟩).pending_requests))) then
    Except.ok ()
  else Except.error Error.did_not_replicate_the_trip

/-- The function `assignment` up to the call of the solver: the trip list handed to
`ilp_assignment`, or the error raised before. -/
def assignment_trip_list (S : Settings) (net : Network) (heap : Heap) (fuel : Nat)
    (clocks : Nat → Clock) (vehicles : List Vehicle) (requests : List ReqPtr) (time : Int) :
    Except Error (List (List Trip)) :=
  match rtv_stage S net heap fuel clocks vehicles requests time with
  | Except.error e => Except.error e
  | Except.ok trip_list =>
    match check_included heap vehicles requests trip_list with
    | Except.error e => Except.error e
    | Except.ok _ =>
      match check_replicated vehicles trip_list with
      | Except.error e => Except.error e
      | Except.ok _ => Except.ok trip_list

/-- Every pending request of every vehicle is in a trip of the list of that vehicle. -/
def PendingCovered (vehicles : List Vehicle) (trip_list : List (List Trip)) : Prop :=
  ∀ i v, vehicles[i]? = some v → ∀ r ∈ v.pending_requests,
    ∃ t ∈ trip_list.getD i [], r ∈ t.requests

/-- A clock that never advances. -/
def exClock : Clock := fun _ => 0

/-- The RR edges of the worked example: A and B are compatible in both directions. -/
def exRR : ReqPtr → List ReqPtr := fun r => if r = 1 then [2] else if r = 2 then [1] else []

/-- A vehicle at node 0 that carries A and has the dropoff of A as its order record. -/
def exVehicleOnboard : Vehicle := ⟨0, 2, [1], [], [⟨1, false, 1⟩], 0, 0, 0⟩

/-- The four trips of the worked example. -/
def exTrips : List Trip :=
  [⟨0, false, false, [], []⟩,
    ⟨60, false, false, [⟨1, true, 0⟩, ⟨1, false, 1⟩], [1]⟩,
    ⟨120, false, false, [⟨2, true, 0⟩, ⟨2, false, 2⟩], [2]⟩,
    ⟨140, false, false, exPlan, [1, 2]⟩]

/-- The available set after the visits of the first `c` meta nodes of `order`, from the
available set `A0`, whether or not the visits are allowed. -/
def capAt (unl : Nat → List Nat) (order : List Nat) (A0 : Nat → Prop) : Nat → Nat → Prop
  | 0 => A0
  | c + 1 => nextAvail unl (capAt unl order A0 c) (order.getD c 0)

/-- Every sequence of visits from the available set `A` has at most `d` visits. -/
def Depth (unl : Nat → List Nat) : Nat → (Nat → Prop) → Prop
  | 0, A => ∀ x, ¬ A x
  | d + 1, A => ∀ m, A m → Depth unl d (nextAvail unl A m)

/-- The first `j` meta nodes of `order`, as a set. -/
def chainSet (order : List Nat) (j : Nat) : Nat → Prop :=
  fun x => ∃ i, i < j ∧ x = order.getD i 0

/-- The unlock lists `unl2` freeze the first `L` meta nodes of `order` in a forest with
the unlock lists `unl`: each of them is available in the forest after its predecessors,
each but the last unlocks only its successor, the last one unlocks what the forest makes
available after all of them, and the other meta nodes unlock what they did. -/
structure FrozenPrefix (n : Nat) (unl unl2 : Nat → List Nat) (par : Nat → Option Nat)
    (order : List Nat) (L : Nat) : Prop where
  avail : ∀ j, j < L → availAfter n par (chainSet order j) (order.getD j 0)
  same : ∀ m, ¬ chainSet order L m → unl2 m = unl m
  next : ∀ i, i + 1 < L → unl2 (order.getD i 0) = [order.getD (i + 1) 0]
  last : ∀ i, i + 1 = L → ∀ x, x ∈ unl2 (order.getD i 0)
    ↔ capAt unl order (availAfter n par (fun _ => False)) L x

/-- The stop of the meta node `m` of `new_travel`, in closed form: the dropoff and the
pickup of `rs[i]` for the meta nodes `2 * i` and `2 * i + 1`, then the stops copied from
the order record. -/
def universeStop (heap : Heap) (v : Vehicle) (rs : List ReqPtr) (m : Nat) : NodeStop :=
  if m < 2 * rs.length then
    if m % 2 = 0 then ⟨rs.getD (m / 2) 0, false, (heap (rs.getD (m / 2) 0)).destination⟩
    else ⟨rs.getD (m / 2) 0, true, (heap (rs.getD (m / 2) 0)).origin⟩
  else (onboardStops (onboardSet v) v.order_record).getD (m - 2 * rs.length) ⟨0, false, 0⟩

/-- Two stops with the same request and the same kind: the equivalence of the order of
`NodeStop`. -/
def sameKey (a b : NodeStop) : Prop := a.r = b.r ∧ a.is_pickup = b.is_pickup

/-- The passengers of the vehicle are pairwise distinct and each has a stop in the
order record. -/
def PassengersListed (v : Vehicle) : Prop :=
  v.passengers.Nodup ∧ ∀ p ∈ v.passengers, ∃ ns ∈ v.order_record, ns.r = p

/-- The order record is a plan: no two of its stops have the same request and the same
kind, and the dropoff of a request that is not on board comes after its pickup. -/
def OrderIsPlan (v : Vehicle) : Prop :=
  (v.order_record.map (fun ns => (ns.r, ns.is_pickup))).Nodup
  ∧ ∀ j, j < v.order_record.length →
      (v.order_record.getD j ⟨0, false, 0⟩).is_pickup = false →
      (v.order_record.getD j ⟨0, false, 0⟩).r ∉ v.passengers →
      ∃ i, i < j ∧ (v.order_record.getD i ⟨0, false, 0⟩).r
            = (v.order_record.getD j ⟨0, false, 0⟩).r
        ∧ (v.order_record.getD i ⟨0, false, 0⟩).is_pickup = true

/-- In the stop sequence `path`, the dropoff of a request that is not on board comes
after a pickup of that request. -/
def PickupsFirst (v : Vehicle) (path : List NodeStop) : Prop :=
  ∀ pre ns post, path = pre ++ ns :: post → ns.is_pickup = false → ns.r ∉ v.passengers →
    ∃ p ∈ pre, p.r = ns.r ∧ p.is_pickup = true

/-- The precedence mode freezes a prefix of the previous order: `CTSP` is `FIX_PREFIX`
and the universe has more than `LP_LIMITVALUE` stops. -/
def PrefixFrozen (S : Settings) (v : Vehicle) (rs : List ReqPtr) : Prop :=
  S.CTSP = Ctsp.FIX_PREFIX ∧ LP_LIMITVALUE < 2 * rs.length + v.passengers.length

/-- The stop sequence `path` holds one pickup and one dropoff for each request of `rs`,
one dropoff and no pickup for each passenger of the vehicle, and nothing else. -/
def StopUniverse (v : Vehicle) (rs : List ReqPtr) (path : List NodeStop) : Prop :=
  path.length = 2 * rs.length + v.passengers.length
  ∧ (∀ q ∈ rs, path.countP (fun ns => decide (ns.r = q) && ns.is_pickup) = 1
      ∧ path.countP (fun ns => decide (ns.r = q) && !ns.is_pickup) = 1)
  ∧ (∀ p ∈ v.passengers, path.countP (fun ns => decide (ns.r = p) && !ns.is_pickup) = 1
      ∧ path.countP (fun ns => decide (ns.r = p) && ns.is_pickup) = 0)
  ∧ (∀ ns ∈ path, ns.r ∈ rs ∨ ns.r ∈ v.passengers)

/-- The order record holds the pickup and the dropoff of every request of `rs` that is
pending on the vehicle. -/
def PendingListed (v : Vehicle) (rs : List ReqPtr) : Prop :=
  ∀ q ∈ rs, q ∈ v.pending_requests → ∀ flag : Bool,
    ∃ ns ∈ v.order_record, ns.r = q ∧ ns.is_pickup = flag

/-- A vehicle of capacity 5 at node 0 to which the requests 1 to 5 are assigned: its order
record holds their pickups, then their dropoffs. -/
def exVehicleFive : Vehicle :=
  ⟨0, 5, [], [1, 2, 3, 4, 5],
    [⟨1, true, 0⟩, ⟨2, true, 0⟩, ⟨3, true, 0⟩, ⟨4, true, 0⟩, ⟨5, true, 0⟩,
      ⟨1, false, 1⟩, ⟨2, false, 2⟩, ⟨3, false, 0⟩, ⟨4, false, 0⟩, ⟨5, false, 0⟩], 0, 0, 0⟩

/-- The travel times and the dwell times under which the prunings of the search are
safe, for a set `V` of node ids: no negative travel time, a pickup dwell that is not
negative and not longer than the alight dwell, and, between the nodes of `V`, zero
self-times and the triangle inequality. -/
structure Metric (S : Settings) (net : Network) (V : Int → Prop) : Prop where
  nonneg : ∀ a b, 0 ≤ net.get_time S a b
  dwell_pickup : 0 ≤ S.DWELL_PICKUP
  dwell_order : S.DWELL_PICKUP ≤ S.DWELL_ALIGHT
  self_zero : ∀ a, V a → net.get_time S a a = 0
  triangle : ∀ a b c, V a → V b → V c →
    net.get_time S a c ≤ net.get_time S a b + net.get_time S b c

/-- The setting in which the search is exact: the meta nodes form a precedence forest,
the times are those of `Metric` on a set `V` of node ids that holds the node of every
stop, the latest boarding and alighting times of the requests are the entry time plus
`MAX_WAITING` and the entry time plus the ideal travel time plus `MAX_DETOUR`, and every
pickup unlocks a dropoff of its request. -/
structure SearchEnv (ctx : Ctx) (V : Int → Prop) (n : Nat) (par : Nat → Option Nat)
    (rk : Nat → Nat) : Prop where
  forest : Forest n ctx.unl par rk
  metric : Metric ctx.S ctx.net V
  node_valid : ∀ m, m < n → V (ctx.stop m).node
  windows : ∀ m, (ctx.req m).latest_boarding = (ctx.req m).entry_time + ctx.S.MAX_WAITING
    ∧ (ctx.req m).latest_alighting
      = (ctx.req m).entry_time + (ctx.req m).ideal_traveltime + ctx.S.MAX_DETOUR
  pair : ∀ m, m < n → (ctx.stop m).is_pickup = true →
    ∃ x, x ∈ ctx.unl m ∧ (ctx.stop x).r = (ctx.stop m).r ∧ (ctx.stop x).is_pickup = false

/-- A feasible completion of a state of the search: a sequence of visits of the forest
from the state after `W` whose replay from the state keeps the windows and the
capacity. -/
def PlanFrom (ctx : Ctx) (n : Nat) (par : Nat → Option Nat) (capacity : Int)
    (W : Nat → Prop) (loc cap time : Int) (prev : Action) (ms : List Nat) : Prop :=
  Visits ctx.unl (availAfter n par W) ms
  ∧ ReplayOk ctx.S ctx.net ctx.heap capacity loc time prev (capacity - cap) (ms.map ctx.stop)

/-- The time at which the replay of the visits `ms` from a state ends. -/
def planEnd (ctx : Ctx) (loc time : Int) (prev : Action) (ms : List Nat) : Int :=
  finalTime ctx.S ctx.net ctx.heap loc time prev (ms.map ctx.stop)

/-- A feasible ordering of the stop universe of `new_travel`, as a list of meta nodes:
every meta node once, the pickup of each request before its dropoff, and a replay from
the vehicle that keeps the windows and the capacity. -/
def FeasibleOrdering (S : Settings) (net : Network) (heap : Heap) (v : Vehicle)
    (rs : List ReqPtr) (time : Int) (ms : List Nat) : Prop :=
  ms.Perm (List.range (2 * rs.length + v.passengers.length))
  ∧ (∀ i, i < rs.length → ms.indexOf (2 * i + 1) < ms.indexOf (2 * i))
  ∧ ReplayOk S net heap v.capacity v.node (time + v.offset) Action.NO_ACTION
      v.passengers.length (ms.map (universeStop heap v rs))

/-- The set `V` of node ids holds the origin and the destination of every request of
`rs` and the node of every stop of the order record. -/
def ValidNodes (V : Int → Prop) (heap : Heap) (v : Vehicle) (rs : List ReqPtr) : Prop :=
  (∀ q ∈ rs, V (heap q).origin ∧ V (heap q).destination)
  ∧ ∀ ns ∈ v.order_record, V ns.node

/-- The windows of the data model: the latest boarding time of a request is its entry
time plus `MAX_WAITING`, the latest alighting time its entry time plus its ideal travel
time plus `MAX_DETOUR`. -/
def ModelWindows (S : Settings) (heap : Heap) : Prop :=
  ∀ p, (heap p).latest_boarding = (heap p).entry_time + S.MAX_WAITING
    ∧ (heap p).latest_alighting
      = (heap p).entry_time + (heap p).ideal_traveltime + S.MAX_DETOUR

/-- The network hypothesis of the specification, for a set `V` of node ids: no negative
travel time, and zero self-times and the triangle inequality between the nodes of `V`. -/
def MetricNetwork (net : Network) (V : Int → Prop) : Prop :=
  (∀ a b, 0 ≤ net.time_matrix a b) ∧ (∀ a, V a → net.time_matrix a a = 0)
  ∧ ∀ a b c, V a → V b → V c →
      net.time_matrix a c ≤ net.time_matrix a b + net.time_matrix b c

/-- The three nodes of the worked example. -/
def exNodes : Int → Prop := fun a => a = 0 ∨ a = 1 ∨ a = 2

/-- Settings with a pickup dwell of 5 and no alight dwell: `MAX_DETOUR = 20`,
`MAX_WAITING = 5`, every ordering allowed. -/
def dwellSettings : Settings := ⟨Ctsp.FULL, CtspObjective.CTSP_VMT, 0, 5, 20, 5, 0⟩

/-- Four nodes: the nodes 0, 1 and 2 are 1 apart, the node 3 is 10 away from each. -/
def dwellNet : Network :=
  matrixOf [[0, 1, 1, 10], [1, 0, 1, 10], [1, 1, 0, 10], [10, 10, 10, 0]]

/-- The four nodes of `dwellNet`. -/
def dwellNodes : Int → Prop := fun a => a = 0 ∨ a = 1 ∨ a = 2 ∨ a = 3

/-- A request with the windows of the data model under `dwellSettings`. -/
def dwellRequest (id origin destination entry_time ideal_traveltime : Int) : Request :=
  ⟨id, origin, destination, ideal_traveltime, entry_time, 0, 0, entry_time + 5,
    entry_time + ideal_traveltime + 20, false, false⟩

/-- Four requests, each with the travel time of `dwellNet` as ideal travel time: 1 from
node 1 to node 3 (entry 26), 2 from node 2 to node 3 (entry 38), 3 from node 3 to node 0
(entry 10), 4 from node 3 to node 0 (entry 0). -/
def dwellHeap : Heap := fun p =>
  if p = 1 then dwellRequest 1 1 3 26 10
  else if p = 2 then dwellRequest 2 2 3 38 10
  else if p = 3 then dwellRequest 3 3 0 10 10
  else dwellRequest 4 3 0 0 10

/-- A vehicle of capacity 4 at node 0, the destination of its passengers 3 and 4. -/
def dwellVehicle : Vehicle := ⟨0, 4, [3, 4], [], [⟨3, false, 0⟩, ⟨4, false, 0⟩], 0, 0, 0⟩

/-- A feasible plan of `dwellVehicle` for the requests 1 and 2 at the epoch time 30:
passenger 4 is dropped first, passenger 3 after the pickup of request 1. -/
def dwellPlan : List NodeStop :=
  [⟨4, false, 0⟩, ⟨1, true, 1⟩, ⟨3, false, 0⟩, ⟨2, true, 2⟩, ⟨1, false, 3⟩, ⟨2, false, 3⟩]

/-- An empty vehicle at node 0 whose offset is -1. -/
def exVehicleMinusOne : Vehicle := ⟨0, 2, [], [], [], 0, 0, -1⟩

/-- The part of `make_rtvgraph` that fills the vector `round` for one vehicle (lines
82-253): the baseline trip as rank 0, the trips of one request as rank 1, then the loop
over the ranks. -/
def rtv_enumeration (S : Settings) (net : Network) (heap : Heap) (fuel : Nat) (clock : Clock)
    (rr_edges : ReqPtr → List ReqPtr) (vr_edges : List ReqPtr) (v : Vehicle) (time : Int) :
    Except Error (List (List Trip)) :=
  match time_travel S net heap fuel clock v [] Purpose.STANDARD time 0 with
  | Except.error e => Except.error e
  | Except.ok result =>
    match foldE (rtv_single S net heap fuel clock v time) ([], result.2)
        (setInsertAll ptrLt v.pending_requests (requestSet vr_edges)) with
    | Except.error e => Except.error e
    | Except.ok first_round =>
      rtv_rounds S net heap fuel clock rr_edges v time (v.capacity.toNat + 1)
        [[⟨result.1.1, false, false, result.1.2, []⟩], first_round.1] false first_round.2

/-- The trips of rank `k` are accompanied, in the list `previous_round` of the rank
below, by a trip for each set obtained by removing one request: the trip `t` has `k`
pairwise distinct requests, and for each of them a trip of `previous_round` has the
other requests of `t` as its request set. -/
def AprioriClosed (previous_round : List Trip) (k : Nat) (t : Trip) : Prop :=
  t.requests.Nodup ∧ t.requests.length = k
    ∧ ∀ r ∈ t.requests, ∃ t2 ∈ previous_round, ∀ x, x ∈ t2.requests ↔ (x ∈ t.requests ∧ x ≠ r)

/-- A trip of the list of the rank `rank` during its enumeration from `previous_round`:
it was appended for two trips of `previous_round`, at the positions `first < second`;
its requests are the union of their request sets, `rank` in number, at most four of them
not pending; and it is the placeholder, or it passed the RR test and the subset test and
has the cost, not negative, and the stops that the oracle returned for its requests. -/
def RankTrip (S : Settings) (net : Network) (heap : Heap) (fuel : Nat) (clock : Clock)
    (rr_edges : ReqPtr → List ReqPtr) (v : Vehicle) (time : Int) (rank : Nat)
    (previous_round : List Trip) (t : Trip) : Prop :=
  ∃ first second, first < second ∧ second < previous_round.length
    ∧ t.is_fake = false ∧ t.use_memory = false
    ∧ t.requests = setInsertAll ptrLt
        (requestSet (previous_round.getD second ⟨0, false, false, [], []⟩).requests)
        (requestSet (previous_round.getD first ⟨0, false, false, [], []⟩).requests)
    ∧ t.requests.length = rank
    ∧ (t.requests.filter (fun r => decide (r ∉ requestSet v.pending_requests))).length ≤ 4
    ∧ ((t.cost = -1 ∧ t.order_record = [])
      ∨ (0 ≤ t.cost
        ∧ rr_connected rr_edges
            (requestSet (previous_round.getD first ⟨0, false, false, [], []⟩).requests)
            (requestSet (previous_round.getD second ⟨0, false, false, [], []⟩).requests) = true
        ∧ subset_test previous_round t.requests = true
        ∧ ∃ k k2, time_travel S net heap fuel clock v t.requests Purpose.STANDARD time k
            = Except.ok ((t.cost, t.order_record), k2)))

/-- Equality of two outcomes can be decided when equality of the results can. -/
instance exceptDecEq {α : Type} [DecidableEq α] : DecidableEq (Except Error α) := by
  intro a b
  cases a with
  | error e1 =>
    cases b with
    | error e2 =>
      exact if h : e1 = e2 then isTrue (by rw [h])
        else isFalse (by intro hc; cases hc; exact h rfl)
    | ok _ => exact isFalse (by intro hc; cases hc)
  | ok x1 =>
    cases b with
    | error _ => exact isFalse (by intro hc; cases hc)
    | ok x2 =>
      exact if h : x1 = x2 then isTrue (by rw [h])
        else isFalse (by intro hc; cases hc; exact h rfl)

/-- A fleet of two vehicles: one at node 2, then the vehicle of the worked example. -/
def exFleet : List Vehicle := [⟨1, 2, [], [], [], 2, 2, 0⟩, exVehicle]

/-- An arena in which the request at address 1, from node 0 to node 1, enters at the
time 250 and the request at address 2, from node 1 to node 2, at the time 0. -/
def lateHeap : Heap := fun p =>
  if p = 1 then mkRequest 1 0 1 250 60
  else if p = 2 then mkRequest 2 1 2 0 80
  else mkRequest 0 0 0 0 0

/-! ## The assignment solver (`src/algorithms/ilp_common.cpp`)

The solver library is not part of the sources.  `ilp_assignment` takes it as a function
from the model it is handed to the level of the variables `e`, or to nothing when the
library raises, and returns, with the decoded map, the models on which `solve` was
called.  The trip list, a map keyed by `Vehicle*`, is the list of its entries in key
order, each with the vehicle that the key points to; a vehicle is named by the position
of its entry.  A `double` is a rational number. -/

inductive Algorithm where
  | ILP_FULL
  deriving DecidableEq

inductive AssignmentObjective where
  | AO_SERVICERATE
  | AO_RMT
  deriving DecidableEq

/-- The macro `MISS_COST`. -/
def MISS_COST : Int := 10000000

/-- The macro `RMT_REWARD`. -/
def RMT_REWARD : Int := 100

/-- The two domains used: `Domain::equalsTo` and `Domain::lessThan`. -/
inductive Domain where
  | equalsTo (bound : Int)
  | lessThan (bound : Int)
  deriving DecidableEq

/-- The name of a constraint: `c1-` followed by the id of a vehicle or `c2-` followed by
the id of a request. -/
inductive ConstraintName where
  | c1 (vid : Int)
  | c2 (id : Int)
  deriving DecidableEq

/-- A call of `M->constraint`: the name, the indices of the variables `e` that are
summed (a slice or a pick), the index of the variable `x` that is added, when there is
one, and the domain. -/
structure Constraint where
  name : ConstraintName
  e_indices : List Nat
  x_index : Option Nat
  domain : Domain
  deriving DecidableEq

/-- The model handed to the solver: the numbers of variables `e` and `x`, their
coefficients in the objective, which is minimised, and the constraints in the order of
their creation. -/
structure IlpModel where
  index : Nat
  K : Nat
  objective_e : List Int
  objective_x : List Int
  constraints : List Constraint
  deriving DecidableEq

/-- The statement `rids_to_trips[id].insert(index)` on the `std::map<int, std::set<int>>`,
kept as the list of its entries (the order of the keys is never observed). -/
def ridsInsert (id : Int) (index : Nat) : List (Int × List Nat) → List (Int × List Nat)
  | [] => [(id, [index])]
  | entry :: rest =>
    if entry.1 = id then (entry.1, setInsert ptrLt index entry.2) :: rest
    else entry :: ridsInsert id index rest

/-- The value `rids_to_trips[id]`: the empty set when the key is absent. -/
def ridsLookup (id : Int) (rids_to_trips : List (Int × List Nat)) : List Nat :=
  match rids_to_trips.find? (fun entry => decide (entry.1 = id)) with
  | some entry => entry.2
  | none => []

/-- The variables `index`, `costs` and `rids_to_trips` of the first loop of
`ilp_assignment`. -/
structure Counting where
  index : Nat
  costs : List Int
  rids_to_trips : List (Int × List Nat)

/-- The body of the loop over the trips of a vehicle (lines 54-64). -/
def count_trip (heap : Heap) (st : Counting) (trip : Trip) : Counting :=
  ⟨st.index + 1, st.costs ++ [trip.cost],
    trip.requests.foldl (fun m request => ridsInsert (heap request).id st.index m)
      st.rids_to_trips⟩

/-- The first loop of `ilp_assignment` (lines 50-65). -/
def count_trips (heap : Heap) (trip_list : List (Vehicle × List Trip)) : Counting :=
  trip_list.foldl (fun st id_trip_pair => id_trip_pair.2.foldl (count_trip heap) st)
    ⟨0, [], []⟩

/-- The loop of the first constraint (lines 94-108) from the value `count`: for each
vehicle the sum of the slice of `e` of its trips. -/
def constraint_one (ALGORITHM : Algorithm) :
    List (Vehicle × List Trip) → Nat → List Constraint
  | [], _ => []
  | id_trip_pair :: rest, count =>
    ⟨ConstraintName.c1 id_trip_pair.1.id, List.range' count id_trip_pair.2.length, none,
      if ALGORITHM ≠ Algorithm.ILP_FULL then Domain.lessThan 1 else Domain.equalsTo 1⟩
      :: constraint_one ALGORITHM rest (count + id_trip_pair.2.length)

/-- The loop of the second constraint (lines 111-125): for each request of the list the
sum of the variables `e` of `rids_to_trips[id]`, plus `x[k]` unless the request is marked
assigned. -/
def constraint_two (heap : Heap) (rids_to_trips : List (Int × List Nat))
    (requests : List ReqPtr) : List Constraint :=
  (List.range requests.length).map (fun k =>
    ⟨ConstraintName.c2 (heap (requests.getD k 0)).id,
      ridsLookup (heap (requests.getD k 0)).id rids_to_trips,
      if (heap (requests.getD k 0)).assigned then none else some k,
      Domain.equalsTo 1⟩)

/-- Lines 71-125 of `ilp_assignment`: the model built from the result of the first
loop. -/
def build_model (ALGORITHM : Algorithm) (ASSIGNMENT_OBJECTIVE : AssignmentObjective)
    (heap : Heap) (trip_list : List (Vehicle × List Trip)) (requests : List ReqPtr) :
    IlpModel :=
  let st := count_trips heap trip_list
  ⟨st.index, requests.length, st.costs,
    if ASSIGNMENT_OBJECTIVE = AssignmentObjective.AO_SERVICERATE then
      List.replicate requests.length MISS_COST
    else if ASSIGNMENT_OBJECTIVE = AssignmentObjective.AO_RMT then
      requests.map (fun r => RMT_REWARD * (heap r).ideal_traveltime)
    else [],
    constraint_one ALGORITHM trip_list 0
      ++ constraint_two heap st.rids_to_trips requests⟩

/-- The `double` 0.5. -/
def half : Rat := ⟨1, 2, by decide, by decide⟩

/-- The vector `assignments` of lines 158-167: 1 where the level exceeds 0.5, else 0. -/
def assignments_of (index : Nat) (E : Nat → Rat) : List Int :=
  (List.range index).map (fun i => if E i > half then 1 else 0)

/-- The inner loop of lines 190-195 from the index `i = r + count`: the first trip whose
entry of `assignments` exceeds 0.5. -/
def first_assigned (assignments : List Int) : List Trip → Nat → Option Trip
  | [], _ => none
  | trip :: rest, i =>
    if ((assignments.getD i 0 : Int) : Rat) > half then some trip
    else first_assigned assignments rest (i + 1)

/-- The loop of lines 186-198 from the entry at the position `position` and the value
`count`: the entries of the map `assigned_trips`. -/
def decode (assignments : List Int) :
    List (Vehicle × List Trip) → Nat → Nat → List (Nat × Trip)
  | [], _, _ => []
  | x :: rest, position, count =>
    match first_assigned assignments x.2 count with
    | some trip =>
      (position, trip) :: decode assignments rest (position + 1) (count + x.2.length)
    | none => decode assignments rest (position + 1) (count + x.2.length)

/-- What a call of `ilp_assignment` leaves: the models on which the solver was called
and the map `assigned_trips`. -/
structure IlpRun where
  solved : List IlpModel
  assigned_trips : List (Nat × Trip)
  deriving DecidableEq

/-- The function `ilp_assignment`: the first loop, the early return for an empty trip
list, the model, the call of the solver and the decoding of the level it returns.  The
solver parameters, the console output and the statistics written to `ilp.csv` are not
modelled; `time` is used for the statistics only. -/
def ilp_assignment (ALGORITHM : Algorithm) (ASSIGNMENT_OBJECTIVE : AssignmentObjective)
    (heap : Heap) (solver : IlpModel → Option (Nat → Rat))
    (trip_list : List (Vehicle × List Trip)) (requests : List ReqPtr) (_time : Int) :
    Except Error IlpRun :=
  if (count_trips heap trip_list).index = 0 then Except.ok ⟨[], []⟩
  else
    let M := build_model ALGORITHM ASSIGNMENT_OBJECTIVE heap trip_list requests
    match solver M with
    | none => Except.error Error.solver_raised
    | some E => Except.ok ⟨[M], decode (assignments_of M.index E) trip_list 0 0⟩

/-- A trip serves the request of the id `id`: one of its requests has this id (two
`Request` objects are equal when their ids are). -/
def Trip.serves (heap : Heap) (t : Trip) (id : Int) : Bool :=
  t.requests.any (fun r => decide ((heap r).id = id))

/-- The concatenated trip list: the trips of all vehicles in the order of the entries,
which is the order of the variables `e`. -/
def all_trips (trip_list : List (Vehicle × List Trip)) : List Trip :=
  (trip_list.map (fun x => x.2)).flatten

/-- The number of trips of the vehicles that precede the entry at the position `pos`. -/
def trip_offset (trip_list : List (Vehicle × List Trip)) (pos : Nat) : Nat :=
  ((trip_list.take pos).map (fun x => x.2.length)).sum

/-- The levels `e`, `x` satisfy a constraint. -/
def Constraint.holds (c : Constraint) (e x : Nat → Rat) : Prop :=
  match c.domain with
  | Domain.equalsTo bound =>
    (c.e_indices.map e).sum + (match c.x_index with | some k => x k | none => 0) = bound
  | Domain.lessThan bound =>
    (c.e_indices.map e).sum + (match c.x_index with | some k => x k | none => 0) ≤ bound

/-- The indices, from `i`, of the trips of a list that serve the request of the id
`id`, in increasing order. -/
def serving_indices (heap : Heap) (id : Int) : List Trip → Nat → List Nat
  | [], _ => []
  | t :: rest, i =>
    if t.serves heap id then i :: serving_indices heap id rest (i + 1)
    else serving_indices heap id rest (i + 1)

/-- Whether levels satisfy a constraint can be decided. -/
instance holdsDecidable (c : Constraint) (e x : Nat → Rat) : Decidable (c.holds e x) := by
  unfold Constraint.holds
  cases c.domain with
  | equalsTo bound => exact inferInstance
  | lessThan bound => exact inferInstance

/-! ## Time stamps, the request buffer and the epoch loop
(`src/formatting.cpp`, `src/buffer.cpp`, `src/main.cpp`)

The division and the remainder of `int` truncate toward zero. -/

/-- The function `decode_time`: from `HHMMSS` to seconds. -/
def decode_time (time : Int) : Int :=
  let hour := (time.tdiv 10000).tmod 100
  let minute := (time.tdiv 100).tmod 100
  let second := (time.tdiv 1).tmod 100
  3600 * hour + 60 * minute + second

/-- The function `encode_time`: from seconds to `HHMMSS`. -/
def encode_time (time : Int) : Int :=
  let hour := time.tdiv 3600
  let minute := (time.tdiv 60).tmod 60
  let second := (time.tdiv 1).tmod 60
  10000 * hour + 100 * minute + second

/-- The function `buffer::get_new_requests`; the vector of requests is the list of the
addresses of its elements, and `INTERVAL` is the setting of that name. -/
def get_new_requests (INTERVAL : Int) (heap : Heap) (requests : List ReqPtr) (time : Int) :
    List ReqPtr :=
  requests.foldl (fun buffer r =>
    if (heap r).entry_time ≤ time ∧ time < (heap r).entry_time + INTERVAL then buffer ++ [r]
    else buffer) []

/-- Lines 211-214 of `main`: the requests of the assigned trips, in the order of the
map. -/
def assigned_requests_of (assigned_trips : List (Nat × Trip)) : List ReqPtr :=
  assigned_trips.foldl (fun assigned_requests t =>
    t.2.requests.foldl (fun acc r => acc ++ [r]) assigned_requests) []

/-- Lines 333-336 of `main`: the ids of the requests that boarded a vehicle during the
epoch; `just_boarded` holds the vector of that name of each vehicle.  The set is only
asked whether it holds an id, so it is kept as the list of the ids inserted. -/
def boarded_requests (heap : Heap) (just_boarded : List (List ReqPtr)) : List Int :=
  just_boarded.foldl (fun boarded v => v.foldl (fun acc r => acc ++ [(heap r).id]) boarded) []

/-- Lines 331-340 of `main`: the list `active_requests` at the end of an epoch.  The list
is cleared and then filled from the requests assigned in the epoch. -/
def update_active_requests (heap : Heap) (just_boarded : List (List ReqPtr))
    (assigned_requests : List ReqPtr) (time : Int) : List ReqPtr :=
  assigned_requests.foldl (fun active_requests r =>
    if (heap r).id ∉ boarded_requests heap just_boarded ∧ time < (heap r).latest_boarding then
      active_requests ++ [r]
    else active_requests) []

/-- An arena of two requests that enter at the times 10 and 40. -/
def entryHeap : Heap := fun p =>
  if p = 1 then mkRequest 1 0 1 10 60 else mkRequest 2 0 2 40 120

/-- A vehicle of capacity 1 at node 0 that carries A and has the dropoff of A as its
order record. -/
def exVehicleFull : Vehicle := ⟨0, 1, [1], [], [⟨1, false, 1⟩], 0, 0, 0⟩

/-! ## The header of the loop of `recursive_search` -/

/-- The header of the loop body of `recursive_search` (lines 108-111), on the candidates
from `cands` on: a candidate that is a dropoff at the node of `previous` is skipped by
`continue`; every other candidate is tried, and `previous` is set to it. -/
def tried_candidates (ctx : Ctx) : List Nat → Option Nat → List Nat
  | [], _ => []
  | m :: rest, previous =>
    if previous.any (fun p => !(ctx.stop m).is_pickup
        && decide ((ctx.stop p).node = (ctx.stop m).node)) then
      tried_candidates ctx rest previous
    else m :: tried_candidates ctx rest (some m)

/-- The loop of `recursive_search` without its header: the body of lines 113-186 for each
candidate of `cands` in turn, with the loop variables `best_time` and `best_tail`. -/
def search_body_loop (ctx : Ctx) (rec : Search) (initial_location residual_capacity : Int)
    (initially_available : List Nat) (time : Int) (prev_action : Action) :
    List Nat → Int → List Nat → Option (Int × List Nat)
  | [], best_time, best_tail => some (best_time, best_tail)
  | m :: rest, best_time, best_tail =>
    let continue_ := search_body_loop ctx rec initial_location residual_capacity
      initially_available time prev_action rest
    let new_location := (ctx.stop m).node
    let arrival_time := arrival ctx.S ctx.net ctx.heap initial_location time prev_action
      (ctx.stop m)
    if best_time ≠ -1 ∧ arrival_time ≥ best_time then
      continue_ best_time best_tail
    else
      let new_residual_capacity := new_residual (ctx.stop m) residual_capacity
      if new_residual_capacity < 0 then
        continue_ best_time best_tail
      else if (ctx.stop m).is_pickup
          ∧ arrival_time > (ctx.req m).entry_time + ctx.S.MAX_WAITING then
        continue_ best_time best_tail
      else if get_alight_deadline ctx.S (ctx.req m) < arrival_time then
        continue_ best_time best_tail
      else
        let remaining := remaining_nodes ctx initially_available m
        if basic_reachability ctx new_location arrival_time remaining = false then
          continue_ best_time best_tail
        else
          match rec new_location new_residual_capacity remaining arrival_time best_time
              (actionOf (ctx.stop m)) with
          | none => none
          | some tail =>
            if tail.1 = -1 then
              continue_ best_time best_tail
            else if best_time = -1 ∨ tail.1 < best_time then
              continue_ tail.1 (tail.2 ++ [(ctx.metaAt m).node])
            else
              continue_ best_time best_tail

/-- An arena in which A, at address 1, enters at the time 200 and B, at address 2, at
the time 0; both start at node 0. -/
def dedupHeap : Heap := fun p =>
  if p = 1 then mkRequest 1 0 1 200 60 else mkRequest 2 0 2 0 120

/-- An empty vehicle of capacity 1 at node 0. -/
def exVehicleOne : Vehicle := ⟨0, 1, [], [], [], 0, 0, 0⟩

/-- The context of the search that `new_travel` starts for the vehicle `exVehicleOne`
and the requests A and B of `dedupHeap`. -/
def dedupCtx : Ctx :=
  ⟨exSettings Ctsp.FULL, exNet, dedupHeap, (build_stops dedupHeap exVehicleOne [1, 2]).nodes,
    (build_stops dedupHeap exVehicleOne [1, 2]).meta_nodes⟩

/-! ## The frozen prefix of `FIX_PREFIX` -/

/-- The available set that the search hands to the next level after the visits `ms`,
from the available set `avail`: the set `remaining_nodes` of each level in turn. -/
def available_after (ctx : Ctx) : List Nat → List Nat → List Nat
  | avail, [] => avail
  | avail, m :: ms => available_after ctx (remaining_nodes ctx avail m) ms

/-- The stops, the meta nodes and the available set of `new_travel` before the block of
`FIX_PREFIX` (lines 214-251). -/
def standard_build (S : Settings) (heap : Heap) (v : Vehicle) (rs : List ReqPtr) : Build :=
  link_onboard S rs.length v.passengers.length (build_stops heap v rs)

/-- The vector `previous_order` of `new_travel` (lines 267-273): the meta nodes of the
stops of the order record that are in the stop universe, in the order of the record. -/
def frozen_order (S : Settings) (heap : Heap) (v : Vehicle) (rs : List ReqPtr) : List Nat :=
  previous_order (standard_build S heap v rs).nodes (standard_build S heap v rs).meta_nodes
    v.order_record

/-- The bound `meta_nodes.size() - LP_LIMITVALUE` of the loop of lines 283-292: the
number of frozen stops. -/
def frozen_length (S : Settings) (heap : Heap) (v : Vehicle) (rs : List ReqPtr) : Nat :=
  (standard_build S heap v rs).meta_nodes.length - LP_LIMITVALUE

/-- The context of the search that `new_travel` starts once the prefix is frozen. -/
def frozen_ctx (S : Settings) (net : Network) (heap : Heap) (v : Vehicle) (rs : List ReqPtr) :
    Ctx :=
  ⟨S, net, heap, (standard_build S heap v rs).nodes,
    (fix_prefix_build v (standard_build S heap v rs)).meta_nodes⟩

/-! ## The thread pool (`src/threads.cpp`) -/

/-- Rounding of a rational to the nearest integer, a tie going to the even one. -/
def round_half_even (y : Rat) : Int :=
  if y - (Int.floor y : Rat) < 1 / 2 then Int.floor y
  else if 1 / 2 < y - (Int.floor y : Rat) then Int.floor y + 1
  else if Int.floor y % 2 = 0 then Int.floor y
  else Int.floor y + 1

/-- The number of halvings that bring `n` below 2, which is the integer part of the binary
logarithm of `n >= 1`; the first argument bounds the recursion, and `n` itself is enough. -/
def log2_floor (fuel n : Nat) : Nat :=
  match fuel with
  | 0 => 0
  | fuel + 1 => if 2 ≤ n then log2_floor fuel (n / 2) + 1 else 0

/-- The integer part of the binary logarithm of a positive rational. -/
def ilog2 (x : Rat) : Int :=
  let k : Int := (log2_floor x.num.toNat x.num.toNat : Int) - (log2_floor x.den x.den : Int)
  if (2 : Rat) ^ k ≤ x then k else k - 1

/-- The value of type `double` that an operation of exact result `x` returns: IEEE 754
binary64, with a significand of 53 bits, a last bit of exponent at least -1074, and the
rounding to the nearest value, a tie going to the even significand.  The overflow above
`2 ^ 1024` is not modelled; the operands of `auto_thread` are `int` values, their quotient
and the products of the quotient by an `int`. -/
def to_double (x : Rat) : Rat :=
  if x = 0 then 0
  else
    let e : Int := max (ilog2 |x| - 52) (-1074)
    (round_half_even (x / (2 : Rat) ^ e) : Rat) * (2 : Rat) ^ e

/-- The ranges `{start, end}` that `Threads::auto_thread` hands to the pool, in the order
of the loop.  The conversions of the `int` operands to `double`, the quotient
`jobs_per_thread` and its multiples are rounded by `to_double`; `ceil` is exact on a
`double`, and the conversion of its result to `int` keeps the value.  The calls of the
pool and the wait for its end are not modelled. -/
def auto_thread (thread_count job_count : Int) : List (Int × Int) :=
  let jobs_per_thread : Rat :=
    to_double (to_double (job_count : Rat) / to_double (thread_count : Rat))
  (List.range thread_count.toNat).map (fun (i : Nat) =>
    let start : Int := Int.ceil (to_double (to_double (i : Rat) * jobs_per_thread))
    let end_ : Int := Int.ceil (to_double (to_double ((i : Rat) + 1) * jobs_per_thread))
    (start, if end_ > job_count then job_count else end_))

/-! ## The assignment step (`ilp_full::assignment`) -/

/-- The function `ilp_full::assignment`: the graph stages and the two checks, then the
call of `ilp_assignment` on the trip list, the map keyed by `Vehicle*` being the list of
the vehicles with their trips in the order of the vector.  The console output and the
trace of the trip list are not modelled. -/
def assignment (S : Settings) (net : Network) (heap : Heap) (fuel : Nat)
    (clocks : Nat → Clock) (ALGORITHM : Algorithm)
    (ASSIGNMENT_OBJECTIVE : AssignmentObjective) (solver : IlpModel → Option (Nat → Rat))
    (vehicles : List Vehicle) (requests : List ReqPtr) (time : Int) : Except Error IlpRun :=
  match assignment_trip_list S net heap fuel clocks vehicles requests time with
  | Except.error e => Except.error e
  | Except.ok trip_list =>
    ilp_assignment ALGORITHM ASSIGNMENT_OBJECTIVE heap solver (vehicles.zip trip_list)
      requests time

/-- A solver that sets every variable to 1. -/
def exSolverOne : IlpModel → Option (Nat → Rat) := fun _ => some (fun _ => 1)

/-- A copy of the settings of the worked example with a pickup dwell of 30 seconds and a
time limit of 1000 milliseconds. -/
def exSettingsDwellTimed : Settings :=
  ⟨Ctsp.FULL, CtspObjective.CTSP_VMT, 0, 30, 600, 300, 1000⟩

/-! ## The path finder (`Network::dijkstra`) and the simulator (`src/simulator.cpp`)

The adjacency list of the network, read by `dijkstra` only, is a parameter of the
functions below; the weight of an edge, a `double` that holds the integer read from the
edge file, is an integer.  `INTERVAL` and `LAST_MINUTE_SERVICE` are parameters as well.
The action log, the distance and state statistics of a vehicle and its rebalance target
are not modelled, nor are the diagnostics of `dijkstra`, which prints and waits for a key
before it returns a path that did not reach the destination. -/

/-- An entry of the adjacency list: the neighbour and the time of the edge. -/
structure neighbor where
  target : Int
  weight : Int
  deriving DecidableEq

/-- The element `adjacency_list[node]`; an index outside the vector is an access outside
it. -/
def adjacent (adjacency_list : List (List neighbor)) (node : Int) :
    Except Error (List neighbor) :=
  if 0 ≤ node ∧ node.toNat < adjacency_list.length then
    Except.ok (adjacency_list.getD node.toNat [])
  else Except.error Error.out_of_bounds

/-- The first loop of a step of `dijkstra` ("try to take a strict step") from the values
`best` and `node`: the destination when it is a neighbour, else the last neighbour that
improved `best` over an edge of positive time. -/
def strict_step (S : Settings) (net : Network) (destination : Int) :
    List neighbor → Int → Int → Int
  | [], _, node => node
  | n :: rest, best, node =>
    if n.target = destination then n.target
    else
      let follow_up := net.get_time S n.target destination
      if n.weight > 0 ∧ n.weight + follow_up < best then
        strict_step S net destination rest (n.weight + follow_up) n.target
      else strict_step S net destination rest best node

/-- The value `heritage[k]` of the map `heritage`, kept as the list of its entries. -/
def heritageAt (heritage : List (Int × List Int)) (k : Int) : List Int :=
  match heritage.find? (fun e => decide (e.1 = k)) with
  | some e => e.2
  | none => []

/-- The loop that fills the queue `zeros` and the map `heritage` with the neighbours of
`here` that do not lengthen the way to the destination. -/
def zeros_init (S : Settings) (net : Network) (destination comparison : Int)
    (ns : List neighbor) : List neighbor × List (Int × List Int) :=
  ns.foldl (fun st n =>
    if n.weight + net.get_time S n.target destination ≤ comparison then
      (st.1 ++ [n],
        if st.2.any (fun e => decide (e.1 = n.target)) then st.2
        else st.2 ++ [(n.target, [n.target])])
    else st) ([], [])

/-- The loop over the children of the neighbour popped from the queue: the child that
ends the search, when there is one, and the queue and the map as the loop left them. -/
def zero_children (S : Settings) (net : Network) (destination comparison n_target : Int) :
    List neighbor → List neighbor → List (Int × List Int) →
      Option Int × List neighbor × List (Int × List Int)
  | [], zeros, heritage => (none, zeros, heritage)
  | child :: rest, zeros, heritage =>
    if child.weight + net.get_time S child.target destination ≤ comparison then
      if child.weight > 0 ∨ child.target = destination then
        (some child.target, zeros, heritage)
      else if !(heritage.any (fun e => decide (e.1 = child.target))) then
        zero_children S net destination comparison n_target rest (zeros ++ [child])
          (heritage ++ [(child.target, heritageAt heritage n_target ++ [child.target])])
      else zero_children S net destination comparison n_target rest zeros heritage
    else zero_children S net destination comparison n_target rest zeros heritage

/-- The loop `while (zeros.size() && node == -1)` of `dijkstra`: the path and the node it
leaves.  The first argument bounds the number of rounds. -/
def zero_search (S : Settings) (net : Network) (adjacency_list : List (List neighbor))
    (destination comparison : Int) :
    Nat → List neighbor → List (Int × List Int) → List Int → Except Error (List Int × Int)
  | 0, _, _, _ => Except.error Error.out_of_fuel
  | fuel + 1, zeros, heritage, path =>
    match zeros with
    | [] => Except.ok (path, -1)
    | n :: zeros =>
      match adjacent adjacency_list n.target with
      | Except.error e => Except.error e
      | Except.ok children =>
        let r := zero_children S net destination comparison n.target children zeros heritage
        match r.1 with
        | some node =>
          if node = -1 then
            zero_search S net adjacency_list destination comparison fuel r.2.1 r.2.2
              (path ++ heritageAt r.2.2 n.target)
          else Except.ok (path ++ heritageAt r.2.2 n.target, node)
        | none =>
          zero_search S net adjacency_list destination comparison fuel r.2.1 r.2.2 path

/-- The loop of `dijkstra` from the node `here` with the path so far; the first argument
is the number of rounds that `count < 200` still allows. -/
def dijkstra_loop (S : Settings) (net : Network) (adjacency_list : List (List neighbor))
    (fuel : Nat) (destination : Int) : Nat → Int → List Int → Except Error (List Int)
  | 0, _, path => Except.ok path
  | count + 1, here, path =>
    if here = destination ∨ here = -1 then Except.ok path
    else
      match adjacent adjacency_list here with
      | Except.error e => Except.error e
      | Except.ok ns =>
        let node := strict_step S net destination ns (net.get_time S here destination + 1) (-1)
        if node = -1 then
          let init := zeros_init S net destination (net.get_time S here destination) ns
          match zero_search S net adjacency_list destination (net.get_time S here destination)
              fuel init.1 init.2 path with
          | Except.error e => Except.error e
          | Except.ok found =>
            dijkstra_loop S net adjacency_list fuel destination count found.2
              (found.1 ++ [found.2])
        else
          dijkstra_loop S net adjacency_list fuel destination count node (path ++ [node])

/-- The function `Network::dijkstra`: the way points from `origin` to `destination`,
the origin first. -/
def dijkstra (S : Settings) (net : Network) (adjacency_list : List (List neighbor))
    (fuel : Nat) (origin destination : Int) : Except Error (List Int) :=
  dijkstra_loop S net adjacency_list fuel destination 200 origin [origin]

/-- The function `move_jobless_vehicle`: the vehicle reaches its node within the interval
or comes `INTERVAL` seconds closer to it. -/
def move_jobless_vehicle (INTERVAL : Int) (v : Vehicle) : Vehicle :=
  if v.offset ≤ INTERVAL then
    { v with prev_node := v.node, offset := 0, order_record := [] }
  else
    { v with offset := v.offset - INTERVAL, order_record := [] }

/-- The variables of the loop of `move_vehicle` over the path: the arena, the position
of the vehicle, the time left in the interval, the clock, the number of stops done, the
sets `onboard` and `pending_requests`, and what was appended to `just_boarded` and
`just_alighted`. -/
structure Moving where
  heap : Heap
  prev_node : Int
  node : Int
  offset : Int
  traveltime_left : Int
  current_time : Int
  jobs_completed : Nat
  onboard : List ReqPtr
  pending_requests : List ReqPtr
  just_boarded : List ReqPtr
  just_alighted : List ReqPtr

/-- The vector `latest_start` under `LAST_MINUTE_SERVICE` (lines 151-172): the deadline
of each stop, lowered to the latest start of the following one, minus the travel time
from the stop before. -/
def latest_start (S : Settings) (net : Network) (heap : Heap) (current_location : Int) :
    List NodeStop → List Int
  | [] => []
  | node :: rest =>
    let later := latest_start S net heap node.node rest
    let latest_execution :=
      if node.is_pickup then (heap node.r).latest_boarding else (heap node.r).latest_alighting
    let latest_execution :=
      match later with
      | [] => latest_execution
      | s :: _ => min latest_execution s
    (latest_execution - net.get_time S current_location node.node) :: later

/-- The loop over the way points (lines 198-226) from the way point `w - 1`: the state
it leaves and the flag `interrupted`. -/
def travel_legs (S : Settings) (net : Network) : List Int → Moving → Moving × Bool
  | [], st => (st, false)
  | origin :: rest, st =>
    match rest with
    | [] => (st, false)
    | destination :: _ =>
      let traveltime := net.get_time S origin destination
      if traveltime ≥ st.traveltime_left then
        ({ st with prev_node := origin, node := destination,
                   current_time := st.current_time + st.traveltime_left,
                   offset := traveltime - st.traveltime_left, traveltime_left := 0 }, true)
      else
        travel_legs S net rest
          { st with prev_node := destination, node := destination,
                    current_time := st.current_time + traveltime,
                    traveltime_left := st.traveltime_left - traveltime }

/-- The writes to the request of a stop and to the sets and vectors of the vehicle when
the stop is served (lines 280-298). -/
def serve_stop (stop : NodeStop) (st : Moving) : Moving :=
  if stop.is_pickup = false then
    { st with
      heap := fun p =>
        if p = stop.r then { st.heap p with alighting_time := st.current_time } else st.heap p,
      just_alighted := st.just_alighted ++ [stop.r],
      onboard := setErase ptrLt stop.r st.onboard }
  else
    let onboard := setInsert ptrLt stop.r st.onboard
    let heap : Heap := fun p =>
      if p = stop.r then { st.heap p with boarding_time := st.current_time } else st.heap p
    { st with
      heap := if onboard.length > 1 then
          fun p => if p ∈ onboard then { heap p with shared := true } else heap p
        else heap,
      just_boarded := st.just_boarded ++ [stop.r],
      pending_requests := setErase ptrLt stop.r st.pending_requests,
      onboard := onboard }

/-- The pseudo node of the dwell after a stop (lines 301-307): -20 after the last
dropoff of a batch, -10 after the last pickup of a batch, the node of the stop inside a
batch.  After a pickup the source reads the next stop of the path, which is an access
outside the vector when the pickup is the last stop. -/
def dwell_node (stop : NodeStop) (rest : List NodeStop) : Except Error Int :=
  match rest with
  | [] => if stop.is_pickup = false then Except.ok (-20) else Except.error Error.out_of_bounds
  | next :: _ =>
    if stop.is_pickup = false ∧ (next.is_pickup = true ∨ next.node ≠ stop.node) then
      Except.ok (-20)
    else if stop.is_pickup = true ∧ (next.is_pickup = false ∨ next.node ≠ stop.node) then
      Except.ok (-10)
    else Except.ok stop.node

/-- The loop of `move_vehicle` over the path (lines 174-323) from the stop `x`, with the
entries of `latest_start` from `x`; `rebalance_origin` is `newRequests[0]->origin`. -/
def visit_loop (S : Settings) (net : Network) (adjacency_list : List (List neighbor))
    (fuel : Nat) (LAST_MINUTE_SERVICE rebalancing : Bool) (rebalance_origin : Int) :
    List NodeStop → List Int → Moving → Except Error Moving
  | [], _, st => Except.ok st
  | stop :: rest, starts, st =>
    if st.traveltime_left ≤ 0 then Except.ok st
    else
      let delay := starts.headD 0 - st.current_time
      if LAST_MINUTE_SERVICE = true ∧ rebalancing = false ∧ delay < 0 then
        Except.error Error.delay_was_negative
      else
        let st : Moving :=
          if LAST_MINUTE_SERVICE = true ∧ rebalancing = false then
            { st with current_time := st.current_time + delay,
                      traveltime_left := st.traveltime_left - delay }
          else st
        match dijkstra S net adjacency_list fuel st.node stop.node with
        | Except.error e => Except.error e
        | Except.ok waypoints =>
          let st : Moving :=
            if waypoints.length = 1 then
              { st with prev_node := waypoints.headD 0, node := waypoints.headD 0, offset := 0 }
            else st
          let legs := travel_legs S net waypoints st
          if legs.2 = true then Except.ok legs.1
          else if legs.1.traveltime_left ≤ 0 then Except.ok legs.1
          else
            let st := legs.1
            let waiting_time := (st.heap stop.r).entry_time - st.current_time
            if (st.heap stop.r).entry_time ≥ st.current_time
                ∧ waiting_time ≥ st.traveltime_left then
              Except.ok { st with prev_node := -30, offset := waiting_time - st.traveltime_left }
            else
              let st : Moving :=
                if (st.heap stop.r).entry_time ≥ st.current_time then
                  { st with current_time := st.current_time + waiting_time,
                            traveltime_left := st.traveltime_left - waiting_time }
                else st
              let st : Moving := { st with jobs_completed := st.jobs_completed + 1 }
              if rebalancing = true ∧ stop.node = rebalance_origin then Except.ok st
              else
                let st := serve_stop stop st
                match dwell_node stop rest with
                | Except.error e => Except.error e
                | Except.ok node =>
                  let dwell := net.get_time S node st.node
                  if dwell ≥ st.traveltime_left then
                    Except.ok { st with prev_node := node, offset := dwell - st.traveltime_left }
                  else
                    visit_loop S net adjacency_list fuel LAST_MINUTE_SERVICE rebalancing
                      rebalance_origin rest (starts.drop 1)
                      { st with traveltime_left := st.traveltime_left - dwell,
                                current_time := st.current_time + dwell }

/-- What a step of the simulator leaves of a vehicle: the vehicle, the requests put in
`just_boarded` and in `just_alighted`, and the arena. -/
structure Simulated where
  vehicle : Vehicle
  just_boarded : List ReqPtr
  just_alighted : List ReqPtr
  heap : Heap

/-- The function `move_vehicle`.  The read of `trip.requests[0]` for a fake trip without
requests is an access outside the vector. -/
def move_vehicle (S : Settings) (net : Network) (adjacency_list : List (List neighbor))
    (INTERVAL : Int) (LAST_MINUTE_SERVICE : Bool) (heap : Heap) (fuel : Nat)
    (vehicle : Vehicle) (trip : Trip) (time : Int) : Except Error Simulated :=
  let trigger :=
    if trip.is_fake then Purpose.REBALANCING
    else if trip.use_memory then Purpose.MEMORY
    else Purpose.STANDARD
  if trip.is_fake = true ∧ trip.requests = [] then Except.error Error.out_of_bounds
  else
    match (if trip.order_record.length = 0 then
        travel S net heap fuel vehicle trip.requests trigger time
      else Except.ok (trip.cost, trip.order_record)) with
    | Except.error e => Except.error e
    | Except.ok raw =>
      if raw.1 = -1 then Except.error Error.this_is_an_error
      else
        let path := raw.2
        let st : Moving :=
          if vehicle.offset < INTERVAL then
            ⟨heap, vehicle.node, vehicle.node, 0, INTERVAL - vehicle.offset,
              time + vehicle.offset, 0, requestSet vehicle.passengers,
              requestSet trip.requests, [], []⟩
          else
            ⟨heap, vehicle.prev_node, vehicle.node, vehicle.offset - INTERVAL, 0,
              time + INTERVAL, 0, requestSet vehicle.passengers,
              requestSet trip.requests, [], []⟩
        let starts :=
          if LAST_MINUTE_SERVICE then latest_start S net heap vehicle.node path
          else List.replicate path.length 0
        match visit_loop S net adjacency_list fuel LAST_MINUTE_SERVICE trip.is_fake
            (heap (trip.requests.headD 0)).origin path starts st with
        | Except.error e => Except.error e
        | Except.ok st =>
          Except.ok ⟨{ vehicle with
              passengers := st.onboard,
              order_record :=
                if trigger ≠ Purpose.REBALANCING then path.drop st.jobs_completed else [],
              pending_requests :=
                if trigger ≠ Purpose.REBALANCING then st.pending_requests
                else vehicle.pending_requests,
              prev_node := st.prev_node, node := st.node, offset := st.offset },
            st.just_boarded, st.just_alighted, st.heap⟩

/-- The function `simulate_vehicle`; `assignment` is the entry of the vehicle in the map
`assignments`, when it has one. -/
def simulate_vehicle (S : Settings) (net : Network) (adjacency_list : List (List neighbor))
    (INTERVAL : Int) (LAST_MINUTE_SERVICE : Bool) (heap : Heap) (fuel : Nat)
    (vehicle : Vehicle) (assignment : Option Trip) (time : Int) : Except Error Simulated :=
  let vehicle : Vehicle := { vehicle with pending_requests := [] }
  let t : Trip := assignment.getD ⟨0, false, false, [], []⟩
  if t.requests.length ≠ 0 ∨ vehicle.passengers.length ≠ 0 then
    move_vehicle S net adjacency_list INTERVAL LAST_MINUTE_SERVICE heap fuel vehicle t time
  else if vehicle.offset ≠ 0 then
    Except.ok ⟨move_jobless_vehicle INTERVAL vehicle, [], [], heap⟩
  else
    Except.ok ⟨{ vehicle with order_record := [] }, [], [], heap⟩

/-- The position of a vehicle as the data model describes it: the offset is not
negative and not more than the time between `prev_node` and `node`. -/
def PositionOk (S : Settings) (net : Network) (v : Vehicle) : Prop :=
  0 ≤ v.offset ∧ v.offset ≤ net.get_time S v.prev_node v.node

/-- The complete graph on the three nodes of the worked example, each edge with the time
of the matrix. -/
def exAdjacency : List (List neighbor) :=
  [[⟨1, 60⟩, ⟨2, 120⟩], [⟨0, 60⟩, ⟨2, 80⟩], [⟨0, 120⟩, ⟨1, 80⟩]]

/-- An arena in which the request A of the worked example enters 100 seconds after the
epoch. -/
def exHeapLate : Heap := fun _ => mkRequest 1 0 1 100 60

/-- An empty vehicle of capacity 2 that stands at node 1. -/
def exVehicleAtOne : Vehicle := ⟨0, 2, [], [], [], 1, 1, 0⟩

/-- An empty vehicle on the way from node 0 to node 1, 10 seconds before it. -/
def exVehicleOnTheWay : Vehicle := ⟨0, 2, [], [], [], 0, 1, 10⟩

/-- A network in which the time from a node to itself is -5. -/
def exNetSelf : Network := ⟨fun a b => if a = b then -5 else 60⟩

/-- Whether a vehicle is in a position that the data model describes can be decided. -/
instance positionOkDecidable (S : Settings) (net : Network) (v : Vehicle) :
    Decidable (PositionOk S net v) := by
  unfold PositionOk
  exact inferInstance

/-! ## The stop universe without one request -/

/-- The meta node of the universe of `R1 ++ q :: R2` that stands for the meta node `m`
of the universe of `R1 ++ R2`, where `i` is the length of `R1`. -/
def liftMeta (i m : Nat) : Nat := if m < 2 * i then m else m + 2

/-- The meta node of the universe of `R1 ++ R2` that stands for the meta node `m` of the
universe of `R1 ++ q :: R2`, where `i` is the length of `R1`; none for the two meta nodes
of `q`. -/
def dropMeta (i m : Nat) : Option Nat :=
  if m = 2 * i ∨ m = 2 * i + 1 then none else some (if m < 2 * i then m else m - 2)

/-- Settings with an alight dwell of 2 and a pickup dwell of 1: `MAX_DETOUR = 2`,
`MAX_WAITING = 10`. -/
def waitSettings : Settings :=
  ⟨Ctsp.FULL, CtspObjective.CTSP_VMT, 2, 1, 2, 10, 0⟩

/-- A network in which every travel time is 0. -/
def zeroNet : Network := ⟨fun _ _ => 0⟩

/-- Three requests with the windows of `waitSettings`: request 1 at node 0 enters at
time 1, request 2 at node 0 and request 3 from node 1 to node 0 enter at time 0. -/
def waitHeap : Heap := fun p =>
  if p = 1 then ⟨1, 0, 0, 0, 1, 0, 0, 11, 3, false, false⟩
  else if p = 2 then ⟨2, 0, 0, 0, 0, 0, 0, 10, 2, false, false⟩
  else ⟨3, 1, 0, 0, 0, 0, 0, 10, 2, false, false⟩

/-- An empty vehicle of capacity 3 at node 1. -/
def waitVehicle : Vehicle := ⟨0, 3, [], [], [], 1, 1, 0⟩

/-! ## Theorems -/

theorem search_loop_sound (ctx : Ctx) (rec : Search)
    (hrec : ∀ loc cap avail time best prev r, rec loc cap avail time best prev = some r →
      SearchPost ctx loc cap avail time best prev r)
    (loc cap : Int) (avail : List Nat) (time : Int) (prev : Action) (best0 : Int) :
    ∀ (cands : List Nat), (∀ m ∈ cands, m ∈ avail) →
    ∀ (previous : Option Nat) (best : Int) (tail : List Nat) (r : Int × List Nat),
      SearchPost ctx loc cap avail time best0 prev (best, tail) →
      search_loop ctx rec loc cap avail time prev cands previous best tail = some r →
      SearchPost ctx loc cap avail time best0 prev r := by
  intro cands
  induction cands with
  | nil =>
    intro _ previous best tail r hpost h
    simp only [search_loop, Option.some.injEq] at h
    rw [← h]; exact hpost
  | cons m rest ih =>
    intro hsub previous best tail r hpost h
    have hsub2 : ∀ x ∈ rest, x ∈ avail := fun x hx => hsub x (List.mem_cons_of_mem _ hx)
    have hm : m ∈ avail := hsub m (List.mem_cons_self _ _)
    rw [search_loop] at h
    simp only at h
    split_ifs at h with h1 h2 h3 h4 h5 h6
    · exact ih hsub2 _ _ _ _ hpost h
    · exact ih hsub2 _ _ _ _ hpost h
    · exact ih hsub2 _ _ _ _ hpost h
    · exact ih hsub2 _ _ _ _ hpost h
    · exact ih hsub2 _ _ _ _ hpost h
    · exact ih hsub2 _ _ _ _ hpost h
    · cases hr : rec (ctx.stop m).node (new_residual (ctx.stop m) cap)
          (remaining_nodes ctx avail m)
          (arrival ctx.S ctx.net ctx.heap loc time prev (ctx.stop m)) best
          (actionOf (ctx.stop m)) with
      | none => rw [hr] at h; simp at h
      | some t =>
        rw [hr] at h
        simp only at h
        split_ifs at h with h7 h8
        · exact ih hsub2 _ _ _ _ hpost h
        · refine ih hsub2 _ _ _ _ ?_ h
          right
          rcases hrec _ _ _ _ _ _ _ hr with hb | ⟨ms, hrun, htail⟩
          · exfalso
            rw [hb] at h7 h8
            simp only at h7 h8
            rcases h8 with h8 | h8
            · exact h7 h8
            · exact lt_irrefl _ h8
          · refine ⟨m :: ms, Run.cons loc cap avail time prev m ms t.1 ?_ hrun, ?_⟩
            · refine ⟨hm, ?_, h4, h5, ?_⟩
              · exact not_lt.mp h3
              · simpa using h6
            · simp only [htail, tailOf, List.map_cons, List.reverse_cons]
        · exact ih hsub2 _ _ _ _ hpost h

theorem recursive_search_sound (ctx : Ctx) : ∀ (fuel : Nat) (loc cap : Int) (avail : List Nat)
    (time best : Int) (prev : Action) (r : Int × List Nat),
    recursive_search ctx fuel loc cap avail time best prev = some r →
    SearchPost ctx loc cap avail time best prev r := by
  intro fuel
  induction fuel with
  | zero => intro loc cap avail time best prev r h; simp [recursive_search] at h
  | succ n ih =>
    intro loc cap avail time best prev r h
    rw [recursive_search] at h
    simp only at h
    split_ifs at h with he
    · right
      simp only [Option.some.injEq] at h
      have : avail = [] := by simpa using he
      subst this
      exact ⟨[], by rw [← h]; exact Run.nil loc cap time prev, by rw [← h]; rfl⟩
    · exact search_loop_sound ctx (recursive_search ctx n) ih loc cap avail time prev best
        avail (fun _ hm => hm) none best [] r (Or.inl rfl) h

theorem mem_setInsert_imp (lt : Nat → Nat → Bool) (x y : Nat) :
    ∀ s : List Nat, y ∈ setInsert lt x s → y = x ∨ y ∈ s := by
  intro s
  induction s with
  | nil => intro h; simp [setInsert] at h; exact Or.inl h
  | cons z zs ih =>
    intro h
    rw [setInsert] at h
    split_ifs at h with h1 h2
    · rcases List.mem_cons.mp h with h | h
      · exact Or.inl h
      · exact Or.inr h
    · rcases List.mem_cons.mp h with h | h
      · exact Or.inr (by rw [h]; exact List.mem_cons_self _ _)
      · rcases ih h with h | h
        · exact Or.inl h
        · exact Or.inr (List.mem_cons_of_mem _ h)
    · exact Or.inr h

theorem mem_setInsert_of_mem (lt : Nat → Nat → Bool) (x y : Nat) :
    ∀ s : List Nat, y ∈ s → y ∈ setInsert lt x s := by
  intro s
  induction s with
  | nil => intro h; simp at h
  | cons z zs ih =>
    intro h
    rw [setInsert]
    split_ifs with h1 h2
    · exact List.mem_cons_of_mem _ h
    · rcases List.mem_cons.mp h with h | h
      · rw [h]; exact List.mem_cons_self _ _
      · exact List.mem_cons_of_mem _ (ih h)
    · exact h

theorem mem_setInsert_self (lt : Nat → Nat → Bool) (hs : Separating lt) (x : Nat) :
    ∀ s : List Nat, x ∈ setInsert lt x s := by
  intro s
  induction s with
  | nil => simp [setInsert]
  | cons z zs ih =>
    rw [setInsert]
    split_ifs with h1 h2
    · exact List.mem_cons_self _ _
    · exact List.mem_cons_of_mem _ ih
    · have : x = z := hs x z (by simpa using h1) (by simpa using h2)
      rw [this]; exact List.mem_cons_self _ _

theorem mem_setInsert (lt : Nat → Nat → Bool) (hs : Separating lt) (x y : Nat) (s : List Nat) :
    y ∈ setInsert lt x s ↔ y = x ∨ y ∈ s := by
  constructor
  · exact mem_setInsert_imp lt x y s
  · rintro (h | h)
    · rw [h]; exact mem_setInsert_self lt hs x s
    · exact mem_setInsert_of_mem lt x y s h

theorem mem_setInsertAll (lt : Nat → Nat → Bool) (hs : Separating lt) (y : Nat) :
    ∀ (xs s : List Nat), y ∈ setInsertAll lt xs s ↔ y ∈ xs ∨ y ∈ s := by
  intro xs
  induction xs with
  | nil => intro s; simp [setInsertAll]
  | cons x xs ih =>
    intro s
    have h := ih (setInsert lt x s)
    simp only [setInsertAll, List.foldl_cons] at h ⊢
    rw [h, mem_setInsert lt hs, List.mem_cons]
    tauto

theorem separating_ptrLt : Separating ptrLt := by
  intro a b h1 h2
  simp only [ptrLt, decide_eq_false_iff_not, not_lt] at h1 h2
  omega

theorem separating_mnsLt (ctx : Ctx) : Separating (mnsLt ctx) := by
  intro a b h1 h2
  unfold mnsLt at h1 h2
  split_ifs at h1 h2
  omega

theorem mem_setErase_ptrLt (x y : Nat) (s : List Nat) :
    y ∈ setErase ptrLt x s ↔ y ∈ s ∧ y ≠ x := by
  simp only [setErase, ptrLt, List.mem_filter, Bool.or_eq_true, decide_eq_true_eq]
  constructor
  · rintro ⟨h, h2⟩; exact ⟨h, by omega⟩
  · rintro ⟨h, h2⟩; exact ⟨h, by omega⟩

theorem mem_remaining_nodes (ctx : Ctx) (avail : List Nat) (m x : Nat) :
    x ∈ remaining_nodes ctx avail m ↔ (x ∈ avail ∧ x ≠ m) ∨ x ∈ (ctx.metaAt m).unlocks := by
  unfold remaining_nodes
  rw [mem_setInsertAll _ (separating_mnsLt ctx)]
  simp only [List.mem_filter, ne_eq, decide_not, Bool.not_eq_true', decide_eq_false_iff_not]
  tauto

theorem run_finalTime (ctx : Ctx) (loc cap : Int) (avail : List Nat) (time : Int)
    (prev : Action) (ms : List Nat) (c : Int) (h : Run ctx loc cap avail time prev ms c) :
    finalTime ctx.S ctx.net ctx.heap loc time prev (ms.map ctx.stop) = c := by
  induction h with
  | nil => rfl
  | cons loc cap avail time prev m ms c _ _ ih => simpa [finalTime] using ih

theorem run_replayOk (ctx : Ctx) (capacity : Int) (loc cap : Int) (avail : List Nat)
    (time : Int) (prev : Action) (ms : List Nat) (c : Int)
    (h : Run ctx loc cap avail time prev ms c) :
    ReplayOk ctx.S ctx.net ctx.heap capacity loc time prev (capacity - cap)
      (ms.map ctx.stop) := by
  induction h with
  | nil => trivial
  | cons loc cap avail time prev m ms c hs _ ih =>
    obtain ⟨_, hcap, hw, hd, _⟩ := hs
    simp only [List.map_cons, ReplayOk]
    have e : (if (ctx.stop m).is_pickup = true then capacity - cap + 1 else capacity - cap - 1)
        = capacity - new_residual (ctx.stop m) cap := by
      unfold new_residual; split_ifs <;> omega
    rw [e]
    refine ⟨?_, ?_, ?_, ih⟩
    · intro hp
      have := not_and.mp hw hp
      unfold Ctx.req at this
      omega
    · intro _
      unfold get_alight_deadline Ctx.req at hd
      omega
    · omega

theorem format_path_tailOf (ctx : Ctx) (ms : List Nat) (c time : Int) :
    format_path ctx.S ctx.nodes (c, tailOf ctx ms) time
      = (if ctx.S.CTSP_OBJECTIVE = CtspObjective.CTSP_VMT ∧ c ≥ 0 then c - time else c,
        ms.map ctx.stop) := by
  simp only [format_path, tailOf, List.reverse_reverse, List.map_map, Prod.mk.injEq, true_and]
  rfl

/-- What a successful call of `run_search` returned: the rejection `(-1, [])`, or the
stops of a run of the search, with its final time as cost (less the epoch time when it
is not negative). -/
theorem run_search_ok (S : Settings) (net : Network) (heap : Heap) (fuel : Nat) (v : Vehicle)
    (b : Build) (time : Int) (r : Int × List NodeStop)
    (h : run_search S net heap fuel v b time = Except.ok r) :
    S.CTSP_OBJECTIVE = CtspObjective.CTSP_VMT ∧
    (r = (-1, []) ∨ ∃ ms c,
      Run ⟨S, net, heap, b.nodes, b.meta_nodes⟩ v.node (v.capacity - v.passengers.length)
        (setInsertAll (mnsLt ⟨S, net, heap, b.nodes, b.meta_nodes⟩) b.initially_available [])
        (time + v.offset) Action.NO_ACTION ms c
      ∧ r = (if c ≥ 0 then c - time else c,
        ms.map (Ctx.stop ⟨S, net, heap, b.nodes, b.meta_nodes⟩))) := by
  unfold run_search at h
  split_ifs at h with hv
  refine ⟨hv, ?_⟩
  cases hs : recursive_search_set ⟨S, net, heap, b.nodes, b.meta_nodes⟩ fuel v.node
      (v.capacity - v.passengers.length) b.initially_available (time + v.offset) (-1) with
  | none => rw [hs] at h; simp at h
  | some opt =>
    rw [hs] at h
    simp only [Except.ok.injEq] at h
    rcases recursive_search_sound _ _ _ _ _ _ _ _ _ hs with hb | ⟨ms, hrun, htail⟩
    · left
      rw [← h, hb]
      simp [format_path]
    · right
      refine ⟨ms, opt.1, hrun, ?_⟩
      have e : opt = (opt.1, tailOf ⟨S, net, heap, b.nodes, b.meta_nodes⟩ ms) := by
        rw [← htail]
      rw [← h, e]
      have := format_path_tailOf ⟨S, net, heap, b.nodes, b.meta_nodes⟩ ms opt.1 time
      simp only [hv, true_and] at this
      exact this

theorem memory_metaAt (S : Settings) (net : Network) (heap : Heap) (v : Vehicle) (j : Nat)
    (hj : j < v.order_record.length) :
    Ctx.metaAt ⟨S, net, heap, (memory_build v).nodes, (memory_build v).meta_nodes⟩ j
      = ⟨j, if j + 1 < v.order_record.length then [j + 1] else []⟩ := by
  simp [Ctx.metaAt, memory_build, List.getD_eq_getElem?_getD, List.getElem?_map,
    List.getElem?_range hj]

theorem map_getD_range (l : List NodeStop) (d : NodeStop) :
    (List.range' 0 l.length).map (fun j => l.getD j d) = l := by
  apply List.ext_getElem
  · simp
  · intro i h1 h2
    simp [List.getD_eq_getElem?_getD, List.getElem?_eq_getElem h2]

theorem memory_chain (S : Settings) (net : Network) (heap : Heap) (v : Vehicle) :
    ∀ (k j : Nat) (loc cap : Int) (avail : List Nat) (time : Int) (prev : Action)
      (ms : List Nat) (c : Int),
      j + k = v.order_record.length →
      (∀ x, x ∈ avail ↔ (x = j ∧ j < v.order_record.length)) →
      Run ⟨S, net, heap, (memory_build v).nodes, (memory_build v).meta_nodes⟩
        loc cap avail time prev ms c →
      ms = List.range' j k := by
  intro k
  induction k with
  | zero =>
    intro j loc cap avail time prev ms c hjk hav hrun
    cases hrun with
    | nil => rfl
    | cons _ _ _ _ _ m ms c hs _ =>
      have := (hav m).mp hs.1
      omega
  | succ k ih =>
    intro j loc cap avail time prev ms c hjk hav hrun
    have hj : j < v.order_record.length := by omega
    cases hrun with
    | nil =>
      have := (hav j).mpr ⟨rfl, hj⟩
      simp at this
    | cons _ _ _ _ _ m ms c hs hrest =>
      have hm : m = j := ((hav m).mp hs.1).1
      subst hm
      rw [List.range'_succ]
      congr 1
      refine ih (m + 1) _ _ _ _ _ _ _ (by omega) ?_ hrest
      intro x
      rw [mem_remaining_nodes, memory_metaAt S net heap v m hj]
      simp only [hav]
      split_ifs with h1
      · simp only [List.mem_singleton]
        constructor
        · rintro (⟨⟨h, _⟩, h2⟩ | h)
          · exact absurd h h2
          · exact ⟨h, h1⟩
        · rintro ⟨h, _⟩
          exact Or.inr h
      · simp only [List.not_mem_nil, or_false]
        constructor
        · rintro ⟨⟨h, _⟩, h2⟩
          exact absurd h h2
        · rintro ⟨_, h⟩
          exact absurd h h1

theorem memory_initially_available (S : Settings) (net : Network) (heap : Heap) (v : Vehicle)
    (x : Nat) :
    x ∈ setInsertAll (mnsLt ⟨S, net, heap, (memory_build v).nodes, (memory_build v).meta_nodes⟩)
        (memory_build v).initially_available []
      ↔ (x = 0 ∧ 0 < v.order_record.length) := by
  rw [mem_setInsertAll _ (separating_mnsLt _)]
  simp only [memory_build]
  split_ifs with h
  · simp only [List.mem_singleton, List.not_mem_nil, or_false]
    constructor
    · intro h1; exact ⟨h1, by omega⟩
    · intro h1; exact h1.1
  · simp only [List.not_mem_nil, or_false, false_iff, not_and]
    intro _; omega

theorem memory_run_stops (S : Settings) (net : Network) (heap : Heap) (v : Vehicle)
    (loc cap time : Int) (prev : Action) (ms : List Nat) (c : Int)
    (hrun : Run ⟨S, net, heap, (memory_build v).nodes, (memory_build v).meta_nodes⟩ loc cap
      (setInsertAll (mnsLt ⟨S, net, heap, (memory_build v).nodes, (memory_build v).meta_nodes⟩)
        (memory_build v).initially_available []) time prev ms c) :
    ms.map (Ctx.stop ⟨S, net, heap, (memory_build v).nodes, (memory_build v).meta_nodes⟩)
      = v.order_record := by
  have hms := memory_chain S net heap v v.order_record.length 0 loc cap _ time prev ms c
    (by omega) (memory_initially_available S net heap v) hrun
  rw [hms]
  conv_rhs => rw [← map_getD_range v.order_record ⟨0, false, 0⟩]
  apply List.map_congr_left
  intro j hj
  have hj2 : j < v.order_record.length := by
    simp only [List.mem_range'_1] at hj; omega
  simp only [Ctx.stop, memory_metaAt S net heap v j hj2, Ctx.nodeAt]
  rfl

/-- Claim C6: whenever the MEMORY oracle returns a cost that is not negative, its stop
sequence is the order record of the vehicle, element for element. -/
theorem memory_replays_order_record (S : Settings) (net : Network) (heap : Heap) (fuel : Nat)
    (v : Vehicle) (rs : List ReqPtr) (time cost : Int) (stops : List NodeStop)
    (h : travel S net heap fuel v rs Purpose.MEMORY time = Except.ok (cost, stops))
    (hcost : 0 ≤ cost) : stops = v.order_record := by
  simp only [travel, if_true, memory] at h
  obtain ⟨_, hr | ⟨ms, c, hrun, hr⟩⟩ := run_search_ok S net heap fuel v _ time _ h
  · simp only [Prod.mk.injEq] at hr
    omega
  · simp only [Prod.mk.injEq] at hr
    rw [hr.2]
    exact memory_run_stops S net heap v _ _ _ _ ms c hrun

theorem memory_replays_order_record_witness :
    travel (exSettings Ctsp.FULL) exNet exHeap 5 exVehiclePlan [] Purpose.MEMORY 0
        = Except.ok (140, exPlan)
      ∧ (0 : Int) ≤ 140 ∧ exPlan = exVehiclePlan.order_record :=
  ⟨by rfl, by decide,
    memory_replays_order_record (exSettings Ctsp.FULL) exNet exHeap 5 exVehiclePlan [] 0 140
      exPlan (by rfl) (by decide)⟩

/-- What a successful call of `new_travel` returned: the rejection of `FIX_PREFIX`, or
the result of the search on one of the two builds. -/
theorem new_travel_ok (S : Settings) (net : Network) (heap : Heap) (fuel : Nat) (v : Vehicle)
    (rs : List ReqPtr) (time : Int) (r : Int × List NodeStop)
    (h : new_travel S net heap fuel v rs time = Except.ok r) :
    r = (-1, []) ∨ ∃ b, run_search S net heap fuel v b time = Except.ok r := by
  unfold new_travel at h
  simp only at h
  split_ifs at h with h1 h2 h3 h4
  · left
    simp only [Except.ok.injEq] at h
    exact h.symm
  · exact Or.inr ⟨_, h⟩
  · exact Or.inr ⟨_, h⟩

theorem get_time_nonneg (S : Settings) (net : Network) (hm : ∀ a b, 0 ≤ net.time_matrix a b)
    (ha : 0 ≤ S.DWELL_ALIGHT) (hp : 0 ≤ S.DWELL_PICKUP) (a b : Int) :
    0 ≤ net.get_time S a b := by
  unfold Network.get_time
  split_ifs
  · exact hp
  · exact ha
  · exact le_refl _
  · exact hm a b

theorem arrival_ge (S : Settings) (net : Network) (heap : Heap)
    (hm : ∀ a b, 0 ≤ net.time_matrix a b) (ha : 0 ≤ S.DWELL_ALIGHT) (hp : 0 ≤ S.DWELL_PICKUP)
    (loc time : Int) (prev : Action) (ns : NodeStop) :
    time ≤ arrival S net heap loc time prev ns := by
  have := get_time_nonneg S net hm ha hp loc ns.node
  unfold arrival
  simp only
  split_ifs <;> omega

theorem finalTime_ge (S : Settings) (net : Network) (heap : Heap)
    (hm : ∀ a b, 0 ≤ net.time_matrix a b) (ha : 0 ≤ S.DWELL_ALIGHT) (hp : 0 ≤ S.DWELL_PICKUP) :
    ∀ (stops : List NodeStop) (loc time : Int) (prev : Action),
      time ≤ finalTime S net heap loc time prev stops := by
  intro stops
  induction stops with
  | nil => intro loc time prev; exact le_refl _
  | cons ns rest ih =>
    intro loc time prev
    exact le_trans (arrival_ge S net heap hm ha hp loc time prev ns) (ih _ _ _)

/-- What a successful STANDARD or MEMORY call returned: the pair `(-1, [])`, or stops
whose replay from the vehicle keeps every promise, with the final time of the replay as
cost (less the epoch time when it is not negative). -/
theorem travel_ok (S : Settings) (net : Network) (heap : Heap) (fuel : Nat) (v : Vehicle)
    (rs : List ReqPtr) (trigger : Purpose) (time : Int) (r : Int × List NodeStop)
    (ht : trigger ≠ Purpose.REBALANCING)
    (h : travel S net heap fuel v rs trigger time = Except.ok r) :
    r = (-1, []) ∨
      (ReplayOk S net heap v.capacity v.node (time + v.offset) Action.NO_ACTION
          v.passengers.length r.2
        ∧ r.1 = (if finalTime S net heap v.node (time + v.offset) Action.NO_ACTION r.2 ≥ 0
          then finalTime S net heap v.node (time + v.offset) Action.NO_ACTION r.2 - time
          else finalTime S net heap v.node (time + v.offset) Action.NO_ACTION r.2)) := by
  have key : ∀ b, run_search S net heap fuel v b time = Except.ok r →
      r = (-1, []) ∨
      (ReplayOk S net heap v.capacity v.node (time + v.offset) Action.NO_ACTION
          v.passengers.length r.2
        ∧ r.1 = (if finalTime S net heap v.node (time + v.offset) Action.NO_ACTION r.2 ≥ 0
          then finalTime S net heap v.node (time + v.offset) Action.NO_ACTION r.2 - time
          else finalTime S net heap v.node (time + v.offset) Action.NO_ACTION r.2)) := by
    intro b hb
    obtain ⟨_, hr | ⟨ms, c, hrun, hr⟩⟩ := run_search_ok S net heap fuel v b time r hb
    · exact Or.inl hr
    · right
      have h1 := run_finalTime _ _ _ _ _ _ _ _ hrun
      have h2 := run_replayOk _ v.capacity _ _ _ _ _ _ _ hrun
      simp only at h1 h2
      rw [hr]
      simp only [h1]
      refine ⟨?_, trivial⟩
      have e : v.capacity - (v.capacity - (v.passengers.length : Int))
          = (v.passengers.length : Int) := by omega
      rw [e] at h2
      exact h2
  unfold travel at h
  split_ifs at h with h1
  · exact key _ h
  · rcases new_travel_ok S net heap fuel v rs time r h with hr | ⟨b, hb⟩
    · exact Or.inl hr
    · exact key b hb

/-- Claim C3: under the VMT objective, a STANDARD or MEMORY result with a cost that is
not negative has as cost the arrival time at the last stop of the returned sequence,
replayed in the returned order from the vehicle, minus the epoch time (the offset of the
vehicle when the sequence is empty); and a result with a negative cost is the pair of
the cost -1 and the empty sequence.  The second part is stated for times as the program
produces them: an epoch time, an offset, travel times and dwell times that are not
negative. -/
theorem oracle_cost_convention (S : Settings) (net : Network) (heap : Heap) (fuel : Nat)
    (v : Vehicle) (rs : List ReqPtr) (trigger : Purpose) (time cost : Int)
    (stops : List NodeStop)
    (_hv : S.CTSP_OBJECTIVE = CtspObjective.CTSP_VMT)
    (ht : trigger = Purpose.STANDARD ∨ trigger = Purpose.MEMORY)
    (h : travel S net heap fuel v rs trigger time = Except.ok (cost, stops)) :
    (0 ≤ cost →
      cost = finalTime S net heap v.node (time + v.offset) Action.NO_ACTION stops - time)
    ∧ (0 ≤ cost → stops = [] → cost = v.offset)
    ∧ (NonNegTimes S net v time → cost < 0 → cost = -1 ∧ stops = []) := by
  have ht2 : trigger ≠ Purpose.REBALANCING := by
    rcases ht with ht | ht <;> rw [ht] <;> decide
  rcases travel_ok S net heap fuel v rs trigger time _ ht2 h with hr | ⟨_, hc⟩
  · simp only [Prod.mk.injEq] at hr
    refine ⟨fun h0 => ?_, fun h0 => ?_, fun _ _ => hr⟩ <;> omega
  · simp only at hc
    refine ⟨fun h0 => ?_, fun h0 hs => ?_, fun hn hlt => ?_⟩
    · split_ifs at hc <;> omega
    · rw [hs] at hc
      simp only [finalTime] at hc
      split_ifs at hc <;> omega
    · exfalso
      obtain ⟨h1, h2, h3, h4, h5⟩ := hn
      have := finalTime_ge S net heap h3 h4 h5 stops v.node (time + v.offset) Action.NO_ACTION
      split_ifs at hc <;> omega

theorem oracle_cost_convention_witness :
    (exSettings Ctsp.FULL).CTSP_OBJECTIVE = CtspObjective.CTSP_VMT
      ∧ travel (exSettings Ctsp.FULL) exNet exHeap 5 exVehicle [1, 2] Purpose.STANDARD 0
        = Except.ok (140, exPlan)
      ∧ ((0 : Int) ≤ 140 →
        (140 : Int) = finalTime (exSettings Ctsp.FULL) exNet exHeap exVehicle.node
          (0 + exVehicle.offset) Action.NO_ACTION exPlan - 0) :=
  ⟨rfl, by rfl,
    (oracle_cost_convention (exSettings Ctsp.FULL) exNet exHeap 5 exVehicle [1, 2]
      Purpose.STANDARD 0 140 exPlan rfl (Or.inl rfl) (by rfl)).1⟩

theorem run_cons_inv (ctx : Ctx) (loc cap : Int) (avail : List Nat) (time : Int)
    (prev : Action) (m : Nat) (ms : List Nat) (c : Int)
    (h : Run ctx loc cap avail time prev (m :: ms) c) :
    stepOk ctx loc cap avail time prev m
      ∧ Run ctx (ctx.stop m).node (new_residual (ctx.stop m) cap) (remaining_nodes ctx avail m)
        (arrival ctx.S ctx.net ctx.heap loc time prev (ctx.stop m)) (actionOf (ctx.stop m))
        ms c := by
  cases h with
  | cons _ _ _ _ _ _ _ _ hs hrun => exact ⟨hs, hrun⟩

theorem run_nil_inv (ctx : Ctx) (loc cap : Int) (avail : List Nat) (time : Int)
    (prev : Action) (c : Int) (h : Run ctx loc cap avail time prev [] c) :
    avail = [] ∧ c = time := by
  cases h with
  | nil => exact ⟨rfl, rfl⟩

theorem run_chainOk (ctx : Ctx) (loc cap : Int) (avail : List Nat) (time : Int)
    (prev : Action) (ms : List Nat) (c : Int) (h : Run ctx loc cap avail time prev ms c) :
    ChainOk ctx.S ctx.net ctx.heap loc cap time prev (ms.map ctx.stop) := by
  induction h with
  | nil => trivial
  | cons loc cap avail time prev m ms c hs hrun ih =>
    obtain ⟨_, hcap, hw, hd, hreach⟩ := hs
    simp only [List.map_cons, ChainOk]
    refine ⟨hcap, hw, hd, ?_, ih⟩
    intro nx hnx
    cases ms with
    | nil => simp at hnx
    | cons m2 ms2 =>
      have hs2 := (run_cons_inv _ _ _ _ _ _ _ _ _ hrun).1
      simp only [List.map_cons, List.head?_cons, Option.mem_def, Option.some.injEq] at hnx
      subst hnx
      have hall := (List.all_eq_true.mp hreach) m2 hs2.1
      simp only [Ctx.req, Bool.not_eq_true', Bool.or_eq_false_iff, Bool.and_eq_false_imp,
        decide_eq_false_iff_not, Bool.not_eq_true, Bool.not_eq_false'] at hall
      rintro (⟨h1, h2⟩ | ⟨h1, h2⟩)
      · exact hall.1 h1 h2
      · have := hall.2 (by simpa using h1)
        exact this h2

theorem memory_stop (S : Settings) (net : Network) (heap : Heap) (v : Vehicle) (j : Nat)
    (hj : j < v.order_record.length) :
    Ctx.stop ⟨S, net, heap, (memory_build v).nodes, (memory_build v).meta_nodes⟩ j
      = v.order_record.getD j ⟨0, false, 0⟩ := by
  simp only [Ctx.stop, memory_metaAt S net heap v j hj, Ctx.nodeAt]
  rfl

theorem memory_remaining (S : Settings) (net : Network) (heap : Heap) (v : Vehicle) (j : Nat)
    (hj : j < v.order_record.length) :
    remaining_nodes ⟨S, net, heap, (memory_build v).nodes, (memory_build v).meta_nodes⟩ [j] j
      = if j + 1 < v.order_record.length then [j + 1] else [] := by
  unfold remaining_nodes
  rw [memory_metaAt S net heap v j hj]
  simp only [ne_eq, not_true_eq_false, decide_False, List.filter_cons_of_neg,
    Bool.false_eq_true, not_false_eq_true, List.filter_nil]
  split_ifs <;> simp [setInsertAll, setInsert]

theorem memory_search (S : Settings) (net : Network) (heap : Heap) (v : Vehicle) :
    ∀ (suffix : List NodeStop) (j fuel : Nat) (loc cap time : Int) (prev : Action) (c : Int),
      v.order_record.drop j = suffix →
      suffix.length + 1 ≤ fuel →
      ChainOk S net heap loc cap time prev suffix →
      finalTime S net heap loc time prev suffix = c → c ≠ -1 →
      recursive_search ⟨S, net, heap, (memory_build v).nodes, (memory_build v).meta_nodes⟩
        fuel loc cap (if j < v.order_record.length then [j] else []) time (-1) prev
        = some (c, (List.range' j suffix.length).reverse) := by
  intro suffix
  induction suffix with
  | nil =>
    intro j fuel loc cap time prev c hdrop hfuel _ hfin _
    obtain ⟨f, rfl⟩ : ∃ f, fuel = f + 1 := ⟨fuel - 1, by simp at hfuel; omega⟩
    have hj : ¬ j < v.order_record.length := by
      intro hj
      have := congrArg List.length hdrop
      simp at this
      omega
    simp only [finalTime] at hfin
    simp [recursive_search, hj, hfin]
  | cons ns rest ih =>
    intro j fuel loc cap time prev c hdrop hfuel hok hfin hc
    obtain ⟨f, rfl⟩ : ∃ f, fuel = f + 1 := ⟨fuel - 1, by simp at hfuel; omega⟩
    have hj : j < v.order_record.length := by
      by_contra hj
      have := congrArg List.length hdrop
      simp at this
      omega
    have hns : v.order_record.getD j ⟨0, false, 0⟩ = ns := by
      have := congrArg List.head? hdrop
      simp only [List.head?_drop, List.head?_cons] at this
      simp [List.getD_eq_getElem?_getD, this]
    have hrest : v.order_record.drop (j + 1) = rest := by
      have := congrArg List.tail hdrop
      simpa [List.tail_drop] using this
    have hstop := memory_stop S net heap v j hj
    rw [hns] at hstop
    obtain ⟨hcap, hw, hd, hreach, hok2⟩ := hok
    simp only [finalTime] at hfin
    have hrec := ih (j + 1) f ns.node (new_residual ns cap)
      (arrival S net heap loc time prev ns) (actionOf ns) c hrest
      (by simp at hfuel ⊢; omega) hok2 hfin hc
    have hmeta := memory_metaAt S net heap v j hj
    have hrem := memory_remaining S net heap v j hj
    have hreach2 : basic_reachability
        ⟨S, net, heap, (memory_build v).nodes, (memory_build v).meta_nodes⟩ ns.node
        (arrival S net heap loc time prev ns)
        (if j + 1 < v.order_record.length then [j + 1] else []) = true := by
      split_ifs with hj1
      · have hs1 := memory_stop S net heap v (j + 1) hj1
        have hnx : (v.order_record.getD (j + 1) ⟨0, false, 0⟩) ∈ rest.head? := by
          rw [← hrest]
          simp [List.head?_drop, List.getD_eq_getElem?_getD, List.getElem?_eq_getElem hj1]
        have := hreach _ hnx
        simp only [basic_reachability, List.all_cons, List.all_nil, Bool.and_true, Ctx.req, hs1]
        simp only [not_or, not_and, not_lt] at this
        simp only [gt_iff_lt, Bool.not_eq_true', Bool.or_eq_false_iff, Bool.and_eq_false_imp,
          decide_eq_false_iff_not, not_lt, Bool.not_eq_true, Bool.not_eq_false']
        refine ⟨fun h => ?_, fun h => ?_⟩
        · have := this.1 h; omega
        · have := this.2 (by simpa using h); omega
      · rfl
    rw [recursive_search]
    simp only [hj, if_true, List.isEmpty_cons, Bool.false_eq_true, if_false]
    rw [search_loop]
    simp only [Option.any_none, Bool.false_eq_true, if_false, hstop, ne_eq, not_true_eq_false,
      false_and, hrem, hreach2, hmeta, Ctx.req]
    rw [if_neg (not_lt.mpr hcap), if_neg hw, if_neg hd, hrec]
    simp only [hc, if_false, true_or, if_true, search_loop]
    simp [List.range'_succ]

theorem memory_run_search (S : Settings) (net : Network) (heap : Heap) (v : Vehicle)
    (time : Int) (fuel : Nat) (c : Int)
    (hv : S.CTSP_OBJECTIVE = CtspObjective.CTSP_VMT)
    (hfuel : v.order_record.length + 1 ≤ fuel)
    (hok : ChainOk S net heap v.node (v.capacity - v.passengers.length) (time + v.offset)
      Action.NO_ACTION v.order_record)
    (hfin : finalTime S net heap v.node (time + v.offset) Action.NO_ACTION v.order_record = c)
    (hc : 0 ≤ c) :
    run_search S net heap fuel v (memory_build v) time
      = Except.ok (c - time, v.order_record) := by
  have hs := memory_search S net heap v v.order_record 0 fuel v.node
    (v.capacity - v.passengers.length) (time + v.offset) Action.NO_ACTION c (by simp) hfuel
    hok hfin (by omega)
  have hav : setInsertAll (mnsLt ⟨S, net, heap, (memory_build v).nodes,
      (memory_build v).meta_nodes⟩) (memory_build v).initially_available []
      = if 0 < v.order_record.length then [0] else [] := by
    simp only [memory_build]
    split_ifs with h1 h2 h2
    · rfl
    · omega
    · omega
    · rfl
  unfold run_search recursive_search_set
  rw [if_pos hv, hav, hs]
  simp only [format_path, hv, true_and, ge_iff_le, hc, if_true, List.reverse_reverse,
    Except.ok.injEq, Prod.mk.injEq]
  exact map_getD_range v.order_record ⟨0, false, 0⟩

/-- Claim C5: if the STANDARD oracle returns a cost that is not negative and a stop
sequence, the MEMORY oracle called at the same epoch time on the same vehicle with its
order record set to that sequence returns the same cost and the same sequence (with any
fuel above the length of the sequence). -/
theorem memory_after_standard (S : Settings) (net : Network) (heap : Heap) (fuel : Nat)
    (v : Vehicle) (rs : List ReqPtr) (time cost : Int) (stops : List NodeStop)
    (h : travel S net heap fuel v rs Purpose.STANDARD time = Except.ok (cost, stops))
    (hcost : 0 ≤ cost) :
    ∀ (fuel2 : Nat) (rs2 : List ReqPtr), stops.length + 1 ≤ fuel2 →
      travel S net heap fuel2 (v.withOrder stops) rs2 Purpose.MEMORY time
        = Except.ok (cost, stops) := by
  intro fuel2 rs2 hfuel
  have h1 : new_travel S net heap fuel v rs time = Except.ok (cost, stops) := by
    simpa [travel] using h
  rcases new_travel_ok S net heap fuel v rs time _ h1 with hr | ⟨b, hb⟩
  · simp only [Prod.mk.injEq] at hr
    omega
  · obtain ⟨hv, hr | ⟨ms, c, hrun, hr⟩⟩ := run_search_ok S net heap fuel v b time _ hb
    · simp only [Prod.mk.injEq] at hr
      omega
    · simp only [Prod.mk.injEq] at hr
      obtain ⟨hr1, hr2⟩ := hr
      have hc : 0 ≤ c := by
        split_ifs at hr1 with h0
        · exact h0
        · omega
      rw [if_pos hc] at hr1
      have hchain := run_chainOk _ _ _ _ _ _ _ _ hrun
      have hfin := run_finalTime _ _ _ _ _ _ _ _ hrun
      simp only at hchain hfin
      rw [← hr2] at hchain hfin
      have := memory_run_search S net heap (v.withOrder stops) time fuel2 c hv hfuel hchain hfin
        hc
      simp only [travel, if_true, memory]
      rw [this, hr1]
      rfl

theorem memory_after_standard_witness :
    travel (exSettings Ctsp.FULL) exNet exHeap 5 exVehicle [1, 2] Purpose.STANDARD 0
        = Except.ok (140, exPlan)
      ∧ (0 : Int) ≤ 140
      ∧ travel (exSettings Ctsp.FULL) exNet exHeap 5 (exVehicle.withOrder exPlan) []
        Purpose.MEMORY 0 = Except.ok (140, exPlan) :=
  ⟨by rfl, by decide,
    memory_after_standard (exSettings Ctsp.FULL) exNet exHeap 5 exVehicle [1, 2] 0 140 exPlan
      (by rfl) (by decide) 5 [] (by decide)⟩

theorem visits_congr (unl : Nat → List Nat) (A B : Nat → Prop) (ms : List Nat)
    (h : Visits unl A ms) : (∀ x, A x ↔ B x) → Visits unl B ms := by
  induction h generalizing B with
  | nil A hA => intro hAB; exact Visits.nil B (fun x hx => hA x ((hAB x).mpr hx))
  | cons A m ms hm _ ih =>
    intro hAB
    refine Visits.cons B m ms ((hAB m).mp hm) (ih _ ?_)
    intro x
    simp only [nextAvail, hAB]

theorem run_visits (ctx : Ctx) (loc cap : Int) (avail : List Nat) (time : Int)
    (prev : Action) (ms : List Nat) (c : Int) (h : Run ctx loc cap avail time prev ms c) :
    Visits ctx.unl (fun x => x ∈ avail) ms := by
  induction h with
  | nil => exact Visits.nil _ (fun x hx => by simp at hx)
  | cons loc cap avail time prev m ms c hs _ ih =>
    refine Visits.cons _ m ms hs.1 (visits_congr _ _ _ _ ih ?_)
    intro x
    simp only [nextAvail, Ctx.unl]
    exact mem_remaining_nodes ctx avail m x

theorem forest_all_visited (n : Nat) (unl : Nat → List Nat) (par : Nat → Option Nat)
    (rk : Nat → Nat) (hf : Forest n unl par rk) (W : Nat → Prop)
    (hempty : ∀ x, ¬ availAfter n par W x) : ∀ (k x : Nat), rk x < k → x < n → W x := by
  intro k
  induction k with
  | zero => intro x h; omega
  | succ k ih =>
    intro x hk hx
    by_contra hW
    cases hp : par x with
    | none => exact hempty x ⟨hx, hW, Or.inl hp⟩
    | some y =>
      have hy := ih y (by have := hf.rank x y hp; omega) (hf.parent_lt x y hp)
      exact hempty x ⟨hx, hW, Or.inr ⟨y, hp, hy⟩⟩

/-- In a forest, a sequence of visits from the state after `W` visits each unvisited
node once, and the parent of a node before the node. -/
theorem forest_visits (n : Nat) (unl : Nat → List Nat) (par : Nat → Option Nat)
    (rk : Nat → Nat) (hf : Forest n unl par rk) :
    ∀ (ms : List Nat) (W : Nat → Prop),
      (∀ m, W m → ∀ y, par m = some y → W y) →
      Visits unl (availAfter n par W) ms →
      ms.Nodup ∧ (∀ x, x ∈ ms ↔ (x < n ∧ ¬ W x))
        ∧ (∀ pre x post y, ms = pre ++ x :: post → par x = some y → W y ∨ y ∈ pre) := by
  intro ms
  induction ms with
  | nil =>
    intro W _ hv
    cases hv with
    | nil _ hA =>
      refine ⟨List.nodup_nil, ?_, ?_⟩
      · intro x
        simp only [List.not_mem_nil, false_iff, not_and, not_not]
        intro hx
        exact forest_all_visited n unl par rk hf W hA (rk x + 1) x (by omega) hx
      · intro pre x post y h
        simp at h
  | cons m ms ih =>
    intro W hclosed hv
    cases hv with
    | cons _ _ _ hm hrest =>
      obtain ⟨hmn, hmW, hmp⟩ := hm
      have hclosed2 : ∀ k, (W k ∨ k = m) → ∀ y, par k = some y → (W y ∨ y = m) := by
        rintro k (hk | hk) y hy
        · exact Or.inl (hclosed k hk y hy)
        · subst hk
          rcases hmp with hp | ⟨y2, hp, hW2⟩
          · rw [hp] at hy; simp at hy
          · rw [hp] at hy
            simp only [Option.some.injEq] at hy
            subst hy
            exact Or.inl hW2
      have hnext : ∀ x, nextAvail unl (availAfter n par W) m x
          ↔ availAfter n par (fun k => W k ∨ k = m) x := by
        intro x
        simp only [nextAvail, availAfter, hf.children]
        constructor
        · rintro (⟨⟨hx, hxW, hxp⟩, hxm⟩ | ⟨_, hx, hp⟩)
          · refine ⟨hx, by tauto, ?_⟩
            rcases hxp with h | ⟨y, h1, h2⟩
            · exact Or.inl h
            · exact Or.inr ⟨y, h1, Or.inl h2⟩
          · have hne : x ≠ m := by
              intro h
              subst h
              have := hf.rank x x hp
              omega
            refine ⟨hx, ?_, Or.inr ⟨m, hp, Or.inr rfl⟩⟩
            rintro (h | h)
            · exact hmW (hclosed x h m hp)
            · exact hne h
        · rintro ⟨hx, hxW, hxp⟩
          have hxW1 : ¬ W x := fun h => hxW (Or.inl h)
          have hxm : x ≠ m := fun h => hxW (Or.inr h)
          rcases hxp with h | ⟨y, h1, h2 | h2⟩
          · exact Or.inl ⟨⟨hx, hxW1, Or.inl h⟩, hxm⟩
          · exact Or.inl ⟨⟨hx, hxW1, Or.inr ⟨y, h1, h2⟩⟩, hxm⟩
          · subst h2
            exact Or.inr ⟨hmn, hx, h1⟩
      obtain ⟨hnd, hmem, hord⟩ := ih (fun k => W k ∨ k = m) hclosed2
        (visits_congr _ _ _ _ hrest hnext)
      refine ⟨?_, ?_, ?_⟩
      · refine List.nodup_cons.mpr ⟨?_, hnd⟩
        intro h
        exact ((hmem m).mp h).2 (Or.inr rfl)
      · intro x
        rw [List.mem_cons, hmem]
        constructor
        · rintro (h | ⟨h1, h2⟩)
          · subst h; exact ⟨hmn, hmW⟩
          · exact ⟨h1, fun h => h2 (Or.inl h)⟩
        · rintro ⟨h1, h2⟩
          by_cases hx : x = m
          · exact Or.inl hx
          · exact Or.inr ⟨h1, by tauto⟩
      · intro pre x post y hsplit hp
        cases pre with
        | nil =>
          simp only [List.nil_append, List.cons.injEq] at hsplit
          obtain ⟨h1, _⟩ := hsplit
          subst h1
          rcases hmp with h | ⟨y2, h1, h2⟩
          · rw [h] at hp; simp at hp
          · rw [h1] at hp
            simp only [Option.some.injEq] at hp
            subst hp
            exact Or.inl h2
        | cons p pre2 =>
          simp only [List.cons_append, List.cons.injEq] at hsplit
          obtain ⟨h1, h2⟩ := hsplit
          subst h1
          rcases hord pre2 x post y h2 hp with (h | h) | h
          · exact Or.inl h
          · exact Or.inr (by rw [h]; exact List.mem_cons_self _ _)
          · exact Or.inr (List.mem_cons_of_mem _ h)

theorem requestMetas_length (k : Nat) : ∀ off, (requestMetas off k).length = 2 * k := by
  induction k with
  | zero => intro off; rfl
  | succ k ih => intro off; simp [requestMetas, ih]; omega

theorem requestMetas_succ (k : Nat) : ∀ off,
    requestMetas off (k + 1)
      = requestMetas off k ++ [⟨off + 2 * k + 1, []⟩, ⟨off + 2 * k, [off + 2 * k]⟩] := by
  induction k with
  | zero => intro off; simp [requestMetas]
  | succ k ih =>
    intro off
    rw [requestMetas, ih (off + 2)]
    simp only [requestMetas, List.cons_append]
    have e : off + 2 + 2 * k = off + 2 * (k + 1) := by omega
    rw [e]

theorem foldl_add_request (heap : Heap) : ∀ (rs : List ReqPtr) (b : Build),
    b.nodes.length = b.meta_nodes.length →
    (rs.foldl (add_request heap) b).nodes = b.nodes ++ requestNodes heap rs
    ∧ (rs.foldl (add_request heap) b).meta_nodes
        = b.meta_nodes ++ requestMetas b.nodes.length rs.length
    ∧ (∀ x, x ∈ (rs.foldl (add_request heap) b).initially_available
        ↔ (x ∈ b.initially_available ∨ ∃ i < rs.length, x = b.nodes.length + 2 * i + 1)) := by
  intro rs
  induction rs with
  | nil => intro b _; simp [requestNodes, requestMetas]
  | cons r rs ih =>
    intro b hb
    have h := ih (add_request heap b r) (by simp [add_request, hb])
    obtain ⟨h1, h2, h3⟩ := h
    simp only [List.foldl_cons]
    refine ⟨?_, ?_, ?_⟩
    · rw [h1]; simp [add_request, requestNodes]
    · rw [h2]
      simp only [add_request, List.length_append, List.length_cons, List.length_nil,
        List.append_assoc, List.cons_append, List.nil_append, requestMetas, hb]
      simp
    · intro x
      rw [h3]
      simp only [add_request, List.length_append, List.length_cons, List.length_nil,
        mem_setInsert ptrLt separating_ptrLt, hb]
      constructor
      · rintro ((h | h) | ⟨i, hi, h⟩)
        · exact Or.inr ⟨0, by simp, by omega⟩
        · exact Or.inl h
        · exact Or.inr ⟨i + 1, by simp; omega, by omega⟩
      · rintro (h | ⟨i, hi, h⟩)
        · exact Or.inl (Or.inr h)
        · cases i with
          | zero => exact Or.inl (Or.inl (by omega))
          | succ i => exact Or.inr ⟨i, by simp at hi; omega, by omega⟩

theorem foldl_add_onboard : ∀ (order : List NodeStop) (b : Build) (s : List ReqPtr),
    (order.foldl add_onboard (b, s)).1.nodes = b.nodes ++ onboardStops s order
    ∧ (order.foldl add_onboard (b, s)).1.meta_nodes
        = b.meta_nodes ++ onboardMetas b.nodes.length (onboardStops s order).length
    ∧ (order.foldl add_onboard (b, s)).1.initially_available = b.initially_available := by
  intro order
  induction order with
  | nil => intro b s; simp [onboardStops, onboardMetas]
  | cons ns rest ih =>
    intro b s
    simp only [List.foldl_cons]
    by_cases hns : ns.r ∈ s
    · have e : add_onboard (b, s) ns
          = (⟨b.nodes ++ [ns], b.meta_nodes ++ [⟨b.nodes.length, []⟩], b.initially_available⟩,
            setErase ptrLt ns.r s) := by
        simp [add_onboard, hns]
      rw [e]
      obtain ⟨h1, h2, h3⟩ := ih ⟨b.nodes ++ [ns], b.meta_nodes ++ [⟨b.nodes.length, []⟩],
        b.initially_available⟩ (setErase ptrLt ns.r s)
      refine ⟨?_, ?_, ?_⟩
      · rw [h1]; simp [onboardStops, hns]
      · rw [h2]
        simp [onboardStops, hns, onboardMetas, List.range'_succ]
      · rw [h3]
    · have e : add_onboard (b, s) ns = (b, s) := by simp [add_onboard, hns]
      rw [e]
      simpa [onboardStops, hns] using ih b s

theorem requestMetas_getD (k : Nat) : ∀ (off m : Nat), m < 2 * k →
    (requestMetas off k).getD m ⟨0, []⟩
      = if m % 2 = 0 then ⟨off + m + 1, []⟩ else ⟨off + m - 1, [off + m - 1]⟩ := by
  induction k with
  | zero => intro off m h; omega
  | succ k ih =>
    intro off m h
    match m with
    | 0 => simp [requestMetas]
    | 1 => simp [requestMetas]
    | m + 2 =>
      have := ih (off + 2) m (by omega)
      simp only [requestMetas, List.getD_cons_succ, this]
      have e1 : (m + 2) % 2 = m % 2 := by omega
      rw [e1]
      split_ifs
      · have e : off + 2 + m + 1 = off + (m + 2) + 1 := by omega
        rw [e]
      · have e : off + 2 + m - 1 = off + (m + 2) - 1 := by omega
        rw [e]

theorem requestNodes_length (heap : Heap) (rs : List ReqPtr) :
    (requestNodes heap rs).length = 2 * rs.length := by
  induction rs with
  | nil => rfl
  | cons r rs ih =>
    simp only [requestNodes, List.flatMap_cons, List.length_append, List.length_cons,
      List.length_nil] at ih ⊢
    omega

theorem requestNodes_getD (heap : Heap) : ∀ (rs : List ReqPtr) (i : Nat), i < rs.length →
    (requestNodes heap rs).getD (2 * i) ⟨0, false, 0⟩
        = ⟨rs.getD i 0, true, (heap (rs.getD i 0)).origin⟩
    ∧ (requestNodes heap rs).getD (2 * i + 1) ⟨0, false, 0⟩
        = ⟨rs.getD i 0, false, (heap (rs.getD i 0)).destination⟩ := by
  intro rs
  induction rs with
  | nil => intro i h; simp at h
  | cons r rs ih =>
    intro i h
    match i with
    | 0 => simp [requestNodes]
    | i + 1 =>
      have := ih i (by simpa using h)
      simp only [requestNodes, List.flatMap_cons] at this ⊢
      have e1 : 2 * (i + 1) = (2 * i + 1) + 1 := by omega
      rw [e1]
      simp only [List.cons_append, List.nil_append, List.getD_cons_succ]
      exact this

theorem build_stops_eq (heap : Heap) (v : Vehicle) (rs : List ReqPtr) :
    (build_stops heap v rs).nodes
        = requestNodes heap rs ++ onboardStops (onboardSet v) v.order_record
    ∧ (build_stops heap v rs).meta_nodes
        = baseMetas rs.length (onboardStops (onboardSet v) v.order_record).length
    ∧ (∀ x, x ∈ (build_stops heap v rs).initially_available
        ↔ ∃ i < rs.length, x = 2 * i + 1) := by
  obtain ⟨a1, a2, a3⟩ := foldl_add_request heap rs ⟨[], [], []⟩ rfl
  obtain ⟨b1, b2, b3⟩ := foldl_add_onboard v.order_record
    (rs.foldl (add_request heap) ⟨[], [], []⟩) (setInsertAll ptrLt v.passengers [])
  unfold build_stops onboardSet baseMetas
  refine ⟨?_, ?_, ?_⟩
  · rw [b1, a1]; simp
  · rw [b2, a2, a1]; simp [requestNodes_length]
  · intro x
    rw [b3, a3]
    simp

theorem set_unlocks_length (ms : List MetaNodeStop) (i : Nat) (u : List Nat) :
    (set_unlocks ms i u).length = ms.length := by
  simp [set_unlocks]

theorem set_unlocks_getD (ms : List MetaNodeStop) (i : Nat) (u : List Nat) (m : Nat) :
    (set_unlocks ms i u).getD m ⟨0, []⟩
      = if m = i ∧ i < ms.length then ⟨(ms.getD i ⟨0, []⟩).node, u⟩ else ms.getD m ⟨0, []⟩ := by
  simp only [set_unlocks, List.getD_eq_getElem?_getD, List.getElem?_set]
  by_cases h1 : i = m
  · subst h1
    by_cases h2 : i < ms.length
    · simp [h2]
    · simp [h2]
      have : ms[i]? = none := List.getElem?_eq_none (by omega)
      simp [this]
  · have h3 : ¬ m = i := fun h => h1 h.symm
    simp [h1, h3]

/-- The chain that `FIX_ONBOARD` links over the last `c + 1` meta nodes. -/
theorem link_chain (ms : List MetaNodeStop) : ∀ (c : Nat), c + 1 ≤ ms.length →
    ((List.range c).foldl
        (fun acc i => set_unlocks acc (ms.length - 2 - i) [ms.length - 1 - i]) ms).length
      = ms.length
    ∧ ∀ m, ((List.range c).foldl
        (fun acc i => set_unlocks acc (ms.length - 2 - i) [ms.length - 1 - i]) ms).getD m ⟨0, []⟩
      = if ms.length - 1 - c ≤ m ∧ m + 1 < ms.length then ⟨(ms.getD m ⟨0, []⟩).node, [m + 1]⟩
        else ms.getD m ⟨0, []⟩ := by
  intro c
  induction c with
  | zero =>
    intro h
    refine ⟨rfl, fun m => ?_⟩
    have : ¬ (ms.length - 1 - 0 ≤ m ∧ m + 1 < ms.length) := by omega
    rw [if_neg this]
    rfl
  | succ c ih =>
    intro h
    obtain ⟨h1, h2⟩ := ih (by omega)
    simp only [List.range_succ, List.foldl_append, List.foldl_cons, List.foldl_nil]
    refine ⟨by rw [set_unlocks_length, h1], fun m => ?_⟩
    rw [set_unlocks_getD, h1, h2, h2]
    by_cases hm : m = ms.length - 2 - c
    · have c1 : m = ms.length - 2 - c ∧ ms.length - 2 - c < ms.length := ⟨hm, by omega⟩
      have c2 : ¬ (ms.length - 1 - c ≤ ms.length - 2 - c ∧ ms.length - 2 - c + 1 < ms.length) := by
        omega
      have c3 : ms.length - 1 - (c + 1) ≤ m ∧ m + 1 < ms.length := by omega
      rw [if_pos c1, if_neg c2, if_pos c3]
      have e : ms.length - 1 - c = m + 1 := by omega
      rw [e, hm]
    · have c1 : ¬ (m = ms.length - 2 - c ∧ ms.length - 2 - c < ms.length) := fun h => hm h.1
      rw [if_neg c1]
      by_cases hm2 : ms.length - 1 - c ≤ m ∧ m + 1 < ms.length
      · have c3 : ms.length - 1 - (c + 1) ≤ m ∧ m + 1 < ms.length := by omega
        rw [if_pos hm2, if_pos c3]
      · have c3 : ¬ (ms.length - 1 - (c + 1) ≤ m ∧ m + 1 < ms.length) := by omega
        rw [if_neg hm2, if_neg c3]

theorem foldl_insert_range (size : Nat) : ∀ (P : Nat) (s : List Nat) (x : Nat),
    x ∈ (List.range P).foldl (fun s i => setInsert ptrLt (size - 1 - i) s) s
      ↔ (x ∈ s ∨ ∃ i < P, x = size - 1 - i) := by
  intro P
  induction P with
  | zero => intro s x; simp
  | succ P ih =>
    intro s x
    simp only [List.range_succ, List.foldl_append, List.foldl_cons, List.foldl_nil,
      mem_setInsert ptrLt separating_ptrLt, ih]
    constructor
    · rintro (h | h | ⟨i, hi, h⟩)
      · exact Or.inr ⟨P, by omega, h⟩
      · exact Or.inl h
      · exact Or.inr ⟨i, by omega, h⟩
    · rintro (h | ⟨i, hi, h⟩)
      · exact Or.inr (Or.inl h)
      · by_cases hiP : i = P
        · subst hiP; exact Or.inl h
        · exact Or.inr (Or.inr ⟨i, by omega, h⟩)

theorem baseMetas_length (n k : Nat) : (baseMetas n k).length = 2 * n + k := by
  simp [baseMetas, requestMetas_length, onboardMetas]

theorem baseMetas_getD (n k m : Nat) :
    (baseMetas n k).getD m ⟨0, []⟩
      = if m < 2 * n then (if m % 2 = 0 then ⟨m + 1, []⟩ else ⟨m - 1, [m - 1]⟩)
        else if m < 2 * n + k then ⟨m, []⟩ else ⟨0, []⟩ := by
  unfold baseMetas
  by_cases h1 : m < 2 * n
  · rw [if_pos h1, List.getD_append _ _ _ _ (by rw [requestMetas_length]; exact h1),
      requestMetas_getD n 0 m h1]
    simp
  · rw [if_neg h1, List.getD_append_right _ _ _ _ (by rw [requestMetas_length]; omega),
      requestMetas_length]
    by_cases h2 : m < 2 * n + k
    · rw [if_pos h2]
      simp only [onboardMetas, List.getD_eq_getElem?_getD, List.getElem?_map]
      rw [List.getElem?_range' _ _ (by omega)]
      simp
      omega
    · rw [if_neg h2]
      simp only [onboardMetas, List.getD_eq_getElem?_getD]
      rw [List.getElem?_eq_none (by simp; omega)]
      rfl

theorem onboardStops_mem : ∀ (order : List NodeStop) (s : List ReqPtr) (x : NodeStop),
    x ∈ onboardStops s order → x.r ∈ s ∧ order.find? (fun y => decide (y.r = x.r)) = some x := by
  intro order
  induction order with
  | nil => intro s x h; simp [onboardStops] at h
  | cons ns rest ih =>
    intro s x h
    rw [onboardStops] at h
    split_ifs at h with hs
    · rcases List.mem_cons.mp h with h | h
      · subst h
        exact ⟨hs, by simp⟩
      · obtain ⟨h1, h2⟩ := ih _ x h
        rw [mem_setErase_ptrLt] at h1
        refine ⟨h1.1, ?_⟩
        rw [List.find?_cons_of_neg _ (by simpa using fun e => h1.2 e.symm)]
        exact h2
    · obtain ⟨h1, h2⟩ := ih _ x h
      refine ⟨h1, ?_⟩
      have hne : ¬ ns.r = x.r := fun e => hs (e ▸ h1)
      rw [List.find?_cons_of_neg _ (by simpa using hne)]
      exact h2

theorem onboardStops_nodup : ∀ (order : List NodeStop) (s : List ReqPtr),
    ((onboardStops s order).map (fun x => x.r)).Nodup := by
  intro order
  induction order with
  | nil => intro s; simp [onboardStops]
  | cons ns rest ih =>
    intro s
    rw [onboardStops]
    split_ifs with hs
    · simp only [List.map_cons, List.nodup_cons, List.mem_map, not_exists, not_and]
      refine ⟨?_, ih _⟩
      intro x hx he
      have := (onboardStops_mem rest _ x hx).1
      rw [mem_setErase_ptrLt] at this
      exact this.2 he
    · exact ih _

theorem onboardStops_complete : ∀ (order : List NodeStop) (s : List ReqPtr) (p : ReqPtr),
    p ∈ s → (∃ ns ∈ order, ns.r = p) → ∃ x ∈ onboardStops s order, x.r = p := by
  intro order
  induction order with
  | nil => intro s p _ h; simp at h
  | cons ns rest ih =>
    intro s p hp hex
    rw [onboardStops]
    by_cases hnp : ns.r = p
    · rw [if_pos (hnp ▸ hp)]
      exact ⟨ns, List.mem_cons_self _ _, hnp⟩
    · have hex2 : ∃ y ∈ rest, y.r = p := by
        obtain ⟨y, hy, hyp⟩ := hex
        rcases List.mem_cons.mp hy with h | h
        · subst h; exact absurd hyp hnp
        · exact ⟨y, h, hyp⟩
      split_ifs with hs
      · obtain ⟨x, hx, hxp⟩ := ih (setErase ptrLt ns.r s) p
          ((mem_setErase_ptrLt _ _ _).mpr ⟨hp, fun e => hnp e.symm⟩) hex2
        exact ⟨x, List.mem_cons_of_mem _ hx, hxp⟩
      · exact ih s p hp hex2

theorem mem_onboardSet (v : Vehicle) (p : ReqPtr) : p ∈ onboardSet v ↔ p ∈ v.passengers := by
  simp [onboardSet, mem_setInsertAll ptrLt separating_ptrLt]

/-- When the passengers are pairwise distinct and each has a stop in the order record,
`new_travel` copies one stop per passenger. -/
theorem onboardStops_length (v : Vehicle) (hnd : v.passengers.Nodup)
    (hex : ∀ p ∈ v.passengers, ∃ ns ∈ v.order_record, ns.r = p) :
    (onboardStops (onboardSet v) v.order_record).length = v.passengers.length := by
  have h1 := onboardStops_nodup v.order_record (onboardSet v)
  have h2 : ((onboardStops (onboardSet v) v.order_record).map (fun x => x.r)).Perm
      v.passengers := by
    rw [List.perm_ext_iff_of_nodup h1 hnd]
    intro p
    constructor
    · intro hp
      obtain ⟨x, hx, hxp⟩ := List.mem_map.mp hp
      rw [← hxp, ← mem_onboardSet]
      exact (onboardStops_mem _ _ x hx).1
    · intro hp
      obtain ⟨x, hx, hxp⟩ := onboardStops_complete v.order_record (onboardSet v) p
        ((mem_onboardSet v p).mpr hp) (hex p hp)
      exact List.mem_map.mpr ⟨x, hx, hxp⟩
  have := h2.length_eq
  simpa using this

theorem forest_parOf (chain : Prop) [Decidable chain] (n N : Nat) (hN : 2 * n ≤ N) :
    Forest N (unlOf chain n N) (parOf chain n N) (rkOf n) := by
  refine ⟨?_, ?_, ?_⟩
  · intro x m
    unfold unlOf parOf
    constructor
    · intro h
      split_ifs at h with h1 h2 h3
      · simp at h
      · simp only [List.mem_singleton] at h
        subst h
        refine ⟨by omega, by omega, ?_⟩
        rw [if_pos (by omega), if_pos (by omega)]
        congr 1
        omega
      · simp only [List.mem_singleton] at h
        subst h
        refine ⟨by omega, by omega, ?_⟩
        rw [if_neg (by omega), if_pos ⟨h3.1, by omega, by omega⟩]
        rfl
      · simp at h
    · rintro ⟨hx, hm, hp⟩
      split_ifs at hp with h1 h2 h3
      · simp only [Option.some.injEq] at hp
        subst hp
        rw [if_pos (by omega), if_neg (by omega)]
        simp
      · simp only [Option.some.injEq] at hp
        subst hp
        rw [if_neg (by omega), if_pos ⟨h3.1, by omega⟩]
        simp
        omega
  · intro m y hp
    unfold parOf at hp
    split_ifs at hp with h1 h2 h3
    · simp only [Option.some.injEq] at hp; omega
    · simp only [Option.some.injEq] at hp; omega
  · intro m y hp
    unfold parOf at hp
    unfold rkOf
    split_ifs at hp with h1 h2 h3
    · simp only [Option.some.injEq] at hp
      subst hp
      rw [if_pos (by omega), if_neg (by omega), if_pos h1, if_pos h2]
      omega
    · simp only [Option.some.injEq] at hp
      subst hp
      rw [if_neg (by omega), if_neg h1]
      omega

/-- The build of `new_travel` after `link_onboard`, when one stop was copied for each
passenger: the stops, the meta nodes up to what they unlock, what they unlock, and the
available set. -/
theorem link_onboard_eq (S : Settings) (heap : Heap) (v : Vehicle) (rs : List ReqPtr)
    (hk : (onboardStops (onboardSet v) v.order_record).length = v.passengers.length) :
    (link_onboard S rs.length v.passengers.length (build_stops heap v rs)).nodes
        = requestNodes heap rs ++ onboardStops (onboardSet v) v.order_record
    ∧ SameNodes (link_onboard S rs.length v.passengers.length (build_stops heap v rs)).meta_nodes
        (baseMetas rs.length v.passengers.length)
    ∧ (∀ m, ((link_onboard S rs.length v.passengers.length
          (build_stops heap v rs)).meta_nodes.getD m ⟨0, []⟩).unlocks
        = unlOf (LinkChain S rs.length v.passengers.length) rs.length
          (2 * rs.length + v.passengers.length) m)
    ∧ (∀ x, x ∈ (link_onboard S rs.length v.passengers.length
          (build_stops heap v rs)).initially_available
        ↔ (x < 2 * rs.length + v.passengers.length
          ∧ parOf (LinkChain S rs.length v.passengers.length) rs.length
            (2 * rs.length + v.passengers.length) x = none)) := by
  obtain ⟨b1, b2, b3⟩ := build_stops_eq heap v rs
  rw [hk] at b2
  have hlen : (build_stops heap v rs).meta_nodes.length
      = 2 * rs.length + v.passengers.length := by rw [b2, baseMetas_length]
  unfold link_onboard
  by_cases hc : LinkChain S rs.length v.passengers.length
  · have hc2 := hc
    unfold LinkChain at hc2
    rw [if_pos hc2]
    simp only
    obtain ⟨c1, c2⟩ := link_chain (build_stops heap v rs).meta_nodes (v.passengers.length - 1)
      (by rw [hlen]; omega)
    refine ⟨b1, ⟨by rw [c1, hlen, baseMetas_length], fun m => ?_⟩, fun m => ?_, fun x => ?_⟩
    · rw [c2, b2]
      split_ifs <;> rfl
    · rw [c2, hlen, b2, baseMetas_getD]
      unfold unlOf
      simp only [hc, true_and]
      split_ifs <;> first | rfl | (exfalso; omega)
    · rw [mem_setInsert ptrLt separating_ptrLt, b3, hlen]
      unfold parOf
      constructor
      · rintro (h | ⟨i, hi, h⟩)
        · subst h
          refine ⟨by omega, ?_⟩
          rw [if_neg (by omega), if_neg (by omega)]
        · subst h
          refine ⟨by omega, ?_⟩
          rw [if_pos (by omega), if_neg (by omega)]
      · rintro ⟨hx, hp⟩
        split_ifs at hp with h1 h2 h3
        · exact Or.inr ⟨x / 2, by omega, by omega⟩
        · left
          have : ¬ (2 * rs.length < x) := fun h => h3 ⟨hc, h, hx⟩
          omega
  · have hc2 := hc
    unfold LinkChain at hc2
    rw [if_neg hc2]
    simp only
    refine ⟨b1, ⟨by rw [b2], fun m => by rw [b2]⟩, fun m => ?_, fun x => ?_⟩
    · rw [b2, baseMetas_getD]
      unfold unlOf
      simp only [hc, false_and, if_false]
      split_ifs <;> rfl
    · rw [foldl_insert_range, b3, hlen]
      unfold parOf
      constructor
      · rintro (⟨i, hi, h⟩ | ⟨i, hi, h⟩)
        · subst h
          refine ⟨by omega, ?_⟩
          rw [if_pos (by omega), if_neg (by omega)]
        · subst h
          refine ⟨by omega, ?_⟩
          rw [if_neg (by omega), if_neg (fun h => hc h.1)]
      · rintro ⟨hx, hp⟩
        split_ifs at hp with h1 h2 h3
        · exact Or.inl ⟨x / 2, by omega, by omega⟩
        · exact Or.inr ⟨2 * rs.length + v.passengers.length - 1 - x, by omega, by omega⟩

theorem mem_requestSet (rs : List ReqPtr) (r : ReqPtr) : r ∈ requestSet rs ↔ r ∈ rs := by
  simp [requestSet, mem_setInsertAll ptrLt separating_ptrLt]

theorem check_replicated_ok (vehicles : List Vehicle) (trip_list : List (List Trip))
    (h : check_replicated vehicles trip_list = Except.ok ()) :
    PendingCovered vehicles trip_list := by
  unfold check_replicated at h
  split_ifs at h with hall
  intro i v hv r hr
  have hi : i < vehicles.length := by
    by_contra hlt
    rw [List.getElem?_eq_none (by omega)] at hv
    simp at hv
  have hgetD : vehicles.getD i ⟨0, 0, [], [], [], 0, 0, 0⟩ = v := by
    simp [List.getD_eq_getElem?_getD, hv]
  have := (List.all_eq_true.mp hall) i (List.mem_range.mpr hi)
  rw [hgetD] at this
  obtain ⟨t, ht, heq⟩ := List.any_eq_true.mp this
  refine ⟨t, ht, ?_⟩
  have heq2 := of_decide_eq_true heq
  rw [← mem_requestSet, heq2, mem_requestSet]
  exact hr

/-- Claim C9: when `assignment` reaches the call of the solver, every pending request of
every vehicle is in a trip of the list of that vehicle; and whenever the graph stages
produce trip lists for which this fails, `assignment` raises an error. -/
theorem assigned_requests_not_dropped (S : Settings) (net : Network) (heap : Heap)
    (fuel : Nat) (clocks : Nat → Clock) (vehicles : List Vehicle) (requests : List ReqPtr)
    (time : Int) :
    (∀ trip_list, assignment_trip_list S net heap fuel clocks vehicles requests time
        = Except.ok trip_list → PendingCovered vehicles trip_list)
    ∧ (∀ trip_list, rtv_stage S net heap fuel clocks vehicles requests time
        = Except.ok trip_list → ¬ PendingCovered vehicles trip_list →
        ∃ e, assignment_trip_list S net heap fuel clocks vehicles requests time
          = Except.error e) := by
  have key : ∀ tl tl2, rtv_stage S net heap fuel clocks vehicles requests time = Except.ok tl →
      assignment_trip_list S net heap fuel clocks vehicles requests time = Except.ok tl2 →
      tl2 = tl ∧ PendingCovered vehicles tl := by
    intro tl tl2 h1 h2
    unfold assignment_trip_list at h2
    rw [h1] at h2
    simp only at h2
    cases hc1 : check_included heap vehicles requests tl with
    | error e => rw [hc1] at h2; simp at h2
    | ok u =>
      rw [hc1] at h2
      simp only at h2
      cases hc2 : check_replicated vehicles tl with
      | error e => rw [hc2] at h2; simp at h2
      | ok u2 =>
        rw [hc2] at h2
        simp only [Except.ok.injEq] at h2
        exact ⟨h2.symm, check_replicated_ok vehicles tl hc2⟩
  constructor
  · intro tl2 h2
    cases h1 : rtv_stage S net heap fuel clocks vehicles requests time with
    | error e =>
      unfold assignment_trip_list at h2
      rw [h1] at h2
      simp at h2
    | ok tl =>
      obtain ⟨e1, e2⟩ := key tl tl2 h1 h2
      rw [e1]; exact e2
  · intro tl h1 hn
    cases h2 : assignment_trip_list S net heap fuel clocks vehicles requests time with
    | error e => exact ⟨e, rfl⟩
    | ok tl2 => exact absurd (key tl tl2 h1 h2).2 hn

theorem foldE_inv {σ α : Type} (P : σ → Prop) (f : σ → α → Except Error σ)
    (hf : ∀ s a s2, P s → f s a = Except.ok s2 → P s2) :
    ∀ (l : List α) (s s2 : σ), P s → foldE f s l = Except.ok s2 → P s2 := by
  intro l
  induction l with
  | nil =>
    intro s s2 hs h
    simp only [foldE, Except.ok.injEq] at h
    rw [← h]; exact hs
  | cons a rest ih =>
    intro s s2 hs h
    rw [foldE] at h
    cases hfa : f s a with
    | error e => rw [hfa] at h; simp at h
    | ok s3 =>
      rw [hfa] at h
      exact ih s3 s2 (hf s a s3 hs hfa) h

theorem arrival_timed_ge (S : Settings) (net : Network) (heap : Heap)
    (hm : ∀ a b, 0 ≤ net.time_matrix a b) (ha : 0 ≤ S.DWELL_ALIGHT) (hp : 0 ≤ S.DWELL_PICKUP)
    (loc time : Int) (ns : NodeStop) :
    time ≤ arrival_timed S net heap loc time ns := by
  have := get_time_nonneg S net hm ha hp loc ns.node
  unfold arrival_timed
  simp only
  split_ifs <;> omega

set_option maxHeartbeats 2000000 in
theorem search_loop_timed_lb (ctx : Ctx) (clock : Clock) (rec : TimedSearch)
    (hm : ∀ a b, 0 ≤ ctx.net.time_matrix a b) (ha : 0 ≤ ctx.S.DWELL_ALIGHT)
    (hp : 0 ≤ ctx.S.DWELL_PICKUP)
    (hrec : ∀ loc cap avail time best k r, rec loc cap avail time best k = some r →
      r.1.1 = best ∨ time ≤ r.1.1)
    (loc cap : Int) (avail : List Nat) (time best0 : Int) :
    ∀ (cands : List Nat) (previous : Option Nat) (best : Int) (tail : List Nat) (k : Nat)
      (r : (Int × List Nat) × Nat),
      (best = best0 ∨ time ≤ best) →
      search_loop_timed ctx clock rec loc cap avail time cands previous best tail k = some r →
      (r.1.1 = best0 ∨ time ≤ r.1.1) := by
  intro cands
  induction cands with
  | nil =>
    intro previous best tail k r hb h
    simp only [search_loop_timed, Option.some.injEq] at h
    rw [← h]; exact hb
  | cons m rest ih =>
    intro previous best tail k r hb h
    rw [search_loop_timed] at h
    simp only at h
    split_ifs at h with h0 h1 h2 h3 h4 h5 h6
    · simp only [Option.some.injEq] at h
      rw [← h]; exact hb
    · exact ih _ _ _ _ _ hb h
    · exact ih _ _ _ _ _ hb h
    · exact ih _ _ _ _ _ hb h
    · exact ih _ _ _ _ _ hb h
    · exact ih _ _ _ _ _ hb h
    · exact ih _ _ _ _ _ hb h
    · cases hr : rec (ctx.stop m).node (new_residual (ctx.stop m) cap)
          (remaining_nodes ctx avail m)
          (arrival_timed ctx.S ctx.net ctx.heap loc time (ctx.stop m)) best
          (next_reading ctx.S k) with
      | none => rw [hr] at h; simp at h
      | some t =>
        rw [hr] at h
        simp only at h
        split_ifs at h with h7 h8
        · exact ih _ _ _ _ _ hb h
        · refine ih _ _ _ _ _ ?_ h
          right
          rcases hrec _ _ _ _ _ _ _ hr with hc | hc
          · exfalso
            rcases h8 with h8 | h8
            · rw [hc] at h7; exact h7 h8
            · rw [hc] at h8; exact lt_irrefl _ h8
          · exact le_trans (arrival_timed_ge ctx.S ctx.net ctx.heap hm ha hp loc time _) hc
        · exact ih _ _ _ _ _ hb h

theorem recursive_search_timed_lb (ctx : Ctx) (clock : Clock)
    (hm : ∀ a b, 0 ≤ ctx.net.time_matrix a b) (ha : 0 ≤ ctx.S.DWELL_ALIGHT)
    (hp : 0 ≤ ctx.S.DWELL_PICKUP) :
    ∀ (fuel : Nat) (loc cap : Int) (avail : List Nat) (time best : Int) (k : Nat)
      (r : (Int × List Nat) × Nat),
      recursive_search_timed ctx clock fuel loc cap avail time best k = some r →
      r.1.1 = best ∨ time ≤ r.1.1 := by
  intro fuel
  induction fuel with
  | zero => intro loc cap avail time best k r h; simp [recursive_search_timed] at h
  | succ n ih =>
    intro loc cap avail time best k r h
    rw [recursive_search_timed] at h
    simp only at h
    split_ifs at h with he
    · simp only [Option.some.injEq] at h
      rw [← h]
      exact Or.inr (le_refl _)
    · exact search_loop_timed_lb ctx clock _ hm ha hp ih loc cap avail time best avail none
        best [] k r (Or.inl rfl) h

theorem format_path_cost (S : Settings) (nodes : List NodeStop) (p : Int × List Nat)
    (time offset : Int) (h0 : 0 ≤ time) (ho : 0 ≤ offset)
    (hp : p.1 = -1 ∨ time + offset ≤ p.1) :
    (format_path S nodes p time).1 = -1 ∨ 0 ≤ (format_path S nodes p time).1 := by
  simp only [format_path]
  split_ifs <;> omega

/-- With times that are not negative, a cost returned by `time_travel` in STANDARD mode
is -1 or is not negative. -/
theorem time_travel_cost (S : Settings) (net : Network) (heap : Heap) (fuel : Nat)
    (clock : Clock) (v : Vehicle) (rs : List ReqPtr) (time : Int) (k : Nat)
    (r : (Int × List NodeStop) × Nat) (hn : NonNegTimes S net v time)
    (h : time_travel S net heap fuel clock v rs Purpose.STANDARD time k = Except.ok r) :
    r.1.1 = -1 ∨ 0 ≤ r.1.1 := by
  obtain ⟨h0, ho, hm, ha, hp⟩ := hn
  unfold time_travel at h
  split_ifs at h with hz
  · cases ht : travel S net heap fuel v rs Purpose.STANDARD time with
    | error e => rw [ht] at h; simp at h
    | ok p =>
      rw [ht] at h
      simp only [Except.ok.injEq] at h
      rw [← h]
      rcases travel_ok S net heap fuel v rs Purpose.STANDARD time p (by decide) ht with
        hr | ⟨_, hc⟩
      · left; rw [hr]
      · right
        have := finalTime_ge S net heap hm ha hp p.2 v.node (time + v.offset) Action.NO_ACTION
        simp only at hc ⊢
        split_ifs at hc <;> omega
  · unfold new_time_travel at h
    simp only at h
    have key : ∀ b, run_search_timed S net heap fuel clock v b time k = Except.ok r →
        r.1.1 = -1 ∨ 0 ≤ r.1.1 := by
      intro b hb
      unfold run_search_timed at hb
      split_ifs at hb with hv
      cases hs : recursive_search_timed ⟨S, net, heap, b.nodes, b.meta_nodes⟩ clock fuel v.node
          (v.capacity - v.passengers.length)
          (setInsertAll (mnsLt ⟨S, net, heap, b.nodes, b.meta_nodes⟩) b.initially_available [])
          (time + v.offset) (-1) k with
      | none => rw [hs] at hb; simp at hb
      | some opt =>
        rw [hs] at hb
        simp only [Except.ok.injEq] at hb
        rw [← hb]
        exact format_path_cost S b.nodes opt.1 time v.offset h0 ho
          (recursive_search_timed_lb ⟨S, net, heap, b.nodes, b.meta_nodes⟩ clock hm ha hp
            fuel _ _ _ _ _ _ _ hs)
    split_ifs at h with h1 h2 h3 h4
    · simp only [Except.ok.injEq] at h
      left; rw [← h]
    · exact key _ h
    · exact key _ h

theorem mem_compact : ∀ (fuel : Nat) (l : List Trip) (i : Nat) (t : Trip),
    t ∈ compact fuel l i → t ∈ l := by
  intro fuel
  induction fuel with
  | zero => intro l i t h; simpa [compact] using h
  | succ n ih =>
    intro l i t h
    rw [compact] at h
    split_ifs at h with h1 h2
    · have h3 := ih _ _ _ h
      have h4 := List.mem_of_mem_dropLast h3
      rcases List.mem_or_eq_of_mem_set h4 with h5 | h5
      · exact h5
      · rw [h5]
        cases l with
        | nil => simp at h1
        | cons a rest =>
          rw [List.getLastD_cons]
          exact List.getLastD_mem_cons _ _
    · exact ih _ _ _ h
    · exact h

/-- No trip of the enumeration of a rank has the flag `use_memory`. -/
theorem rtv_pair_flags (S : Settings) (net : Network) (heap : Heap) (fuel : Nat)
    (clock : Clock) (rr_edges : ReqPtr → List ReqPtr) (v : Vehicle) (time : Int) (rank : Nat)
    (previous_round : List Trip) (left : List ReqPtr) (st : RankState) (second : Nat)
    (st2 : RankState) (hst : ∀ t ∈ st.trips, t.use_memory = false)
    (h : rtv_pair S net heap fuel clock rr_edges v time rank previous_round left st second
      = Except.ok st2) :
    ∀ t ∈ st2.trips, t.use_memory = false := by
  unfold rtv_pair at h
  simp only at h
  have hplace : ∀ t ∈ st.trips ++ [(⟨-1, false, false, [],
      setInsertAll ptrLt (requestSet (previous_round.getD second
        ⟨0, false, false, [], []⟩).requests) left⟩ : Trip)], t.use_memory = false := by
    intro t ht
    rcases List.mem_append.mp ht with h1 | h1
    · exact hst t h1
    · simp only [List.mem_singleton] at h1
      rw [h1]
  split_ifs at h with h1 h2 h3 h4 h5 h6 h7
  · simp only [Except.ok.injEq] at h; rw [← h]; exact hst
  · simp only [Except.ok.injEq] at h; rw [← h]; exact hst
  · simp only [Except.ok.injEq] at h; rw [← h]; exact hst
  · simp only [Except.ok.injEq] at h; rw [← h]; exact hst
  · simp only [Except.ok.injEq] at h; rw [← h]; exact hst
  · simp only [Except.ok.injEq] at h; rw [← h]; exact hplace
  · simp only [Except.ok.injEq] at h; rw [← h]; exact hplace
  · cases ht : time_travel S net heap fuel clock v
        (setInsertAll ptrLt (requestSet (previous_round.getD second
          ⟨0, false, false, [], []⟩).requests) left) Purpose.STANDARD time
        (st.readings + 2) with
    | error e => rw [ht] at h; simp at h
    | ok path =>
      rw [ht] at h
      simp only at h
      split_ifs at h with h8
      · simp only [Except.ok.injEq] at h; rw [← h]; exact hplace
      · simp only [Except.ok.injEq] at h
        rw [← h]
        intro t ht2
        rcases List.mem_or_eq_of_mem_set ht2 with h9 | h9
        · exact hplace t h9
        · rw [h9]

theorem rtv_rank_flags (S : Settings) (net : Network) (heap : Heap) (fuel : Nat)
    (clock : Clock) (rr_edges : ReqPtr → List ReqPtr) (v : Vehicle) (time : Int) (rank : Nat)
    (previous_round : List Trip) (readings : Nat) (st : RankState)
    (h : rtv_rank S net heap fuel clock rr_edges v time rank previous_round readings
      = Except.ok st) :
    ∀ t ∈ st.trips, t.use_memory = false := by
  unfold rtv_rank at h
  refine foldE_inv (fun s : RankState => ∀ t ∈ s.trips, t.use_memory = false) _ ?_ _ _ _ ?_ h
  · intro s first s2 hs hf
    simp only at hf
    split_ifs at hf with h1
    · simp only [Except.ok.injEq] at hf; rw [← hf]; exact hs
    · exact foldE_inv (fun s : RankState => ∀ t ∈ s.trips, t.use_memory = false) _
        (fun s3 a s4 hs3 hp =>
          rtv_pair_flags S net heap fuel clock rr_edges v time rank previous_round _ s3 a s4
            hs3 hp) _ _ _ hs hf
  · intro t ht
    simp at ht

/-- The loop over the ranks only appends rounds, and none of their trips has the flag
`use_memory`. -/
theorem rtv_rounds_append (S : Settings) (net : Network) (heap : Heap) (fuel : Nat)
    (clock : Clock) (rr_edges : ReqPtr → List ReqPtr) (v : Vehicle) (time : Int) :
    ∀ (ranks : Nat) (round : List (List Trip)) (timeout : Bool) (readings : Nat)
      (round2 : List (List Trip)),
      rtv_rounds S net heap fuel clock rr_edges v time ranks round timeout readings
        = Except.ok round2 →
      ∃ extra, round2 = round ++ extra ∧ ∀ l ∈ extra, ∀ t ∈ l, t.use_memory = false := by
  intro ranks
  induction ranks with
  | zero => intro round timeout readings round2 h; simp [rtv_rounds] at h
  | succ n ih =>
    intro round timeout readings round2 h
    rw [rtv_rounds] at h
    split_ifs at h with h1 h2
    · simp only [Except.ok.injEq] at h
      exact ⟨[], by simp [h], by simp⟩
    · cases hr : rtv_rank S net heap fuel clock rr_edges v time round.length
          (round.getLastD []) readings with
      | error e => rw [hr] at h; simp at h
      | ok st =>
        rw [hr] at h
        simp only at h
        obtain ⟨extra, he, hf⟩ := ih _ _ _ _ h
        refine ⟨compact st.trips.length st.trips 0 :: extra, by simp [he], ?_⟩
        intro l hl t ht
        rcases List.mem_cons.mp hl with h3 | h3
        · rw [h3] at ht
          exact rtv_rank_flags S net heap fuel clock rr_edges v time _ _ _ st hr t
            (mem_compact _ _ _ t ht)
        · exact hf l h3 t ht
    · simp only [Except.ok.injEq] at h
      exact ⟨[], by simp [h], by simp⟩

theorem rtv_single_flags (S : Settings) (net : Network) (heap : Heap) (fuel : Nat)
    (clock : Clock) (v : Vehicle) (time : Int) (st : List Trip × Nat) (r : ReqPtr)
    (st2 : List Trip × Nat) (hst : ∀ t ∈ st.1, t.use_memory = false)
    (h : rtv_single S net heap fuel clock v time st r = Except.ok st2) :
    ∀ t ∈ st2.1, t.use_memory = false := by
  unfold rtv_single at h
  cases ht : time_travel S net heap fuel clock v [r] Purpose.STANDARD time st.2 with
  | error e => rw [ht] at h; simp at h
  | ok path =>
    rw [ht] at h
    simp only at h
    split_ifs at h with h1
    · simp only [Except.ok.injEq] at h
      rw [← h]
      intro t ht2
      rcases List.mem_append.mp ht2 with h2 | h2
      · exact hst t h2
      · simp only [List.mem_singleton] at h2
        rw [h2]
    · simp only [Except.ok.injEq] at h
      rw [← h]
      exact hst

/-- The shape of a trip list stored by `make_rtvgraph`: the baseline trip costed by
`time_travel` on no request, then trips without the flag `use_memory`, then, when the
order record is not empty, the trip of `previoustrip`; no cost is -1. -/
theorem make_rtvgraph_ok (S : Settings) (net : Network) (heap : Heap) (fuel : Nat)
    (clock : Clock) (rr_edges : ReqPtr → List ReqPtr) (vr_edges : List ReqPtr) (v : Vehicle)
    (time : Int) (trips : List Trip)
    (h : make_rtvgraph S net heap fuel clock rr_edges vr_edges v time = Except.ok trips) :
    ∃ (result : (Int × List NodeStop) × Nat) (middle : List Trip),
      time_travel S net heap fuel clock v [] Purpose.STANDARD time 0 = Except.ok result
      ∧ result.1.1 ≠ -1
      ∧ (∀ t ∈ middle, t.use_memory = false)
      ∧ ((v.order_record = [] ∧ trips = ⟨result.1.1, false, false, result.1.2, []⟩ :: middle)
        ∨ (v.order_record ≠ [] ∧ ∃ p,
            travel S net heap fuel v v.pending_requests Purpose.MEMORY time = Except.ok p
            ∧ p.1 ≠ -1
            ∧ trips = ⟨result.1.1, false, false, result.1.2, []⟩ :: middle
                ++ [⟨p.1, false, true, p.2, v.pending_requests⟩])) := by
  unfold make_rtvgraph at h
  cases hb : time_travel S net heap fuel clock v [] Purpose.STANDARD time 0 with
  | error e => rw [hb] at h; simp at h
  | ok result =>
    rw [hb] at h
    simp only at h
    cases h1 : foldE (rtv_single S net heap fuel clock v time) ([], result.2)
        (setInsertAll ptrLt v.pending_requests (requestSet vr_edges)) with
    | error e => rw [h1] at h; simp at h
    | ok first_round =>
      rw [h1] at h
      simp only at h
      have hfirst : ∀ t ∈ first_round.1, t.use_memory = false :=
        foldE_inv (fun s : List Trip × Nat => ∀ t ∈ s.1, t.use_memory = false) _
          (fun s a s2 hs hp => rtv_single_flags S net heap fuel clock v time s a s2 hs hp)
          _ _ _ (by simp) h1
      cases h2 : rtv_rounds S net heap fuel clock rr_edges v time (v.capacity.toNat + 1)
          [[⟨result.1.1, false, false, result.1.2, []⟩], first_round.1] false
          first_round.2 with
      | error e => rw [h2] at h; simp at h
      | ok round =>
        rw [h2] at h
        simp only at h
        obtain ⟨extra, he, hextra⟩ := rtv_rounds_append S net heap fuel clock rr_edges v time
          _ _ _ _ _ h2
        have hflat : round.flatten
            = ⟨result.1.1, false, false, result.1.2, []⟩ :: (first_round.1 ++ extra.flatten) := by
          rw [he]; simp
        have hmid : ∀ t ∈ first_round.1 ++ extra.flatten, t.use_memory = false := by
          intro t ht
          rcases List.mem_append.mp ht with h3 | h3
          · exact hfirst t h3
          · obtain ⟨l, hl, htl⟩ := List.mem_flatten.mp h3
            exact hextra l hl t htl
        split_ifs at h with h3 h4
        · have hne : result.1.1 ≠ -1 := by
            intro hc
            apply h3
            rw [hflat]
            simp [hc]
          cases h5 : previoustrip S net heap fuel v time with
          | error e => rw [h5] at h; simp at h
          | ok trip =>
            rw [h5] at h
            simp only at h
            split_ifs at h with h6
            simp only [Except.ok.injEq] at h
            unfold previoustrip at h5
            cases h7 : travel S net heap fuel v v.pending_requests Purpose.MEMORY time with
            | error e => rw [h7] at h5; simp at h5
            | ok p =>
              rw [h7] at h5
              simp only [Except.ok.injEq] at h5
              refine ⟨result, first_round.1 ++ extra.flatten, rfl, hne, hmid, Or.inr ⟨?_, p, rfl,
                ?_, ?_⟩⟩
              · intro hc; apply h4; rw [hc]; rfl
              · rw [← h5] at h6; exact h6
              · rw [← h, hflat, ← h5]
        · have hne : result.1.1 ≠ -1 := by
            intro hc
            apply h3
            rw [hflat]
            simp [hc]
          simp only [Except.ok.injEq] at h
          refine ⟨result, first_round.1 ++ extra.flatten, rfl, hne, hmid, Or.inl ⟨?_, ?_⟩⟩
          · by_contra hc
            apply h4
            intro hl
            exact hc (List.length_eq_zero.mp hl)
          · rw [← h, hflat]

/-- Claim C8: when `make_rtvgraph` completes for a vehicle, the stored trip list starts
with the baseline trip, which has no request and the cost and the stops that
`time_travel` returns in STANDARD mode for the vehicle and no request; this cost is not
-1, the value that the builder rejects, and it is not negative for times as the program
produces them: an epoch time, an offset, travel times and dwell times that are not
negative. -/
theorem baseline_trip_present (S : Settings) (net : Network) (heap : Heap) (fuel : Nat)
    (clock : Clock) (rr_edges : ReqPtr → List ReqPtr) (vr_edges : List ReqPtr) (v : Vehicle)
    (time : Int) (trips : List Trip)
    (h : make_rtvgraph S net heap fuel clock rr_edges vr_edges v time = Except.ok trips) :
    ∃ (result : (Int × List NodeStop) × Nat) (rest : List Trip),
      time_travel S net heap fuel clock v [] Purpose.STANDARD time 0 = Except.ok result
      ∧ trips = ⟨result.1.1, false, false, result.1.2, []⟩ :: rest
      ∧ result.1.1 ≠ -1
      ∧ (NonNegTimes S net v time → 0 ≤ result.1.1) := by
  obtain ⟨result, middle, h1, h2, _, h4⟩ :=
    make_rtvgraph_ok S net heap fuel clock rr_edges vr_edges v time trips h
  have h5 : NonNegTimes S net v time → 0 ≤ result.1.1 := by
    intro hn
    rcases time_travel_cost S net heap fuel clock v [] time 0 result hn h1 with h6 | h6
    · exact absurd h6 h2
    · exact h6
  rcases h4 with ⟨_, ht⟩ | ⟨_, p, _, _, ht⟩
  · exact ⟨result, middle, h1, ht, h2, h5⟩
  · exact ⟨result, middle ++ [⟨p.1, false, true, p.2, v.pending_requests⟩], h1,
      ht.trans (List.cons_append _ _ _), h2, h5⟩

theorem baseline_trip_present_witness :
    make_rtvgraph (exSettings Ctsp.FULL) exNet exHeap 3 exClock exRR [1] exVehicle 0
        = Except.ok (exTrips.take 2)
      ∧ ∃ (result : (Int × List NodeStop) × Nat) (rest : List Trip),
        time_travel (exSettings Ctsp.FULL) exNet exHeap 3 exClock exVehicle []
            Purpose.STANDARD 0 0 = Except.ok result
        ∧ exTrips.take 2 = ⟨result.1.1, false, false, result.1.2, []⟩ :: rest
        ∧ result.1.1 ≠ -1
        ∧ (NonNegTimes (exSettings Ctsp.FULL) exNet exVehicle 0 → 0 ≤ result.1.1) :=
  ⟨by rfl,
    baseline_trip_present (exSettings Ctsp.FULL) exNet exHeap 3 exClock exRR [1] exVehicle 0
      (exTrips.take 2) (by rfl)⟩

/-- Claim C10: when `make_rtvgraph` completes for a vehicle with a non-empty order
record, the last trip of the stored list has the flag `use_memory`, the pending requests
of the vehicle as requests, and the cost and the stops that the MEMORY oracle returns;
this cost is not -1, the value on which the builder raises, and it is not negative for
times as the program produces them: an epoch time, an offset, travel times and dwell
times that are not negative.  When it completes for a vehicle with an empty order
record, no trip of the list has the flag `use_memory`. -/
theorem continuity_trip (S : Settings) (net : Network) (heap : Heap) (fuel : Nat)
    (clock : Clock) (rr_edges : ReqPtr → List ReqPtr) (vr_edges : List ReqPtr) (v : Vehicle)
    (time : Int) (trips : List Trip)
    (h : make_rtvgraph S net heap fuel clock rr_edges vr_edges v time = Except.ok trips) :
    (v.order_record ≠ [] → ∃ (p : Int × List NodeStop) (init : List Trip),
      travel S net heap fuel v v.pending_requests Purpose.MEMORY time = Except.ok p
      ∧ trips = init ++ [⟨p.1, false, true, p.2, v.pending_requests⟩]
      ∧ p.1 ≠ -1
      ∧ (NonNegTimes S net v time → 0 ≤ p.1))
    ∧ (v.order_record = [] → ∀ t ∈ trips, t.use_memory = false) := by
  obtain ⟨result, middle, _, _, h3, h4⟩ :=
    make_rtvgraph_ok S net heap fuel clock rr_edges vr_edges v time trips h
  constructor
  · intro hne
    rcases h4 with ⟨he, _⟩ | ⟨_, p, hp, hp1, ht⟩
    · exact absurd he hne
    · refine ⟨p, ⟨result.1.1, false, false, result.1.2, []⟩ :: middle, hp, ht, hp1, ?_⟩
      intro hn
      obtain ⟨h0, ho, hm, ha, hpk⟩ := hn
      rcases travel_ok S net heap fuel v v.pending_requests Purpose.MEMORY time p (by decide)
        hp with hr | ⟨_, hc⟩
      · rw [hr] at hp1
        exact absurd rfl hp1
      · have := finalTime_ge S net heap hm ha hpk p.2 v.node (time + v.offset)
          Action.NO_ACTION
        split_ifs at hc <;> omega
  · intro he
    rcases h4 with ⟨_, ht⟩ | ⟨hne, _⟩
    · rw [ht]
      intro t htm
      rcases List.mem_cons.mp htm with h5 | h5
      · rw [h5]
      · exact h3 t h5
    · exact absurd he hne

theorem continuity_trip_witness :
    make_rtvgraph (exSettings Ctsp.FULL) exNet exHeap 2 exClock exRR [] exVehicleOnboard 0
        = Except.ok [⟨60, false, false, [⟨1, false, 1⟩], []⟩,
          ⟨60, false, true, [⟨1, false, 1⟩], []⟩]
      ∧ exVehicleOnboard.order_record ≠ []
      ∧ ∃ (p : Int × List NodeStop) (init : List Trip),
          travel (exSettings Ctsp.FULL) exNet exHeap 2 exVehicleOnboard
            exVehicleOnboard.pending_requests Purpose.MEMORY 0 = Except.ok p
          ∧ [⟨60, false, false, [⟨1, false, 1⟩], []⟩, ⟨60, false, true, [⟨1, false, 1⟩], []⟩]
            = init ++ [⟨p.1, false, true, p.2, exVehicleOnboard.pending_requests⟩]
          ∧ p.1 ≠ -1
          ∧ (NonNegTimes (exSettings Ctsp.FULL) exNet exVehicleOnboard 0 → 0 ≤ p.1) :=
  ⟨by rfl, by decide,
    (continuity_trip (exSettings Ctsp.FULL) exNet exHeap 2 exClock exRR [] exVehicleOnboard 0
      [⟨60, false, false, [⟨1, false, 1⟩], []⟩, ⟨60, false, true, [⟨1, false, 1⟩], []⟩]
      (by rfl)).1 (by decide)⟩

/-- The loop of lines 283-292 after `c` rounds, when the first `limit` meta nodes of the
previous order are pairwise distinct: the set `captured` is the available set after the
visits of the first `c` of them, they unlock their successor (the last one unlocks
`captured`), and nothing else has changed. -/
theorem fix_fold (order : List Nat) (limit : Nat) (M0 : List MetaNodeStop) (C0 : List Nat)
    (h1 : ∀ i j, i < limit → j < limit → order.getD i 0 = order.getD j 0 → i = j)
    (h2 : ∀ i, i < limit → order.getD i 0 < M0.length) :
    ∀ c, c ≤ limit →
      (((List.range c).foldl (fix_step order limit) (M0, C0)).1.length = M0.length)
      ∧ (∀ m, ((((List.range c).foldl (fix_step order limit) (M0, C0)).1).getD m ⟨0, []⟩).node
          = (M0.getD m ⟨0, []⟩).node)
      ∧ (∀ x, x ∈ ((List.range c).foldl (fix_step order limit) (M0, C0)).2
          ↔ capAt (fun m => (M0.getD m ⟨0, []⟩).unlocks) order (fun y => y ∈ C0) c x)
      ∧ (∀ m, (∀ i, i < c → m ≠ order.getD i 0) →
          ((((List.range c).foldl (fix_step order limit) (M0, C0)).1).getD m ⟨0, []⟩).unlocks
            = (M0.getD m ⟨0, []⟩).unlocks)
      ∧ (∀ i, i < c → i + 1 < limit →
          ((((List.range c).foldl (fix_step order limit) (M0, C0)).1).getD
            (order.getD i 0) ⟨0, []⟩).unlocks = [order.getD (i + 1) 0])
      ∧ (∀ i, i < c → i + 1 = limit → ∀ x,
          x ∈ ((((List.range c).foldl (fix_step order limit) (M0, C0)).1).getD
            (order.getD i 0) ⟨0, []⟩).unlocks
          ↔ capAt (fun m => (M0.getD m ⟨0, []⟩).unlocks) order (fun y => y ∈ C0) limit x) := by
  intro c
  induction c with
  | zero =>
    intro _
    refine ⟨rfl, fun _ => rfl, fun x => Iff.rfl, fun _ _ => rfl, ?_, ?_⟩
    · intro i hi; omega
    · intro i hi; omega
  | succ c ih =>
    intro hc
    obtain ⟨a, b, cc, d, e, f⟩ := ih (by omega)
    simp only [List.range_succ, List.foldl_append, List.foldl_cons, List.foldl_nil]
    generalize hst : (List.range c).foldl (fix_step order limit) (M0, C0) = st at a b cc d e f
    have hp : order.getD c 0 < st.1.length := by rw [a]; exact h2 c (by omega)
    have hpd : (st.1.getD (order.getD c 0) ⟨0, []⟩).unlocks
        = (M0.getD (order.getD c 0) ⟨0, []⟩).unlocks := by
      apply d
      intro i hi heq
      have := h1 c i (by omega) (by omega) heq
      omega
    have hcap : ∀ x, x ∈ setInsertAll ptrLt (st.1.getD (order.getD c 0) ⟨0, []⟩).unlocks
          (setErase ptrLt (order.getD c 0) st.2)
        ↔ capAt (fun m => (M0.getD m ⟨0, []⟩).unlocks) order (fun y => y ∈ C0) (c + 1) x := by
      intro x
      rw [mem_setInsertAll ptrLt separating_ptrLt, mem_setErase_ptrLt, hpd, cc]
      simp only [capAt, nextAvail]
      tauto
    have hget : ∀ (U : List Nat) (m : Nat),
        (set_unlocks st.1 (order.getD c 0) U).getD m ⟨0, []⟩
          = if m = order.getD c 0 then ⟨(st.1.getD (order.getD c 0) ⟨0, []⟩).node, U⟩
            else st.1.getD m ⟨0, []⟩ := by
      intro U m
      rw [set_unlocks_getD]
      by_cases hm : m = order.getD c 0
      · rw [if_pos ⟨hm, hp⟩, if_pos hm]
      · rw [if_neg (fun h => hm h.1), if_neg hm]
    unfold fix_step
    simp only
    split_ifs with hlim
    · simp only
      refine ⟨by rw [set_unlocks_length, a], ?_, hcap, ?_, ?_, ?_⟩
      · intro m
        rw [hget]
        split_ifs with hm
        · rw [hm]; exact b _
        · exact b m
      · intro m hm
        rw [hget, if_neg (hm c (by omega))]
        exact d m (fun i hi => hm i (by omega))
      · intro i hi hil
        rw [hget]
        by_cases hic : i = c
        · subst hic
          rw [if_pos rfl]
        · have hne : order.getD i 0 ≠ order.getD c 0 := by
            intro heq
            exact hic (h1 i c (by omega) (by omega) heq)
          rw [if_neg hne]
          exact e i (by omega) hil
      · intro i hi hil
        omega
    · simp only
      have hcl : c + 1 = limit := by omega
      refine ⟨by rw [set_unlocks_length, a], ?_, hcap, ?_, ?_, ?_⟩
      · intro m
        rw [hget]
        split_ifs with hm
        · rw [hm]; exact b _
        · exact b m
      · intro m hm
        rw [hget, if_neg (hm c (by omega))]
        exact d m (fun i hi => hm i (by omega))
      · intro i hi hil
        have hic : i < c := by omega
        have hne : order.getD i 0 ≠ order.getD c 0 := by
          intro heq
          have := h1 i c (by omega) (by omega) heq
          omega
        rw [hget, if_neg hne]
        exact e i hic hil
      · intro i hi hil x
        have hic : i = c := by omega
        subst hic
        rw [hget, if_pos rfl]
        simp only
        rw [← hcl]
        exact hcap x

/-- In a forest, the visit of an available node leads from the state after `W` to the
state after `W` and the node. -/
theorem forest_next (n : Nat) (unl : Nat → List Nat) (par : Nat → Option Nat)
    (rk : Nat → Nat) (hf : Forest n unl par rk) (W : Nat → Prop)
    (hclosed : ∀ m, W m → ∀ y, par m = some y → W y) (m : Nat)
    (hm : availAfter n par W m) :
    (∀ k, (W k ∨ k = m) → ∀ y, par k = some y → (W y ∨ y = m))
    ∧ ∀ x, nextAvail unl (availAfter n par W) m x
        ↔ availAfter n par (fun k => W k ∨ k = m) x := by
  obtain ⟨hmn, hmW, hmp⟩ := hm
  constructor
  · rintro k (hk | hk) y hy
    · exact Or.inl (hclosed k hk y hy)
    · subst hk
      rcases hmp with hp | ⟨y2, hp, hW2⟩
      · rw [hp] at hy; simp at hy
      · rw [hp] at hy
        simp only [Option.some.injEq] at hy
        subst hy
        exact Or.inl hW2
  · intro x
    simp only [nextAvail, availAfter, hf.children]
    constructor
    · rintro (⟨⟨hx, hxW, hxp⟩, hxm⟩ | ⟨_, hx, hp⟩)
      · refine ⟨hx, by tauto, ?_⟩
        rcases hxp with h | ⟨y, h1, h2⟩
        · exact Or.inl h
        · exact Or.inr ⟨y, h1, Or.inl h2⟩
      · have hne : x ≠ m := by
          intro h
          subst h
          have := hf.rank x x hp
          omega
        refine ⟨hx, ?_, Or.inr ⟨m, hp, Or.inr rfl⟩⟩
        rintro (h | h)
        · exact hmW (hclosed x h m hp)
        · exact hne h
    · rintro ⟨hx, hxW, hxp⟩
      have hxW1 : ¬ W x := fun h => hxW (Or.inl h)
      have hxm : x ≠ m := fun h => hxW (Or.inr h)
      rcases hxp with h | ⟨y, h1, h2 | h2⟩
      · exact Or.inl ⟨⟨hx, hxW1, Or.inl h⟩, hxm⟩
      · exact Or.inl ⟨⟨hx, hxW1, Or.inr ⟨y, h1, h2⟩⟩, hxm⟩
      · subst h2
        exact Or.inr ⟨hmn, hx, h1⟩

theorem depth_congr (unl : Nat → List Nat) : ∀ (d : Nat) (A B : Nat → Prop),
    (∀ x, A x ↔ B x) → Depth unl d A → Depth unl d B := by
  intro d
  induction d with
  | zero => intro A B h hA x hx; exact hA x ((h x).mpr hx)
  | succ d ih =>
    intro A B h hA m hm
    refine ih _ _ ?_ (hA m ((h m).mpr hm))
    intro x
    simp only [nextAvail, h]

/-- In a forest on `n` nodes, no sequence of visits from the state after the set `W` is
longer than the number of nodes outside `W`. -/
theorem forest_depth (n : Nat) (unl : Nat → List Nat) (par : Nat → Option Nat)
    (rk : Nat → Nat) (hf : Forest n unl par rk) :
    ∀ (d : Nat) (W : Finset Nat), (∀ m, m ∈ W → ∀ y, par m = some y → y ∈ W) →
      (Finset.range n \ W).card ≤ d →
      Depth unl d (availAfter n par (fun k => k ∈ W)) := by
  intro d
  induction d with
  | zero =>
    intro W _ hcard x hx
    obtain ⟨hxn, hxW, _⟩ := hx
    have h0 : Finset.range n \ W = ∅ := Finset.card_eq_zero.mp (by omega)
    have : x ∈ Finset.range n \ W := by simp [hxn, hxW]
    rw [h0] at this
    simp at this
  | succ d ih =>
    intro W hclosed hcard m hm
    obtain ⟨hc2, hnext⟩ := forest_next n unl par rk hf (fun k => k ∈ W) hclosed m hm
    have hmem : m ∈ Finset.range n \ W := by
      obtain ⟨h1, h2, _⟩ := hm
      simp [h1, h2]
    have hcard2 : (Finset.range n \ insert m W).card ≤ d := by
      rw [Finset.sdiff_insert, Finset.card_erase_of_mem hmem]
      omega
    have h3 := ih (insert m W)
      (by
        intro k hk y hy
        rw [Finset.mem_insert] at hk ⊢
        rcases hc2 k (by tauto) y hy with h | h
        · exact Or.inr h
        · exact Or.inl h)
      hcard2
    refine depth_congr unl d _ _ ?_ h3
    intro x
    rw [hnext]
    simp only [availAfter, Finset.mem_insert]
    constructor
    · rintro ⟨h1, h2, h4⟩
      refine ⟨h1, by tauto, ?_⟩
      rcases h4 with h | ⟨y, hy, hy2⟩
      · exact Or.inl h
      · exact Or.inr ⟨y, hy, by tauto⟩
    · rintro ⟨h1, h2, h4⟩
      refine ⟨h1, by tauto, ?_⟩
      rcases h4 with h | ⟨y, hy, hy2⟩
      · exact Or.inl h
      · exact Or.inr ⟨y, hy, by tauto⟩

theorem search_loop_total (ctx : Ctx) (rec : Search) (loc cap : Int) (avail : List Nat)
    (time : Int) (prev : Action)
    (hrec : ∀ m, m ∈ avail → ∀ loc2 cap2 time2 best2 prev2,
      ∃ r, rec loc2 cap2 (remaining_nodes ctx avail m) time2 best2 prev2 = some r) :
    ∀ (cands : List Nat), (∀ m ∈ cands, m ∈ avail) →
    ∀ (previous : Option Nat) (best : Int) (tail : List Nat),
      ∃ r, search_loop ctx rec loc cap avail time prev cands previous best tail = some r := by
  intro cands
  induction cands with
  | nil => intro _ previous best tail; exact ⟨_, rfl⟩
  | cons m rest ih =>
    intro hsub previous best tail
    have hsub2 : ∀ x ∈ rest, x ∈ avail := fun x hx => hsub x (List.mem_cons_of_mem _ hx)
    rw [search_loop]
    simp only
    split_ifs with h1 h2 h3 h4 h5 h6
    · exact ih hsub2 _ _ _
    · exact ih hsub2 _ _ _
    · exact ih hsub2 _ _ _
    · exact ih hsub2 _ _ _
    · exact ih hsub2 _ _ _
    · exact ih hsub2 _ _ _
    · obtain ⟨t, ht⟩ := hrec m (hsub m (List.mem_cons_self _ _)) (ctx.stop m).node
        (new_residual (ctx.stop m) cap)
        (arrival ctx.S ctx.net ctx.heap loc time prev (ctx.stop m)) best (actionOf (ctx.stop m))
      rw [ht]
      simp only
      split_ifs
      · exact ih hsub2 _ _ _
      · exact ih hsub2 _ _ _
      · exact ih hsub2 _ _ _

/-- The search returns as soon as the fuel exceeds a bound on the number of visits. -/
theorem search_terminates (ctx : Ctx) : ∀ (d fuel : Nat) (loc cap : Int) (avail : List Nat)
    (time best : Int) (prev : Action),
    Depth ctx.unl d (fun x => x ∈ avail) → d + 1 ≤ fuel →
    ∃ r, recursive_search ctx fuel loc cap avail time best prev = some r := by
  intro d
  induction d with
  | zero =>
    intro fuel loc cap avail time best prev hd hfuel
    obtain ⟨f, rfl⟩ : ∃ f, fuel = f + 1 := ⟨fuel - 1, by omega⟩
    have : avail = [] := by
      cases avail with
      | nil => rfl
      | cons a rest => exact absurd (List.mem_cons_self a rest) (hd a)
    subst this
    exact ⟨(time, []), by simp [recursive_search]⟩
  | succ d ih =>
    intro fuel loc cap avail time best prev hd hfuel
    obtain ⟨f, rfl⟩ : ∃ f, fuel = f + 1 := ⟨fuel - 1, by omega⟩
    rw [recursive_search]
    simp only
    split_ifs with he
    · exact ⟨_, rfl⟩
    · apply search_loop_total ctx _ loc cap avail time prev _ avail (fun _ h => h)
      intro m hm loc2 cap2 time2 best2 prev2
      apply ih f loc2 cap2 _ time2 best2 prev2 _ (by omega)
      refine depth_congr _ d _ _ ?_ (hd m hm)
      intro x
      simp only [nextAvail, Ctx.unl]
      exact (mem_remaining_nodes ctx avail m x).symm

theorem availAfter_congr (n : Nat) (par : Nat → Option Nat) (W W2 : Nat → Prop)
    (h : ∀ x, W x ↔ W2 x) (x : Nat) : availAfter n par W x ↔ availAfter n par W2 x := by
  simp only [availAfter, h]

theorem nextAvail_congr (unl : Nat → List Nat) (A B : Nat → Prop) (m : Nat)
    (h : ∀ x, A x ↔ B x) (x : Nat) : nextAvail unl A m x ↔ nextAvail unl B m x := by
  simp only [nextAvail, h]

theorem capAt_congr (unl : Nat → List Nat) (order : List Nat) (A B : Nat → Prop)
    (h : ∀ x, A x ↔ B x) : ∀ c x, capAt unl order A c x ↔ capAt unl order B c x := by
  intro c
  induction c with
  | zero => exact h
  | succ c ih => intro x; exact nextAvail_congr unl _ _ _ ih x

theorem chainSet_succ (order : List Nat) (j x : Nat) :
    chainSet order (j + 1) x ↔ (chainSet order j x ∨ x = order.getD j 0) := by
  unfold chainSet
  constructor
  · rintro ⟨i, hi, rfl⟩
    by_cases h : i = j
    · subst h; exact Or.inr rfl
    · exact Or.inl ⟨i, by omega, rfl⟩
  · rintro (⟨i, hi, rfl⟩ | rfl)
    · exact ⟨i, by omega, rfl⟩
    · exact ⟨j, by omega, rfl⟩

/-- A prefix of a chain whose every element is available after its predecessors is
closed under parents. -/
theorem chainSet_closed (n : Nat) (par : Nat → Option Nat) (order : List Nat) (L : Nat)
    (hq : ∀ j, j < L → availAfter n par (chainSet order j) (order.getD j 0)) :
    ∀ j, j ≤ L → ∀ m, chainSet order j m → ∀ y, par m = some y → chainSet order j y := by
  rintro j hj m ⟨i, hi, rfl⟩ y hy
  obtain ⟨_, _, hp | ⟨y2, hp, k, hk, rfl⟩⟩ := hq i (by omega)
  · rw [hp] at hy; simp at hy
  · rw [hp] at hy
    simp only [Option.some.injEq] at hy
    subst hy
    exact ⟨k, by omega, rfl⟩

/-- Visiting the first `c` meta nodes of such a chain from the roots of the forest
leaves what the forest makes available after them. -/
theorem capAt_chain (n : Nat) (unl : Nat → List Nat) (par : Nat → Option Nat)
    (rk : Nat → Nat) (hf : Forest n unl par rk) (order : List Nat) (L : Nat)
    (hq : ∀ j, j < L → availAfter n par (chainSet order j) (order.getD j 0)) :
    ∀ c, c ≤ L → ∀ x, capAt unl order (availAfter n par (fun _ => False)) c x
      ↔ availAfter n par (chainSet order c) x := by
  intro c
  induction c with
  | zero =>
    intro _ x
    apply availAfter_congr
    intro y
    simp [chainSet]
  | succ c ih =>
    intro hc x
    have h1 := forest_next n unl par rk hf (chainSet order c)
      (chainSet_closed n par order L hq c (by omega)) (order.getD c 0) (hq c (by omega))
    rw [capAt, nextAvail_congr unl _ _ _ (ih (by omega)) x, h1.2 x]
    apply availAfter_congr
    intro y
    exact (chainSet_succ order c y).symm

/-- Past the frozen prefix, a child of a meta node outside the prefix is outside it. -/
theorem frozen_free (n : Nat) (unl unl2 : Nat → List Nat) (par : Nat → Option Nat)
    (rk : Nat → Nat) (hf : Forest n unl par rk) (order : List Nat) (L : Nat)
    (hz : FrozenPrefix n unl unl2 par order L) (A : Nat → Prop)
    (hA : ∀ x, A x → ¬ chainSet order L x) (m : Nat) (hm : A m) :
    nextAvail unl2 A m = nextAvail unl A m
    ∧ ∀ x, nextAvail unl A m x → ¬ chainSet order L x := by
  have e := hz.same m (hA m hm)
  refine ⟨by unfold nextAvail; rw [e], ?_⟩
  rintro x (⟨hx, _⟩ | hx)
  · exact hA x hx
  · obtain ⟨_, _, hp⟩ := (hf.children m x).mp hx
    rintro ⟨j, hj, rfl⟩
    obtain ⟨_, _, hq | ⟨y, hq, hy⟩⟩ := hz.avail j hj
    · rw [hq] at hp; simp at hp
    · rw [hq] at hp
      simp only [Option.some.injEq] at hp
      subst hp
      obtain ⟨k, hk, hk2⟩ := hy
      exact hA _ hm ⟨k, by omega, hk2⟩

theorem frozen_visits_free (n : Nat) (unl unl2 : Nat → List Nat) (par : Nat → Option Nat)
    (rk : Nat → Nat) (hf : Forest n unl par rk) (order : List Nat) (L : Nat)
    (hz : FrozenPrefix n unl unl2 par order L) (A : Nat → Prop) (ms : List Nat)
    (h : Visits unl2 A ms) : (∀ x, A x → ¬ chainSet order L x) → Visits unl A ms := by
  induction h with
  | nil A hA => intro _; exact Visits.nil A hA
  | cons A m ms hm _ ih =>
    intro hA
    obtain ⟨e, hfree⟩ := frozen_free n unl unl2 par rk hf order L hz A hA m hm
    rw [e] at ih
    exact Visits.cons A m ms hm (ih hfree)

theorem frozen_depth_free (n : Nat) (unl unl2 : Nat → List Nat) (par : Nat → Option Nat)
    (rk : Nat → Nat) (hf : Forest n unl par rk) (order : List Nat) (L : Nat)
    (hz : FrozenPrefix n unl unl2 par order L) :
    ∀ (d : Nat) (A : Nat → Prop), (∀ x, A x → ¬ chainSet order L x) →
      Depth unl d A → Depth unl2 d A := by
  intro d
  induction d with
  | zero => intro A _ h; exact h
  | succ d ih =>
    intro A hA h m hm
    obtain ⟨e, hfree⟩ := frozen_free n unl unl2 par rk hf order L hz A hA m hm
    rw [e]
    exact ih _ hfree (h m hm)

/-- What the visit of the `j`-th meta node of a frozen prefix makes available. -/
theorem frozen_step (n : Nat) (unl unl2 : Nat → List Nat) (par : Nat → Option Nat)
    (rk : Nat → Nat) (hf : Forest n unl par rk) (order : List Nat) (L : Nat)
    (hz : FrozenPrefix n unl unl2 par order L) (j : Nat) (hj : j < L)
    (A : Nat → Prop) (hA : ∀ x, A x ↔ x = order.getD j 0) :
    (∀ x, nextAvail unl (availAfter n par (chainSet order j)) (order.getD j 0) x
        ↔ availAfter n par (chainSet order (j + 1)) x)
    ∧ (j + 1 < L → ∀ x, nextAvail unl2 A (order.getD j 0) x ↔ x = order.getD (j + 1) 0)
    ∧ (j + 1 = L → ∀ x, nextAvail unl2 A (order.getD j 0) x
        ↔ availAfter n par (chainSet order L) x) := by
  refine ⟨?_, ?_, ?_⟩
  · intro x
    have h1 := forest_next n unl par rk hf (chainSet order j)
      (chainSet_closed n par order L hz.avail j (by omega)) (order.getD j 0) (hz.avail j hj)
    rw [h1.2 x]
    apply availAfter_congr
    intro y
    exact (chainSet_succ order j y).symm
  · intro h x
    simp only [nextAvail, hA, hz.next j h, List.mem_singleton]
    tauto
  · intro h x
    simp only [nextAvail, hA, hz.last j h x,
      capAt_chain n unl par rk hf order L hz.avail L (le_refl L) x]
    tauto

/-- Every sequence of visits of the search over a frozen prefix is a sequence of visits
of the forest. -/
theorem frozen_visits (n : Nat) (unl unl2 : Nat → List Nat) (par : Nat → Option Nat)
    (rk : Nat → Nat) (hf : Forest n unl par rk) (order : List Nat) (L : Nat)
    (hz : FrozenPrefix n unl unl2 par order L) (A : Nat → Prop) (ms : List Nat)
    (h : Visits unl2 A ms) : ∀ j, j < L → (∀ x, A x ↔ x = order.getD j 0) →
      Visits unl (availAfter n par (chainSet order j)) ms := by
  induction h with
  | nil A hA => intro j _ h; exact absurd ((h _).mpr rfl) (hA _)
  | cons A m ms hm hrest ih =>
    intro j hj hA
    have hmj : m = order.getD j 0 := (hA m).mp hm
    subst hmj
    obtain ⟨s1, s2, s3⟩ := frozen_step n unl unl2 par rk hf order L hz j hj A hA
    refine Visits.cons _ _ ms (hz.avail j hj) ?_
    by_cases hl : j + 1 < L
    · exact visits_congr unl _ _ ms (ih (j + 1) hl (s2 hl)) (fun x => (s1 x).symm)
    · have hl2 : j + 1 = L := by omega
      have h2 := frozen_visits_free n unl unl2 par rk hf order L hz _ ms hrest
        (fun x hx => ((s3 hl2 x).mp hx).2.1)
      refine visits_congr unl _ _ ms h2 ?_
      intro x
      rw [s3 hl2 x, s1 x, hl2]

/-- A bound on the visits of the forest bounds the visits over a frozen prefix. -/
theorem frozen_depth (n : Nat) (unl unl2 : Nat → List Nat) (par : Nat → Option Nat)
    (rk : Nat → Nat) (hf : Forest n unl par rk) (order : List Nat) (L : Nat)
    (hz : FrozenPrefix n unl unl2 par order L) :
    ∀ (d j : Nat), j < L → Depth unl d (availAfter n par (chainSet order j)) →
      Depth unl2 d (fun x => x = order.getD j 0) := by
  intro d
  induction d with
  | zero => intro j hj h; exact absurd (hz.avail j hj) (h _)
  | succ d ih =>
    intro j hj h m hm
    subst hm
    obtain ⟨s1, s2, s3⟩ := frozen_step n unl unl2 par rk hf order L hz j hj
      (fun x => x = order.getD j 0) (fun _ => Iff.rfl)
    have h1 := depth_congr unl d _ _ s1 (h _ (hz.avail j hj))
    by_cases hl : j + 1 < L
    · exact depth_congr unl2 d _ _ (fun x => (s2 hl x).symm) (ih (j + 1) hl h1)
    · have hl2 : j + 1 = L := by omega
      rw [hl2] at h1
      have h2 := frozen_depth_free n unl unl2 par rk hf order L hz d _
        (fun x hx => hx.2.1) h1
      exact depth_congr unl2 d _ _ (fun x => (s3 hl2 x).symm) h2

/-- The stops of the meta nodes of `new_travel`, whatever the meta nodes unlock. -/
theorem stop_universe (S : Settings) (net : Network) (heap : Heap) (v : Vehicle)
    (rs : List ReqPtr) (M : List MetaNodeStop)
    (hM : SameNodes M (baseMetas rs.length
      (onboardStops (onboardSet v) v.order_record).length)) (m : Nat)
    (hm : m < 2 * rs.length + (onboardStops (onboardSet v) v.order_record).length) :
    Ctx.stop ⟨S, net, heap, requestNodes heap rs ++ onboardStops (onboardSet v) v.order_record,
      M⟩ m = universeStop heap v rs m := by
  simp only [Ctx.stop, Ctx.nodeAt, Ctx.metaAt, hM.2 m, baseMetas_getD, universeStop]
  by_cases h1 : m < 2 * rs.length
  · have hi : m / 2 < rs.length := by omega
    obtain ⟨g1, g2⟩ := requestNodes_getD heap rs (m / 2) hi
    simp only [if_pos h1]
    by_cases h2 : m % 2 = 0
    · simp only [if_pos h2]
      rw [List.getD_append _ _ _ _ (by rw [requestNodes_length]; omega)]
      have e : m + 1 = 2 * (m / 2) + 1 := by omega
      rw [e, g2]
    · simp only [if_neg h2]
      rw [List.getD_append _ _ _ _ (by rw [requestNodes_length]; omega)]
      have e : m - 1 = 2 * (m / 2) := by omega
      rw [e, g1]
  · simp only [if_neg h1, if_pos hm]
    rw [List.getD_append_right _ _ _ _ (by rw [requestNodes_length]; omega),
      requestNodes_length]

theorem universeStop_onboard (heap : Heap) (v : Vehicle) (rs : List ReqPtr) (m : Nat)
    (h1 : 2 * rs.length ≤ m)
    (h2 : m < 2 * rs.length + (onboardStops (onboardSet v) v.order_record).length) :
    universeStop heap v rs m ∈ onboardStops (onboardSet v) v.order_record := by
  unfold universeStop
  rw [if_neg (by omega), List.getD_eq_getElem _ _ (by omega)]
  exact List.getElem_mem _

/-- No two stops of the universe have the same request and the same kind, when the
requests are pairwise distinct and none of them is on board. -/
theorem universe_key_inj (heap : Heap) (v : Vehicle) (rs : List ReqPtr) (hnd : rs.Nodup)
    (hdis : ∀ r ∈ rs, r ∉ v.passengers) (m m2 : Nat)
    (hm : m < 2 * rs.length + (onboardStops (onboardSet v) v.order_record).length)
    (hm2 : m2 < 2 * rs.length + (onboardStops (onboardSet v) v.order_record).length)
    (hk : sameKey (universeStop heap v rs m) (universeStop heap v rs m2)) : m = m2 := by
  have hreq : ∀ x, x < 2 * rs.length →
      (universeStop heap v rs x).r = rs.getD (x / 2) 0
      ∧ ((universeStop heap v rs x).is_pickup = true ↔ x % 2 = 1) := by
    intro x hx
    unfold universeStop
    rw [if_pos hx]
    split_ifs with h
    · simp; omega
    · simp; omega
  have hin : ∀ x, x < 2 * rs.length → rs.getD (x / 2) 0 ∈ rs := by
    intro x hx
    rw [List.getD_eq_getElem _ _ (by omega)]
    exact List.getElem_mem _
  have hob : ∀ x, 2 * rs.length ≤ x →
      x < 2 * rs.length + (onboardStops (onboardSet v) v.order_record).length →
      (universeStop heap v rs x).r ∈ v.passengers := by
    intro x hx1 hx2
    rw [← mem_onboardSet]
    exact (onboardStops_mem _ _ _ (universeStop_onboard heap v rs x hx1 hx2)).1
  obtain ⟨hr, hp⟩ := hk
  by_cases h1 : m < 2 * rs.length <;> by_cases h2 : m2 < 2 * rs.length
  · obtain ⟨a1, a2⟩ := hreq m h1
    obtain ⟨b1, b2⟩ := hreq m2 h2
    rw [a1, b1, List.getD_eq_getElem _ _ (by omega), List.getD_eq_getElem _ _ (by omega),
      hnd.getElem_inj_iff] at hr
    have : m % 2 = 1 ↔ m2 % 2 = 1 := by rw [← a2, ← b2, hp]
    omega
  · exfalso
    have := hob m2 (by omega) hm2
    rw [← hr, (hreq m h1).1] at this
    exact hdis _ (hin m h1) this
  · exfalso
    have := hob m (by omega) hm
    rw [hr, (hreq m2 h2).1] at this
    exact hdis _ (hin m2 h2) this
  · have hnd2 := onboardStops_nodup v.order_record (onboardSet v)
    have hb1 : m - 2 * rs.length
        < ((onboardStops (onboardSet v) v.order_record).map (fun x => x.r)).length := by
      rw [List.length_map]; omega
    have hb2 : m2 - 2 * rs.length
        < ((onboardStops (onboardSet v) v.order_record).map (fun x => x.r)).length := by
      rw [List.length_map]; omega
    have e1 : (universeStop heap v rs m).r
        = ((onboardStops (onboardSet v) v.order_record).map (fun x => x.r))[m - 2 * rs.length] := by
      unfold universeStop
      rw [if_neg h1, List.getD_eq_getElem _ _ (by omega), List.getElem_map]
    have e2 : (universeStop heap v rs m2).r
        = ((onboardStops (onboardSet v) v.order_record).map (fun x => x.r))[m2 - 2 * rs.length] := by
      unfold universeStop
      rw [if_neg h2, List.getD_eq_getElem _ _ (by omega), List.getElem_map]
    rw [e1, e2, hnd2.getElem_inj_iff] at hr
    omega

theorem nodeStop_equiv (k ns : NodeStop) :
    (!(NodeStop.lt k ns) && !(NodeStop.lt ns k)) = true ↔ sameKey k ns := by
  obtain ⟨r1, p1, n1⟩ := k
  obtain ⟨r2, p2, n2⟩ := ns
  simp only [NodeStop.lt, sameKey, Bool.and_eq_true, Bool.not_eq_true']
  rcases lt_trichotomy r1 r2 with h | h | h
  · simp [h, h.ne, not_lt_of_gt h]
  · subst h
    cases p1 <;> cases p2 <;> simp
  · simp [h, h.ne', not_lt_of_gt h]

theorem node_to_meta_some (nodes : List NodeStop) (M : List MetaNodeStop) (ns : NodeStop)
    (m : Nat) (h : node_to_meta nodes M ns = some m) :
    m < M.length ∧ sameKey (nodes.getD (M.getD m ⟨0, []⟩).node ⟨0, false, 0⟩) ns := by
  unfold node_to_meta at h
  have h1 := List.mem_of_find?_eq_some h
  have h2 := List.find?_some h
  simp only [List.mem_reverse, List.mem_range] at h1
  exact ⟨h1, (nodeStop_equiv _ _).mp h2⟩

theorem node_to_meta_of (nodes : List NodeStop) (M : List MetaNodeStop) (ns : NodeStop)
    (m : Nat) (hm : m < M.length)
    (hk : sameKey (nodes.getD (M.getD m ⟨0, []⟩).node ⟨0, false, 0⟩) ns)
    (huniq : ∀ m2, m2 < M.length →
      sameKey (nodes.getD (M.getD m2 ⟨0, []⟩).node ⟨0, false, 0⟩) ns → m2 = m) :
    node_to_meta nodes M ns = some m := by
  cases h : node_to_meta nodes M ns with
  | none =>
    exfalso
    unfold node_to_meta at h
    rw [List.find?_eq_none] at h
    have := h m (by simp [hm])
    simp only at this
    exact this ((nodeStop_equiv _ _).mpr hk)
  | some m2 =>
    obtain ⟨h1, h2⟩ := node_to_meta_some nodes M ns m2 h
    rw [huniq m2 h1 h2]

/-- The map `node_to_meta` over the universe of `new_travel`: a stop is mapped to the one
meta node whose stop has its request and its kind. -/
theorem node_to_meta_iff (heap : Heap) (v : Vehicle) (rs : List ReqPtr) (hnd : rs.Nodup)
    (hdis : ∀ r ∈ rs, r ∉ v.passengers) (M : List MetaNodeStop)
    (hM : SameNodes M (baseMetas rs.length
      (onboardStops (onboardSet v) v.order_record).length)) (ns : NodeStop) (m : Nat) :
    node_to_meta (requestNodes heap rs ++ onboardStops (onboardSet v) v.order_record) M ns
        = some m
      ↔ (m < 2 * rs.length + (onboardStops (onboardSet v) v.order_record).length
        ∧ sameKey (universeStop heap v rs m) ns) := by
  have hlen : M.length
      = 2 * rs.length + (onboardStops (onboardSet v) v.order_record).length := by
    rw [hM.1, baseMetas_length]
  have hs := fun x hx => stop_universe ⟨Ctsp.FULL, CtspObjective.CTSP_VMT, 0, 0, 0, 0, 0⟩
    ⟨fun _ _ => 0⟩ heap v rs M hM x hx
  simp only [Ctx.stop, Ctx.nodeAt, Ctx.metaAt] at hs
  constructor
  · intro h
    obtain ⟨h1, h2⟩ := node_to_meta_some _ _ _ _ h
    rw [hlen] at h1
    rw [hs m h1] at h2
    exact ⟨h1, h2⟩
  · rintro ⟨h1, h2⟩
    apply node_to_meta_of _ _ _ _ (by rw [hlen]; exact h1) (by rw [hs m h1]; exact h2)
    intro m2 hm2 hk2
    rw [hlen] at hm2
    rw [hs m2 hm2] at hk2
    exact universe_key_inj heap v rs hnd hdis m2 m hm2 h1 ⟨hk2.1.trans h2.1.symm,
      hk2.2.trans h2.2.symm⟩

theorem filterMap_nodup_of_key {α β γ : Type} (f : α → Option β) (key : α → γ) :
    ∀ (l : List α), (l.map key).Nodup →
      (∀ a a2 b, a ∈ l → a2 ∈ l → f a = some b → f a2 = some b → key a = key a2) →
      (l.filterMap f).Nodup := by
  intro l
  induction l with
  | nil => intro _ _; simp
  | cons a t ih =>
    intro hk hinj
    rw [List.map_cons, List.nodup_cons] at hk
    have iht := ih hk.2 (fun x y b hx hy => hinj x y b (List.mem_cons_of_mem _ hx)
      (List.mem_cons_of_mem _ hy))
    cases hfa : f a with
    | none => rw [List.filterMap_cons_none hfa]; exact iht
    | some b =>
      rw [List.filterMap_cons_some hfa, List.nodup_cons]
      refine ⟨?_, iht⟩
      intro hb
      obtain ⟨a2, ha2, hfa2⟩ := List.mem_filterMap.mp hb
      have := hinj a a2 b (List.mem_cons_self _ _) (List.mem_cons_of_mem _ ha2) hfa hfa2
      exact hk.1 (List.mem_map.mpr ⟨a2, ha2, this.symm⟩)

/-- The element at the place `j` of a filtered list comes from an element of the list,
and what comes from the elements before that one is at earlier places. -/
theorem filterMap_before {α : Type} (f : α → Option Nat) :
    ∀ (l : List α) (j : Nat), j < (l.filterMap f).length →
      ∃ pre a post, l = pre ++ a :: post ∧ f a = some ((l.filterMap f).getD j 0)
        ∧ ∀ x ∈ pre, ∀ b, f x = some b → ∃ i, i < j ∧ (l.filterMap f).getD i 0 = b := by
  intro l
  induction l with
  | nil => intro j hj; simp at hj
  | cons a t ih =>
    intro j hj
    cases hfa : f a with
    | none =>
      rw [List.filterMap_cons_none hfa] at hj ⊢
      obtain ⟨pre, a2, post, e, h1, h2⟩ := ih j hj
      refine ⟨a :: pre, a2, post, by rw [e]; rfl, h1, ?_⟩
      intro x hx b hb
      rcases List.mem_cons.mp hx with h | h
      · subst h; rw [hfa] at hb; simp at hb
      · exact h2 x h b hb
    | some b0 =>
      rw [List.filterMap_cons_some hfa] at hj ⊢
      match j with
      | 0 =>
        refine ⟨[], a, t, rfl, by simpa using hfa, ?_⟩
        intro x hx
        simp at hx
      | j + 1 =>
        obtain ⟨pre, a2, post, e, h1, h2⟩ := ih j (by simpa using hj)
        refine ⟨a :: pre, a2, post, by rw [e]; rfl, by simpa using h1, ?_⟩
        intro x hx b hb
        rcases List.mem_cons.mp hx with h | h
        · subst h
          rw [hfa] at hb
          simp only [Option.some.injEq] at hb
          exact ⟨0, by omega, by simpa using hb⟩
        · obtain ⟨i, hi, hib⟩ := h2 x h b hb
          exact ⟨i + 1, by omega, by simpa using hib⟩

theorem order_plan_split (v : Vehicle) (h : OrderIsPlan v) (pre : List NodeStop)
    (ns : NodeStop) (post : List NodeStop) (e : v.order_record = pre ++ ns :: post)
    (hd : ns.is_pickup = false) (hp : ns.r ∉ v.passengers) :
    ∃ p ∈ pre, p.r = ns.r ∧ p.is_pickup = true := by
  have hj : (v.order_record.getD pre.length ⟨0, false, 0⟩) = ns := by
    rw [e, List.getD_append_right _ _ _ _ (le_refl _)]
    simp
  obtain ⟨i, hi, h1, h2⟩ := h.2 pre.length (by rw [e]; simp) (by rw [hj]; exact hd)
    (by rw [hj]; exact hp)
  have hi2 : v.order_record.getD i ⟨0, false, 0⟩ = pre[i] := by
    rw [e, List.getD_append _ _ _ _ hi, List.getD_eq_getElem _ _ hi]
  rw [hi2] at h1 h2
  rw [hj] at h1
  exact ⟨pre[i], List.getElem_mem _, h1, h2⟩

theorem nodup_getD_inj (l : List Nat) (h : l.Nodup) (i j : Nat) (hi : i < l.length)
    (hj : j < l.length) (e : l.getD i 0 = l.getD j 0) : i = j := by
  rw [List.getD_eq_getElem _ _ hi, List.getD_eq_getElem _ _ hj, h.getElem_inj_iff] at e
  exact e

theorem getD_mem_of_lt (l : List Nat) (i : Nat) (hi : i < l.length) : l.getD i 0 ∈ l := by
  rw [List.getD_eq_getElem _ _ hi]
  exact List.getElem_mem _

/-- The meta nodes `fix_prefix_build` returns freeze the first `size - LP_LIMITVALUE`
meta nodes of the previous order in the forest of the universe, when the requests are
pairwise distinct, none of them is on board, and the order record is a plan. -/
theorem fix_prefix_frozen (heap : Heap) (v : Vehicle) (rs : List ReqPtr) (b : Build)
    (chain : Prop) [Decidable chain] (hchain : ¬ chain)
    (K : Nat) (hK : (onboardStops (onboardSet v) v.order_record).length = K)
    (hnodes : b.nodes = requestNodes heap rs ++ onboardStops (onboardSet v) v.order_record)
    (hM : SameNodes b.meta_nodes (baseMetas rs.length
      K))
    (hunl : ∀ m, (b.meta_nodes.getD m ⟨0, []⟩).unlocks = unlOf chain rs.length
      (2 * rs.length + K) m)
    (hinit : ∀ x, x ∈ b.initially_available
      ↔ (x < 2 * rs.length + K
        ∧ parOf chain rs.length
          (2 * rs.length + K) x = none))
    (hnd : rs.Nodup) (hdis : ∀ r ∈ rs, r ∉ v.passengers) (hplan : OrderIsPlan v)
    (hlen : b.meta_nodes.length - LP_LIMITVALUE
      ≤ (previous_order b.nodes b.meta_nodes v.order_record).length) :
    FrozenPrefix (2 * rs.length + K)
      (unlOf chain rs.length
        (2 * rs.length + K))
      (fun m => ((fix_prefix_build v b).meta_nodes.getD m ⟨0, []⟩).unlocks)
      (parOf chain rs.length
        (2 * rs.length + K))
      (previous_order b.nodes b.meta_nodes v.order_record)
      (2 * rs.length + K - LP_LIMITVALUE)
    ∧ SameNodes (fix_prefix_build v b).meta_nodes (baseMetas rs.length
      K) := by
  subst hK
  have hN : b.meta_nodes.length
      = 2 * rs.length + (onboardStops (onboardSet v) v.order_record).length := by
    rw [hM.1, baseMetas_length]
  rw [hN] at hlen
  have hmem := fun ns m => node_to_meta_iff heap v rs hnd hdis b.meta_nodes hM ns m
  rw [← hnodes] at hmem
  have hnodup : (previous_order b.nodes b.meta_nodes v.order_record).Nodup := by
    apply filterMap_nodup_of_key _ (fun ns => (ns.r, ns.is_pickup)) _ hplan.1
    intro a a2 m _ _ h1 h2
    obtain ⟨_, k1⟩ := (hmem a m).mp h1
    obtain ⟨_, k2⟩ := (hmem a2 m).mp h2
    simp only [Prod.mk.injEq]
    exact ⟨k1.1.symm.trans k2.1, k1.2.symm.trans k2.2⟩
  have h1 : ∀ i j,
      i < 2 * rs.length + (onboardStops (onboardSet v) v.order_record).length
        - LP_LIMITVALUE →
      j < 2 * rs.length + (onboardStops (onboardSet v) v.order_record).length
        - LP_LIMITVALUE →
      (previous_order b.nodes b.meta_nodes v.order_record).getD i 0
        = (previous_order b.nodes b.meta_nodes v.order_record).getD j 0 → i = j := by
    intro i j hi hj e
    exact nodup_getD_inj _ hnodup i j (by omega) (by omega) e
  have h2 : ∀ i,
      i < 2 * rs.length + (onboardStops (onboardSet v) v.order_record).length
        - LP_LIMITVALUE →
      (previous_order b.nodes b.meta_nodes v.order_record).getD i 0
        < 2 * rs.length + (onboardStops (onboardSet v) v.order_record).length := by
    intro i hi
    have hx : (previous_order b.nodes b.meta_nodes v.order_record).getD i 0
        ∈ previous_order b.nodes b.meta_nodes v.order_record :=
      getD_mem_of_lt _ i (by omega)
    obtain ⟨ns, _, hns⟩ := List.mem_filterMap.mp hx
    exact ((hmem ns _).mp hns).1
  obtain ⟨fa, fb, _, fd, fe, ff⟩ := fix_fold (previous_order b.nodes b.meta_nodes v.order_record)
    (2 * rs.length + (onboardStops (onboardSet v) v.order_record).length - LP_LIMITVALUE)
    b.meta_nodes b.initially_available h1 (by rw [hN]; exact h2) _ (le_refl _)
  have hbuild : (fix_prefix_build v b).meta_nodes
      = ((List.range (2 * rs.length + (onboardStops (onboardSet v) v.order_record).length
          - LP_LIMITVALUE)).foldl
        (fix_step (previous_order b.nodes b.meta_nodes v.order_record)
          (2 * rs.length + (onboardStops (onboardSet v) v.order_record).length
            - LP_LIMITVALUE)) (b.meta_nodes, b.initially_available)).1 := by
    unfold fix_prefix_build
    simp only [hN]
  have hfun : (fun m => (b.meta_nodes.getD m ⟨0, []⟩).unlocks)
      = unlOf chain rs.length
        (2 * rs.length + (onboardStops (onboardSet v) v.order_record).length) :=
    funext hunl
  rw [hfun] at ff
  refine ⟨⟨?_, ?_, ?_, ?_⟩, ?_⟩
  · intro j hj
    refine ⟨h2 j hj, ?_, ?_⟩
    · rintro ⟨i, hi, e⟩
      have := h1 j i hj (by omega) e
      omega
    · by_cases hc : (previous_order b.nodes b.meta_nodes v.order_record).getD j 0
          < 2 * rs.length
          ∧ (previous_order b.nodes b.meta_nodes v.order_record).getD j 0 % 2 = 0
      · right
        refine ⟨(previous_order b.nodes b.meta_nodes v.order_record).getD j 0 + 1,
          by unfold parOf; rw [if_pos hc.1, if_pos hc.2], ?_⟩
        obtain ⟨pre, a, post, e, hfa, hpre⟩ := filterMap_before
          (node_to_meta b.nodes b.meta_nodes) v.order_record j
          (by unfold previous_order at hlen; omega)
        have hfa2 := (hmem a _).mp hfa
        have hk := hfa2.2
        unfold previous_order at hc
        simp only [universeStop, if_pos hc.1, if_pos hc.2, sameKey] at hk
        have hin : rs.getD ((List.filterMap (node_to_meta b.nodes b.meta_nodes)
            v.order_record).getD j 0 / 2) 0 ∈ rs :=
          getD_mem_of_lt _ _ (by omega)
        obtain ⟨p, hp, hp1, hp2⟩ := order_plan_split v hplan pre a post e hk.2.symm
          (by rw [← hk.1]; exact hdis _ hin)
        have hfp : node_to_meta b.nodes b.meta_nodes p
            = some ((List.filterMap (node_to_meta b.nodes b.meta_nodes)
              v.order_record).getD j 0 + 1) := by
          rw [hmem]
          refine ⟨by omega, ?_⟩
          have hodd : ¬ ((List.filterMap (node_to_meta b.nodes b.meta_nodes)
              v.order_record).getD j 0 + 1) % 2 = 0 := by omega
          have hhalf : ((List.filterMap (node_to_meta b.nodes b.meta_nodes)
              v.order_record).getD j 0 + 1) / 2
              = (List.filterMap (node_to_meta b.nodes b.meta_nodes)
                v.order_record).getD j 0 / 2 := by omega
          simp only [universeStop, if_pos (show (List.filterMap (node_to_meta b.nodes
            b.meta_nodes) v.order_record).getD j 0 + 1 < 2 * rs.length by omega),
            if_neg hodd, sameKey, hhalf]
          exact ⟨hk.1.trans hp1.symm, hp2.symm⟩
        obtain ⟨i, hi, hib⟩ := hpre p hp _ hfp
        exact ⟨i, hi, hib.symm⟩
      · left
        unfold parOf
        split_ifs with c1 c2 c3
        · exact absurd ⟨c1, c2⟩ hc
        · rfl
        · exact absurd c3.1 hchain
        · rfl
  · intro m hm
    simp only [hbuild]
    rw [fd m (fun i hi e => hm ⟨i, hi, e⟩), hunl]
  · intro i hi
    simp only [hbuild]
    exact fe i (by omega) hi
  · intro i hi x
    simp only [hbuild]
    rw [ff i (by omega) hi x]
    apply capAt_congr
    intro y
    rw [hinit]
    simp [availAfter]
  · rw [hbuild]
    exact ⟨fa.trans hM.1, fun m => (fb m).trans (hM.2 m)⟩

/-- A feasible result of `new_travel` lists the stops of a sequence of visits of the
forest of the universe: pickups unlock dropoffs, the dropoffs of the passengers are
free or chained.  The passengers must be listed in the order record; when the prefix of
the previous order is frozen, the requests must be pairwise distinct, none of them on
board, and the order record a plan. -/
theorem new_travel_visits (S : Settings) (net : Network) (heap : Heap) (fuel : Nat)
    (v : Vehicle) (rs : List ReqPtr) (time : Int) (r : Int × List NodeStop)
    (hpl : PassengersListed v)
    (hfix : S.CTSP = Ctsp.FIX_PREFIX
        ∧ LP_LIMITVALUE < 2 * rs.length + v.passengers.length →
      rs.Nodup ∧ (∀ q ∈ rs, q ∉ v.passengers) ∧ OrderIsPlan v)
    (h : new_travel S net heap fuel v rs time = Except.ok r) (hc : r.1 ≥ 0) :
    ∃ ms, r.2 = ms.map (universeStop heap v rs)
      ∧ Visits (unlOf (LinkChain S rs.length v.passengers.length) rs.length
          (2 * rs.length + v.passengers.length))
        (availAfter (2 * rs.length + v.passengers.length)
          (parOf (LinkChain S rs.length v.passengers.length) rs.length
            (2 * rs.length + v.passengers.length)) (fun _ => False)) ms := by
  have hk := onboardStops_length v hpl.1 hpl.2
  obtain ⟨e1, e2, e3, e4⟩ := link_onboard_eq S heap v rs hk
  have hf := forest_parOf (LinkChain S rs.length v.passengers.length) rs.length
    (2 * rs.length + v.passengers.length) (by omega)
  have key : ∀ b : Build,
      b.nodes = requestNodes heap rs ++ onboardStops (onboardSet v) v.order_record →
      SameNodes b.meta_nodes (baseMetas rs.length v.passengers.length) →
      (∀ ms, Visits (fun m => (b.meta_nodes.getD m ⟨0, []⟩).unlocks)
          (fun x => x ∈ b.initially_available) ms →
        Visits (unlOf (LinkChain S rs.length v.passengers.length) rs.length
            (2 * rs.length + v.passengers.length))
          (availAfter (2 * rs.length + v.passengers.length)
            (parOf (LinkChain S rs.length v.passengers.length) rs.length
              (2 * rs.length + v.passengers.length)) (fun _ => False)) ms) →
      run_search S net heap fuel v b time = Except.ok r →
      ∃ ms, r.2 = ms.map (universeStop heap v rs)
        ∧ Visits (unlOf (LinkChain S rs.length v.passengers.length) rs.length
            (2 * rs.length + v.passengers.length))
          (availAfter (2 * rs.length + v.passengers.length)
            (parOf (LinkChain S rs.length v.passengers.length) rs.length
              (2 * rs.length + v.passengers.length)) (fun _ => False)) ms := by
    intro b hb1 hb2 hb3 hrun
    obtain ⟨_, hr | ⟨ms, c, hRun, hr⟩⟩ := run_search_ok S net heap fuel v b time r hrun
    · rw [hr] at hc
      simp at hc
    · have hv := run_visits _ _ _ _ _ _ _ _ hRun
      have hv2 := hb3 ms (visits_congr _ _ _ ms hv (fun x => by
        rw [mem_setInsertAll _ (separating_mnsLt _)]
        simp))
      refine ⟨ms, ?_, hv2⟩
      obtain ⟨_, hmem, _⟩ := forest_visits _ _ _ _ hf ms (fun _ => False)
        (fun _ hm => hm.elim) hv2
      rw [hr]
      apply List.map_congr_left
      intro m hm
      have hmN := ((hmem m).mp hm).1
      have := stop_universe S net heap v rs b.meta_nodes (by rw [hk]; exact hb2) m
        (by rw [hk]; exact hmN)
      rw [← hb1] at this
      exact this
  unfold new_travel at h
  simp only at h
  split_ifs at h with h1 h2 h3 h4
  · simp only [Except.ok.injEq] at h
    rw [← h] at hc
    simp at hc
  · have hN : (link_onboard S rs.length v.passengers.length
        (build_stops heap v rs)).meta_nodes.length = 2 * rs.length + v.passengers.length := by
      rw [e2.1, baseMetas_length]
    obtain ⟨hnd, hdis, hplan⟩ := hfix ⟨h2.1, by rw [← hN]; exact h2.2⟩
    obtain ⟨hz, hsame⟩ := fix_prefix_frozen heap v rs _
      (LinkChain S rs.length v.passengers.length)
      (by unfold LinkChain; rw [h2.1]; simp) v.passengers.length hk e1 e2 e3 e4 hnd hdis
      hplan (by omega)
    have hL : 0 < 2 * rs.length + v.passengers.length - LP_LIMITVALUE := by
      have := h2.2
      rw [hN] at this
      omega
    apply key (fix_prefix_build v (link_onboard S rs.length v.passengers.length
      (build_stops heap v rs))) e1 hsame _ h
    intro ms hms
    have h5 := frozen_visits _ _ _ _ _ hf _ _ hz _ ms hms 0 hL (fun x => by
      simp [fix_prefix_build])
    refine visits_congr _ _ _ ms h5 ?_
    intro x
    apply availAfter_congr
    intro y
    simp [chainSet]
  · apply key _ e1 e2 _ h
    intro ms hms
    have e5 : (fun m => ((link_onboard S rs.length v.passengers.length
        (build_stops heap v rs)).meta_nodes.getD m ⟨0, []⟩).unlocks)
        = unlOf (LinkChain S rs.length v.passengers.length) rs.length
          (2 * rs.length + v.passengers.length) := funext e3
    rw [e5] at hms
    refine visits_congr _ _ _ ms hms ?_
    intro x
    rw [e4]
    simp [availAfter]

/-- Claim C1: when the STANDARD oracle returns a cost that is not negative and a stop
sequence, the replay of the sequence from the node of the vehicle at the epoch time plus
the offset, with the arrival rule of the planner, reaches every pickup by the entry time
plus `MAX_WAITING` and every dropoff by the entry time plus the ideal travel time plus
`MAX_DETOUR`, and never has more than `capacity` passengers on board after a stop; and
the dropoff of every request that is not on board comes after its pickup.  The order of
the stops is stated for a vehicle as the simulator hands it over: the passengers are
pairwise distinct and each has a stop in the order record (and, where a prefix of the
previous order is frozen, the requests are pairwise distinct, none of them is on board
and the order record is a plan). -/
theorem oracle_soundness (S : Settings) (net : Network) (heap : Heap) (fuel : Nat)
    (v : Vehicle) (rs : List ReqPtr) (time cost : Int) (path : List NodeStop)
    (h : travel S net heap fuel v rs Purpose.STANDARD time = Except.ok (cost, path))
    (hc : cost ≥ 0) :
    ReplayOk S net heap v.capacity v.node (time + v.offset) Action.NO_ACTION
        v.passengers.length path
    ∧ (PassengersListed v →
        (PrefixFrozen S v rs → rs.Nodup ∧ (∀ q ∈ rs, q ∉ v.passengers) ∧ OrderIsPlan v) →
        PickupsFirst v path) := by
  constructor
  · rcases travel_ok S net heap fuel v rs Purpose.STANDARD time _ (by decide) h with hr | hr
    · simp only [Prod.mk.injEq] at hr
      omega
    · exact hr.1
  · intro hpl hfix pre ns post hsplit hdrop hnot
    have h2 : new_travel S net heap fuel v rs time = Except.ok (cost, path) := by
      simpa [travel] using h
    obtain ⟨ms, hpath, hvis⟩ := new_travel_visits S net heap fuel v rs time _ hpl hfix h2 hc
    have hk := onboardStops_length v hpl.1 hpl.2
    obtain ⟨_, hmem, hord⟩ := forest_visits _ _ _ _
      (forest_parOf (LinkChain S rs.length v.passengers.length) rs.length
        (2 * rs.length + v.passengers.length) (by omega)) ms (fun _ => False)
      (fun _ hm => hm.elim) hvis
    simp only at hpath
    rw [hsplit] at hpath
    obtain ⟨l1, l2, e1, e2, e3⟩ := List.map_eq_append_iff.mp hpath.symm
    obtain ⟨x, l3, e4, e5, _⟩ := List.map_eq_cons_iff.mp e3
    subst e4
    have hxN : x < 2 * rs.length + v.passengers.length :=
      ((hmem x).mp (by rw [e1]; simp)).1
    have hx1 : x < 2 * rs.length := by
      by_contra hge
      have := universeStop_onboard heap v rs x (by omega) (by rw [hk]; exact hxN)
      rw [e5] at this
      exact hnot ((mem_onboardSet v _).mp (onboardStops_mem _ _ _ this).1)
    have hx2 : x % 2 = 0 := by
      by_contra hodd
      have : (universeStop heap v rs x).is_pickup = true := by
        simp [universeStop, hx1, hodd]
      rw [e5, hdrop] at this
      exact absurd this (by decide)
    have hpar : parOf (LinkChain S rs.length v.passengers.length) rs.length
        (2 * rs.length + v.passengers.length) x = some (x + 1) := by
      unfold parOf
      rw [if_pos hx1, if_pos hx2]
    rcases hord l1 x l3 (x + 1) e1 hpar with hF | hin
    · exact hF.elim
    · refine ⟨universeStop heap v rs (x + 1), ?_, ?_, ?_⟩
      · rw [← e2]
        exact List.mem_map_of_mem _ hin
      · rw [← e5]
        have e6 : (x + 1) / 2 = x / 2 := by omega
        have e7 : ¬ (x + 1) % 2 = 0 := by omega
        simp [universeStop, hx1, hx2, e6, e7, show x + 1 < 2 * rs.length by omega]
      · have e7 : ¬ (x + 1) % 2 = 0 := by omega
        simp [universeStop, e7, show x + 1 < 2 * rs.length by omega]

theorem oracle_soundness_witness :
    travel (exSettings Ctsp.FULL) exNet exHeap 5 exVehicle [1, 2] Purpose.STANDARD 0
        = Except.ok (140, exPlan)
      ∧ (140 : Int) ≥ 0
      ∧ PassengersListed exVehicle
      ∧ ReplayOk (exSettings Ctsp.FULL) exNet exHeap exVehicle.capacity exVehicle.node
        (0 + exVehicle.offset) Action.NO_ACTION exVehicle.passengers.length exPlan
      ∧ PickupsFirst exVehicle exPlan :=
  ⟨by rfl, by decide, ⟨by decide, by decide⟩,
    (oracle_soundness (exSettings Ctsp.FULL) exNet exHeap 5 exVehicle [1, 2] 0 140 exPlan
      (by rfl) (by decide)).1,
    (oracle_soundness (exSettings Ctsp.FULL) exNet exHeap 5 exVehicle [1, 2] 0 140 exPlan
      (by rfl) (by decide)).2 ⟨by decide, by decide⟩ (fun hp => absurd hp.1 (by decide))⟩

theorem countP_range_one (N : Nat) (q : Nat → Bool) (m0 : Nat) (h0 : m0 < N)
    (hq : ∀ m, m < N → (q m = true ↔ m = m0)) : (List.range N).countP q = 1 := by
  have e : (List.range N).countP q = (List.range N).countP (fun x => x == m0) := by
    apply List.countP_congr
    intro x hx
    rw [hq x (List.mem_range.mp hx)]
    simp
  rw [e]
  exact List.count_eq_one_of_mem (List.nodup_range N) (List.mem_range.mpr h0)

theorem countP_range_zero (N : Nat) (q : Nat → Bool) (hq : ∀ m, m < N → q m = false) :
    (List.range N).countP q = 0 := by
  rw [List.countP_eq_zero]
  intro x hx
  rw [hq x (List.mem_range.mp hx)]
  simp

theorem universeStop_request (heap : Heap) (v : Vehicle) (rs : List ReqPtr) (i : Nat)
    (hi : i < rs.length) :
    universeStop heap v rs (2 * i)
        = ⟨rs.getD i 0, false, (heap (rs.getD i 0)).destination⟩
    ∧ universeStop heap v rs (2 * i + 1)
        = ⟨rs.getD i 0, true, (heap (rs.getD i 0)).origin⟩ := by
  have e1 : 2 * i / 2 = i := by omega
  have e2 : (2 * i + 1) / 2 = i := by omega
  have e3 : ¬ (2 * i + 1) % 2 = 0 := by omega
  constructor
  · simp [universeStop, hi, e1]
  · simp [universeStop, show 2 * i + 1 < 2 * rs.length by omega, e2, e3]

/-- A sequence that visits every meta node of the universe once holds exactly one stop
with the request and the kind of a given meta node. -/
theorem count_key_one (heap : Heap) (v : Vehicle) (rs : List ReqPtr) (hnd : rs.Nodup)
    (hdis : ∀ r ∈ rs, r ∉ v.passengers) (ms : List Nat)
    (hperm : ms.Perm (List.range
      (2 * rs.length + (onboardStops (onboardSet v) v.order_record).length)))
    (P : NodeStop → Bool) (r : ReqPtr) (flag : Bool)
    (hP : ∀ ns, P ns = true ↔ (ns.r = r ∧ ns.is_pickup = flag)) (m0 : Nat)
    (hm0 : m0 < 2 * rs.length + (onboardStops (onboardSet v) v.order_record).length)
    (h1 : (universeStop heap v rs m0).r = r)
    (h2 : (universeStop heap v rs m0).is_pickup = flag) :
    (ms.map (universeStop heap v rs)).countP P = 1 := by
  rw [List.countP_map, hperm.countP_eq]
  apply countP_range_one _ _ m0 hm0
  intro m hm
  simp only [Function.comp_apply, hP]
  constructor
  · rintro ⟨a1, a2⟩
    exact universe_key_inj heap v rs hnd hdis m m0 hm hm0 ⟨a1.trans h1.symm, a2.trans h2.symm⟩
  · rintro rfl
    exact ⟨h1, h2⟩

theorem count_key_zero (heap : Heap) (v : Vehicle) (rs : List ReqPtr) (ms : List Nat)
    (hperm : ms.Perm (List.range
      (2 * rs.length + (onboardStops (onboardSet v) v.order_record).length)))
    (P : NodeStop → Bool) (r : ReqPtr) (flag : Bool)
    (hP : ∀ ns, P ns = true ↔ (ns.r = r ∧ ns.is_pickup = flag))
    (hnone : ∀ m, m < 2 * rs.length + (onboardStops (onboardSet v) v.order_record).length →
      ¬ ((universeStop heap v rs m).r = r ∧ (universeStop heap v rs m).is_pickup = flag)) :
    (ms.map (universeStop heap v rs)).countP P = 0 := by
  rw [List.countP_map, hperm.countP_eq]
  apply countP_range_zero
  intro m hm
  have := hnone m hm
  rw [← hP] at this
  simpa using this

/-- The stops of a sequence that visits every meta node of the universe once. -/
theorem universe_counts (heap : Heap) (v : Vehicle) (rs : List ReqPtr) (hnd : rs.Nodup)
    (hdis : ∀ r ∈ rs, r ∉ v.passengers) (hpl : PassengersListed v)
    (hdrop : ∀ ns ∈ v.order_record, ns.r ∈ v.passengers → ns.is_pickup = false)
    (ms : List Nat) (hms : ms.Nodup)
    (hmem : ∀ x, x ∈ ms ↔ x < 2 * rs.length + v.passengers.length) :
    StopUniverse v rs (ms.map (universeStop heap v rs)) := by
  have hk := onboardStops_length v hpl.1 hpl.2
  rw [← hk] at hmem
  have hperm : ms.Perm (List.range
      (2 * rs.length + (onboardStops (onboardSet v) v.order_record).length)) :=
    (List.perm_ext_iff_of_nodup hms (List.nodup_range _)).mpr
      (fun x => by rw [hmem, List.mem_range])
  have hob : ∀ m, 2 * rs.length ≤ m →
      m < 2 * rs.length + (onboardStops (onboardSet v) v.order_record).length →
      (universeStop heap v rs m).r ∈ v.passengers
      ∧ (universeStop heap v rs m).is_pickup = false := by
    intro m h1 h2
    have hin := universeStop_onboard heap v rs m h1 h2
    obtain ⟨a1, a2⟩ := onboardStops_mem _ _ _ hin
    have a3 := (mem_onboardSet v _).mp a1
    exact ⟨a3, hdrop _ (List.mem_of_find?_eq_some a2) a3⟩
  have hrq : ∀ m, m < 2 * rs.length → (universeStop heap v rs m).r ∈ rs := by
    intro m h1
    have : (universeStop heap v rs m).r = rs.getD (m / 2) 0 := by
      unfold universeStop
      rw [if_pos h1]
      split_ifs <;> rfl
    rw [this]
    exact getD_mem_of_lt _ _ (by omega)
  refine ⟨?_, ?_, ?_, ?_⟩
  · rw [List.length_map, hperm.length_eq, List.length_range, hk]
  · intro q hq
    obtain ⟨i, hi, rfl⟩ := List.mem_iff_getElem.mp hq
    obtain ⟨u1, u2⟩ := universeStop_request heap v rs i hi
    rw [List.getD_eq_getElem _ _ hi] at u1 u2
    constructor
    · exact count_key_one heap v rs hnd hdis ms hperm _ rs[i] true (by intro ns; simp)
        (2 * i + 1) (by omega) (by rw [u2]) (by rw [u2])
    · exact count_key_one heap v rs hnd hdis ms hperm _ rs[i] false (by intro ns; simp)
        (2 * i) (by omega) (by rw [u1]) (by rw [u1])
  · intro p hp
    obtain ⟨x, hx, hxp⟩ := onboardStops_complete v.order_record (onboardSet v) p
      ((mem_onboardSet v p).mpr hp) (hpl.2 p hp)
    obtain ⟨k, hk2, rfl⟩ := List.mem_iff_getElem.mp hx
    have hu : universeStop heap v rs (2 * rs.length + k)
        = (onboardStops (onboardSet v) v.order_record)[k] := by
      unfold universeStop
      rw [if_neg (by omega), List.getD_eq_getElem _ _ (by omega)]
      simp
    constructor
    · refine count_key_one heap v rs hnd hdis ms hperm _ p false (by intro ns; simp)
        (2 * rs.length + k) (by omega) (by rw [hu]; exact hxp) ?_
      exact (hob _ (by omega) (by omega)).2
    · apply count_key_zero heap v rs ms hperm _ p true (by intro ns; simp)
      rintro m hm ⟨a1, a2⟩
      by_cases h1 : m < 2 * rs.length
      · exact hdis _ (hrq m h1) (a1 ▸ hp)
      · rw [(hob m (by omega) hm).2] at a2
        exact absurd a2 (by decide)
  · intro ns hns
    obtain ⟨m, hm, rfl⟩ := List.mem_map.mp hns
    have hmN := (hmem m).mp hm
    by_cases h1 : m < 2 * rs.length
    · exact Or.inl (hrq m h1)
    · exact Or.inr (hob m (by omega) hmN).1

/-- Claim C4: when the STANDARD oracle returns a cost that is not negative for requests
that are pairwise distinct and not on board, the returned sequence holds exactly one
pickup and one dropoff for each request, exactly one dropoff and no pickup for each
passenger, and no stop of any other request: `2 * |rs| + |passengers|` stops in all.
The vehicle is one that the simulator hands over: the passengers are pairwise distinct,
each has a stop in the order record, every stop of a passenger in the order record is a
dropoff (and, where a prefix of the previous order is frozen, the order record is a
plan). -/
theorem plan_stop_universe (S : Settings) (net : Network) (heap : Heap) (fuel : Nat)
    (v : Vehicle) (rs : List ReqPtr) (time cost : Int) (path : List NodeStop)
    (hnd : rs.Nodup) (hdis : ∀ q ∈ rs, q ∉ v.passengers) (hpl : PassengersListed v)
    (hdrop : ∀ ns ∈ v.order_record, ns.r ∈ v.passengers → ns.is_pickup = false)
    (hfix : PrefixFrozen S v rs → OrderIsPlan v)
    (h : travel S net heap fuel v rs Purpose.STANDARD time = Except.ok (cost, path))
    (hc : cost ≥ 0) : StopUniverse v rs path := by
  have h2 : new_travel S net heap fuel v rs time = Except.ok (cost, path) := by
    simpa [travel] using h
  obtain ⟨ms, hpath, hvis⟩ := new_travel_visits S net heap fuel v rs time _ hpl
    (fun hp => ⟨hnd, hdis, hfix hp⟩) h2 hc
  obtain ⟨hms, hmem, _⟩ := forest_visits _ _ _ _
    (forest_parOf (LinkChain S rs.length v.passengers.length) rs.length
      (2 * rs.length + v.passengers.length) (by omega)) ms (fun _ => False)
    (fun _ hm => hm.elim) hvis
  simp only at hpath
  rw [hpath]
  exact universe_counts heap v rs hnd hdis hpl hdrop ms hms (fun x => by rw [hmem]; simp)

theorem plan_stop_universe_witness :
    ([2] : List ReqPtr).Nodup
      ∧ (∀ q ∈ ([2] : List ReqPtr), q ∉ exVehicleOnboard.passengers)
      ∧ PassengersListed exVehicleOnboard
      ∧ travel (exSettings Ctsp.FULL) exNet exHeap 6 exVehicleOnboard [2] Purpose.STANDARD 0
        = Except.ok (140, [⟨2, true, 0⟩, ⟨1, false, 1⟩, ⟨2, false, 2⟩])
      ∧ StopUniverse exVehicleOnboard [2] [⟨2, true, 0⟩, ⟨1, false, 1⟩, ⟨2, false, 2⟩] :=
  ⟨by decide, by decide, ⟨by decide, by decide⟩, by rfl,
    plan_stop_universe (exSettings Ctsp.FULL) exNet exHeap 6 exVehicleOnboard [2] 0 140
      [⟨2, true, 0⟩, ⟨1, false, 1⟩, ⟨2, false, 2⟩] (by decide) (by decide)
      ⟨by decide, by decide⟩ (by decide) (fun hp => absurd hp.1 (by decide)) (by rfl)
      (by decide)⟩

/-- The search returns when the fuel exceeds a bound on the number of visits. -/
theorem run_search_returns (S : Settings) (net : Network) (heap : Heap) (fuel : Nat)
    (v : Vehicle) (b : Build) (time : Int) (d : Nat)
    (hv : S.CTSP_OBJECTIVE = CtspObjective.CTSP_VMT)
    (hd : Depth (fun m => (b.meta_nodes.getD m ⟨0, []⟩).unlocks) d
      (fun x => x ∈ b.initially_available))
    (hfuel : d + 1 ≤ fuel) :
    ∃ r, run_search S net heap fuel v b time = Except.ok r := by
  unfold run_search recursive_search_set
  rw [if_pos hv]
  obtain ⟨r, hr⟩ := search_terminates ⟨S, net, heap, b.nodes, b.meta_nodes⟩ d fuel v.node
    (v.capacity - v.passengers.length)
    (setInsertAll (mnsLt ⟨S, net, heap, b.nodes, b.meta_nodes⟩) b.initially_available [])
    (time + v.offset) (-1) Action.NO_ACTION
    (depth_congr _ d _ _ (fun x => by
      rw [mem_setInsertAll _ (separating_mnsLt _)]
      simp) hd) hfuel
  rw [hr]
  exact ⟨_, rfl⟩

/-- No sequence of visits of the forest of the universe is longer than the universe. -/
theorem universe_depth (chain : Prop) [Decidable chain] (n N : Nat) (hN : 2 * n ≤ N) :
    Depth (unlOf chain n N) N (availAfter N (parOf chain n N) (fun _ => False)) := by
  have h := forest_depth N _ _ _ (forest_parOf chain n N hN) N ∅
    (fun m hm => absurd hm (Finset.not_mem_empty m)) (by simp)
  exact depth_congr _ N _ _ (fun x => availAfter_congr N _ _ _ (fun y => by simp) x) h

/-- The consistency test of `FIX_PREFIX` passes: when the requests are pairwise distinct,
none of them is on board, the order record holds both stops of the requests that are
pending, and at most `LP_LIMITVALUE / 2` requests are new, all but `LP_LIMITVALUE` stops
of the universe are found in the order record. -/
theorem previous_order_long (heap : Heap) (v : Vehicle) (rs : List ReqPtr) (hnd : rs.Nodup)
    (hdis : ∀ r ∈ rs, r ∉ v.passengers)
    (K : Nat) (hK : (onboardStops (onboardSet v) v.order_record).length = K)
    (hpend : ∀ q ∈ rs, q ∈ v.pending_requests → ∀ flag : Bool,
      ∃ ns ∈ v.order_record, ns.r = q ∧ ns.is_pickup = flag)
    (M : List MetaNodeStop)
    (hM : SameNodes M (baseMetas rs.length
      K))
    (hnew : 2 * new_requests_size v rs ≤ LP_LIMITVALUE) :
    2 * rs.length + K - LP_LIMITVALUE
      ≤ (previous_order (requestNodes heap rs ++ onboardStops (onboardSet v) v.order_record)
          M v.order_record).length := by
  subst hK
  have hmem := fun ns m => node_to_meta_iff heap v rs hnd hdis M hM ns m
  have hin : ∀ m ns,
      m < 2 * rs.length + (onboardStops (onboardSet v) v.order_record).length →
      ns ∈ v.order_record → sameKey (universeStop heap v rs m) ns →
      m ∈ previous_order (requestNodes heap rs ++ onboardStops (onboardSet v) v.order_record)
        M v.order_record := by
    intro m ns hm hns hk
    exact List.mem_filterMap.mpr ⟨ns, hns, (hmem ns m).mpr ⟨hm, hk⟩⟩
  have h1 : ((Finset.range (2 * rs.length
        + (onboardStops (onboardSet v) v.order_record).length)).filter
      (fun m => m ∈ previous_order (requestNodes heap rs
        ++ onboardStops (onboardSet v) v.order_record) M v.order_record)).card
      ≤ (previous_order (requestNodes heap rs ++ onboardStops (onboardSet v) v.order_record)
          M v.order_record).length := by
    refine le_trans (Finset.card_le_card ?_) (List.toFinset_card_le _)
    intro m hm
    rw [Finset.mem_filter] at hm
    exact List.mem_toFinset.mpr hm.2
  have h2 : ((Finset.range (2 * rs.length
        + (onboardStops (onboardSet v) v.order_record).length)).filter
      (fun m => ¬ m ∈ previous_order (requestNodes heap rs
        ++ onboardStops (onboardSet v) v.order_record) M v.order_record)).card
      ≤ 2 * new_requests_size v rs := by
    have hc : ((rs.filter (fun r => decide (r ∉ v.pending_requests))).toFinset
        ×ˢ (Finset.univ : Finset Bool)).card ≤ 2 * new_requests_size v rs := by
      rw [Finset.card_product, Finset.card_univ, Fintype.card_bool]
      have e : (rs.filter (fun r => decide (r ∉ v.pending_requests))).toFinset
          = (setInsertAll ptrLt (rs.filter (fun r => decide (r ∉ v.pending_requests)))
            []).toFinset := by
        ext x
        rw [List.mem_toFinset, List.mem_toFinset, mem_setInsertAll ptrLt separating_ptrLt]
        simp
      rw [e]
      have := List.toFinset_card_le
        (setInsertAll ptrLt (rs.filter (fun r => decide (r ∉ v.pending_requests))) [])
      unfold new_requests_size
      omega
    refine le_trans (Finset.card_le_card_of_injOn
      (fun m => ((universeStop heap v rs m).r, (universeStop heap v rs m).is_pickup))
      ?_ ?_) hc
    · intro m hm
      rw [Finset.mem_filter, Finset.mem_range] at hm
      obtain ⟨hmN, hnot⟩ := hm
      simp only [Finset.mem_product, Finset.mem_univ, and_true, List.mem_toFinset,
        List.mem_filter, decide_eq_true_eq]
      by_cases hlt : m < 2 * rs.length
      · have hr : (universeStop heap v rs m).r = rs.getD (m / 2) 0 := by
          unfold universeStop
          rw [if_pos hlt]
          split_ifs <;> rfl
        have hrs : (universeStop heap v rs m).r ∈ rs := by
          rw [hr]
          exact getD_mem_of_lt _ _ (by omega)
        refine ⟨hrs, ?_⟩
        intro hp
        obtain ⟨ns, hns, a1, a2⟩ := hpend _ hrs hp (universeStop heap v rs m).is_pickup
        exact hnot (hin m ns hmN hns ⟨a1.symm, a2.symm⟩)
      · exfalso
        have hob := universeStop_onboard heap v rs m (by omega) hmN
        have := List.mem_of_find?_eq_some (onboardStops_mem _ _ _ hob).2
        exact hnot (hin m _ hmN this ⟨rfl, rfl⟩)
    · intro m hm m2 hm2 e
      rw [Finset.coe_filter, Set.mem_setOf_eq, Finset.mem_range] at hm hm2
      simp only [Prod.mk.injEq] at e
      exact universe_key_inj heap v rs hnd hdis m m2 hm.1 hm2.1 e
  have h3 := Finset.filter_card_add_filter_neg_card_eq_card
    (s := Finset.range (2 * rs.length + (onboardStops (onboardSet v) v.order_record).length))
    (fun m => m ∈ previous_order (requestNodes heap rs
      ++ onboardStops (onboardSet v) v.order_record) M v.order_record)
  rw [Finset.card_range] at h3
  omega

/-- Claim C7: under the VMT objective, a STANDARD call with more fuel than stops returns a
value, in every precedence mode: the pair of -1 and the empty sequence, or a plan that
keeps the windows and the capacity; in particular the consistency error of `FIX_PREFIX`
is not raised.  The vehicle and the request list are those of a call of the program: the
passengers are pairwise distinct and each has a stop in the order record (and, where a
prefix of the previous order is frozen, the requests are pairwise distinct, none of them
is on board, the order record is a plan and holds both stops of the requests that are
pending). -/
theorem oracle_returns (S : Settings) (net : Network) (heap : Heap) (fuel : Nat)
    (v : Vehicle) (rs : List ReqPtr) (time : Int)
    (hv : S.CTSP_OBJECTIVE = CtspObjective.CTSP_VMT) (hpl : PassengersListed v)
    (hfix : PrefixFrozen S v rs →
      rs.Nodup ∧ (∀ q ∈ rs, q ∉ v.passengers) ∧ OrderIsPlan v ∧ PendingListed v rs)
    (hfuel : 2 * rs.length + v.passengers.length < fuel) :
    ∃ r, travel S net heap fuel v rs Purpose.STANDARD time = Except.ok r
      ∧ (r = (-1, []) ∨ ReplayOk S net heap v.capacity v.node (time + v.offset)
          Action.NO_ACTION v.passengers.length r.2) := by
  have hk := onboardStops_length v hpl.1 hpl.2
  obtain ⟨e1, e2, e3, e4⟩ := link_onboard_eq S heap v rs hk
  have hN : (link_onboard S rs.length v.passengers.length
      (build_stops heap v rs)).meta_nodes.length = 2 * rs.length + v.passengers.length := by
    rw [e2.1, baseMetas_length]
  have hud := universe_depth (LinkChain S rs.length v.passengers.length) rs.length
    (2 * rs.length + v.passengers.length) (by omega)
  have hnt : ∃ r, new_travel S net heap fuel v rs time = Except.ok r := by
    unfold new_travel
    simp only
    split_ifs with h1 h2 h3 h4
    · exfalso
      rw [(build_stops_eq heap v rs).2.1, baseMetas_length] at h1
      omega
    · exact ⟨_, rfl⟩
    · exfalso
      obtain ⟨hnd, hdis, _, hpend⟩ := hfix ⟨h2.1, by rw [← hN]; exact h2.2⟩
      have := previous_order_long heap v rs hnd hdis v.passengers.length hk hpend _ e2
        (by omega)
      rw [← e1] at this
      omega
    · obtain ⟨hnd, hdis, hplan, _⟩ := hfix ⟨h2.1, by rw [← hN]; exact h2.2⟩
      obtain ⟨hz, _⟩ := fix_prefix_frozen heap v rs _
        (LinkChain S rs.length v.passengers.length)
        (by unfold LinkChain; rw [h2.1]; simp) v.passengers.length hk e1 e2 e3 e4 hnd hdis
        hplan (by omega)
      have hL : 0 < 2 * rs.length + v.passengers.length - LP_LIMITVALUE := by
        have := h2.2
        rw [hN] at this
        omega
      have hd := frozen_depth _ _ _ _ _
        (forest_parOf (LinkChain S rs.length v.passengers.length) rs.length
          (2 * rs.length + v.passengers.length) (by omega)) _ _ hz
        (2 * rs.length + v.passengers.length) 0 hL
        (depth_congr _ _ _ _ (fun x => availAfter_congr _ _ _ _
          (fun y => by simp [chainSet]) x) hud)
      exact run_search_returns S net heap fuel v
        (fix_prefix_build v (link_onboard S rs.length v.passengers.length
          (build_stops heap v rs))) time (2 * rs.length + v.passengers.length) hv
        (depth_congr _ _ _ _ (fun x => by simp [fix_prefix_build]) hd) (by omega)
    · have e5 : (fun m => ((link_onboard S rs.length v.passengers.length
          (build_stops heap v rs)).meta_nodes.getD m ⟨0, []⟩).unlocks)
          = unlOf (LinkChain S rs.length v.passengers.length) rs.length
            (2 * rs.length + v.passengers.length) := funext e3
      refine run_search_returns S net heap fuel v _ time
        (2 * rs.length + v.passengers.length) hv ?_ (by omega)
      rw [e5]
      refine depth_congr _ _ _ _ (fun x => ?_) hud
      rw [e4]
      simp [availAfter]
  obtain ⟨r, hr⟩ := hnt
  have ht : travel S net heap fuel v rs Purpose.STANDARD time = Except.ok r := by
    simpa [travel] using hr
  refine ⟨r, ht, ?_⟩
  rcases travel_ok S net heap fuel v rs Purpose.STANDARD time r (by decide) ht with h | h
  · exact Or.inl h
  · exact Or.inr h.1

theorem oracle_returns_witness :
    (exSettings Ctsp.FIX_PREFIX).CTSP_OBJECTIVE = CtspObjective.CTSP_VMT
      ∧ PassengersListed exVehicleFive
      ∧ PrefixFrozen (exSettings Ctsp.FIX_PREFIX) exVehicleFive [1, 2, 3, 4, 5]
      ∧ ∃ r, travel (exSettings Ctsp.FIX_PREFIX) exNet exHeap 11 exVehicleFive [1, 2, 3, 4, 5]
            Purpose.STANDARD 0 = Except.ok r
          ∧ (r = (-1, []) ∨ ReplayOk (exSettings Ctsp.FIX_PREFIX) exNet exHeap
              exVehicleFive.capacity exVehicleFive.node (0 + exVehicleFive.offset)
              Action.NO_ACTION exVehicleFive.passengers.length r.2) :=
  ⟨rfl, ⟨by decide, by decide⟩, ⟨rfl, by decide⟩,
    oracle_returns (exSettings Ctsp.FIX_PREFIX) exNet exHeap 11 exVehicleFive [1, 2, 3, 4, 5] 0
      rfl ⟨by decide, by decide⟩
      (fun _ => ⟨by decide, by decide, ⟨by decide, by decide⟩,
        by unfold PendingListed; decide⟩) (by decide)⟩

theorem metric_arrival_ge (S : Settings) (net : Network) (heap : Heap) {V : Int → Prop}
    (hM : Metric S net V)
    (loc time : Int) (prev : Action) (ns : NodeStop) :
    time + net.get_time S loc ns.node ≤ arrival S net heap loc time prev ns := by
  have h1 := hM.dwell_pickup
  have h2 := hM.dwell_order
  unfold arrival
  cases hp : ns.is_pickup <;>
    simp only [Bool.false_eq_true, false_and, if_false, true_and] <;>
    split_ifs <;> omega

theorem metric_arrival_time (S : Settings) (net : Network) (heap : Heap) {V : Int → Prop}
    (hM : Metric S net V)
    (loc time : Int) (prev : Action) (ns : NodeStop) :
    time ≤ arrival S net heap loc time prev ns := by
  have := metric_arrival_ge S net heap hM loc time prev ns
  have := hM.nonneg loc ns.node
  omega

theorem metric_finalTime_ge (S : Settings) (net : Network) (heap : Heap) {V : Int → Prop}
    (hM : Metric S net V) :
    ∀ (stops : List NodeStop) (loc time : Int) (prev : Action),
      time ≤ finalTime S net heap loc time prev stops := by
  intro stops
  induction stops with
  | nil => intro loc time prev; exact le_refl _
  | cons ns rest ih =>
    intro loc time prev
    exact le_trans (metric_arrival_time S net heap hM loc time prev ns) (ih _ _ _)

theorem arrival_mono (S : Settings) (net : Network) (heap : Heap) (loc time time2 : Int)
    (prev : Action) (ns : NodeStop) (h : time ≤ time2) :
    arrival S net heap loc time prev ns ≤ arrival S net heap loc time2 prev ns := by
  unfold arrival
  cases hp : ns.is_pickup <;>
    simp only [Bool.false_eq_true, false_and, if_false, true_and] <;>
    split_ifs <;> omega

/-- A replay that starts earlier, with fewer passengers on board, keeps every promise
the later one keeps and does not end later. -/
theorem replay_mono (S : Settings) (net : Network) (heap : Heap) (capacity : Int) :
    ∀ (path : List NodeStop) (loc time time2 : Int) (prev : Action) (ob ob2 : Int),
      time2 ≤ time → ob2 ≤ ob →
      ReplayOk S net heap capacity loc time prev ob path →
      ReplayOk S net heap capacity loc time2 prev ob2 path
      ∧ finalTime S net heap loc time2 prev path ≤ finalTime S net heap loc time prev path := by
  intro path
  induction path with
  | nil => intro loc time time2 prev ob ob2 ht _ _; exact ⟨trivial, ht⟩
  | cons ns rest ih =>
    intro loc time time2 prev ob ob2 ht hob h
    obtain ⟨h1, h2, h3, h4⟩ := h
    have ha := arrival_mono S net heap loc time2 time prev ns ht
    have hob2 : (if ns.is_pickup = true then ob2 + 1 else ob2 - 1)
        ≤ (if ns.is_pickup = true then ob + 1 else ob - 1) := by
      split_ifs <;> omega
    obtain ⟨i1, i2⟩ := ih ns.node _ _ (actionOf ns) _ _ ha hob2 h4
    refine ⟨⟨fun hp => le_trans ha (h1 hp), fun hp => le_trans ha (h2 hp),
      le_trans hob2 h3, i1⟩, i2⟩

/-- Going to a stop directly is not slower than going there by the dropoff `a`. -/
theorem arrival_detour (S : Settings) (net : Network) (heap : Heap) {V : Int → Prop}
    (hM : Metric S net V)
    (loc time : Int) (prev : Action) (a y : NodeStop) (hprev : prev ≠ Action.NO_ACTION)
    (ha : a.is_pickup = false) (hloc : V loc) (han : V a.node) (hyn : V y.node) :
    arrival S net heap loc time prev y
      ≤ arrival S net heap a.node (arrival S net heap loc time prev a) Action.DROPOFF y := by
  have h1 := hM.dwell_pickup
  have h2 := hM.dwell_order
  have h3 := hM.triangle loc a.node y.node hloc han hyn
  have h4 := hM.nonneg loc a.node
  have h5 := hM.nonneg a.node y.node
  have h6 := hM.nonneg loc y.node
  unfold arrival
  cases prev with
  | NO_ACTION => exact absurd rfl hprev
  | PICKUP =>
    cases hy : y.is_pickup <;>
      simp only [ha, Bool.false_eq_true, false_and, if_false, false_or, true_or, and_true,
        reduceCtorEq, true_and, if_true] <;>
      split_ifs <;> omega
  | DROPOFF =>
    cases hy : y.is_pickup <;>
      simp only [ha, Bool.false_eq_true, false_and, if_false, false_or, true_or, and_true,
        reduceCtorEq, true_and, if_true] <;>
      split_ifs <;> omega

/-- A stop that a replay reaches in time could be reached in time directly. -/
theorem replay_reach (S : Settings) (net : Network) (heap : Heap) {V : Int → Prop}
    (hM : Metric S net V)
    (capacity : Int) (x : NodeStop) (post : List NodeStop) (hxn : V x.node) :
    ∀ (xs : List NodeStop) (loc time : Int) (prev : Action) (ob : Int),
      V loc → (∀ ns ∈ xs, V ns.node) →
      ReplayOk S net heap capacity loc time prev ob (xs ++ x :: post) →
      (x.is_pickup = true →
        time + net.get_time S loc x.node ≤ (heap x.r).entry_time + S.MAX_WAITING)
      ∧ (x.is_pickup = false →
        time + net.get_time S loc x.node
          ≤ (heap x.r).entry_time + (heap x.r).ideal_traveltime + S.MAX_DETOUR) := by
  intro xs
  induction xs with
  | nil =>
    intro loc time prev ob _ _ h
    obtain ⟨h1, h2, _, _⟩ := h
    have := metric_arrival_ge S net heap hM loc time prev x
    exact ⟨fun hp => le_trans this (h1 hp), fun hp => le_trans this (h2 hp)⟩
  | cons z xs ih =>
    intro loc time prev ob hloc hxs h
    obtain ⟨_, _, _, h4⟩ := h
    have hz : V z.node := hxs z (List.mem_cons_self _ _)
    obtain ⟨i1, i2⟩ := ih z.node _ (actionOf z) _ hz
      (fun ns hns => hxs ns (List.mem_cons_of_mem _ hns)) h4
    have h5 := metric_arrival_ge S net heap hM loc time prev z
    have h6 := hM.triangle loc z.node x.node hloc hz hxn
    exact ⟨fun hp => by have := i1 hp; omega, fun hp => by have := i2 hp; omega⟩

theorem actionOf_ne (ns : NodeStop) : actionOf ns ≠ Action.NO_ACTION := by
  unfold actionOf
  split_ifs <;> decide

/-- Without the dropoff `a`, the rest of a replay keeps every promise and does not end
later. -/
theorem replay_delete (S : Settings) (net : Network) (heap : Heap) {V : Int → Prop}
    (hM : Metric S net V)
    (capacity : Int) (a : NodeStop) (post : List NodeStop) (ha : a.is_pickup = false)
    (han : V a.node) (hpost : ∀ ns ∈ post, V ns.node) :
    ∀ (xs : List NodeStop) (loc time : Int) (prev : Action) (ob : Int),
      prev ≠ Action.NO_ACTION → V loc → (∀ ns ∈ xs, V ns.node) →
      ReplayOk S net heap capacity loc time prev ob (xs ++ a :: post) →
      ReplayOk S net heap capacity loc time prev (ob - 1) (xs ++ post)
      ∧ finalTime S net heap loc time prev (xs ++ post)
        ≤ finalTime S net heap loc time prev (xs ++ a :: post) := by
  intro xs
  induction xs with
  | nil =>
    intro loc time prev ob hprev hloc _ h
    obtain ⟨_, _, _, h4⟩ := h
    have ea : actionOf a = Action.DROPOFF := by simp [actionOf, ha]
    simp only [ha, Bool.false_eq_true, if_false, ea] at h4
    simp only [List.nil_append]
    cases post with
    | nil =>
      exact ⟨trivial, metric_arrival_time S net heap hM loc time prev a⟩
    | cons y post2 =>
      obtain ⟨g1, g2, g3, g4⟩ := h4
      have hy : V y.node := hpost y (List.mem_cons_self _ _)
      have hd := arrival_detour S net heap hM loc time prev a y hprev ha hloc han hy
      obtain ⟨i1, i2⟩ := replay_mono S net heap capacity post2 y.node _ _ (actionOf y) _ _
        hd (le_refl _) g4
      refine ⟨⟨fun hp => le_trans hd (g1 hp), fun hp => le_trans hd (g2 hp), g3, i1⟩, ?_⟩
      simp only [finalTime, ea]
      exact i2
  | cons x xs ih =>
    intro loc time prev ob _ _ hxs h
    obtain ⟨h1, h2, h3, h4⟩ := h
    have hx : V x.node := hxs x (List.mem_cons_self _ _)
    obtain ⟨i1, i2⟩ := ih x.node _ (actionOf x) _ (actionOf_ne x) hx
      (fun ns hns => hxs ns (List.mem_cons_of_mem _ hns)) h4
    have e : (if x.is_pickup = true then ob - 1 + 1 else ob - 1 - 1)
        = (if x.is_pickup = true then ob + 1 else ob - 1) - 1 := by
      split_ifs <;> omega
    refine ⟨⟨h1, h2, ?_, ?_⟩, i2⟩
    · rw [e]; omega
    · rw [e]; exact i1

theorem arrival_dropoff_eq (S : Settings) (net : Network) (heap : Heap) (loc time : Int)
    (prev : Action) (a m : NodeStop) (ha : a.is_pickup = false) (hm : m.is_pickup = false)
    (hn : a.node = m.node) :
    arrival S net heap loc time prev a = arrival S net heap loc time prev m := by
  unfold arrival
  simp only [ha, hm, hn, Bool.false_eq_true, false_and, if_false, false_or, true_or, and_true]

theorem arrival_same_node (S : Settings) (net : Network) (heap : Heap) {V : Int → Prop}
    (hM : Metric S net V)
    (time : Int) (m : NodeStop) (hm : m.is_pickup = false) (hn : V m.node) :
    arrival S net heap m.node time Action.DROPOFF m = time := by
  unfold arrival
  simp [hm, hM.self_zero m.node hn]

/-- The dropoff `a`, at the node of the dropoff `m` that starts a replay, can be moved
to the front of the replay: every promise is kept and the replay does not end later. -/
theorem replay_front (S : Settings) (net : Network) (heap : Heap) {V : Int → Prop}
    (hM : Metric S net V)
    (capacity : Int) (a m : NodeStop) (xs post : List NodeStop)
    (ha : a.is_pickup = false) (hm : m.is_pickup = false) (hn : a.node = m.node)
    (hmn : V m.node) (hxs : ∀ ns ∈ xs, V ns.node) (hpost : ∀ ns ∈ post, V ns.node)
    (loc time : Int) (prev : Action) (ob : Int)
    (h : ReplayOk S net heap capacity loc time prev ob (m :: (xs ++ a :: post))) :
    ReplayOk S net heap capacity loc time prev ob (a :: m :: (xs ++ post))
    ∧ finalTime S net heap loc time prev (a :: m :: (xs ++ post))
      ≤ finalTime S net heap loc time prev (m :: (xs ++ a :: post)) := by
  obtain ⟨_, h2, h3, h4⟩ := h
  have ea : actionOf a = Action.DROPOFF := by simp [actionOf, ha]
  have em : actionOf m = Action.DROPOFF := by simp [actionOf, hm]
  simp only [hm, Bool.false_eq_true, if_false, em] at h3 h4
  have han : V a.node := by rw [hn]; exact hmn
  have e1 := arrival_dropoff_eq S net heap loc time prev a m ha hm hn
  have e2 := arrival_same_node S net heap hM (arrival S net heap loc time prev m) m hm hmn
  have hr := (replay_reach S net heap hM capacity a post han xs m.node _ Action.DROPOFF _
    hmn hxs h4).2 ha
  have hz : net.get_time S m.node a.node = 0 := by
    rw [hn]; exact hM.self_zero m.node hmn
  rw [hz] at hr
  obtain ⟨i1, i2⟩ := replay_delete S net heap hM capacity a post ha han hpost xs m.node _
    Action.DROPOFF _ (by decide) hmn hxs h4
  simp only [ReplayOk, finalTime, ha, hm, Bool.false_eq_true, if_false, ea, em, e1, hn, e2,
    false_implies, true_and, forall_true_left]
  refine ⟨⟨by omega, by omega, h2 hm, by omega, i1⟩, i2⟩

theorem visits_cons_inv (unl : Nat → List Nat) (A : Nat → Prop) (m : Nat) (ms : List Nat)
    (h : Visits unl A (m :: ms)) : A m ∧ Visits unl (nextAvail unl A m) ms := by
  cases h with
  | cons _ _ _ h1 h2 => exact ⟨h1, h2⟩

theorem visits_nil_inv (unl : Nat → List Nat) (A : Nat → Prop) (h : Visits unl A []) :
    ∀ x, ¬ A x := by
  cases h with
  | nil _ h1 => exact h1

/-- Every available meta node is visited. -/
theorem visits_mem (unl : Nat → List Nat) (A : Nat → Prop) (ms : List Nat)
    (h : Visits unl A ms) : ∀ x, A x → x ∈ ms := by
  induction h with
  | nil A hA => intro x hx; exact absurd hx (hA x)
  | cons A m ms _ _ ih =>
    intro x hx
    by_cases e : x = m
    · rw [e]; exact List.mem_cons_self _ _
    · exact List.mem_cons_of_mem _ (ih x (Or.inl ⟨hx, e⟩))

/-- In a forest, a sequence of visits from the state after `W`: its first visit is
available, and the others are a sequence of visits from the state after `W` and it. -/
theorem visits_cons_forest (n : Nat) (unl : Nat → List Nat) (par : Nat → Option Nat)
    (rk : Nat → Nat) (hf : Forest n unl par rk) (W : Nat → Prop)
    (hclosed : ∀ m, W m → ∀ y, par m = some y → W y) (m : Nat) (ms : List Nat) :
    Visits unl (availAfter n par W) (m :: ms)
      ↔ (availAfter n par W m ∧ Visits unl (availAfter n par (fun k => W k ∨ k = m)) ms) := by
  constructor
  · intro h
    obtain ⟨h1, h2⟩ := visits_cons_inv _ _ _ _ h
    exact ⟨h1, visits_congr _ _ _ _ h2 (forest_next n unl par rk hf W hclosed m h1).2⟩
  · rintro ⟨h1, h2⟩
    exact Visits.cons _ _ _ h1 (visits_congr _ _ _ _ h2
      (fun x => ((forest_next n unl par rk hf W hclosed m h1).2 x).symm))

/-- In a forest, a meta node that is available can be visited first: moved to the front,
the sequence of visits stays one. -/
theorem visits_front (n : Nat) (unl : Nat → List Nat) (par : Nat → Option Nat)
    (rk : Nat → Nat) (hf : Forest n unl par rk) (a : Nat) (post : List Nat) :
    ∀ (xs : List Nat) (W : Nat → Prop), (∀ m, W m → ∀ y, par m = some y → W y) →
      availAfter n par W a → Visits unl (availAfter n par W) (xs ++ a :: post) →
      Visits unl (availAfter n par W) (a :: (xs ++ post)) := by
  intro xs
  induction xs with
  | nil => intro W _ _ h; exact h
  | cons x xs ih =>
    intro W hclosed ha h
    rw [List.cons_append, visits_cons_forest n unl par rk hf W hclosed] at h
    obtain ⟨hx, hrest⟩ := h
    have hcx := (forest_next n unl par rk hf W hclosed x hx).1
    obtain ⟨_, hmem, _⟩ := forest_visits n unl par rk hf _ _ hcx hrest
    have hax : a ≠ x := by
      have := ((hmem a).mp (by simp)).2
      exact fun e => this (Or.inr e)
    have ha2 : availAfter n par (fun k => W k ∨ k = x) a := by
      obtain ⟨a1, a2, a3⟩ := ha
      refine ⟨a1, fun h => h.elim a2 hax, ?_⟩
      rcases a3 with h | ⟨y, hy, hW⟩
      · exact Or.inl h
      · exact Or.inr ⟨y, hy, Or.inl hW⟩
    have h2 := ih _ hcx ha2 hrest
    rw [visits_cons_forest n unl par rk hf _ hcx] at h2
    have hca := (forest_next n unl par rk hf W hclosed a ha).1
    rw [visits_cons_forest n unl par rk hf W hclosed]
    refine ⟨ha, ?_⟩
    rw [List.cons_append, visits_cons_forest n unl par rk hf _ hca]
    constructor
    · obtain ⟨x1, x2, x3⟩ := hx
      refine ⟨x1, fun h => h.elim x2 (fun e => hax e.symm), ?_⟩
      rcases x3 with h | ⟨y, hy, hW⟩
      · exact Or.inl h
      · exact Or.inr ⟨y, hy, Or.inl hW⟩
    · refine visits_congr _ _ _ _ h2.2 (fun z => availAfter_congr n par _ _ (fun k => ?_) z)
      tauto

theorem mnsLt_trans (ctx : Ctx) (a b c : Nat) (h1 : mnsLt ctx a b = true)
    (h2 : mnsLt ctx b c = true) : mnsLt ctx a c = true := by
  unfold mnsLt at h1 h2 ⊢
  generalize (ctx.stop a).node = na at *
  generalize (ctx.stop b).node = nb at *
  generalize (ctx.stop c).node = nc at *
  generalize (ctx.stop a).is_pickup = pa at *
  generalize (ctx.stop b).is_pickup = pb at *
  generalize (ctx.stop c).is_pickup = pc at *
  generalize (ctx.metaAt a).node = ia at *
  generalize (ctx.metaAt b).node = ib at *
  generalize (ctx.metaAt c).node = ic at *
  cases pa <;> cases pb <;> cases pc <;>
    simp only [gt_iff_lt, Bool.lt_iff, Bool.false_eq_true, and_self, and_false, false_and,
      and_true, true_and, if_false, if_true, lt_self_iff_false, Bool.true_eq_false] at h1 h2 ⊢ <;>
    split_ifs at h1 h2 ⊢ <;> first | rfl | omega

theorem mnsLt_irrefl (ctx : Ctx) (a : Nat) : mnsLt ctx a a = false := by
  unfold mnsLt
  simp

/-- In the order of the available set, a meta node that comes before a dropoff at the
same node is a dropoff. -/
theorem mnsLt_key (ctx : Ctx) (p m : Nat) (h : mnsLt ctx p m = true)
    (hn : (ctx.stop p).node = (ctx.stop m).node) (hm : (ctx.stop m).is_pickup = false) :
    (ctx.stop p).is_pickup = false := by
  unfold mnsLt at h
  rw [hn, hm] at h
  cases hp : (ctx.stop p).is_pickup
  · rfl
  · rw [hp] at h
    simp at h
    exact absurd h (by decide)

theorem setInsert_sorted (lt : Nat → Nat → Bool)
    (htrans : ∀ a b c, lt a b = true → lt b c = true → lt a c = true) (x : Nat) :
    ∀ (s : List Nat), s.Pairwise (fun a b => lt a b = true) →
      (setInsert lt x s).Pairwise (fun a b => lt a b = true) := by
  intro s
  induction s with
  | nil => intro _; simp [setInsert]
  | cons y ys ih =>
    intro hs
    rw [List.pairwise_cons] at hs
    rw [setInsert]
    split_ifs with h1 h2
    · rw [List.pairwise_cons]
      refine ⟨?_, List.pairwise_cons.mpr hs⟩
      intro z hz
      rcases List.mem_cons.mp hz with e | e
      · rw [e]; exact h1
      · exact htrans x y z h1 (hs.1 z e)
    · rw [List.pairwise_cons]
      refine ⟨?_, ih hs.2⟩
      intro z hz
      rcases mem_setInsert_imp lt x z ys hz with e | e
      · rw [e]; exact h2
      · exact hs.1 z e
    · exact List.pairwise_cons.mpr hs

theorem setInsertAll_sorted (lt : Nat → Nat → Bool)
    (htrans : ∀ a b c, lt a b = true → lt b c = true → lt a c = true) :
    ∀ (xs s : List Nat), s.Pairwise (fun a b => lt a b = true) →
      (setInsertAll lt xs s).Pairwise (fun a b => lt a b = true) := by
  intro xs
  induction xs with
  | nil => intro s hs; exact hs
  | cons x xs ih =>
    intro s hs
    have := ih (setInsert lt x s) (setInsert_sorted lt htrans x s hs)
    simpa [setInsertAll] using this

theorem remaining_nodes_sorted (ctx : Ctx) (avail : List Nat) (m : Nat)
    (h : avail.Pairwise (fun a b => mnsLt ctx a b = true)) :
    (remaining_nodes ctx avail m).Pairwise (fun a b => mnsLt ctx a b = true) := by
  unfold remaining_nodes
  exact setInsertAll_sorted _ (mnsLt_trans ctx) _ _ (h.filter _)

theorem residual_onboard (ns : NodeStop) (capacity cap : Int) :
    (if ns.is_pickup = true then capacity - cap + 1 else capacity - cap - 1)
      = capacity - new_residual ns cap := by
  unfold new_residual
  split_ifs <;> omega

/-- The first visit of a feasible completion passes the capacity and window tests, and
the other visits are a feasible completion of the state that follows. -/
theorem plan_cons (ctx : Ctx) (n : Nat) (par : Nat → Option Nat) (rk : Nat → Nat)
    {V : Int → Prop}
    (env : SearchEnv ctx V n par rk) (capacity : Int) (W : Nat → Prop)
    (hclosed : ∀ m, W m → ∀ y, par m = some y → W y) (loc cap time : Int) (prev : Action)
    (m : Nat) (ms : List Nat) (h : PlanFrom ctx n par capacity W loc cap time prev (m :: ms)) :
    availAfter n par W m
    ∧ 0 ≤ new_residual (ctx.stop m) cap
    ∧ ((ctx.stop m).is_pickup = true →
        arrival ctx.S ctx.net ctx.heap loc time prev (ctx.stop m)
          ≤ (ctx.req m).entry_time + ctx.S.MAX_WAITING)
    ∧ ((ctx.stop m).is_pickup = false →
        arrival ctx.S ctx.net ctx.heap loc time prev (ctx.stop m)
          ≤ (ctx.req m).entry_time + (ctx.req m).ideal_traveltime + ctx.S.MAX_DETOUR)
    ∧ PlanFrom ctx n par capacity (fun k => W k ∨ k = m) (ctx.stop m).node
        (new_residual (ctx.stop m) cap)
        (arrival ctx.S ctx.net ctx.heap loc time prev (ctx.stop m)) (actionOf (ctx.stop m)) ms
    ∧ planEnd ctx loc time prev (m :: ms)
        = planEnd ctx (ctx.stop m).node
          (arrival ctx.S ctx.net ctx.heap loc time prev (ctx.stop m)) (actionOf (ctx.stop m))
          ms := by
  obtain ⟨hv, hr⟩ := h
  rw [visits_cons_forest n _ par rk env.forest W hclosed] at hv
  simp only [List.map_cons, ReplayOk, residual_onboard] at hr
  obtain ⟨h1, h2, h3, h4⟩ := hr
  exact ⟨hv.1, by omega, h1, h2, ⟨hv.2, h4⟩, rfl⟩

/-- A feasible completion does not end before its first arrival. -/
theorem plan_bound (ctx : Ctx) (n : Nat) (par : Nat → Option Nat) (rk : Nat → Nat)
    {V : Int → Prop}
    (env : SearchEnv ctx V n par rk) (loc time : Int) (prev : Action) (m : Nat)
    (ms : List Nat) :
    arrival ctx.S ctx.net ctx.heap loc time prev (ctx.stop m)
      ≤ planEnd ctx loc time prev (m :: ms) := by
  simp only [planEnd, List.map_cons, finalTime]
  exact metric_finalTime_ge _ _ _ env.metric _ _ _ _

theorem visits_lt (n : Nat) (unl : Nat → List Nat) (par : Nat → Option Nat)
    (rk : Nat → Nat) (hf : Forest n unl par rk) (W : Nat → Prop)
    (hclosed : ∀ m, W m → ∀ y, par m = some y → W y) (ms : List Nat)
    (h : Visits unl (availAfter n par W) ms) : ∀ x ∈ ms, x < n :=
  fun x hx => (((forest_visits n unl par rk hf ms W hclosed h).2.1 x).mp hx).1

/-- From a state at `time`, a meta node that a feasible completion visits is within
reach: the direct travel time to it ends within its window. -/
theorem plan_reach (ctx : Ctx) (n : Nat) (par : Nat → Option Nat) (rk : Nat → Nat)
    {V : Int → Prop} (env : SearchEnv ctx V n par rk) (capacity : Int) (W : Nat → Prop)
    (hclosed : ∀ m, W m → ∀ y, par m = some y → W y) (loc cap time : Int)
    (prev : Action) (ms : List Nat) (hloc : V loc)
    (h : PlanFrom ctx n par capacity W loc cap time prev ms) (x : Nat) (hx : x ∈ ms) :
    ((ctx.stop x).is_pickup = true →
      time + ctx.net.get_time ctx.S loc (ctx.stop x).node
        ≤ (ctx.req x).entry_time + ctx.S.MAX_WAITING)
    ∧ ((ctx.stop x).is_pickup = false →
      time + ctx.net.get_time ctx.S loc (ctx.stop x).node
        ≤ (ctx.req x).entry_time + (ctx.req x).ideal_traveltime + ctx.S.MAX_DETOUR) := by
  have hlt := visits_lt n _ par rk env.forest W hclosed ms h.1
  obtain ⟨pre, post, e⟩ := List.append_of_mem hx
  have hr := h.2
  rw [e, List.map_append, List.map_cons] at hr
  exact replay_reach ctx.S ctx.net ctx.heap env.metric capacity (ctx.stop x) _
    (env.node_valid x (hlt x hx)) _ loc time prev _ hloc
    (fun ns hns => by
      obtain ⟨z, hz, rfl⟩ := List.mem_map.mp hns
      exact env.node_valid z (hlt z (by rw [e]; exact List.mem_append_left _ hz))) hr

/-- The available set of the state that follows a visit, in a forest. -/
theorem remaining_avail (ctx : Ctx) (n : Nat) (par : Nat → Option Nat) (rk : Nat → Nat)
    (hf : Forest n ctx.unl par rk) (W : Nat → Prop)
    (hclosed : ∀ m, W m → ∀ y, par m = some y → W y) (avail : List Nat)
    (havail : ∀ x, x ∈ avail ↔ availAfter n par W x) (m : Nat) (hm : availAfter n par W m)
    (x : Nat) :
    x ∈ remaining_nodes ctx avail m ↔ availAfter n par (fun k => W k ∨ k = m) x := by
  rw [mem_remaining_nodes, ← (forest_next n _ par rk hf W hclosed m hm).2 x]
  simp only [nextAvail, havail, Ctx.unl]

/-- A feasible completion reaches the first stop by the alight deadline of its request,
also when the stop is a pickup: the dropoff comes later. -/
theorem plan_deadline (ctx : Ctx) (n : Nat) (par : Nat → Option Nat) (rk : Nat → Nat)
    {V : Int → Prop}
    (env : SearchEnv ctx V n par rk) (capacity : Int) (W : Nat → Prop)
    (hclosed : ∀ m, W m → ∀ y, par m = some y → W y) (loc cap time : Int) (prev : Action)
    (m : Nat) (ms : List Nat) (h : PlanFrom ctx n par capacity W loc cap time prev (m :: ms)) :
    ¬ (get_alight_deadline ctx.S (ctx.req m)
        < arrival ctx.S ctx.net ctx.heap loc time prev (ctx.stop m)) := by
  obtain ⟨p1, _, _, p4, p5, _⟩ := plan_cons ctx n par rk env capacity W hclosed loc cap time
    prev m ms h
  unfold get_alight_deadline
  cases hp : (ctx.stop m).is_pickup
  · have := p4 hp
    omega
  · obtain ⟨x, hx, hxr, hxd⟩ := env.pair m p1.1 hp
    obtain ⟨_, hxn, hxp⟩ := (env.forest.children m x).mp hx
    have hxa : availAfter n par (fun k => W k ∨ k = m) x := by
      refine ⟨hxn, ?_, Or.inr ⟨m, hxp, Or.inr rfl⟩⟩
      rintro (hW | e)
      · exact p1.2.1 (hclosed x hW m hxp)
      · have := env.forest.rank x m hxp
        rw [e] at this
        exact lt_irrefl _ this
    have hxm := visits_mem _ _ _ p5.1 x hxa
    have hr := (plan_reach ctx n par rk env capacity _
      (forest_next n _ par rk env.forest W hclosed m p1).1 _ _ _ _ ms
      (env.node_valid m p1.1) p5 x hxm).2 hxd
    have e : ctx.req x = ctx.req m := by
      unfold Ctx.req
      rw [hxr]
    rw [e] at hr
    have := env.metric.nonneg (ctx.stop m).node (ctx.stop x).node
    omega

/-- The forward reachability test passes at the first visit of a feasible completion. -/
theorem plan_reachability (ctx : Ctx) (n : Nat) (par : Nat → Option Nat) (rk : Nat → Nat)
    {V : Int → Prop}
    (env : SearchEnv ctx V n par rk) (capacity : Int) (W : Nat → Prop)
    (hclosed : ∀ m, W m → ∀ y, par m = some y → W y) (avail : List Nat)
    (havail : ∀ x, x ∈ avail ↔ availAfter n par W x) (loc cap time : Int) (prev : Action)
    (m : Nat) (ms : List Nat) (h : PlanFrom ctx n par capacity W loc cap time prev (m :: ms)) :
    basic_reachability ctx (ctx.stop m).node
      (arrival ctx.S ctx.net ctx.heap loc time prev (ctx.stop m))
      (remaining_nodes ctx avail m) = true := by
  obtain ⟨p1, _, _, _, p5, _⟩ := plan_cons ctx n par rk env capacity W hclosed loc cap time
    prev m ms h
  unfold basic_reachability
  rw [List.all_eq_true]
  intro x hx
  rw [remaining_avail ctx n par rk env.forest W hclosed avail havail m p1 x] at hx
  have hxm := visits_mem _ _ _ p5.1 x hx
  obtain ⟨r1, r2⟩ := plan_reach ctx n par rk env capacity _
    (forest_next n _ par rk env.forest W hclosed m p1).1 _ _ _ _ ms (env.node_valid m p1.1)
    p5 x hxm
  obtain ⟨w1, w2⟩ := env.windows x
  cases hp : (ctx.stop x).is_pickup
  · have := r2 hp
    simp only [w2, Bool.false_and, Bool.not_false, Bool.true_and, Bool.false_or,
      Bool.not_eq_true', decide_eq_false_iff_not, not_lt, gt_iff_lt]
    omega
  · have := r1 hp
    simp only [w1, Bool.true_and, Bool.not_true, Bool.false_and, Bool.or_false,
      Bool.not_eq_true', decide_eq_false_iff_not, not_lt, gt_iff_lt]
    omega

/-- The exchange behind the de-duplication of dropoffs: when a feasible completion starts
with the dropoff `m` and the dropoff `p` at the same node is available, the
completion with `p` moved to the front is feasible and does not end later. -/
theorem plan_exchange (ctx : Ctx) (n : Nat) (par : Nat → Option Nat) (rk : Nat → Nat)
    {V : Int → Prop}
    (env : SearchEnv ctx V n par rk) (capacity : Int) (W : Nat → Prop)
    (hclosed : ∀ m, W m → ∀ y, par m = some y → W y) (loc cap time : Int) (prev : Action)
    (m p : Nat) (ms : List Nat) (hp : availAfter n par W p) (hpm : p ≠ m)
    (hmd : (ctx.stop m).is_pickup = false) (hpd : (ctx.stop p).is_pickup = false)
    (hnode : (ctx.stop p).node = (ctx.stop m).node)
    (h : PlanFrom ctx n par capacity W loc cap time prev (m :: ms)) :
    ∃ ms2, PlanFrom ctx n par capacity W loc cap time prev (p :: ms2)
      ∧ planEnd ctx loc time prev (p :: ms2) ≤ planEnd ctx loc time prev (m :: ms) := by
  obtain ⟨hv, hr⟩ := h
  have hin : p ∈ ms := by
    rcases List.mem_cons.mp (visits_mem _ _ _ hv p hp) with e | e
    · exact absurd e hpm
    · exact e
  obtain ⟨xs, post, e⟩ := List.append_of_mem hin
  subst e
  have hlt := visits_lt n _ par rk env.forest W hclosed _ hv
  have hrf := replay_front ctx.S ctx.net ctx.heap env.metric capacity (ctx.stop p) (ctx.stop m)
    (xs.map ctx.stop) (post.map ctx.stop) hpd hmd hnode
    (env.node_valid m (hlt m (List.mem_cons_self _ _)))
    (fun ns hns => by
      obtain ⟨z, hz, rfl⟩ := List.mem_map.mp hns
      exact env.node_valid z (hlt z (List.mem_cons_of_mem _ (List.mem_append_left _ hz))))
    (fun ns hns => by
      obtain ⟨z, hz, rfl⟩ := List.mem_map.mp hns
      exact env.node_valid z (hlt z (List.mem_cons_of_mem _
        (List.mem_append_right _ (List.mem_cons_of_mem _ hz)))))
    loc time prev (capacity - cap) (by simpa using hr)
  refine ⟨m :: (xs ++ post), ⟨?_, ?_⟩, ?_⟩
  · exact visits_front n _ par rk env.forest p post (m :: xs) W hclosed hp hv
  · simpa using hrf.1
  · simpa [planEnd] using hrf.2

/-- The loop of the search loses no feasible completion: once the loop has run over the
candidates, the best time is at most the end of every feasible completion that starts
with one of them, the candidates skipped as duplicates included. -/
theorem search_loop_complete (ctx : Ctx) (n : Nat) (par : Nat → Option Nat) (rk : Nat → Nat)
    {V : Int → Prop}
    (env : SearchEnv ctx V n par rk) (capacity : Int) (rec : Search) (W : Nat → Prop)
    (hclosed : ∀ m, W m → ∀ y, par m = some y → W y) (loc cap : Int) (avail : List Nat)
    (havail : ∀ x, x ∈ avail ↔ availAfter n par W x) (time : Int) (prev : Action)
    (hrec : ∀ m, availAfter n par W m → ∀ best r,
      rec (ctx.stop m).node (new_residual (ctx.stop m) cap) (remaining_nodes ctx avail m)
        (arrival ctx.S ctx.net ctx.heap loc time prev (ctx.stop m)) best
        (actionOf (ctx.stop m)) = some r →
      ∀ ms, PlanFrom ctx n par capacity (fun k => W k ∨ k = m) (ctx.stop m).node
          (new_residual (ctx.stop m) cap)
          (arrival ctx.S ctx.net ctx.heap loc time prev (ctx.stop m))
          (actionOf (ctx.stop m)) ms →
        r.1 ≠ -1 ∧ r.1 ≤ planEnd ctx (ctx.stop m).node
          (arrival ctx.S ctx.net ctx.heap loc time prev (ctx.stop m))
          (actionOf (ctx.stop m)) ms) :
    ∀ (cands : List Nat), (∀ m ∈ cands, m ∈ avail) →
      cands.Pairwise (fun a b => mnsLt ctx a b = true) →
      ∀ (previous : Option Nat) (best : Int) (tail : List Nat) (r : Int × List Nat),
      (∀ p, previous = some p → p ∈ avail ∧ (∀ m ∈ cands, mnsLt ctx p m = true)
        ∧ ∀ ms, PlanFrom ctx n par capacity W loc cap time prev (p :: ms) →
          best ≠ -1 ∧ best ≤ planEnd ctx loc time prev (p :: ms)) →
      search_loop ctx rec loc cap avail time prev cands previous best tail = some r →
      (best ≠ -1 → r.1 ≠ -1 ∧ r.1 ≤ best)
      ∧ ∀ m ∈ cands, ∀ ms, PlanFrom ctx n par capacity W loc cap time prev (m :: ms) →
          r.1 ≠ -1 ∧ r.1 ≤ planEnd ctx loc time prev (m :: ms) := by
  intro cands
  induction cands with
  | nil =>
    intro _ _ previous best tail r _ h
    simp only [search_loop, Option.some.injEq] at h
    rw [← h]
    exact ⟨fun hb => ⟨hb, le_refl _⟩, fun m hm => absurd hm (List.not_mem_nil m)⟩
  | cons m rest ih =>
    intro hsub hpw previous best tail r hinv h
    have hsub2 : ∀ x ∈ rest, x ∈ avail := fun x hx => hsub x (List.mem_cons_of_mem _ hx)
    have hm : m ∈ avail := hsub m (List.mem_cons_self _ _)
    rw [List.pairwise_cons] at hpw
    obtain ⟨hlt, hpw2⟩ := hpw
    have step : ∀ (best2 : Int) (tail2 : List Nat),
        (best ≠ -1 → best2 ≠ -1 ∧ best2 ≤ best) →
        (∀ ms, PlanFrom ctx n par capacity W loc cap time prev (m :: ms) →
          best2 ≠ -1 ∧ best2 ≤ planEnd ctx loc time prev (m :: ms)) →
        search_loop ctx rec loc cap avail time prev rest (some m) best2 tail2 = some r →
        (best ≠ -1 → r.1 ≠ -1 ∧ r.1 ≤ best)
        ∧ ∀ x ∈ m :: rest, ∀ ms, PlanFrom ctx n par capacity W loc cap time prev (x :: ms) →
            r.1 ≠ -1 ∧ r.1 ≤ planEnd ctx loc time prev (x :: ms) := by
      intro best2 tail2 hb hdone hl
      obtain ⟨iA, iB⟩ := ih hsub2 hpw2 (some m) best2 tail2 r
        (fun p hp => by
          simp only [Option.some.injEq] at hp
          subst hp
          exact ⟨hm, hlt, hdone⟩) hl
      refine ⟨fun h0 => ?_, fun x hx ms hplan => ?_⟩
      · obtain ⟨b1, b2⟩ := hb h0
        obtain ⟨c1, c2⟩ := iA b1
        exact ⟨c1, le_trans c2 b2⟩
      · rcases List.mem_cons.mp hx with e | e
        · subst e
          obtain ⟨b1, b2⟩ := hdone ms hplan
          obtain ⟨c1, c2⟩ := iA b1
          exact ⟨c1, le_trans c2 b2⟩
        · exact iB x e ms hplan
    rw [search_loop] at h
    simp only at h
    split_ifs at h with h1 h2 h3 h4 h5 h6
    · cases previous with
      | none => simp at h1
      | some p =>
        simp only [Option.any_some, Bool.and_eq_true, Bool.not_eq_true', decide_eq_true_eq]
          at h1
        obtain ⟨hmd, hnode⟩ := h1
        obtain ⟨hp1, hp2, hp3⟩ := hinv p rfl
        obtain ⟨iA, iB⟩ := ih hsub2 hpw2 (some p) best tail r
          (fun q hq => by
            simp only [Option.some.injEq] at hq
            subst hq
            exact ⟨hp1, fun x hx => hp2 x (List.mem_cons_of_mem _ hx), hp3⟩) h
        refine ⟨iA, fun x hx ms hplan => ?_⟩
        rcases List.mem_cons.mp hx with e | e
        · subst e
          have hpx := hp2 x (List.mem_cons_self _ _)
          have hne : p ≠ x := by
            intro e2
            rw [e2, mnsLt_irrefl] at hpx
            exact absurd hpx (by decide)
          obtain ⟨ms2, hplan2, hle⟩ := plan_exchange ctx n par rk env capacity W hclosed loc
            cap time prev x p ms ((havail p).mp hp1) hne hmd
            (mnsLt_key ctx p x hpx hnode hmd) hnode hplan
          obtain ⟨b1, b2⟩ := hp3 ms2 hplan2
          obtain ⟨c1, c2⟩ := iA b1
          exact ⟨c1, le_trans c2 (le_trans b2 hle)⟩
        · exact iB x e ms hplan
    · refine step best tail (fun h0 => ⟨h0, le_refl _⟩) (fun ms _ => ?_) h
      exact ⟨h2.1, le_trans h2.2 (plan_bound ctx n par rk env loc time prev m ms)⟩
    · refine step best tail (fun h0 => ⟨h0, le_refl _⟩) (fun ms hplan => ?_) h
      have := (plan_cons ctx n par rk env capacity W hclosed loc cap time prev m ms hplan).2.1
      omega
    · refine step best tail (fun h0 => ⟨h0, le_refl _⟩) (fun ms hplan => ?_) h
      have := (plan_cons ctx n par rk env capacity W hclosed loc cap time prev m ms
        hplan).2.2.1 h4.1
      have := h4.2
      omega
    · refine step best tail (fun h0 => ⟨h0, le_refl _⟩) (fun ms hplan => ?_) h
      exact absurd h5 (plan_deadline ctx n par rk env capacity W hclosed loc cap time prev m
        ms hplan)
    · refine step best tail (fun h0 => ⟨h0, le_refl _⟩) (fun ms hplan => ?_) h
      rw [plan_reachability ctx n par rk env capacity W hclosed avail havail loc cap time prev
        m ms hplan] at h6
      exact absurd h6 (by decide)
    · have hma := (havail m).mp hm
      cases hr : rec (ctx.stop m).node (new_residual (ctx.stop m) cap)
          (remaining_nodes ctx avail m)
          (arrival ctx.S ctx.net ctx.heap loc time prev (ctx.stop m)) best
          (actionOf (ctx.stop m)) with
      | none => rw [hr] at h; simp at h
      | some t =>
        rw [hr] at h
        simp only at h
        have hsub3 : ∀ ms, PlanFrom ctx n par capacity W loc cap time prev (m :: ms) →
            t.1 ≠ -1 ∧ t.1 ≤ planEnd ctx loc time prev (m :: ms) := by
          intro ms hplan
          obtain ⟨_, _, _, _, p5, p6⟩ := plan_cons ctx n par rk env capacity W hclosed loc cap
            time prev m ms hplan
          rw [p6]
          exact hrec m hma best t hr ms p5
        split_ifs at h with h7 h8
        · refine step best tail (fun h0 => ⟨h0, le_refl _⟩) (fun ms hplan => ?_) h
          exact absurd h7 (hsub3 ms hplan).1
        · refine step t.1 _ (fun h0 => ?_) hsub3 h
          rcases h8 with h8 | h8
          · exact absurd h8 h0
          · exact ⟨h7, le_of_lt h8⟩
        · refine step best tail (fun h0 => ⟨h0, le_refl _⟩) (fun ms hplan => ?_) h
          have hb : best ≠ -1 := fun e => h8 (Or.inl e)
          have hle : best ≤ t.1 := not_lt.mp (fun e => h8 (Or.inr e))
          exact ⟨hb, le_trans hle (hsub3 ms hplan).2⟩

/-- The search loses no feasible completion: what it returns is not -1 and is at most the
end of every feasible completion of the state it is called on. -/
theorem search_complete (ctx : Ctx) (n : Nat) (par : Nat → Option Nat) (rk : Nat → Nat)
    {V : Int → Prop}
    (env : SearchEnv ctx V n par rk) (capacity : Int) :
    ∀ (fuel : Nat) (loc cap : Int) (avail : List Nat) (time best : Int) (prev : Action)
      (W : Nat → Prop) (r : Int × List Nat),
      (∀ m, W m → ∀ y, par m = some y → W y) →
      (∀ x, x ∈ avail ↔ availAfter n par W x) →
      avail.Pairwise (fun a b => mnsLt ctx a b = true) →
      0 ≤ time →
      recursive_search ctx fuel loc cap avail time best prev = some r →
      ∀ ms, PlanFrom ctx n par capacity W loc cap time prev ms →
        r.1 ≠ -1 ∧ r.1 ≤ planEnd ctx loc time prev ms := by
  intro fuel
  induction fuel with
  | zero =>
    intro loc cap avail time best prev W r _ _ _ _ h
    simp [recursive_search] at h
  | succ fuel ih =>
    intro loc cap avail time best prev W r hclosed havail hsorted htime h ms hplan
    rw [recursive_search] at h
    simp only at h
    split_ifs at h with he
    · simp only [Option.some.injEq] at h
      have hnil : avail = [] := List.isEmpty_iff.mp he
      cases ms with
      | nil =>
        rw [← h]
        simp only [planEnd, List.map_nil, finalTime]
        exact ⟨by omega, le_refl _⟩
      | cons m ms2 =>
        exfalso
        have := (visits_cons_inv _ _ _ _ hplan.1).1
        rw [← havail, hnil] at this
        exact absurd this (List.not_mem_nil m)
    · cases ms with
      | nil =>
        exfalso
        cases avail with
        | nil => exact he rfl
        | cons x xs =>
          exact visits_nil_inv _ _ hplan.1 x ((havail x).mp (List.mem_cons_self _ _))
      | cons m ms2 =>
        have hma := (visits_cons_inv _ _ _ _ hplan.1).1
        refine (search_loop_complete ctx n par rk env capacity (recursive_search ctx fuel) W
          hclosed loc cap avail havail time prev ?_ avail (fun _ hx => hx) hsorted none best []
          r (fun p hp => by simp at hp) h).2 m ((havail m).mpr hma) ms2 hplan
        intro x hx best2 r2 hr2 ms3 hplan3
        exact ih _ _ _ _ best2 _ _ r2
          (forest_next n _ par rk env.forest W hclosed x hx).1
          (remaining_avail ctx n par rk env.forest W hclosed avail havail x hx)
          (remaining_nodes_sorted ctx avail x hsorted)
          (le_trans htime (metric_arrival_time _ _ _ env.metric _ _ _ _)) hr2 ms3 hplan3

/-- In a forest, a list that holds every unvisited meta node once, each after its
parent, is a sequence of visits. -/
theorem forest_visits_conv (n : Nat) (unl : Nat → List Nat) (par : Nat → Option Nat)
    (rk : Nat → Nat) (hf : Forest n unl par rk) :
    ∀ (ms : List Nat) (W : Nat → Prop),
      (∀ m, W m → ∀ y, par m = some y → W y) → ms.Nodup →
      (∀ x, x ∈ ms ↔ (x < n ∧ ¬ W x)) →
      (∀ pre x post y, ms = pre ++ x :: post → par x = some y → W y ∨ y ∈ pre) →
      Visits unl (availAfter n par W) ms := by
  intro ms
  induction ms with
  | nil =>
    intro W _ _ hmem _
    refine Visits.nil _ (fun x hx => ?_)
    have := (hmem x).mpr ⟨hx.1, hx.2.1⟩
    exact absurd this (List.not_mem_nil x)
  | cons m rest ih =>
    intro W hclosed hnd hmem hord
    rw [List.nodup_cons] at hnd
    have hm := (hmem m).mp (List.mem_cons_self _ _)
    have hma : availAfter n par W m := by
      refine ⟨hm.1, hm.2, ?_⟩
      cases hp : par m with
      | none => exact Or.inl rfl
      | some y =>
        rcases hord [] m rest y rfl hp with h | h
        · exact Or.inr ⟨y, rfl, h⟩
        · exact absurd h (List.not_mem_nil y)
    rw [visits_cons_forest n unl par rk hf W hclosed]
    refine ⟨hma, ih _ (forest_next n unl par rk hf W hclosed m hma).1 hnd.2 ?_ ?_⟩
    · intro x
      constructor
      · intro hx
        have := (hmem x).mp (List.mem_cons_of_mem _ hx)
        refine ⟨this.1, ?_⟩
        rintro (h | h)
        · exact this.2 h
        · rw [h] at hx; exact hnd.1 hx
      · rintro ⟨h1, h2⟩
        rcases List.mem_cons.mp ((hmem x).mpr ⟨h1, fun h => h2 (Or.inl h)⟩) with e | e
        · exact absurd (Or.inr e) h2
        · exact e
    · intro pre x post y e hp
      rcases hord (m :: pre) x post y (by rw [e]; rfl) hp with h | h
      · exact Or.inl (Or.inl h)
      · rcases List.mem_cons.mp h with e2 | e2
        · exact Or.inl (Or.inr e2)
        · exact Or.inr e2

/-- Without chained passengers, the orderings of the universe that respect the precedence
of pickup and dropoff are the sequences of visits of its forest. -/
theorem ordering_visits (chain : Prop) [Decidable chain] (hchain : ¬ chain) (n N : Nat)
    (hN : 2 * n ≤ N) (ms : List Nat) :
    (ms.Perm (List.range N) ∧ ∀ i, i < n → ms.indexOf (2 * i + 1) < ms.indexOf (2 * i))
      ↔ Visits (unlOf chain n N) (availAfter N (parOf chain n N) (fun _ => False)) ms := by
  have hf := forest_parOf chain n N hN
  constructor
  · rintro ⟨hperm, hprec⟩
    have hnd : ms.Nodup := hperm.nodup_iff.mpr (List.nodup_range N)
    apply forest_visits_conv N _ _ _ hf ms _ (fun _ h => h.elim) hnd
    · intro x
      rw [hperm.mem_iff, List.mem_range]
      simp
    · intro pre x post y e hp
      right
      unfold parOf at hp
      split_ifs at hp with h1 h2 h3
      · simp only [Option.some.injEq] at hp
        subst hp
        have hx : x ∉ pre := by
          intro hin
          rw [e] at hnd
          have := (List.nodup_append.mp hnd).2.2 hin (List.mem_cons_self _ _)
          exact this
        have e1 : ms.indexOf x = pre.length := by
          rw [e, List.indexOf_append_of_not_mem hx, List.indexOf_cons_self]
          rfl
        have h3 := hprec (x / 2) (by omega)
        have e2 : 2 * (x / 2) = x := by omega
        rw [e2, e1] at h3
        by_contra hin
        rw [e, List.indexOf_append_of_not_mem hin] at h3
        omega
      · exact absurd h3.1 hchain
  · intro hv
    obtain ⟨hnd, hmem, hord⟩ := forest_visits N _ _ _ hf ms (fun _ => False)
      (fun _ h => h.elim) hv
    refine ⟨(List.perm_ext_iff_of_nodup hnd (List.nodup_range N)).mpr (fun x => by
      rw [hmem, List.mem_range]; simp), ?_⟩
    intro i hi
    have hin : 2 * i ∈ ms := (hmem _).mpr ⟨by omega, fun h => h⟩
    obtain ⟨pre, post, e⟩ := List.append_of_mem hin
    have hp : parOf chain n N (2 * i) = some (2 * i + 1) := by
      unfold parOf
      rw [if_pos (by omega), if_pos (by omega)]
    rcases hord pre (2 * i) post (2 * i + 1) e hp with h | h
    · exact h.elim
    · have hx : 2 * i ∉ pre := by
        intro hin2
        rw [e] at hnd
        exact (List.nodup_append.mp hnd).2.2 hin2 (List.mem_cons_self _ _)
      rw [e, List.indexOf_append_of_mem h, List.indexOf_append_of_not_mem hx,
        List.indexOf_cons_self]
      have := List.indexOf_lt_length.mpr h
      omega

theorem universe_nodes_valid (V : Int → Prop) (heap : Heap) (v : Vehicle)
    (rs : List ReqPtr) (h : ValidNodes V heap v rs) :
    ∀ ns ∈ requestNodes heap rs ++ onboardStops (onboardSet v) v.order_record,
      V ns.node := by
  intro ns hns
  rcases List.mem_append.mp hns with h1 | h1
  · unfold requestNodes at h1
    obtain ⟨q, hq, hin⟩ := List.mem_flatMap.mp h1
    simp only [List.mem_cons, List.mem_singleton, List.not_mem_nil, or_false] at hin
    rcases hin with e | e
    · rw [e]; exact (h.1 q hq).1
    · rw [e]; exact (h.1 q hq).2
  · exact h.2 ns (List.mem_of_find?_eq_some (onboardStops_mem _ _ _ h1).2)

/-- The stop of a meta node of the universe is one of the stops `new_travel` created. -/
theorem universeStop_mem (heap : Heap) (v : Vehicle) (rs : List ReqPtr) (m : Nat)
    (hm : m < 2 * rs.length + (onboardStops (onboardSet v) v.order_record).length) :
    universeStop heap v rs m
      ∈ requestNodes heap rs ++ onboardStops (onboardSet v) v.order_record := by
  by_cases h1 : m < 2 * rs.length
  · have hi : m / 2 < rs.length := by omega
    obtain ⟨g1, g2⟩ := requestNodes_getD heap rs (m / 2) hi
    apply List.mem_append_left
    have hl := requestNodes_length heap rs
    by_cases h2 : m % 2 = 0
    · have e : universeStop heap v rs m
          = (requestNodes heap rs).getD (2 * (m / 2) + 1) ⟨0, false, 0⟩ := by
        rw [g2]
        simp [universeStop, h1, h2]
      rw [e, List.getD_eq_getElem _ _ (by omega)]
      exact List.getElem_mem _
    · have e : universeStop heap v rs m
          = (requestNodes heap rs).getD (2 * (m / 2)) ⟨0, false, 0⟩ := by
        rw [g1]
        simp [universeStop, h1, h2]
      rw [e, List.getD_eq_getElem _ _ (by omega)]
      exact List.getElem_mem _
  · exact List.mem_append_right _ (universeStop_onboard heap v rs m (by omega) hm)

/-- The universe of `new_travel` is a setting in which the search is exact, when the
times are those of `Metric` on a set of node ids that holds the nodes of the stops, the
windows of the requests are those of the data model, and the stops of the passengers in
the order record are dropoffs. -/
theorem universe_env (S : Settings) (net : Network) (heap : Heap) (v : Vehicle)
    (rs : List ReqPtr) (M : List MetaNodeStop) (chain : Prop) [Decidable chain]
    (V : Int → Prop) (hpl : PassengersListed v)
    (hdrop : ∀ ns ∈ v.order_record, ns.r ∈ v.passengers → ns.is_pickup = false)
    (hM : SameNodes M (baseMetas rs.length v.passengers.length))
    (hunl : ∀ m, (M.getD m ⟨0, []⟩).unlocks
      = unlOf chain rs.length (2 * rs.length + v.passengers.length) m)
    (hMet : Metric S net V) (hnodes : ValidNodes V heap v rs)
    (hwin : ∀ p, (heap p).latest_boarding = (heap p).entry_time + S.MAX_WAITING
      ∧ (heap p).latest_alighting
        = (heap p).entry_time + (heap p).ideal_traveltime + S.MAX_DETOUR) :
    SearchEnv ⟨S, net, heap,
      requestNodes heap rs ++ onboardStops (onboardSet v) v.order_record, M⟩ V
      (2 * rs.length + v.passengers.length)
      (parOf chain rs.length (2 * rs.length + v.passengers.length)) (rkOf rs.length) := by
  have hk := onboardStops_length v hpl.1 hpl.2
  have hunl2 : Ctx.unl ⟨S, net, heap,
      requestNodes heap rs ++ onboardStops (onboardSet v) v.order_record, M⟩
      = unlOf chain rs.length (2 * rs.length + v.passengers.length) := funext hunl
  have hstop := fun m hm => stop_universe S net heap v rs M (by rw [hk]; exact hM) m
    (by rw [hk]; exact hm)
  refine ⟨?_, hMet, ?_, fun m => hwin _, ?_⟩
  · rw [hunl2]
    exact forest_parOf chain rs.length _ (by omega)
  · intro m hm
    rw [hstop m hm]
    exact universe_nodes_valid V heap v rs hnodes _
      (universeStop_mem heap v rs m (by rw [hk]; exact hm))
  · intro m hm hp
    rw [hstop m hm] at hp
    by_cases h1 : m < 2 * rs.length
    · have hodd : ¬ m % 2 = 0 := by
        intro he
        simp [universeStop, h1, he] at hp
      refine ⟨m - 1, ?_, ?_, ?_⟩
      · rw [hunl2]
        simp [unlOf, h1, hodd]
      · rw [hstop m hm, hstop (m - 1) (by omega)]
        have e : (m - 1) / 2 = m / 2 := by omega
        simp [universeStop, h1, hodd, show m - 1 < 2 * rs.length by omega,
          show (m - 1) % 2 = 0 by omega, e]
      · rw [hstop (m - 1) (by omega)]
        simp [universeStop, show m - 1 < 2 * rs.length by omega,
          show (m - 1) % 2 = 0 by omega]
    · exfalso
      have hin := universeStop_onboard heap v rs m (by omega) (by rw [hk]; exact hm)
      obtain ⟨a1, a2⟩ := onboardStops_mem _ _ _ hin
      have := hdrop _ (List.mem_of_find?_eq_some a2) ((mem_onboardSet v _).mp a1)
      rw [this] at hp
      exact absurd hp (by decide)

/-- The feasible orderings of the universe are the feasible completions of the state in
which the search starts, when no passenger is chained. -/
theorem ordering_plan (S : Settings) (net : Network) (heap : Heap) (v : Vehicle)
    (rs : List ReqPtr) (time : Int) (M : List MetaNodeStop) (chain : Prop) [Decidable chain]
    (hchain : ¬ chain) (hpl : PassengersListed v)
    (hM : SameNodes M (baseMetas rs.length v.passengers.length))
    (hunl : ∀ m, (M.getD m ⟨0, []⟩).unlocks
      = unlOf chain rs.length (2 * rs.length + v.passengers.length) m) (ms : List Nat) :
    (FeasibleOrdering S net heap v rs time ms
      ↔ PlanFrom ⟨S, net, heap,
          requestNodes heap rs ++ onboardStops (onboardSet v) v.order_record, M⟩
          (2 * rs.length + v.passengers.length)
          (parOf chain rs.length (2 * rs.length + v.passengers.length)) v.capacity
          (fun _ => False) v.node (v.capacity - v.passengers.length) (time + v.offset)
          Action.NO_ACTION ms)
    ∧ ((∀ x ∈ ms, x < 2 * rs.length + v.passengers.length) →
        ms.map (Ctx.stop ⟨S, net, heap,
          requestNodes heap rs ++ onboardStops (onboardSet v) v.order_record, M⟩)
        = ms.map (universeStop heap v rs)) := by
  have hk := onboardStops_length v hpl.1 hpl.2
  have hunl2 : Ctx.unl ⟨S, net, heap,
      requestNodes heap rs ++ onboardStops (onboardSet v) v.order_record, M⟩
      = unlOf chain rs.length (2 * rs.length + v.passengers.length) := funext hunl
  have hmap : (∀ x ∈ ms, x < 2 * rs.length + v.passengers.length) →
      ms.map (Ctx.stop ⟨S, net, heap,
        requestNodes heap rs ++ onboardStops (onboardSet v) v.order_record, M⟩)
      = ms.map (universeStop heap v rs) := by
    intro h
    apply List.map_congr_left
    intro m hm
    exact stop_universe S net heap v rs M (by rw [hk]; exact hM) m (by rw [hk]; exact h m hm)
  have e : v.capacity - (v.capacity - (v.passengers.length : Int))
      = (v.passengers.length : Int) := by omega
  have hov := ordering_visits chain hchain rs.length (2 * rs.length + v.passengers.length)
    (by omega) ms
  refine ⟨?_, hmap⟩
  unfold FeasibleOrdering PlanFrom
  rw [hunl2, e]
  constructor
  · rintro ⟨h1, h2, h3⟩
    refine ⟨hov.mp ⟨h1, h2⟩, ?_⟩
    rw [hmap (fun x hx => List.mem_range.mp (h1.mem_iff.mp hx))]
    exact h3
  · rintro ⟨h1, h2⟩
    obtain ⟨h3, h4⟩ := hov.mpr h1
    refine ⟨h3, h4, ?_⟩
    rw [← hmap (fun x hx => List.mem_range.mp (h3.mem_iff.mp hx))]
    exact h2

/-- Claim C2, amended: under the VMT objective, with no passenger chained and no prefix
frozen, on a network with travel times that are not negative, and zero self-times and
the triangle inequality between the nodes of the stops, with a pickup dwell that is not
negative and not longer than the alight dwell, an epoch time and an offset that are not
negative, requests with the windows of the data model, and a vehicle whose passengers
are pairwise distinct with a stop each in the order record, all dropoffs: a STANDARD
call with more fuel than stops returns; its cost is -1 exactly when the stop universe
has no feasible ordering; otherwise its stops are a feasible ordering, its cost is the
end of the replay of that ordering minus the epoch time, and no feasible ordering ends
earlier. -/
theorem oracle_optimal (S : Settings) (net : Network) (heap : Heap) (fuel : Nat)
    (v : Vehicle) (rs : List ReqPtr) (time : Int)
    (hv : S.CTSP_OBJECTIVE = CtspObjective.CTSP_VMT)
    (hchain : ¬ LinkChain S rs.length v.passengers.length)
    (hfrozen : ¬ PrefixFrozen S v rs)
    (V : Int → Prop) (hMet : Metric S net V) (htime : 0 ≤ time) (hoff : 0 ≤ v.offset)
    (hnodes : ValidNodes V heap v rs) (hwin : ModelWindows S heap)
    (hpl : PassengersListed v)
    (hdrop : ∀ ns ∈ v.order_record, ns.r ∈ v.passengers → ns.is_pickup = false)
    (hfuel : 2 * rs.length + v.passengers.length < fuel) :
    ∃ cost path, travel S net heap fuel v rs Purpose.STANDARD time = Except.ok (cost, path)
      ∧ (cost = -1 ↔ ∀ ms, ¬ FeasibleOrdering S net heap v rs time ms)
      ∧ (cost ≠ -1 →
          (∃ ms, FeasibleOrdering S net heap v rs time ms
            ∧ path = ms.map (universeStop heap v rs)
            ∧ cost = finalTime S net heap v.node (time + v.offset) Action.NO_ACTION path
              - time)
          ∧ ∀ ms, FeasibleOrdering S net heap v rs time ms →
              cost ≤ finalTime S net heap v.node (time + v.offset) Action.NO_ACTION
                (ms.map (universeStop heap v rs)) - time) := by
  have hk := onboardStops_length v hpl.1 hpl.2
  obtain ⟨e1, e2, e3, e4⟩ := link_onboard_eq S heap v rs hk
  have hN : (link_onboard S rs.length v.passengers.length
      (build_stops heap v rs)).meta_nodes.length = 2 * rs.length + v.passengers.length := by
    rw [e2.1, baseMetas_length]
  have env := universe_env S net heap v rs _ (LinkChain S rs.length v.passengers.length)
    V hpl hdrop e2 e3 hMet hnodes hwin
  have hop := fun ms => ordering_plan S net heap v rs time _
    (LinkChain S rs.length v.passengers.length) hchain hpl e2 e3 ms
  rw [← e1] at env hop
  have hunl2 : Ctx.unl ⟨S, net, heap, (link_onboard S rs.length v.passengers.length
      (build_stops heap v rs)).nodes, (link_onboard S rs.length v.passengers.length
      (build_stops heap v rs)).meta_nodes⟩
      = unlOf (LinkChain S rs.length v.passengers.length) rs.length
        (2 * rs.length + v.passengers.length) := funext e3
  have havail : ∀ x, x ∈ setInsertAll (mnsLt ⟨S, net, heap,
      (link_onboard S rs.length v.passengers.length (build_stops heap v rs)).nodes,
      (link_onboard S rs.length v.passengers.length (build_stops heap v rs)).meta_nodes⟩)
      (link_onboard S rs.length v.passengers.length (build_stops heap v rs)).initially_available
      [] ↔ availAfter (2 * rs.length + v.passengers.length)
        (parOf (LinkChain S rs.length v.passengers.length) rs.length
          (2 * rs.length + v.passengers.length)) (fun _ => False) x := by
    intro x
    rw [mem_setInsertAll _ (separating_mnsLt _), e4]
    simp [availAfter]
  have hud := universe_depth (LinkChain S rs.length v.passengers.length) rs.length
    (2 * rs.length + v.passengers.length) (by omega)
  obtain ⟨r0, hr0⟩ := search_terminates ⟨S, net, heap,
      (link_onboard S rs.length v.passengers.length (build_stops heap v rs)).nodes,
      (link_onboard S rs.length v.passengers.length (build_stops heap v rs)).meta_nodes⟩
    (2 * rs.length + v.passengers.length) fuel v.node (v.capacity - v.passengers.length)
    _ (time + v.offset) (-1) Action.NO_ACTION
    (by
      rw [hunl2]
      exact depth_congr _ _ _ _ (fun x => (havail x).symm) hud) (by omega)
  have htr : travel S net heap fuel v rs Purpose.STANDARD time
      = Except.ok (format_path S (link_onboard S rs.length v.passengers.length
        (build_stops heap v rs)).nodes r0 time) := by
    have hb : ¬ (build_stops heap v rs).meta_nodes.length < v.passengers.length := by
      rw [(build_stops_eq heap v rs).2.1, baseMetas_length]
      omega
    have hp : ¬ (S.CTSP = Ctsp.FIX_PREFIX ∧ (link_onboard S rs.length v.passengers.length
        (build_stops heap v rs)).meta_nodes.length > LP_LIMITVALUE) := by
      rw [hN]
      exact hfrozen
    simp only [travel, new_travel, if_neg hb, if_neg hp, run_search, if_pos hv,
      recursive_search_set, hr0, reduceCtorEq, if_false]
  have hcomp := search_complete _ _ _ _ env v.capacity fuel v.node
    (v.capacity - v.passengers.length) _ (time + v.offset) (-1) Action.NO_ACTION
    (fun _ => False) r0 (fun _ h => h.elim) havail
    (setInsertAll_sorted _ (mnsLt_trans _) _ _ List.Pairwise.nil) (by omega) hr0
  rcases recursive_search_sound _ _ _ _ _ _ _ _ _ hr0 with hb | ⟨ms0, hrun, htail⟩
  · have hnone : ∀ ms, ¬ FeasibleOrdering S net heap v rs time ms := by
      intro ms hms
      have := (hcomp ms ((hop ms).1.mp hms)).1
      rw [hb] at this
      exact this rfl
    refine ⟨-1, [], ?_, ⟨fun _ => hnone, fun _ => rfl⟩, fun h => absurd rfl h⟩
    rw [htr, hb]
    simp [format_path]
  · have hfin := run_finalTime _ _ _ _ _ _ _ _ hrun
    have hrep := run_replayOk _ v.capacity _ _ _ _ _ _ _ hrun
    have hvis := visits_congr _ _ _ _ (run_visits _ _ _ _ _ _ _ _ hrun) havail
    have hplan0 : PlanFrom ⟨S, net, heap,
        (link_onboard S rs.length v.passengers.length (build_stops heap v rs)).nodes,
        (link_onboard S rs.length v.passengers.length (build_stops heap v rs)).meta_nodes⟩
        (2 * rs.length + v.passengers.length)
        (parOf (LinkChain S rs.length v.passengers.length) rs.length
          (2 * rs.length + v.passengers.length)) v.capacity (fun _ => False) v.node
        (v.capacity - v.passengers.length) (time + v.offset) Action.NO_ACTION ms0 :=
      ⟨hvis, hrep⟩
    have hfeas0 := (hop ms0).1.mpr hplan0
    have hmap0 := (hop ms0).2 (fun x hx => List.mem_range.mp (hfeas0.1.mem_iff.mp hx))
    have hge := metric_finalTime_ge S net heap hMet
      (ms0.map (universeStop heap v rs)) v.node (time + v.offset) Action.NO_ACTION
    simp only at hfin
    rw [hmap0] at hfin
    have e : r0 = (r0.1, tailOf ⟨S, net, heap,
        (link_onboard S rs.length v.passengers.length (build_stops heap v rs)).nodes,
        (link_onboard S rs.length v.passengers.length (build_stops heap v rs)).meta_nodes⟩
        ms0) := by
      rw [← htail]
    have hfmt := format_path_tailOf ⟨S, net, heap,
        (link_onboard S rs.length v.passengers.length (build_stops heap v rs)).nodes,
        (link_onboard S rs.length v.passengers.length (build_stops heap v rs)).meta_nodes⟩
      ms0 r0.1 time
    simp only [hv, true_and, hmap0] at hfmt
    rw [if_pos (by omega), ← e] at hfmt
    refine ⟨r0.1 - time, ms0.map (universeStop heap v rs), by rw [htr, hfmt],
      ⟨fun h => by omega, fun h => absurd hfeas0 (h ms0)⟩,
      fun _ => ⟨⟨ms0, hfeas0, rfl, by rw [hfin]⟩, ?_⟩⟩
    intro ms hms
    have h1 := (hcomp ms ((hop ms).1.mp hms)).2
    have hmap := (hop ms).2 (fun x hx => List.mem_range.mp (hms.1.mem_iff.mp hx))
    unfold planEnd at h1
    simp only at h1
    rw [hmap] at h1
    omega

theorem matrixOf_nonneg (rows : List (List Int)) (h : ∀ row ∈ rows, ∀ x ∈ row, 0 ≤ x)
    (a b : Int) : 0 ≤ (matrixOf rows).time_matrix a b := by
  unfold matrixOf
  simp only
  by_cases h1 : a.toNat < rows.length
  · rw [List.getD_eq_getElem _ _ h1]
    by_cases h2 : b.toNat < (rows[a.toNat]).length
    · rw [List.getD_eq_getElem _ _ h2]
      exact h _ (List.getElem_mem _) _ (List.getElem_mem _)
    · rw [List.getD_eq_default _ _ (by omega)]
  · have e : rows.getD a.toNat [] = [] := List.getD_eq_default _ _ (by omega)
    rw [e]
    simp

theorem exNet_metric : Metric (exSettings Ctsp.FULL) exNet exNodes := by
  refine ⟨get_time_nonneg _ _ (matrixOf_nonneg _ (by decide)) (by decide) (by decide),
    by decide, by decide, ?_, ?_⟩
  · rintro a (rfl | rfl | rfl) <;> decide
  · rintro a b c (rfl | rfl | rfl) (rfl | rfl | rfl) (rfl | rfl | rfl) <;> decide

theorem exHeap_windows : ModelWindows (exSettings Ctsp.FULL) exHeap := by
  intro p
  unfold exHeap
  split_ifs <;> exact ⟨rfl, rfl⟩

theorem dwellNet_metric : MetricNetwork dwellNet dwellNodes := by
  refine ⟨matrixOf_nonneg _ (by decide), ?_, ?_⟩
  · rintro a (rfl | rfl | rfl | rfl) <;> decide
  · rintro a b c (rfl | rfl | rfl | rfl) (rfl | rfl | rfl | rfl) (rfl | rfl | rfl | rfl) <;>
      decide

theorem dwellHeap_windows : ModelWindows dwellSettings dwellHeap := by
  intro p
  unfold dwellHeap
  split_ifs <;> exact ⟨rfl, rfl⟩

theorem oracle_optimal_witness :
    Metric (exSettings Ctsp.FULL) exNet exNodes
      ∧ ModelWindows (exSettings Ctsp.FULL) exHeap
      ∧ ValidNodes exNodes exHeap exVehicle [1, 2]
      ∧ PassengersListed exVehicle
      ∧ ∃ cost path,
        travel (exSettings Ctsp.FULL) exNet exHeap 5 exVehicle [1, 2] Purpose.STANDARD 0
          = Except.ok (cost, path)
        ∧ (cost = -1 ↔ ∀ ms,
            ¬ FeasibleOrdering (exSettings Ctsp.FULL) exNet exHeap exVehicle [1, 2] 0 ms)
        ∧ (cost ≠ -1 →
            (∃ ms, FeasibleOrdering (exSettings Ctsp.FULL) exNet exHeap exVehicle [1, 2] 0 ms
              ∧ path = ms.map (universeStop exHeap exVehicle [1, 2])
              ∧ cost = finalTime (exSettings Ctsp.FULL) exNet exHeap exVehicle.node
                (0 + exVehicle.offset) Action.NO_ACTION path - 0)
            ∧ ∀ ms, FeasibleOrdering (exSettings Ctsp.FULL) exNet exHeap exVehicle [1, 2] 0 ms →
                cost ≤ finalTime (exSettings Ctsp.FULL) exNet exHeap exVehicle.node
                  (0 + exVehicle.offset) Action.NO_ACTION
                  (ms.map (universeStop exHeap exVehicle [1, 2])) - 0) :=
  ⟨exNet_metric, exHeap_windows, by unfold ValidNodes exNodes; decide,
    ⟨by decide, by decide⟩,
    oracle_optimal (exSettings Ctsp.FULL) exNet exHeap 5 exVehicle [1, 2] 0 rfl (by decide)
      (fun h => absurd h.1 (by decide)) exNodes exNet_metric (by decide) (by decide)
      (by unfold ValidNodes exNodes; decide) exHeap_windows ⟨by decide, by decide⟩
      (by decide) (by decide)⟩

/-- Claim C2 fails as stated. First input: on a metric network of four nodes, with a
pickup dwell of 5 and no alight dwell, a vehicle at the destination of its two passengers
is asked to serve two requests at the epoch time 30. The plan that drops passenger 4,
picks up request 1, drops passenger 3, and then serves request 2 is a feasible ordering
of the stop universe, yet the STANDARD oracle returns the cost -1: it only tries the
dropoff of passenger 3 first, and after the dropoffs of both passengers the pickup dwell
makes the dropoff of request 1 late. Second input: for an empty vehicle with the offset
-1 and no request, the empty ordering is feasible and the oracle returns the cost -1. -/
theorem oracle_optimal_counterexample :
    (dwellSettings.CTSP_OBJECTIVE = CtspObjective.CTSP_VMT ∧ dwellSettings.CTSP = Ctsp.FULL
      ∧ MetricNetwork dwellNet dwellNodes ∧ ModelWindows dwellSettings dwellHeap
      ∧ travel dwellSettings dwellNet dwellHeap 7 dwellVehicle [1, 2] Purpose.STANDARD 30
        = Except.ok (-1, [])
      ∧ [5, 1, 4, 3, 0, 2].map (universeStop dwellHeap dwellVehicle [1, 2]) = dwellPlan
      ∧ FeasibleOrdering dwellSettings dwellNet dwellHeap dwellVehicle [1, 2] 30
        [5, 1, 4, 3, 0, 2])
    ∧ (travel (exSettings Ctsp.FULL) exNet exHeap 1 exVehicleMinusOne [] Purpose.STANDARD 0
        = Except.ok (-1, [])
      ∧ FeasibleOrdering (exSettings Ctsp.FULL) exNet exHeap exVehicleMinusOne [] 0 []) := by
  have e : [5, 1, 4, 3, 0, 2].map (universeStop dwellHeap dwellVehicle [1, 2]) = dwellPlan := by
    decide
  refine ⟨⟨rfl, rfl, dwellNet_metric, dwellHeap_windows, by rfl, e, by decide, by decide, ?_⟩,
    by rfl, by decide, by decide, trivial⟩
  rw [e]
  simp only [ReplayOk, dwellPlan]
  decide

/-- Claim C20: for every vehicle without passengers and every request list whose first
element is `r`, the oracle in REBALANCING mode returns the cost
`V.offset + time(V.node, r.origin) + time(r.origin, r.destination)` and the two stops
pickup of `r` at its origin, dropoff of `r` at its destination, for every arena (so for
every window of `r`), every epoch time and every fuel: no window is tested and the
result is never the infeasible one (cost -1 with no stop). -/
theorem rebalancing_mode (S : Settings) (net : Network) (heap : Heap) (fuel : Nat)
    (v : Vehicle) (r : ReqPtr) (rest : List ReqPtr) (time : Int) (_hv : v.passengers = []) :
    travel S net heap fuel v (r :: rest) Purpose.REBALANCING time
      = Except.ok (v.offset + net.get_time S v.node (heap r).origin
          + net.get_time S (heap r).origin (heap r).destination,
        [⟨r, true, (heap r).origin⟩, ⟨r, false, (heap r).destination⟩]) := by
  unfold travel
  rw [if_neg (by decide), if_pos rfl]
  unfold rebalance
  simp only [Network.get_vehicle_time]

theorem rebalancing_mode_witness :
    exVehicle.passengers = []
      ∧ travel (exSettings Ctsp.FULL) exNet exHeap 0 exVehicle [2, 1] Purpose.REBALANCING 7
        = Except.ok (0 + exNet.get_time (exSettings Ctsp.FULL) 0 (exHeap 2).origin
            + exNet.get_time (exSettings Ctsp.FULL) (exHeap 2).origin (exHeap 2).destination,
          [⟨2, true, (exHeap 2).origin⟩, ⟨2, false, (exHeap 2).destination⟩]) :=
  ⟨rfl, rebalancing_mode (exSettings Ctsp.FULL) exNet exHeap 0 exVehicle 2 [1] 7 rfl⟩

/-- The list stored by `make_rtvgraph` and the lists of the ranks: the rank 0 is the
baseline trip alone, the stored list is the concatenation of the ranks, followed by the
trip of `previoustrip` when the order record is not empty, and no cost is -1. -/
theorem make_rtvgraph_rounds (S : Settings) (net : Network) (heap : Heap) (fuel : Nat)
    (clock : Clock) (rr_edges : ReqPtr → List ReqPtr) (vr_edges : List ReqPtr) (v : Vehicle)
    (time : Int) (trips : List Trip)
    (h : make_rtvgraph S net heap fuel clock rr_edges vr_edges v time = Except.ok trips) :
    ∃ (result : (Int × List NodeStop) × Nat) (round : List (List Trip)),
      time_travel S net heap fuel clock v [] Purpose.STANDARD time 0 = Except.ok result
      ∧ rtv_enumeration S net heap fuel clock rr_edges vr_edges v time = Except.ok round
      ∧ round.getD 0 [] = [⟨result.1.1, false, false, result.1.2, []⟩]
      ∧ (∀ t ∈ round.flatten, t.cost ≠ -1)
      ∧ ((v.order_record = [] ∧ trips = round.flatten)
        ∨ (v.order_record ≠ [] ∧ ∃ p,
            travel S net heap fuel v v.pending_requests Purpose.MEMORY time = Except.ok p
            ∧ p.1 ≠ -1
            ∧ trips = round.flatten ++ [⟨p.1, false, true, p.2, v.pending_requests⟩])) := by
  unfold make_rtvgraph at h
  unfold rtv_enumeration
  cases hb : time_travel S net heap fuel clock v [] Purpose.STANDARD time 0 with
  | error e => rw [hb] at h; simp at h
  | ok result =>
    rw [hb] at h
    simp only at h ⊢
    cases h1 : foldE (rtv_single S net heap fuel clock v time) ([], result.2)
        (setInsertAll ptrLt v.pending_requests (requestSet vr_edges)) with
    | error e => rw [h1] at h; simp at h
    | ok first_round =>
      rw [h1] at h
      simp only at h ⊢
      cases h2 : rtv_rounds S net heap fuel clock rr_edges v time (v.capacity.toNat + 1)
          [[⟨result.1.1, false, false, result.1.2, []⟩], first_round.1] false
          first_round.2 with
      | error e => rw [h2] at h; simp at h
      | ok round =>
        rw [h2] at h
        simp only at h
        obtain ⟨extra, he, _⟩ := rtv_rounds_append S net heap fuel clock rr_edges v time
          _ _ _ _ _ h2
        have h0 : round.getD 0 [] = [⟨result.1.1, false, false, result.1.2, []⟩] := by
          rw [he]; rfl
        have hneg : (round.flatten.any (fun t => decide (t.cost = -1))) = true
            → False := by
          intro hc
          rw [if_pos hc] at h
          simp at h
        have hall : ∀ t ∈ round.flatten, t.cost ≠ -1 := by
          intro t ht hc
          apply hneg
          rw [List.any_eq_true]
          exact ⟨t, ht, by simp [hc]⟩
        refine ⟨result, round, rfl, rfl, h0, hall, ?_⟩
        split_ifs at h with h3 h4
        · cases h5 : previoustrip S net heap fuel v time with
          | error e => rw [h5] at h; simp at h
          | ok trip =>
            rw [h5] at h
            simp only at h
            split_ifs at h with h6
            simp only [Except.ok.injEq] at h
            unfold previoustrip at h5
            cases h7 : travel S net heap fuel v v.pending_requests Purpose.MEMORY time with
            | error e => rw [h7] at h5; simp at h5
            | ok p =>
              rw [h7] at h5
              simp only [Except.ok.injEq] at h5
              refine Or.inr ⟨?_, p, rfl, ?_, ?_⟩
              · intro hc; apply h4; rw [hc]; rfl
              · rw [← h5] at h6; exact h6
              · rw [← h, ← h5]
        · simp only [Except.ok.injEq] at h
          refine Or.inl ⟨?_, h.symm⟩
          by_contra hc
          apply h4
          intro hl
          exact hc (List.length_eq_zero.mp hl)

theorem set_last_append (l : List Trip) (p t : Trip) :
    (l ++ [p]).set ((l ++ [p]).length - 1) t = l ++ [t] := by
  have e : (l ++ [p]).length - 1 = l.length := by simp
  rw [e]
  induction l with
  | nil => simp
  | cons a rest ih => simp [ih]

theorem ptrLt_sorted_nodup (l : List Nat) (h : l.Pairwise (fun a b => ptrLt a b = true)) :
    l.Nodup := by
  refine List.Pairwise.imp ?_ h
  intro a b hab
  simp only [ptrLt, decide_eq_true_eq] at hab
  omega

theorem requestSet_sorted (rs : List ReqPtr) :
    (requestSet rs).Pairwise (fun a b => ptrLt a b = true) := by
  unfold requestSet
  refine setInsertAll_sorted ptrLt ?_ rs [] List.Pairwise.nil
  intro a b c h1 h2
  simp only [ptrLt, decide_eq_true_eq] at h1 h2 ⊢
  omega

/-- What one round of the loop over `second` does to the list of the rank: nothing, or
one trip appended, whose requests are the union of the two sets, `rank` in number, at
most four of them not pending, the set of no earlier trip of the list; the trip is the
placeholder, or the RR test and the subset test were passed and the trip has the cost
and the stops of the oracle. -/
theorem rtv_pair_spec (S : Settings) (net : Network) (heap : Heap) (fuel : Nat)
    (clock : Clock) (rr_edges : ReqPtr → List ReqPtr) (v : Vehicle) (time : Int) (rank : Nat)
    (previous_round : List Trip) (left : List ReqPtr) (st : RankState) (second : Nat)
    (st2 : RankState)
    (h : rtv_pair S net heap fuel clock rr_edges v time rank previous_round left st second
      = Except.ok st2) :
    st2.trips = st.trips ∨
    ∃ t : Trip, st2.trips = st.trips ++ [t]
      ∧ t.is_fake = false ∧ t.use_memory = false
      ∧ t.requests = setInsertAll ptrLt
          (requestSet (previous_round.getD second ⟨0, false, false, [], []⟩).requests) left
      ∧ t.requests.length = rank
      ∧ (t.requests.filter (fun r => decide (r ∉ requestSet v.pending_requests))).length ≤ 4
      ∧ (∀ t2 ∈ st.trips, requestSet t2.requests ≠ t.requests)
      ∧ ((t.cost = -1 ∧ t.order_record = [])
        ∨ (0 ≤ t.cost
          ∧ rr_connected rr_edges left
              (requestSet (previous_round.getD second ⟨0, false, false, [], []⟩).requests) = true
          ∧ subset_test previous_round t.requests = true
          ∧ ∃ k k2, time_travel S net heap fuel clock v t.requests Purpose.STANDARD time k
              = Except.ok ((t.cost, t.order_record), k2))) := by
  unfold rtv_pair at h
  simp only at h
  split_ifs at h with h1 h2 h3 h4 h5 h6 h7
  · simp only [Except.ok.injEq] at h; left; rw [← h]
  · simp only [Except.ok.injEq] at h; left; rw [← h]
  · simp only [Except.ok.injEq] at h; left; rw [← h]
  · simp only [Except.ok.injEq] at h; left; rw [← h]
  · simp only [Except.ok.injEq] at h; left; rw [← h]
  all_goals
    have hlen : ((setInsertAll ptrLt (requestSet (previous_round.getD second
        ⟨0, false, false, [], []⟩).requests) left).filter
          (fun r => decide (r ∉ requestSet v.pending_requests))).length ≤ 4 := by
      omega
    have huniq : ∀ t2 ∈ st.trips, requestSet t2.requests ≠ setInsertAll ptrLt
        (requestSet (previous_round.getD second ⟨0, false, false, [], []⟩).requests) left := by
      intro t2 ht2 hc
      apply h5
      rw [List.any_eq_true]
      exact ⟨t2, ht2, by simp [hc]⟩
    have hrank := not_not.mp h4
  · simp only [Except.ok.injEq] at h
    right
    exact ⟨_, by rw [← h], rfl, rfl, rfl, hrank, hlen, huniq, Or.inl ⟨rfl, rfl⟩⟩
  · simp only [Except.ok.injEq] at h
    right
    exact ⟨_, by rw [← h], rfl, rfl, rfl, hrank, hlen, huniq, Or.inl ⟨rfl, rfl⟩⟩
  · cases ht : time_travel S net heap fuel clock v
        (setInsertAll ptrLt (requestSet (previous_round.getD second
          ⟨0, false, false, [], []⟩).requests) left) Purpose.STANDARD time
        (st.readings + 2) with
    | error e => rw [ht] at h; simp at h
    | ok path =>
      rw [ht] at h
      simp only at h
      split_ifs at h with h8
      · simp only [Except.ok.injEq] at h
        right
        exact ⟨_, by rw [← h], rfl, rfl, rfl, hrank, hlen, huniq, Or.inl ⟨rfl, rfl⟩⟩
      · simp only [Except.ok.injEq] at h
        right
        refine ⟨⟨path.1.1, false, false, path.1.2, _⟩, ?_, rfl, rfl, rfl, hrank, hlen, huniq,
          Or.inr ⟨not_lt.mp h8, ?_, ?_, _, path.2, ht⟩⟩
        · rw [← h]; exact set_last_append _ _ _
        · simpa using h6
        · simpa using h7

theorem foldE_inv_mem {σ α : Type} (P : σ → Prop) (f : σ → α → Except Error σ) :
    ∀ (l : List α) (s s2 : σ), (∀ s a s2, a ∈ l → P s → f s a = Except.ok s2 → P s2) →
      P s → foldE f s l = Except.ok s2 → P s2 := by
  intro l
  induction l with
  | nil =>
    intro s s2 _ hs h
    simp only [foldE, Except.ok.injEq] at h
    rw [← h]; exact hs
  | cons a rest ih =>
    intro s s2 hf hs h
    rw [foldE] at h
    cases hfa : f s a with
    | error e => rw [hfa] at h; simp at h
    | ok s3 =>
      rw [hfa] at h
      exact ih s3 s2 (fun s a s2 ha => hf s a s2 (List.mem_cons_of_mem _ ha))
        (hf s a s3 (List.mem_cons_self _ _) hs hfa) h

/-- The list of a rank at the end of its enumeration: every trip is a `RankTrip`, and no
two trips have the same request set. -/
theorem rtv_rank_spec (S : Settings) (net : Network) (heap : Heap) (fuel : Nat)
    (clock : Clock) (rr_edges : ReqPtr → List ReqPtr) (v : Vehicle) (time : Int) (rank : Nat)
    (previous_round : List Trip) (readings : Nat) (st : RankState)
    (h : rtv_rank S net heap fuel clock rr_edges v time rank previous_round readings
      = Except.ok st) :
    (∀ t ∈ st.trips, RankTrip S net heap fuel clock rr_edges v time rank previous_round t)
    ∧ st.trips.Pairwise (fun a b => requestSet a.requests ≠ b.requests) := by
  unfold rtv_rank at h
  refine foldE_inv_mem (fun s : RankState =>
      (∀ t ∈ s.trips, RankTrip S net heap fuel clock rr_edges v time rank previous_round t)
      ∧ s.trips.Pairwise (fun a b => requestSet a.requests ≠ b.requests)) _ _ _ _ ?_ ?_ h
  · intro s first s2 hfirst hs hf
    simp only at hf
    split_ifs at hf with h1
    · simp only [Except.ok.injEq] at hf; rw [← hf]; exact hs
    · refine foldE_inv_mem (fun s : RankState =>
          (∀ t ∈ s.trips, RankTrip S net heap fuel clock rr_edges v time rank previous_round t)
          ∧ s.trips.Pairwise (fun a b => requestSet a.requests ≠ b.requests)) _ _ _ _ ?_ hs hf
      intro s3 second s4 hsecond hs3 hp
      rw [List.mem_range'_1] at hsecond
      rw [List.mem_range] at hfirst
      rcases rtv_pair_spec S net heap fuel clock rr_edges v time rank previous_round _ s3
        second s4 hp with h2 | ⟨t, h2, h3, h4, h5, h6, h7, h8, h9⟩
      · rw [h2]; exact hs3
      · rw [h2]
        constructor
        · intro t2 ht2
          rcases List.mem_append.mp ht2 with h10 | h10
          · exact hs3.1 t2 h10
          · simp only [List.mem_singleton] at h10
            rw [h10]
            exact ⟨first, second, by omega, by omega, h3, h4, h5, h6, h7, h9⟩
        · rw [List.pairwise_append]
          refine ⟨hs3.2, List.pairwise_singleton _ _, ?_⟩
          intro a ha b hb
          simp only [List.mem_singleton] at hb
          rw [hb]
          exact h8 a ha
  · exact ⟨by simp, List.Pairwise.nil⟩

theorem set_last_dropLast (d : Trip) :
    ∀ (l : List Trip) (i : Nat), i < l.length →
      ∃ m, (l.set i (l.getLastD d)).dropLast = l.take i ++ m ∧ m.Perm (l.drop (i + 1)) := by
  intro l
  induction l generalizing d with
  | nil => intro i hi; simp at hi
  | cons x xs ih =>
    intro i hi
    cases i with
    | zero =>
      cases xs with
      | nil => exact ⟨[], by simp, by simp⟩
      | cons y ys =>
        refine ⟨(x :: y :: ys).getLastD d :: (y :: ys).dropLast, by simp, ?_⟩
        simp only [zero_add, List.drop_one, List.tail_cons]
        have h1 : (x :: y :: ys).getLastD d = (y :: ys).getLast (by simp) := by
          simp [List.getLastD_cons, List.getLastD_eq_getLast?, List.getLast?_eq_getLast]
        rw [h1]
        have h2 := List.dropLast_append_getLast (l := y :: ys) (by simp)
        exact (List.perm_append_singleton _ _).symm.trans (by rw [h2])
    | succ j =>
      have hj : j < xs.length := by simpa using hi
      cases xs with
      | nil => simp at hj
      | cons y ys =>
        obtain ⟨m, h1, h2⟩ := ih x j hj
        refine ⟨m, ?_, by simpa using h2⟩
        rw [List.getLastD_cons, List.set_cons_succ]
        have hne : (y :: ys).set j ((y :: ys).getLastD x) ≠ [] := by
          intro hc
          have := congrArg List.length hc
          simp at this
        rw [List.dropLast_cons_of_ne_nil hne, h1]
        simp

/-- The compaction loop from the index `i` keeps the first `i` trips and, of the others,
those whose cost is not negative, each as often as it occurs. -/
theorem compact_perm : ∀ (fuel : Nat) (l : List Trip) (i : Nat), l.length - i ≤ fuel →
    (compact fuel l i).Perm (l.take i ++ (l.drop i).filter (fun t => decide (0 ≤ t.cost))) := by
  intro fuel
  induction fuel with
  | zero =>
    intro l i h
    have hi : l.length ≤ i := by omega
    rw [compact, List.take_of_length_le hi, List.drop_eq_nil_of_le hi]
    simp
  | succ n ih =>
    intro l i h
    rw [compact]
    split_ifs with h1 h2
    · obtain ⟨m, h3, h4⟩ := set_last_dropLast ⟨0, false, false, [], []⟩ l i h1
      have hlen : ((l.set i (l.getLastD ⟨0, false, false, [], []⟩)).dropLast).length - i ≤ n := by
        simp only [List.length_dropLast, List.length_set]
        omega
      have h5 := ih _ i hlen
      rw [h3] at h5 ⊢
      have hti : (l.take i).length = i := by
        rw [List.length_take]; omega
      rw [List.take_left' hti, List.drop_left' hti] at h5
      refine h5.trans ?_
      rw [List.drop_eq_getElem_cons h1]
      have hc : decide (0 ≤ l[i].cost) = false := by
        rw [List.getD_eq_getElem _ _ h1] at h2
        simpa using h2
      rw [List.filter_cons_of_neg (by simp [hc])]
      exact List.Perm.append_left _ (List.Perm.filter _ h4)
    · have h5 := ih l (i + 1) (by omega)
      refine h5.trans ?_
      rw [List.drop_eq_getElem_cons h1]
      have hc : decide (0 ≤ l[i].cost) = true := by
        rw [List.getD_eq_getElem _ _ h1] at h2
        simpa using h2
      rw [List.filter_cons, if_pos hc]
      have e : l.take (i + 1) = l.take i ++ [l[i]] := by
        rw [List.take_succ, List.getElem?_eq_getElem h1]; rfl
      rw [e, List.append_assoc, List.singleton_append]
    · have hi : l.length ≤ i := by omega
      rw [List.take_of_length_le hi, List.drop_eq_nil_of_le hi]
      simp

theorem compact_filter (l : List Trip) :
    (compact l.length l 0).Perm (l.filter (fun t => decide (0 ≤ t.cost))) := by
  have h := compact_perm l.length l 0 (by omega)
  simpa using h

theorem mem_compact_iff (l : List Trip) (t : Trip) :
    t ∈ compact l.length l 0 ↔ t ∈ l ∧ 0 ≤ t.cost := by
  rw [(compact_filter l).mem_iff]
  simp

/-- The trips of rank 1: each has one request of the initial pairing and the cost, not
negative, and the stops that the oracle returned for it. -/
theorem first_round_spec (S : Settings) (net : Network) (heap : Heap) (fuel : Nat)
    (clock : Clock) (v : Vehicle) (time : Int) (rs : List ReqPtr) (k0 : Nat)
    (first_round : List Trip × Nat)
    (h : foldE (rtv_single S net heap fuel clock v time) ([], k0) rs = Except.ok first_round) :
    ∀ t ∈ first_round.1, ∃ r ∈ rs, t.requests = [r] ∧ 0 ≤ t.cost
      ∧ t.is_fake = false ∧ t.use_memory = false
      ∧ ∃ k k2, time_travel S net heap fuel clock v [r] Purpose.STANDARD time k
          = Except.ok ((t.cost, t.order_record), k2) := by
  refine foldE_inv_mem (fun s : List Trip × Nat => ∀ t ∈ s.1, ∃ r ∈ rs, t.requests = [r]
      ∧ 0 ≤ t.cost ∧ t.is_fake = false ∧ t.use_memory = false
      ∧ ∃ k k2, time_travel S net heap fuel clock v [r] Purpose.STANDARD time k
          = Except.ok ((t.cost, t.order_record), k2)) _ _ _ _ ?_ (by simp) h
  intro s r s2 hr hs hf
  unfold rtv_single at hf
  cases ht : time_travel S net heap fuel clock v [r] Purpose.STANDARD time s.2 with
  | error e => rw [ht] at hf; simp at hf
  | ok path =>
    rw [ht] at hf
    simp only at hf
    split_ifs at hf with h1
    · simp only [Except.ok.injEq] at hf
      rw [← hf]
      intro t ht2
      rcases List.mem_append.mp ht2 with h2 | h2
      · exact hs t h2
      · simp only [List.mem_singleton] at h2
        rw [h2]
        exact ⟨r, hr, rfl, h1, rfl, rfl, s.2, path.2, ht⟩
    · simp only [Except.ok.injEq] at hf
      rw [← hf]
      exact hs

theorem getD_length_sub_one (round : List (List Trip)) (h : round ≠ []) :
    round.getD (round.length - 1) [] = round.getLastD [] := by
  rw [List.getLastD_eq_getLast?, List.getLast?_eq_getLast _ h, List.getLast_eq_getElem,
    List.getD_eq_getElem]
  rfl

/-- A property of the list of a rank relative to the list of the rank below that holds
for the compacted list of every enumeration of a rank holds for every rank that the loop
over the ranks appends. -/
theorem rtv_rounds_inv (S : Settings) (net : Network) (heap : Heap) (fuel : Nat)
    (clock : Clock) (rr_edges : ReqPtr → List ReqPtr) (v : Vehicle) (time : Int)
    (H : List Trip → Nat → List Trip → Prop)
    (hH : ∀ rank previous_round readings st,
      rtv_rank S net heap fuel clock rr_edges v time rank previous_round readings
        = Except.ok st → H previous_round rank (compact st.trips.length st.trips 0)) :
    ∀ (ranks : Nat) (round : List (List Trip)) (timeout : Bool) (readings : Nat)
      (round2 : List (List Trip)), round ≠ [] →
      (∀ k, 1 ≤ k → k < round.length → H (round.getD (k - 1) []) k (round.getD k [])) →
      rtv_rounds S net heap fuel clock rr_edges v time ranks round timeout readings
        = Except.ok round2 →
      ∀ k, 1 ≤ k → k < round2.length → H (round2.getD (k - 1) []) k (round2.getD k []) := by
  intro ranks
  induction ranks with
  | zero => intro round timeout readings round2 _ _ h; simp [rtv_rounds] at h
  | succ n ih =>
    intro round timeout readings round2 hne hinv h
    rw [rtv_rounds] at h
    split_ifs at h with h1 h2
    · simp only [Except.ok.injEq] at h
      rw [← h]; exact hinv
    · cases hr : rtv_rank S net heap fuel clock rr_edges v time round.length
          (round.getLastD []) readings with
      | error e => rw [hr] at h; simp at h
      | ok st =>
        rw [hr] at h
        simp only at h
        refine ih _ _ _ _ (by simp) ?_ h
        intro k hk1 hk2
        have hpos : 0 < round.length := List.length_pos.mpr hne
        simp only [List.length_append, List.length_singleton] at hk2
        by_cases hk : k < round.length
        · rw [List.getD_append _ _ _ _ hk, List.getD_append _ _ _ _ (by omega)]
          exact hinv k hk1 hk
        · have hk3 : k = round.length := by omega
          rw [hk3, List.getD_append_right _ _ _ _ (le_refl _)]
          simp only [Nat.sub_self, List.getD_cons_zero]
          rw [List.getD_append _ _ _ _ (by omega), getD_length_sub_one round hne]
          exact hH _ _ _ _ hr
    · simp only [Except.ok.injEq] at h
      rw [← h]; exact hinv

theorem subset_test_closed (previous_round : List Trip) (requests : List ReqPtr)
    (h : subset_test previous_round requests = true) :
    ∀ r ∈ requests, ∃ t2 ∈ previous_round, ∀ x, x ∈ t2.requests ↔ (x ∈ requests ∧ x ≠ r) := by
  intro r hr
  unfold subset_test at h
  rw [List.all_eq_true] at h
  have h1 := h r hr
  rw [List.any_eq_true] at h1
  obtain ⟨t2, ht2, h2⟩ := h1
  simp only [decide_eq_true_eq] at h2
  refine ⟨t2, ht2, ?_⟩
  intro x
  rw [← mem_requestSet, h2, mem_setErase_ptrLt]

theorem rankTrip_sorted (S : Settings) (net : Network) (heap : Heap) (fuel : Nat)
    (clock : Clock) (rr_edges : ReqPtr → List ReqPtr) (v : Vehicle) (time : Int) (rank : Nat)
    (previous_round : List Trip) (t : Trip)
    (h : RankTrip S net heap fuel clock rr_edges v time rank previous_round t) :
    t.requests.Pairwise (fun a b => ptrLt a b = true) := by
  obtain ⟨first, second, _, _, _, _, h1, _⟩ := h
  rw [h1]
  refine setInsertAll_sorted ptrLt ?_ _ _ (requestSet_sorted _)
  intro a b c h1 h2
  simp only [ptrLt, decide_eq_true_eq] at h1 h2 ⊢
  omega

/-- Claim C11: for every vehicle, when the enumeration of `make_rtvgraph` completes with
the lists `round` (`round[k]` is the final list of the rank `k`), every trip at a rank
`k >= 1` has `k` pairwise distinct requests and, for each of them, the list of the rank
`k - 1` holds a trip whose request set is that of the trip without this request. -/
theorem apriori_closure (S : Settings) (net : Network) (heap : Heap) (fuel : Nat)
    (clock : Clock) (rr_edges : ReqPtr → List ReqPtr) (vr_edges : List ReqPtr) (v : Vehicle)
    (time : Int) (round : List (List Trip))
    (h : rtv_enumeration S net heap fuel clock rr_edges vr_edges v time = Except.ok round) :
    ∀ k, 1 ≤ k → ∀ t ∈ round.getD k [], AprioriClosed (round.getD (k - 1) []) k t := by
  unfold rtv_enumeration at h
  cases hb : time_travel S net heap fuel clock v [] Purpose.STANDARD time 0 with
  | error e => rw [hb] at h; simp at h
  | ok result =>
    rw [hb] at h
    simp only at h
    cases h1 : foldE (rtv_single S net heap fuel clock v time) ([], result.2)
        (setInsertAll ptrLt v.pending_requests (requestSet vr_edges)) with
    | error e => rw [h1] at h; simp at h
    | ok first_round =>
      rw [h1] at h
      simp only at h
      have key := rtv_rounds_inv S net heap fuel clock rr_edges v time
        (fun prev k l => ∀ t ∈ l, AprioriClosed prev k t) ?_ _ _ _ _ _ (by simp) ?_ h
      · intro k hk t ht
        by_cases hlt : k < round.length
        · exact key k hk hlt t ht
        · rw [List.getD_eq_default _ _ (by omega)] at ht
          simp at ht
      · intro rank previous_round readings st hst t ht
        rw [mem_compact_iff] at ht
        obtain ⟨ht, hc⟩ := ht
        have hrt := (rtv_rank_spec S net heap fuel clock rr_edges v time rank previous_round
          readings st hst).1 t ht
        have hsorted := rankTrip_sorted S net heap fuel clock rr_edges v time rank
          previous_round t hrt
        obtain ⟨first, second, _, _, _, _, _, h5, _, h7⟩ := hrt
        rcases h7 with ⟨h8, _⟩ | ⟨_, _, h9, _⟩
        · omega
        · exact ⟨ptrLt_sorted_nodup _ hsorted, h5, subset_test_closed _ _ h9⟩
      · intro k hk1 hk2 t ht
        simp only [List.length_cons, List.length_singleton, List.length_nil] at hk2
        have hk : k = 1 := by omega
        subst hk
        simp only [List.getD_cons_succ, List.getD_cons_zero] at ht
        obtain ⟨r, _, h2, _⟩ := first_round_spec S net heap fuel clock v time _ _ _ h1 t ht
        refine ⟨by rw [h2]; simp, by rw [h2]; simp, ?_⟩
        intro r2 hr2
        refine ⟨⟨result.1.1, false, false, result.1.2, []⟩, by simp, ?_⟩
        intro x
        rw [h2] at hr2 ⊢
        simp only [List.mem_singleton] at hr2
        simp only [List.not_mem_nil, List.mem_singleton, false_iff, not_and, not_not]
        intro hx; rw [hx, hr2]

theorem apriori_closure_witness :
    rtv_enumeration (exSettings Ctsp.FULL) exNet exHeap 5 exClock exRR [1, 2] exVehicle 0
        = Except.ok [exTrips.take 1, (exTrips.drop 1).take 2, exTrips.drop 3]
      ∧ ∀ k, 1 ≤ k → ∀ t ∈ [exTrips.take 1, (exTrips.drop 1).take 2, exTrips.drop 3].getD k [],
          AprioriClosed ([exTrips.take 1, (exTrips.drop 1).take 2, exTrips.drop 3].getD (k - 1) [])
            k t :=
  ⟨by decide!,
    apriori_closure (exSettings Ctsp.FULL) exNet exHeap 5 exClock exRR [1, 2] exVehicle 0 _
      (by decide!)⟩

/-- The lists of the ranks `k >= 1` of a completed enumeration: no cost is negative, and
from the rank 2 on the list is the compaction of the list that the enumeration of the
rank left. -/
theorem rtv_enumeration_ranks (S : Settings) (net : Network) (heap : Heap) (fuel : Nat)
    (clock : Clock) (rr_edges : ReqPtr → List ReqPtr) (vr_edges : List ReqPtr) (v : Vehicle)
    (time : Int) (round : List (List Trip))
    (h : rtv_enumeration S net heap fuel clock rr_edges vr_edges v time = Except.ok round) :
    ∀ k, 1 ≤ k → k < round.length →
      (∀ t ∈ round.getD k [], 0 ≤ t.cost)
      ∧ (k = 1 ∨ ∃ readings st,
          rtv_rank S net heap fuel clock rr_edges v time k (round.getD (k - 1) []) readings
            = Except.ok st
          ∧ round.getD k [] = compact st.trips.length st.trips 0) := by
  unfold rtv_enumeration at h
  cases hb : time_travel S net heap fuel clock v [] Purpose.STANDARD time 0 with
  | error e => rw [hb] at h; simp at h
  | ok result =>
    rw [hb] at h
    simp only at h
    cases h1 : foldE (rtv_single S net heap fuel clock v time) ([], result.2)
        (setInsertAll ptrLt v.pending_requests (requestSet vr_edges)) with
    | error e => rw [h1] at h; simp at h
    | ok first_round =>
      rw [h1] at h
      simp only at h
      refine rtv_rounds_inv S net heap fuel clock rr_edges v time
        (fun prev k l => (∀ t ∈ l, 0 ≤ t.cost)
          ∧ (k = 1 ∨ ∃ readings st,
              rtv_rank S net heap fuel clock rr_edges v time k prev readings = Except.ok st
              ∧ l = compact st.trips.length st.trips 0)) ?_ _ _ _ _ _ (by simp) ?_ h
      · intro rank previous_round readings st hst
        refine ⟨?_, Or.inr ⟨readings, st, hst, rfl⟩⟩
        intro t ht
        exact ((mem_compact_iff _ _).mp ht).2
      · intro k hk1 hk2
        simp only [List.length_cons, List.length_singleton, List.length_nil] at hk2
        have hk : k = 1 := by omega
        subst hk
        refine ⟨?_, Or.inl rfl⟩
        intro t ht
        simp only [List.getD_cons_succ, List.getD_cons_zero] at ht
        obtain ⟨r, _, _, h3, _⟩ := first_round_spec S net heap fuel clock v time _ _ _ h1 t ht
        exact h3

theorem multimapInsert_perm (key : Int) (val : Nat) :
    ∀ l : List (Int × Nat), (multimapInsert key val l).Perm ((key, val) :: l) := by
  intro l
  induction l with
  | nil => simp [multimapInsert]
  | cons e rest ih =>
    rw [multimapInsert]
    split_ifs with h
    · exact List.Perm.refl _
    · exact (List.Perm.cons e ih).trans (List.Perm.swap _ _ _)

theorem multimapInsert_sorted (key : Int) (val : Nat) :
    ∀ l : List (Int × Nat), l.Pairwise (fun a b => a.1 ≤ b.1) →
      (multimapInsert key val l).Pairwise (fun a b => a.1 ≤ b.1) := by
  intro l
  induction l with
  | nil => intro _; simp [multimapInsert]
  | cons e rest ih =>
    intro hs
    rw [multimapInsert]
    rw [List.pairwise_cons] at hs
    split_ifs with h
    · rw [List.pairwise_cons]
      refine ⟨?_, List.pairwise_cons.mpr hs⟩
      intro b hb
      rcases List.mem_cons.mp hb with h1 | h1
      · rw [h1]; exact le_of_lt h
      · exact le_trans (le_of_lt h) (hs.1 b h1)
    · rw [List.pairwise_cons]
      refine ⟨?_, ih hs.2⟩
      intro b hb
      rcases List.mem_cons.mp ((multimapInsert_perm key val rest).mem_iff.mp hb) with h1 | h1
      · rw [h1]; exact not_lt.mp h
      · exact hs.1 b h1

/-- The multimap `nearest_vs` after the vehicles at the positions below `m`: ordered by
the key, with one entry, keyed by its wait, for each of these vehicles that passes the
wait test. -/
theorem nearest_vs_spec (wait : Nat → Int) (bound : Int) :
    ∀ m : Nat,
      ((List.range m).foldl (fun acc i =>
          if wait i > bound then acc else multimapInsert (wait i) i acc) []).Pairwise
        (fun a b => a.1 ≤ b.1)
      ∧ (((List.range m).foldl (fun acc i =>
          if wait i > bound then acc else multimapInsert (wait i) i acc) []).map
            (fun x => x.2)).Nodup
      ∧ ∀ x, x ∈ (List.range m).foldl (fun acc i =>
          if wait i > bound then acc else multimapInsert (wait i) i acc) []
        ↔ x.2 < m ∧ wait x.2 ≤ bound ∧ x.1 = wait x.2 := by
  intro m
  induction m with
  | zero => simp
  | succ n ih =>
    rw [List.range_succ, List.foldl_append]
    simp only [List.foldl_cons, List.foldl_nil]
    obtain ⟨h1, h2, h3⟩ := ih
    split_ifs with h
    · refine ⟨h1, h2, ?_⟩
      intro x
      rw [h3]
      constructor
      · rintro ⟨h4, h5, h6⟩; exact ⟨by omega, h5, h6⟩
      · rintro ⟨h4, h5, h6⟩
        refine ⟨?_, h5, h6⟩
        by_contra hc
        have : x.2 = n := by omega
        rw [this] at h5
        omega
    · have hp := multimapInsert_perm (wait n) n
        ((List.range n).foldl (fun acc i =>
          if wait i > bound then acc else multimapInsert (wait i) i acc) [])
      refine ⟨multimapInsert_sorted _ _ _ h1, ?_, ?_⟩
      · rw [(hp.map _).nodup_iff]
        simp only [List.map_cons, List.nodup_cons]
        refine ⟨?_, h2⟩
        intro hc
        obtain ⟨x, hx, e⟩ := List.mem_map.mp hc
        have := ((h3 x).mp hx).1
        omega
      · intro x
        rw [hp.mem_iff, List.mem_cons, h3]
        constructor
        · rintro (h4 | ⟨h4, h5, h6⟩)
          · rw [h4]; exact ⟨by simp, by simpa using h, rfl⟩
          · exact ⟨by omega, h5, h6⟩
        · rintro ⟨h4, h5, h6⟩
          by_cases hx : x.2 = n
          · left
            rw [hx] at h6
            exact Prod.ext h6 hx
          · right; exact ⟨by omega, h5, h6⟩

/-- The second loop of `make_rvgraph` keeps, in the order of the multimap, the vehicles
for which the oracle returns a cost that is not negative. -/
theorem rv_fold (S : Settings) (net : Network) (heap : Heap) (fuel : Nat)
    (vehicles : List Vehicle) (time : Int) (r : ReqPtr) :
    ∀ (xs : List (Int × Nat)) (acc res : List Nat),
      foldE (fun compatible_vehicles (x : Int × Nat) =>
          match travel S net heap fuel (vehicles.getD x.2 ⟨0, 0, [], [], [], 0, 0, 0⟩) [r]
              Purpose.STANDARD time with
          | Except.error e => Except.error e
          | Except.ok raw_path =>
            if raw_path.1 ≥ 0 then Except.ok (compatible_vehicles ++ [x.2])
            else Except.ok compatible_vehicles) acc xs = Except.ok res →
      ∃ kept, res = acc ++ kept ∧ kept.Sublist (xs.map (fun x => x.2))
        ∧ ∀ i, i ∈ kept ↔ (i ∈ xs.map (fun x => x.2)
          ∧ ∃ p, travel S net heap fuel (vehicles.getD i ⟨0, 0, [], [], [], 0, 0, 0⟩) [r]
              Purpose.STANDARD time = Except.ok p ∧ 0 ≤ p.1) := by
  intro xs
  induction xs with
  | nil =>
    intro acc res h
    simp only [foldE, Except.ok.injEq] at h
    exact ⟨[], by simp [h], by simp, by simp⟩
  | cons x rest ih =>
    intro acc res h
    rw [foldE] at h
    cases ht : travel S net heap fuel (vehicles.getD x.2 ⟨0, 0, [], [], [], 0, 0, 0⟩) [r]
        Purpose.STANDARD time with
    | error e => rw [ht] at h; simp at h
    | ok p =>
      rw [ht] at h
      simp only at h
      split_ifs at h with h1
      · obtain ⟨kept, h2, h3, h4⟩ := ih _ _ h
        refine ⟨x.2 :: kept, by rw [h2]; simp, by simpa using h3, ?_⟩
        intro i
        simp only [List.mem_cons, List.map_cons]
        rw [h4]
        constructor
        · rintro (h5 | ⟨h5, h6⟩)
          · rw [h5]; exact ⟨Or.inl rfl, p, ht, h1⟩
          · exact ⟨Or.inr h5, h6⟩
        · rintro ⟨h5 | h5, h6⟩
          · exact Or.inl h5
          · exact Or.inr ⟨h5, h6⟩
      · obtain ⟨kept, h2, h3, h4⟩ := ih _ _ h
        refine ⟨kept, h2, List.Sublist.cons _ h3, ?_⟩
        intro i
        rw [h4]
        simp only [List.map_cons, List.mem_cons]
        constructor
        · rintro ⟨h5, h6⟩; exact ⟨Or.inr h5, h6⟩
        · rintro ⟨h5 | h5, p2, h6, h7⟩
          · rw [h5, ht] at h6
            simp only [Except.ok.injEq] at h6
            rw [← h6] at h7
            exact absurd h7 h1
          · exact ⟨h5, p2, h6, h7⟩

theorem rv_fold_returns (S : Settings) (net : Network) (heap : Heap) (fuel : Nat)
    (vehicles : List Vehicle) (time : Int) (r : ReqPtr) :
    ∀ (xs : List (Int × Nat)) (acc : List Nat),
      (∀ x ∈ xs, ∃ p, travel S net heap fuel (vehicles.getD x.2 ⟨0, 0, [], [], [], 0, 0, 0⟩)
        [r] Purpose.STANDARD time = Except.ok p) →
      ∃ res, foldE (fun compatible_vehicles (x : Int × Nat) =>
          match travel S net heap fuel (vehicles.getD x.2 ⟨0, 0, [], [], [], 0, 0, 0⟩) [r]
              Purpose.STANDARD time with
          | Except.error e => Except.error e
          | Except.ok raw_path =>
            if raw_path.1 ≥ 0 then Except.ok (compatible_vehicles ++ [x.2])
            else Except.ok compatible_vehicles) acc xs = Except.ok res := by
  intro xs
  induction xs with
  | nil => intro acc _; exact ⟨acc, rfl⟩
  | cons x rest ih =>
    intro acc h
    obtain ⟨p, hp⟩ := h x (List.mem_cons_self _ _)
    rw [foldE, hp]
    simp only
    split_ifs
    · exact ih _ (fun y hy => h y (List.mem_cons_of_mem _ hy))
    · exact ih _ (fun y hy => h y (List.mem_cons_of_mem _ hy))

/-- Claim C13 (`PRUNING_RV_K` is the constant 0): `make_rvgraph` returns a list for the
request `r` when every oracle call it makes returns; a vehicle is in the list if and
only if `t + V.offset + time(V.node, r.origin) <= r.latest_boarding` and the STANDARD
oracle on the vehicle and `r` alone at the time `t` returns a cost that is not negative;
the vehicles of the list appear in non-decreasing order of
`V.offset + time(V.node, r.origin)`, each once. -/
theorem rv_builder (S : Settings) (net : Network) (heap : Heap) (fuel : Nat)
    (vehicles : List Vehicle) (time : Int) (r : ReqPtr) :
    ((∀ i, i < vehicles.length →
        time + ((vehicles.getD i ⟨0, 0, [], [], [], 0, 0, 0⟩).offset
          + net.get_time S (vehicles.getD i ⟨0, 0, [], [], [], 0, 0, 0⟩).node (heap r).origin)
          ≤ (heap r).latest_boarding →
        ∃ p, travel S net heap fuel (vehicles.getD i ⟨0, 0, [], [], [], 0, 0, 0⟩) [r]
          Purpose.STANDARD time = Except.ok p) →
      ∃ l, make_rvgraph S net heap fuel vehicles time r = Except.ok l)
    ∧ ∀ l, make_rvgraph S net heap fuel vehicles time r = Except.ok l →
      (∀ i, i ∈ l ↔ (i < vehicles.length
        ∧ time + ((vehicles.getD i ⟨0, 0, [], [], [], 0, 0, 0⟩).offset
          + net.get_time S (vehicles.getD i ⟨0, 0, [], [], [], 0, 0, 0⟩).node (heap r).origin)
          ≤ (heap r).latest_boarding
        ∧ ∃ p, travel S net heap fuel (vehicles.getD i ⟨0, 0, [], [], [], 0, 0, 0⟩) [r]
            Purpose.STANDARD time = Except.ok p ∧ 0 ≤ p.1))
      ∧ l.Pairwise (fun i j =>
          (vehicles.getD i ⟨0, 0, [], [], [], 0, 0, 0⟩).offset
            + net.get_time S (vehicles.getD i ⟨0, 0, [], [], [], 0, 0, 0⟩).node (heap r).origin
          ≤ (vehicles.getD j ⟨0, 0, [], [], [], 0, 0, 0⟩).offset
            + net.get_time S (vehicles.getD j ⟨0, 0, [], [], [], 0, 0, 0⟩).node (heap r).origin)
      ∧ l.Nodup := by
  obtain ⟨h1, h2, h3⟩ := nearest_vs_spec
    (fun i => (vehicles.getD i ⟨0, 0, [], [], [], 0, 0, 0⟩).offset
      + net.get_time S (vehicles.getD i ⟨0, 0, [], [], [], 0, 0, 0⟩).node (heap r).origin)
    ((heap r).latest_boarding - time) vehicles.length
  have hfold : (List.range vehicles.length).foldl (fun acc i =>
      let min_wait := net.get_vehicle_time S (vehicles.getD i ⟨0, 0, [], [], [], 0, 0, 0⟩)
        (heap r).origin
      if time + min_wait > (heap r).latest_boarding then acc
      else multimapInsert min_wait i acc) []
      = (List.range vehicles.length).foldl (fun acc i =>
        if (vehicles.getD i ⟨0, 0, [], [], [], 0, 0, 0⟩).offset
            + net.get_time S (vehicles.getD i ⟨0, 0, [], [], [], 0, 0, 0⟩).node (heap r).origin
            > (heap r).latest_boarding - time then acc
        else multimapInsert ((vehicles.getD i ⟨0, 0, [], [], [], 0, 0, 0⟩).offset
            + net.get_time S (vehicles.getD i ⟨0, 0, [], [], [], 0, 0, 0⟩).node (heap r).origin)
          i acc) [] := by
    congr 1
    funext acc i
    simp only [Network.get_vehicle_time]
    by_cases hc : time + ((vehicles.getD i ⟨0, 0, [], [], [], 0, 0, 0⟩).offset
        + net.get_time S (vehicles.getD i ⟨0, 0, [], [], [], 0, 0, 0⟩).node (heap r).origin)
        > (heap r).latest_boarding
    · rw [if_pos hc, if_pos (by omega)]
    · rw [if_neg hc, if_neg (by omega)]
  constructor
  · intro hret
    unfold make_rvgraph
    simp only
    rw [hfold]
    apply rv_fold_returns
    intro x hx
    obtain ⟨h4, h5, _⟩ := (h3 x).mp hx
    exact hret x.2 h4 (by omega)
  · intro l hl
    unfold make_rvgraph at hl
    simp only at hl
    rw [hfold] at hl
    obtain ⟨kept, h4, h5, h6⟩ := rv_fold S net heap fuel vehicles time r _ _ _ hl
    simp only [List.nil_append] at h4
    subst h4
    refine ⟨?_, ?_, h5.nodup h2⟩
    · intro i
      rw [h6, List.mem_map]
      constructor
      · rintro ⟨⟨x, hx, e⟩, h7⟩
        obtain ⟨h8, h9, _⟩ := (h3 x).mp hx
        rw [e] at h8 h9
        exact ⟨h8, by omega, h7⟩
      · rintro ⟨h7, h8, h9⟩
        refine ⟨⟨((vehicles.getD i ⟨0, 0, [], [], [], 0, 0, 0⟩).offset
          + net.get_time S (vehicles.getD i ⟨0, 0, [], [], [], 0, 0, 0⟩).node (heap r).origin, i),
          (h3 _).mpr ⟨h7, ?_, rfl⟩, rfl⟩, h9⟩
        simp only
        omega
    · refine List.Pairwise.sublist h5 ?_
      rw [List.pairwise_map]
      refine List.Pairwise.imp_of_mem ?_ h1
      intro a b ha hb hab
      rw [((h3 a).mp ha).2.2, ((h3 b).mp hb).2.2] at hab
      exact hab

theorem rv_builder_witness :
    make_rvgraph (exSettings Ctsp.FULL) exNet exHeap 3 exFleet 0 1 = Except.ok [1, 0]
      ∧ (∀ i, i ∈ [1, 0] ↔ (i < exFleet.length
        ∧ 0 + ((exFleet.getD i ⟨0, 0, [], [], [], 0, 0, 0⟩).offset
          + exNet.get_time (exSettings Ctsp.FULL)
              (exFleet.getD i ⟨0, 0, [], [], [], 0, 0, 0⟩).node (exHeap 1).origin)
          ≤ (exHeap 1).latest_boarding
        ∧ ∃ p, travel (exSettings Ctsp.FULL) exNet exHeap 3
            (exFleet.getD i ⟨0, 0, [], [], [], 0, 0, 0⟩) [1] Purpose.STANDARD 0
              = Except.ok p ∧ 0 ≤ p.1))
      ∧ [1, 0].Pairwise (fun i j =>
          (exFleet.getD i ⟨0, 0, [], [], [], 0, 0, 0⟩).offset
            + exNet.get_time (exSettings Ctsp.FULL)
                (exFleet.getD i ⟨0, 0, [], [], [], 0, 0, 0⟩).node (exHeap 1).origin
          ≤ (exFleet.getD j ⟨0, 0, [], [], [], 0, 0, 0⟩).offset
            + exNet.get_time (exSettings Ctsp.FULL)
                (exFleet.getD j ⟨0, 0, [], [], [], 0, 0, 0⟩).node (exHeap 1).origin)
      ∧ [1, 0].Nodup :=
  ⟨by decide!, (rv_builder (exSettings Ctsp.FULL) exNet exHeap 3 exFleet 0 1).2 [1, 0]
    (by decide!)⟩

/-- The loop of `make_rrgraph` over `r2` appends the requests that have another id than
`r1`, pass the wait test, and for which the oracle returns a cost that is not
negative. -/
theorem rr_fold (S : Settings) (net : Network) (heap : Heap) (fuel : Nat) (time : Int)
    (r1 : ReqPtr) :
    ∀ (xs acc res : List ReqPtr),
      foldE (fun compatible_requests r2 =>
          if (heap r1).id = (heap r2).id then Except.ok compatible_requests
          else if net.get_time S (heap r1).origin (heap r2).origin
              + max time (heap r1).entry_time > (heap r2).latest_boarding then
            Except.ok compatible_requests
          else
            match travel S net heap fuel
                ⟨0, 4, [], [], [], (heap r1).origin, (heap r1).origin, 0⟩
                [r1, r2] Purpose.STANDARD time with
            | Except.error e => Except.error e
            | Except.ok raw_path =>
              if raw_path.1 ≥ 0 then Except.ok (compatible_requests ++ [r2])
              else Except.ok compatible_requests) acc xs = Except.ok res →
      ∀ r2, r2 ∈ res ↔ (r2 ∈ acc ∨ (r2 ∈ xs ∧ (heap r1).id ≠ (heap r2).id
        ∧ net.get_time S (heap r1).origin (heap r2).origin + max time (heap r1).entry_time
          ≤ (heap r2).latest_boarding
        ∧ ∃ p, travel S net heap fuel ⟨0, 4, [], [], [], (heap r1).origin, (heap r1).origin, 0⟩
            [r1, r2] Purpose.STANDARD time = Except.ok p ∧ 0 ≤ p.1)) := by
  intro xs
  induction xs with
  | nil =>
    intro acc res h
    simp only [foldE, Except.ok.injEq] at h
    intro r2
    simp [h]
  | cons x rest ih =>
    intro acc res h r2
    rw [foldE] at h
    by_cases h1 : (heap r1).id = (heap x).id
    · rw [if_pos h1] at h
      simp only at h
      have hno : ¬ ((heap r1).id ≠ (heap x).id
          ∧ net.get_time S (heap r1).origin (heap x).origin + max time (heap r1).entry_time
            ≤ (heap x).latest_boarding
          ∧ ∃ p, travel S net heap fuel
              ⟨0, 4, [], [], [], (heap r1).origin, (heap r1).origin, 0⟩
              [r1, x] Purpose.STANDARD time = Except.ok p ∧ 0 ≤ p.1) := fun hc => hc.1 h1
      rw [ih _ _ h r2]
      simp only [List.mem_cons]
      constructor
      · rintro (h3 | ⟨h3, h4⟩)
        · exact Or.inl h3
        · exact Or.inr ⟨Or.inr h3, h4⟩
      · rintro (h3 | ⟨h3 | h3, h4⟩)
        · exact Or.inl h3
        · rw [h3] at h4; exact absurd h4 hno
        · exact Or.inr ⟨h3, h4⟩
    · rw [if_neg h1] at h
      by_cases h2 : net.get_time S (heap r1).origin (heap x).origin
          + max time (heap r1).entry_time > (heap x).latest_boarding
      · rw [if_pos h2] at h
        simp only at h
        have hno : ¬ ((heap r1).id ≠ (heap x).id
            ∧ net.get_time S (heap r1).origin (heap x).origin + max time (heap r1).entry_time
              ≤ (heap x).latest_boarding
            ∧ ∃ p, travel S net heap fuel
                ⟨0, 4, [], [], [], (heap r1).origin, (heap r1).origin, 0⟩
                [r1, x] Purpose.STANDARD time = Except.ok p ∧ 0 ≤ p.1) :=
          fun hc => absurd hc.2.1 (not_le.mpr h2)
        rw [ih _ _ h r2]
        simp only [List.mem_cons]
        constructor
        · rintro (h3 | ⟨h3, h4⟩)
          · exact Or.inl h3
          · exact Or.inr ⟨Or.inr h3, h4⟩
        · rintro (h3 | ⟨h3 | h3, h4⟩)
          · exact Or.inl h3
          · rw [h3] at h4; exact absurd h4 hno
          · exact Or.inr ⟨h3, h4⟩
      · rw [if_neg h2] at h
        cases ht : travel S net heap fuel
            ⟨0, 4, [], [], [], (heap r1).origin, (heap r1).origin, 0⟩ [r1, x]
            Purpose.STANDARD time with
        | error e => rw [ht] at h; simp at h
        | ok p =>
          rw [ht] at h
          simp only at h
          by_cases h3 : p.1 ≥ 0
          · rw [if_pos h3] at h
            simp only at h
            rw [ih _ _ h r2]
            simp only [List.mem_append, List.mem_cons, List.not_mem_nil, or_false]
            constructor
            · rintro ((h4 | h4) | ⟨h4, h5⟩)
              · exact Or.inl h4
              · rw [h4]; exact Or.inr ⟨Or.inl rfl, h1, not_lt.mp h2, p, ht, h3⟩
              · exact Or.inr ⟨Or.inr h4, h5⟩
            · rintro (h4 | ⟨h4 | h4, h5⟩)
              · exact Or.inl (Or.inl h4)
              · exact Or.inl (Or.inr h4)
              · exact Or.inr ⟨h4, h5⟩
          · rw [if_neg h3] at h
            simp only at h
            have hno : ¬ ((heap r1).id ≠ (heap x).id
                ∧ net.get_time S (heap r1).origin (heap x).origin
                  + max time (heap r1).entry_time ≤ (heap x).latest_boarding
                ∧ ∃ p, travel S net heap fuel
                    ⟨0, 4, [], [], [], (heap r1).origin, (heap r1).origin, 0⟩
                    [r1, x] Purpose.STANDARD time = Except.ok p ∧ 0 ≤ p.1) := by
              rintro ⟨_, _, p2, h4, h5⟩
              rw [ht] at h4
              simp only [Except.ok.injEq] at h4
              rw [← h4] at h5
              exact h3 h5
            rw [ih _ _ h r2]
            simp only [List.mem_cons]
            constructor
            · rintro (h3 | ⟨h3, h4⟩)
              · exact Or.inl h3
              · exact Or.inr ⟨Or.inr h3, h4⟩
            · rintro (h3 | ⟨h3 | h3, h4⟩)
              · exact Or.inl h3
              · rw [h3] at h4; exact absurd h4 hno
              · exact Or.inr ⟨h3, h4⟩

theorem rr_fold_returns (S : Settings) (net : Network) (heap : Heap) (fuel : Nat) (time : Int)
    (r1 : ReqPtr) :
    ∀ (xs acc : List ReqPtr),
      (∀ r2 ∈ xs, (heap r1).id ≠ (heap r2).id →
        net.get_time S (heap r1).origin (heap r2).origin + max time (heap r1).entry_time
          ≤ (heap r2).latest_boarding →
        ∃ p, travel S net heap fuel ⟨0, 4, [], [], [], (heap r1).origin, (heap r1).origin, 0⟩
          [r1, r2] Purpose.STANDARD time = Except.ok p) →
      ∃ res, foldE (fun compatible_requests r2 =>
          if (heap r1).id = (heap r2).id then Except.ok compatible_requests
          else if net.get_time S (heap r1).origin (heap r2).origin
              + max time (heap r1).entry_time > (heap r2).latest_boarding then
            Except.ok compatible_requests
          else
            match travel S net heap fuel
                ⟨0, 4, [], [], [], (heap r1).origin, (heap r1).origin, 0⟩
                [r1, r2] Purpose.STANDARD time with
            | Except.error e => Except.error e
            | Except.ok raw_path =>
              if raw_path.1 ≥ 0 then Except.ok (compatible_requests ++ [r2])
              else Except.ok compatible_requests) acc xs = Except.ok res := by
  intro xs
  induction xs with
  | nil => intro acc _; exact ⟨acc, rfl⟩
  | cons x rest ih =>
    intro acc h
    have hrest := fun a => ih a (fun y hy => h y (List.mem_cons_of_mem _ hy))
    rw [foldE]
    by_cases h1 : (heap r1).id = (heap x).id
    · rw [if_pos h1]; exact hrest _
    · rw [if_neg h1]
      by_cases h2 : net.get_time S (heap r1).origin (heap x).origin
          + max time (heap r1).entry_time > (heap x).latest_boarding
      · rw [if_pos h2]; exact hrest _
      · rw [if_neg h2]
        obtain ⟨p, hp⟩ := h x (List.mem_cons_self _ _) h1 (not_lt.mp h2)
        rw [hp]
        simp only
        split_ifs
        · exact hrest _
        · exact hrest _

/-- The RR set that `make_rrgraph` stores for `r1`. -/
theorem make_rrgraph_mem (S : Settings) (net : Network) (heap : Heap) (fuel : Nat)
    (requests : List ReqPtr) (time : Int) (r1 : ReqPtr) (s : List ReqPtr)
    (h : make_rrgraph S net heap fuel requests time r1 = Except.ok s) (r2 : ReqPtr) :
    r2 ∈ s ↔ (r2 ∈ requests ∧ (heap r1).id ≠ (heap r2).id
      ∧ net.get_time S (heap r1).origin (heap r2).origin + max time (heap r1).entry_time
        ≤ (heap r2).latest_boarding
      ∧ ∃ p, travel S net heap fuel ⟨0, 4, [], [], [], (heap r1).origin, (heap r1).origin, 0⟩
          [r1, r2] Purpose.STANDARD time = Except.ok p ∧ 0 ≤ p.1) := by
  unfold make_rrgraph at h
  split at h
  · simp at h
  · rename_i res hf
    simp only [Except.ok.injEq] at h
    have key := rr_fold S net heap fuel time r1 requests [] res hf r2
    rw [← h, mem_requestSet, key]
    simp

/-- Claim C14 (`PRUNING_RR_K` is the constant 0): `make_rrgraph` returns a set for the
request `r1` when every oracle call it makes returns; a request `r2` of the list of the
active requests is in the set if and only if `r1` and `r2` have different ids,
`time(r1.origin, r2.origin) + max(t, r1.entry_time) <= r2.latest_boarding`, and the
STANDARD oracle on a fresh empty vehicle of capacity 4 at `r1.origin` with the offset 0
and the request list `(r1, r2)` returns, at the time `t`, a cost that is not negative;
and no other request is in the set. -/
theorem rr_builder (S : Settings) (net : Network) (heap : Heap) (fuel : Nat)
    (requests : List ReqPtr) (time : Int) (r1 : ReqPtr) :
    ((∀ r2 ∈ requests, (heap r1).id ≠ (heap r2).id →
        net.get_time S (heap r1).origin (heap r2).origin + max time (heap r1).entry_time
          ≤ (heap r2).latest_boarding →
        ∃ p, travel S net heap fuel ⟨0, 4, [], [], [], (heap r1).origin, (heap r1).origin, 0⟩
          [r1, r2] Purpose.STANDARD time = Except.ok p) →
      ∃ s, make_rrgraph S net heap fuel requests time r1 = Except.ok s)
    ∧ ∀ s, make_rrgraph S net heap fuel requests time r1 = Except.ok s →
      (∀ r2 ∈ requests, (r2 ∈ s ↔ ((heap r1).id ≠ (heap r2).id
        ∧ net.get_time S (heap r1).origin (heap r2).origin + max time (heap r1).entry_time
          ≤ (heap r2).latest_boarding
        ∧ ∃ p, travel S net heap fuel
            ⟨0, 4, [], [], [], (heap r1).origin, (heap r1).origin, 0⟩
            [r1, r2] Purpose.STANDARD time = Except.ok p ∧ 0 ≤ p.1)))
      ∧ ∀ r2 ∈ s, r2 ∈ requests := by
  constructor
  · intro hret
    obtain ⟨res, hres⟩ := rr_fold_returns S net heap fuel time r1 requests [] hret
    cases hm : make_rrgraph S net heap fuel requests time r1 with
    | ok s => exact ⟨s, rfl⟩
    | error e =>
      exfalso
      unfold make_rrgraph at hm
      split at hm
      · rename_i e2 he
        have hc := he.symm.trans hres
        simp at hc
      · simp at hm
  · intro s hs
    constructor
    · intro r2 hr2
      rw [make_rrgraph_mem S net heap fuel requests time r1 s hs r2]
      exact ⟨fun h => h.2, fun h => ⟨hr2, h⟩⟩
    · intro r2 hr2
      exact ((make_rrgraph_mem S net heap fuel requests time r1 s hs r2).mp hr2).1

theorem rr_builder_witness :
    make_rrgraph (exSettings Ctsp.FULL) exNet exHeap 5 [1, 2] 0 1 = Except.ok [2]
      ∧ (∀ r2 ∈ [1, 2], (r2 ∈ [2] ↔ ((exHeap 1).id ≠ (exHeap r2).id
        ∧ exNet.get_time (exSettings Ctsp.FULL) (exHeap 1).origin (exHeap r2).origin
            + max 0 (exHeap 1).entry_time ≤ (exHeap r2).latest_boarding
        ∧ ∃ p, travel (exSettings Ctsp.FULL) exNet exHeap 5
            ⟨0, 4, [], [], [], (exHeap 1).origin, (exHeap 1).origin, 0⟩
            [1, r2] Purpose.STANDARD 0 = Except.ok p ∧ 0 ≤ p.1)))
      ∧ ∀ r2 ∈ [2], r2 ∈ [1, 2] :=
  ⟨by decide!,
    (rr_builder (exSettings Ctsp.FULL) exNet exHeap 5 [1, 2] 0 1).2 [2] (by decide!)⟩

/-- Claim C15, amended: for every two active requests `r1`, `r2` with different ids and
every epoch time `t`, whenever
`time(r1.origin, r2.origin) + max(t, r1.entry_time) <= r2.latest_boarding` and the
STANDARD oracle, called on a fresh empty vehicle at `r1.origin` with the request list
`(r1, r2)`, returns a cost that is not negative, the RR set that `make_rrgraph` stores
for `r1` contains `r2`. -/
theorem rr_edge_from_oracle (S : Settings) (net : Network) (heap : Heap) (fuel : Nat)
    (requests : List ReqPtr) (time : Int) (r1 r2 : ReqPtr) (s : List ReqPtr)
    (p : Int × List NodeStop)
    (h : make_rrgraph S net heap fuel requests time r1 = Except.ok s)
    (hr2 : r2 ∈ requests) (hid : (heap r1).id ≠ (heap r2).id)
    (hwait : net.get_time S (heap r1).origin (heap r2).origin + max time (heap r1).entry_time
      ≤ (heap r2).latest_boarding)
    (hp : travel S net heap fuel ⟨0, 4, [], [], [], (heap r1).origin, (heap r1).origin, 0⟩
      [r1, r2] Purpose.STANDARD time = Except.ok p)
    (hc : 0 ≤ p.1) :
    r2 ∈ s :=
  (make_rrgraph_mem S net heap fuel requests time r1 s h r2).mpr ⟨hr2, hid, hwait, p, hp, hc⟩

theorem rr_edge_from_oracle_witness :
    make_rrgraph (exSettings Ctsp.FULL) exNet exHeap 5 [1, 2] 0 1 = Except.ok [2]
      ∧ travel (exSettings Ctsp.FULL) exNet exHeap 5
          ⟨0, 4, [], [], [], (exHeap 1).origin, (exHeap 1).origin, 0⟩ [1, 2]
          Purpose.STANDARD 0 = Except.ok (140, exPlan)
      ∧ 2 ∈ [2] :=
  ⟨by decide!, by decide!,
    rr_edge_from_oracle (exSettings Ctsp.FULL) exNet exHeap 5 [1, 2] 0 1 2 [2] (140, exPlan)
      (by decide!) (by decide) (by decide) (by decide) (by decide!) (by decide)⟩

/-- Claim C15 fails as stated: at the epoch time 0, with the request at address 1 (from
node 0, entry time 250) and the request at address 2 (from node 1, entry time 0, latest
boarding 300), the STANDARD oracle on a fresh empty vehicle at node 0 with the list
`(1, 2)` returns the cost 320 (it serves the second request first), but
`60 + max(0, 250) > 300` and `make_rrgraph` stores the empty set for the first
request. -/
theorem rr_edge_from_oracle_counterexample :
    travel (exSettings Ctsp.FULL) exNet lateHeap 5
        ⟨0, 4, [], [], [], (lateHeap 1).origin, (lateHeap 1).origin, 0⟩ [1, 2]
        Purpose.STANDARD 0
        = Except.ok (320, [⟨2, true, 1⟩, ⟨2, false, 2⟩, ⟨1, true, 0⟩, ⟨1, false, 1⟩])
      ∧ (lateHeap 1).id ≠ (lateHeap 2).id
      ∧ make_rrgraph (exSettings Ctsp.FULL) exNet lateHeap 5 [1, 2] 0 1 = Except.ok []
      ∧ 2 ∉ ([] : List ReqPtr) :=
  ⟨by decide!, by decide, by decide!, by decide⟩

theorem ptrLt_trans (a b c : Nat) (h1 : ptrLt a b = true) (h2 : ptrLt b c = true) :
    ptrLt a c = true := by
  simp only [ptrLt, decide_eq_true_eq] at h1 h2 ⊢
  omega

theorem ridsLookup_insert (id id2 : Int) (index : Nat) :
    ∀ m : List (Int × List Nat),
      ridsLookup id2 (ridsInsert id index m)
        = if id2 = id then setInsert ptrLt index (ridsLookup id m) else ridsLookup id2 m := by
  intro m
  induction m with
  | nil =>
    by_cases h : id2 = id
    · simp [ridsInsert, ridsLookup, h, setInsert]
    · have h2 : ¬ id = id2 := fun hc => h hc.symm
      simp [ridsInsert, ridsLookup, h, h2]
  | cons entry rest ih =>
    rw [ridsInsert]
    by_cases h1 : entry.1 = id
    · rw [if_pos h1]
      by_cases h : id2 = id
      · simp [ridsLookup, h, h1]
      · have h2 : ¬ entry.1 = id2 := fun hc => h (hc.symm.trans h1)
        simp [ridsLookup, h, h2]
    · rw [if_neg h1]
      by_cases h2 : entry.1 = id2
      · have h : ¬ id2 = id := fun hc => h1 (h2.trans hc)
        simp [ridsLookup, h, h2]
      · have e1 : ridsLookup id2 (entry :: ridsInsert id index rest)
            = ridsLookup id2 (ridsInsert id index rest) := by
          simp [ridsLookup, h2]
        have e2 : ridsLookup id2 (entry :: rest) = ridsLookup id2 rest := by
          simp [ridsLookup, h2]
        have e3 : ridsLookup id (entry :: rest) = ridsLookup id rest := by
          simp [ridsLookup, h1]
        rw [e1, e2, e3, ih]

/-- The entries of `rids_to_trips` after the requests of one trip, at the index
`index`. -/
theorem rids_requests (heap : Heap) (index : Nat) (id : Int) :
    ∀ (rs : List ReqPtr) (m : List (Int × List Nat)),
      (∀ j, j ∈ ridsLookup id (rs.foldl (fun m request =>
            ridsInsert (heap request).id index m) m)
          ↔ (j ∈ ridsLookup id m ∨ (j = index ∧ ∃ r ∈ rs, (heap r).id = id)))
      ∧ ((ridsLookup id m).Pairwise (fun a b => ptrLt a b = true) →
          (ridsLookup id (rs.foldl (fun m request =>
            ridsInsert (heap request).id index m) m)).Pairwise
              (fun a b => ptrLt a b = true)) := by
  intro rs
  induction rs with
  | nil => intro m; simp
  | cons r rest ih =>
    intro m
    simp only [List.foldl_cons]
    obtain ⟨h1, h2⟩ := ih (ridsInsert (heap r).id index m)
    constructor
    · intro j
      rw [h1, ridsLookup_insert]
      by_cases h : id = (heap r).id
      · rw [if_pos h, mem_setInsert ptrLt separating_ptrLt, ← h]
        simp only [List.mem_cons, exists_eq_or_imp]
        constructor
        · rintro ((h3 | h3) | ⟨h3, h4⟩)
          · exact Or.inr ⟨h3, Or.inl h.symm⟩
          · exact Or.inl h3
          · exact Or.inr ⟨h3, Or.inr h4⟩
        · rintro (h3 | ⟨h3, h4 | h4⟩)
          · exact Or.inl (Or.inr h3)
          · exact Or.inl (Or.inl h3)
          · exact Or.inr ⟨h3, h4⟩
      · rw [if_neg h]
        simp only [List.mem_cons, exists_eq_or_imp]
        constructor
        · rintro (h3 | ⟨h3, h4⟩)
          · exact Or.inl h3
          · exact Or.inr ⟨h3, Or.inr h4⟩
        · rintro (h3 | ⟨h3, h4 | h4⟩)
          · exact Or.inl h3
          · exact absurd h4.symm h
          · exact Or.inr ⟨h3, h4⟩
    · intro hs
      apply h2
      rw [ridsLookup_insert]
      split_ifs with h
      · rw [← h]
        exact setInsert_sorted ptrLt ptrLt_trans index _ hs
      · exact hs

theorem serves_iff (heap : Heap) (t : Trip) (id : Int) :
    t.serves heap id = true ↔ ∃ r ∈ t.requests, (heap r).id = id := by
  simp [Trip.serves]

/-- The first loop of `ilp_assignment` over the trips of one vehicle. -/
theorem count_trip_fold (heap : Heap) (id : Int) :
    ∀ (trips : List Trip) (st : Counting),
      (trips.foldl (count_trip heap) st).index = st.index + trips.length
      ∧ (trips.foldl (count_trip heap) st).costs = st.costs ++ trips.map (fun t => t.cost)
      ∧ (∀ j, j ∈ ridsLookup id (trips.foldl (count_trip heap) st).rids_to_trips
          ↔ (j ∈ ridsLookup id st.rids_to_trips
            ∨ (st.index ≤ j ∧ j < st.index + trips.length
              ∧ (trips.getD (j - st.index) ⟨0, false, false, [], []⟩).serves heap id = true)))
      ∧ ((ridsLookup id st.rids_to_trips).Pairwise (fun a b => ptrLt a b = true) →
          (ridsLookup id (trips.foldl (count_trip heap) st).rids_to_trips).Pairwise
            (fun a b => ptrLt a b = true)) := by
  intro trips
  induction trips with
  | nil =>
    intro st
    simp only [List.foldl_nil, List.length_nil, List.map_nil, List.append_nil, add_zero,
      true_and]
    exact ⟨fun j => ⟨fun h => Or.inl h, fun h => h.elim (fun h1 => h1) (fun h2 => by omega)⟩,
      fun h => h⟩
  | cons t rest ih =>
    intro st
    simp only [List.foldl_cons]
    obtain ⟨h1, h2, h3, h4⟩ := ih (count_trip heap st t)
    obtain ⟨h5, h6⟩ := rids_requests heap st.index id t.requests st.rids_to_trips
    refine ⟨?_, ?_, ?_, ?_⟩
    · rw [h1]; simp only [count_trip, List.length_cons]; omega
    · rw [h2]; simp [count_trip]
    · intro j
      rw [h3]
      simp only [count_trip]
      rw [h5, ← serves_iff]
      simp only [List.length_cons]
      constructor
      · rintro ((h7 | ⟨h7, h8⟩) | ⟨h7, h8, h9⟩)
        · exact Or.inl h7
        · refine Or.inr ⟨by omega, by omega, ?_⟩
          rw [h7]; simpa using h8
        · refine Or.inr ⟨by omega, by omega, ?_⟩
          have e : j - st.index = (j - (st.index + 1)) + 1 := by omega
          rw [e, List.getD_cons_succ]; exact h9
      · rintro (h7 | ⟨h7, h8, h9⟩)
        · exact Or.inl (Or.inl h7)
        · by_cases hj : j = st.index
          · left; right
            refine ⟨hj, ?_⟩
            rw [hj] at h9
            simpa using h9
          · right
            refine ⟨by omega, by omega, ?_⟩
            have e : j - st.index = (j - (st.index + 1)) + 1 := by omega
            rw [e, List.getD_cons_succ] at h9; exact h9
    · intro hs
      exact h4 (h6 hs)

/-- The first loop of `ilp_assignment` from the state `st`: `index` counts the trips,
`costs` holds their costs in the order of the concatenated list, and `rids_to_trips[id]`
gains, in increasing order, the indices of the trips that serve `id`. -/
theorem count_fold (heap : Heap) (id : Int) :
    ∀ (l : List (Vehicle × List Trip)) (st : Counting),
      (l.foldl (fun st (y : Vehicle × List Trip) => y.2.foldl (count_trip heap) st) st).index
        = st.index + (all_trips l).length
      ∧ (l.foldl (fun st (y : Vehicle × List Trip) => y.2.foldl (count_trip heap) st) st).costs
        = st.costs ++ (all_trips l).map (fun t => t.cost)
      ∧ (∀ j, j ∈ ridsLookup id (l.foldl (fun st (y : Vehicle × List Trip) =>
            y.2.foldl (count_trip heap) st) st).rids_to_trips
          ↔ (j ∈ ridsLookup id st.rids_to_trips
            ∨ (st.index ≤ j ∧ j < st.index + (all_trips l).length
              ∧ ((all_trips l).getD (j - st.index) ⟨0, false, false, [], []⟩).serves heap id
                = true)))
      ∧ ((ridsLookup id st.rids_to_trips).Pairwise (fun a b => ptrLt a b = true) →
          (ridsLookup id (l.foldl (fun st (y : Vehicle × List Trip) =>
            y.2.foldl (count_trip heap) st) st).rids_to_trips).Pairwise
              (fun a b => ptrLt a b = true)) := by
  intro l
  induction l with
  | nil =>
    intro st
    simp only [List.foldl_nil, all_trips, List.map_nil, List.flatten_nil, List.length_nil,
      List.append_nil, add_zero, true_and]
    exact ⟨fun j => ⟨fun h => Or.inl h, fun h => h.elim (fun h1 => h1) (fun h2 => by omega)⟩,
      fun h => h⟩
  | cons y rest ih =>
    intro st
    simp only [List.foldl_cons]
    obtain ⟨h1, h2, h3, h4⟩ := ih (y.2.foldl (count_trip heap) st)
    obtain ⟨h5, h6, h7, h8⟩ := count_trip_fold heap id y.2 st
    have hall : all_trips (y :: rest) = y.2 ++ all_trips rest := by simp [all_trips]
    refine ⟨?_, ?_, ?_, ?_⟩
    · rw [h1, h5, hall, List.length_append]; omega
    · rw [h2, h6, hall]; simp
    · intro j
      rw [h3, h7, h5, hall, List.length_append]
      constructor
      · rintro ((h9 | ⟨h9, h10, h11⟩) | ⟨h9, h10, h11⟩)
        · exact Or.inl h9
        · refine Or.inr ⟨h9, by omega, ?_⟩
          rw [List.getD_append _ _ _ _ (by omega)]; exact h11
        · refine Or.inr ⟨by omega, by omega, ?_⟩
          rw [List.getD_append_right _ _ _ _ (by omega)]
          have e : j - st.index - y.2.length = j - (st.index + y.2.length) := by omega
          rw [e]; exact h11
      · rintro (h9 | ⟨h9, h10, h11⟩)
        · exact Or.inl (Or.inl h9)
        · by_cases hj : j < st.index + y.2.length
          · left; right
            refine ⟨h9, hj, ?_⟩
            rw [List.getD_append _ _ _ _ (by omega)] at h11; exact h11
          · right
            refine ⟨by omega, by omega, ?_⟩
            rw [List.getD_append_right _ _ _ _ (by omega)] at h11
            have e : j - st.index - y.2.length = j - (st.index + y.2.length) := by omega
            rw [e] at h11; exact h11
    · intro hs
      exact h4 (h8 hs)

/-- The result of the first loop of `ilp_assignment`. -/
theorem count_trips_spec (heap : Heap) (trip_list : List (Vehicle × List Trip)) (id : Int) :
    (count_trips heap trip_list).index = (all_trips trip_list).length
    ∧ (count_trips heap trip_list).costs = (all_trips trip_list).map (fun t => t.cost)
    ∧ (∀ j, j ∈ ridsLookup id (count_trips heap trip_list).rids_to_trips
        ↔ (j < (all_trips trip_list).length
          ∧ ((all_trips trip_list).getD j ⟨0, false, false, [], []⟩).serves heap id = true))
    ∧ (ridsLookup id (count_trips heap trip_list).rids_to_trips).Pairwise
        (fun a b => ptrLt a b = true) := by
  obtain ⟨h1, h2, h3, h4⟩ := count_fold heap id trip_list ⟨0, [], []⟩
  refine ⟨by simpa using h1, by simpa using h2, ?_, h4 (by simp [ridsLookup])⟩
  intro j
  have := h3 j
  simpa [ridsLookup] using this

/-- Claim C19: for every request list, time and solver, when the concatenated trip list
is empty (no entry, or no trip in any entry), `ilp_assignment` returns the empty map and
the solver is not called. -/
theorem empty_trip_list (ALGORITHM : Algorithm) (ASSIGNMENT_OBJECTIVE : AssignmentObjective)
    (heap : Heap) (solver : IlpModel → Option (Nat → Rat))
    (trip_list : List (Vehicle × List Trip)) (requests : List ReqPtr) (time : Int)
    (h : all_trips trip_list = []) :
    ilp_assignment ALGORITHM ASSIGNMENT_OBJECTIVE heap solver trip_list requests time
      = Except.ok ⟨[], []⟩ := by
  have h1 := (count_trips_spec heap trip_list 0).1
  rw [h, List.length_nil] at h1
  unfold ilp_assignment
  rw [if_pos h1]

theorem empty_trip_list_witness :
    all_trips [(exVehicle, []), (exVehicleOnboard, [])] = []
      ∧ ilp_assignment Algorithm.ILP_FULL AssignmentObjective.AO_SERVICERATE exHeap
          (fun _ => none) [(exVehicle, []), (exVehicleOnboard, [])] [1, 2] 0
        = Except.ok ⟨[], []⟩ :=
  ⟨by decide,
    empty_trip_list Algorithm.ILP_FULL AssignmentObjective.AO_SERVICERATE exHeap
      (fun _ => none) [(exVehicle, []), (exVehicleOnboard, [])] [1, 2] 0 (by decide)⟩

/-- Claim C17: for every request of the request list, at the position `k`, that is
served by at least one trip of the trip list, the model that `ilp_assignment` builds and
hands to the solver contains a constraint named after the id of the request that sums,
each once, the variables `e` of exactly the trips (of all vehicles, in the indexing of
the concatenated list) that serve the request, adds the variable `x[k]` unless the
request is marked assigned, and demands the value 1. -/
theorem per_request_constraint (ALGORITHM : Algorithm)
    (ASSIGNMENT_OBJECTIVE : AssignmentObjective) (heap : Heap)
    (trip_list : List (Vehicle × List Trip)) (requests : List ReqPtr) (k : Nat)
    (hk : k < requests.length)
    (happears : ∃ j, j < (all_trips trip_list).length
      ∧ ((all_trips trip_list).getD j ⟨0, false, false, [], []⟩).serves heap
          (heap (requests.getD k 0)).id = true) :
    (∃ c ∈ (build_model ALGORITHM ASSIGNMENT_OBJECTIVE heap trip_list requests).constraints,
      c.name = ConstraintName.c2 (heap (requests.getD k 0)).id
      ∧ c.domain = Domain.equalsTo 1
      ∧ c.x_index = (if (heap (requests.getD k 0)).assigned then none else some k)
      ∧ c.e_indices.Pairwise (fun a b => a < b)
      ∧ ∀ j, j ∈ c.e_indices ↔ (j < (all_trips trip_list).length
          ∧ ((all_trips trip_list).getD j ⟨0, false, false, [], []⟩).serves heap
              (heap (requests.getD k 0)).id = true))
    ∧ ∀ solver time run,
        ilp_assignment ALGORITHM ASSIGNMENT_OBJECTIVE heap solver trip_list requests time
          = Except.ok run →
        run.solved = [build_model ALGORITHM ASSIGNMENT_OBJECTIVE heap trip_list requests] := by
  obtain ⟨h1, _, h3, h4⟩ := count_trips_spec heap trip_list (heap (requests.getD k 0)).id
  constructor
  · refine ⟨⟨ConstraintName.c2 (heap (requests.getD k 0)).id,
      ridsLookup (heap (requests.getD k 0)).id (count_trips heap trip_list).rids_to_trips,
      if (heap (requests.getD k 0)).assigned then none else some k,
      Domain.equalsTo 1⟩, ?_, rfl, rfl, rfl, ?_, h3⟩
    · simp only [build_model, List.mem_append]
      right
      simp only [constraint_two, List.mem_map, List.mem_range]
      exact ⟨k, hk, rfl⟩
    · refine List.Pairwise.imp ?_ h4
      intro a b hab
      simpa [ptrLt] using hab
  · intro solver time run hrun
    obtain ⟨j, hj, _⟩ := happears
    unfold ilp_assignment at hrun
    rw [if_neg (by rw [h1]; omega)] at hrun
    simp only at hrun
    split at hrun
    · simp at hrun
    · simp only [Except.ok.injEq] at hrun
      rw [← hrun]

theorem per_request_constraint_witness :
    (1 : Nat) < [1, 2].length
      ∧ (∃ j, j < (all_trips [(exVehicle, exTrips)]).length
        ∧ ((all_trips [(exVehicle, exTrips)]).getD j ⟨0, false, false, [], []⟩).serves exHeap
            (exHeap ([1, 2].getD 1 0)).id = true)
      ∧ (∃ c ∈ (build_model Algorithm.ILP_FULL AssignmentObjective.AO_SERVICERATE exHeap
            [(exVehicle, exTrips)] [1, 2]).constraints,
          c.name = ConstraintName.c2 (exHeap ([1, 2].getD 1 0)).id
          ∧ c.domain = Domain.equalsTo 1
          ∧ c.x_index = (if (exHeap ([1, 2].getD 1 0)).assigned then none else some 1)
          ∧ c.e_indices.Pairwise (fun a b => a < b)
          ∧ ∀ j, j ∈ c.e_indices ↔ (j < (all_trips [(exVehicle, exTrips)]).length
              ∧ ((all_trips [(exVehicle, exTrips)]).getD j ⟨0, false, false, [], []⟩).serves
                  exHeap (exHeap ([1, 2].getD 1 0)).id = true)) :=
  ⟨by decide, ⟨2, by decide, by decide⟩,
    (per_request_constraint Algorithm.ILP_FULL AssignmentObjective.AO_SERVICERATE exHeap
      [(exVehicle, exTrips)] [1, 2] 1 (by decide) ⟨2, by decide, by decide⟩).1⟩

theorem half_eq : half = 1 / 2 := by
  unfold half
  rw [Rat.mk'_eq_divInt, Rat.divInt_eq_div]
  norm_num

theorem half_lt_one : half < 1 := by decide

theorem half_not_lt_zero : ¬ half < 0 := by decide

theorem assignments_getD (n : Nat) (E : Nat → Rat) (i : Nat) :
    (((assignments_of n E).getD i 0 : Int) : Rat) > half ↔ (i < n ∧ E i > half) := by
  unfold assignments_of
  by_cases hi : i < n
  · rw [List.getD_eq_getElem _ _ (by simpa using hi)]
    simp only [List.getElem_map, List.getElem_range, hi, true_and]
    by_cases hE : E i > half
    · simp only [hE, if_true, Int.cast_one, iff_true]
      exact half_lt_one
    · simp only [hE, if_false, Int.cast_zero, iff_false]
      exact half_not_lt_zero
  · rw [List.getD_eq_default _ _ (by simpa using hi)]
    simp only [Int.cast_zero, hi, false_and, iff_false]
    exact half_not_lt_zero

/-- The inner loop of the decoding returns the trip at the least index from `i` whose
entry of `assignments` exceeds 0.5. -/
theorem first_assigned_some (A : List Int) :
    ∀ (trips : List Trip) (i : Nat) (t : Trip),
      first_assigned A trips i = some t ↔
        ∃ r, r < trips.length ∧ ((A.getD (i + r) 0 : Int) : Rat) > half
          ∧ (∀ r2, r2 < r → ¬ ((A.getD (i + r2) 0 : Int) : Rat) > half)
          ∧ t = trips.getD r ⟨0, false, false, [], []⟩ := by
  intro trips
  induction trips with
  | nil => intro i t; simp [first_assigned]
  | cons a rest ih =>
    intro i t
    rw [first_assigned]
    by_cases h : ((A.getD i 0 : Int) : Rat) > half
    · rw [if_pos h]
      constructor
      · intro ht
        simp only [Option.some.injEq] at ht
        exact ⟨0, by simp, by simpa using h, by simp, by simp [ht]⟩
      · rintro ⟨r, _, h2, h3, h4⟩
        cases r with
        | zero => simp only [List.getD_cons_zero] at h4; rw [h4]
        | succ r2 => exact absurd (by simpa using h) (h3 0 (by omega))
    · rw [if_neg h, ih]
      constructor
      · rintro ⟨r, h1, h2, h3, h4⟩
        refine ⟨r + 1, by simpa using h1, ?_, ?_, by simpa using h4⟩
        · have e : i + (r + 1) = i + 1 + r := by omega
          rw [e]; exact h2
        · intro r2 hr2
          cases r2 with
          | zero => simpa using h
          | succ r3 =>
            have e : i + (r3 + 1) = i + 1 + r3 := by omega
            rw [e]; exact h3 r3 (by omega)
      · rintro ⟨r, h1, h2, h3, h4⟩
        cases r with
        | zero => exact absurd (by simpa using h2) h
        | succ r2 =>
          refine ⟨r2, by simpa using h1, ?_, ?_, by simpa using h4⟩
          · have e : i + (r2 + 1) = i + 1 + r2 := by omega
            rw [← e]; exact h2
          · intro r3 hr3
            have e : i + (r3 + 1) = i + 1 + r3 := by omega
            rw [← e]; exact h3 (r3 + 1) (by omega)

theorem trip_offset_zero (l : List (Vehicle × List Trip)) : trip_offset l 0 = 0 := by
  simp [trip_offset]

theorem trip_offset_succ (y : Vehicle × List Trip) (rest : List (Vehicle × List Trip))
    (i : Nat) : trip_offset (y :: rest) (i + 1) = y.2.length + trip_offset rest i := by
  simp [trip_offset]

/-- The entries of the decoded map: the entry of a position holds the trip that the
inner loop finds for the trips of that position, from the offset of the position. -/
theorem mem_decode (A : List Int) :
    ∀ (l : List (Vehicle × List Trip)) (p c pos : Nat) (t : Trip),
      (pos, t) ∈ decode A l p c ↔
        ∃ i y, l[i]? = some y ∧ pos = p + i
          ∧ first_assigned A y.2 (c + trip_offset l i) = some t := by
  intro l
  induction l with
  | nil => intro p c pos t; simp [decode]
  | cons x rest ih =>
    intro p c pos t
    have step : (pos, t) ∈ decode A (x :: rest) p c ↔
        ((pos = p ∧ first_assigned A x.2 c = some t)
          ∨ (pos, t) ∈ decode A rest (p + 1) (c + x.2.length)) := by
      rw [decode]
      cases hf : first_assigned A x.2 c with
      | none => simp
      | some t2 =>
        simp only [List.mem_cons, Prod.mk.injEq, Option.some.injEq]
        constructor
        · rintro (⟨h1, h2⟩ | h1)
          · exact Or.inl ⟨h1, h2.symm⟩
          · exact Or.inr h1
        · rintro (⟨h1, h2⟩ | h1)
          · exact Or.inl ⟨h1, h2.symm⟩
          · exact Or.inr h1
    rw [step, ih]
    constructor
    · rintro (⟨h1, h2⟩ | ⟨i, y, h1, h2, h3⟩)
      · exact ⟨0, x, by simp, by omega, by rw [trip_offset_zero]; exact h2⟩
      · refine ⟨i + 1, y, by simpa using h1, by omega, ?_⟩
        rw [trip_offset_succ, ← Nat.add_assoc]; exact h3
    · rintro ⟨i, y, h1, h2, h3⟩
      cases i with
      | zero =>
        simp only [List.getElem?_cons_zero, Option.some.injEq] at h1
        rw [trip_offset_zero] at h3
        left
        rw [h1]; exact ⟨by omega, h3⟩
      | succ i2 =>
        right
        refine ⟨i2, y, by simpa using h1, by omega, ?_⟩
        rw [trip_offset_succ, ← Nat.add_assoc] at h3; exact h3

theorem trip_offset_lt :
    ∀ (l : List (Vehicle × List Trip)) (i : Nat) (y : Vehicle × List Trip) (r : Nat),
      l[i]? = some y → r < y.2.length → trip_offset l i + r < (all_trips l).length := by
  intro l
  induction l with
  | nil => intro i y r h; simp at h
  | cons x rest ih =>
    intro i y r h hr
    have hall : all_trips (x :: rest) = x.2 ++ all_trips rest := by simp [all_trips]
    rw [hall, List.length_append]
    cases i with
    | zero =>
      simp only [List.getElem?_cons_zero, Option.some.injEq] at h
      rw [trip_offset_zero, h]; omega
    | succ i2 =>
      rw [trip_offset_succ]
      have := ih i2 y r (by simpa using h) hr
      omega

theorem all_trips_getD :
    ∀ (l : List (Vehicle × List Trip)) (i : Nat) (y : Vehicle × List Trip) (r : Nat),
      l[i]? = some y → r < y.2.length →
      (all_trips l).getD (trip_offset l i + r) ⟨0, false, false, [], []⟩
        = y.2.getD r ⟨0, false, false, [], []⟩ := by
  intro l
  induction l with
  | nil => intro i y r h; simp at h
  | cons x rest ih =>
    intro i y r h hr
    have hall : all_trips (x :: rest) = x.2 ++ all_trips rest := by simp [all_trips]
    rw [hall]
    cases i with
    | zero =>
      simp only [List.getElem?_cons_zero, Option.some.injEq] at h
      rw [trip_offset_zero, h, Nat.zero_add, List.getD_append _ _ _ _ hr]
    | succ i2 =>
      rw [trip_offset_succ, List.getD_append_right _ _ _ _ (by omega)]
      have e : x.2.length + trip_offset rest i2 + r - x.2.length = trip_offset rest i2 + r := by
        omega
      rw [e]
      exact ih i2 y r (by simpa using h) hr

/-- The map that `ilp_assignment` returns when the solver returns the level `E`. -/
theorem ilp_assignment_decoded (ALGORITHM : Algorithm)
    (ASSIGNMENT_OBJECTIVE : AssignmentObjective) (heap : Heap) (E : Nat → Rat)
    (trip_list : List (Vehicle × List Trip)) (requests : List ReqPtr) (time : Int)
    (run : IlpRun)
    (h : ilp_assignment ALGORITHM ASSIGNMENT_OBJECTIVE heap (fun _ => some E) trip_list
      requests time = Except.ok run) :
    run.assigned_trips
      = decode (assignments_of (all_trips trip_list).length E) trip_list 0 0 := by
  have h1 := (count_trips_spec heap trip_list 0).1
  unfold ilp_assignment at h
  split_ifs at h with h2
  · simp only [Except.ok.injEq] at h
    rw [← h]
    symm
    rw [List.eq_nil_iff_forall_not_mem]
    rintro ⟨pos, t⟩ hmem
    obtain ⟨i, y, h3, _, h4⟩ := (mem_decode _ _ _ _ _ _).mp hmem
    obtain ⟨r, h5, _⟩ := (first_assigned_some _ _ _ _).mp h4
    have := trip_offset_lt trip_list i y r h3 h5
    omega
  · simp only [Except.ok.injEq] at h
    rw [← h]
    simp only [build_model, h1]

theorem constraint_one_mem (ALGORITHM : Algorithm) :
    ∀ (l : List (Vehicle × List Trip)) (c i : Nat) (y : Vehicle × List Trip),
      l[i]? = some y →
      (⟨ConstraintName.c1 y.1.id, List.range' (c + trip_offset l i) y.2.length, none,
        Domain.equalsTo 1⟩ : Constraint) ∈ constraint_one ALGORITHM l c := by
  intro l
  induction l with
  | nil => intro c i y h; simp at h
  | cons x rest ih =>
    intro c i y h
    rw [constraint_one]
    cases i with
    | zero =>
      simp only [List.getElem?_cons_zero, Option.some.injEq] at h
      rw [trip_offset_zero, h]
      cases ALGORITHM
      simp
    | succ i2 =>
      rw [trip_offset_succ, ← Nat.add_assoc]
      exact List.mem_cons_of_mem _ (ih _ i2 y (by simpa using h))

/-- The entries of the map that `ilp_assignment` returns for the level `E`. -/
theorem decoded_mem (ALGORITHM : Algorithm) (ASSIGNMENT_OBJECTIVE : AssignmentObjective)
    (heap : Heap) (E : Nat → Rat) (trip_list : List (Vehicle × List Trip))
    (requests : List ReqPtr) (time : Int) (run : IlpRun)
    (h : ilp_assignment ALGORITHM ASSIGNMENT_OBJECTIVE heap (fun _ => some E) trip_list
      requests time = Except.ok run) (pos : Nat) (t : Trip) :
    (pos, t) ∈ run.assigned_trips ↔
      ∃ y, trip_list[pos]? = some y
        ∧ ∃ r, r < y.2.length ∧ E (trip_offset trip_list pos + r) > half
          ∧ (∀ r2, r2 < r → ¬ E (trip_offset trip_list pos + r2) > half)
          ∧ t = y.2.getD r ⟨0, false, false, [], []⟩ := by
  have hdec := ilp_assignment_decoded ALGORITHM ASSIGNMENT_OBJECTIVE heap E trip_list requests
    time run h
  rw [hdec, mem_decode]
  constructor
  · rintro ⟨i, y, h1, h2, h3⟩
    have hi : i = pos := by omega
    subst hi
    refine ⟨y, h1, ?_⟩
    obtain ⟨r, h4, h5, h6, h7⟩ := (first_assigned_some _ _ _ _).mp h3
    refine ⟨r, h4, ?_, ?_, h7⟩
    · rw [Nat.zero_add] at h5
      exact ((assignments_getD _ _ _).mp h5).2
    · intro r2 hr2 hc
      apply h6 r2 hr2
      rw [Nat.zero_add]
      exact (assignments_getD _ _ _).mpr
        ⟨trip_offset_lt trip_list i y r2 h1 (by omega), hc⟩
  · rintro ⟨y, h1, r, h4, h5, h6, h7⟩
    refine ⟨pos, y, h1, by omega, (first_assigned_some _ _ _ _).mpr ⟨r, h4, ?_, ?_, h7⟩⟩
    · rw [Nat.zero_add]
      exact (assignments_getD _ _ _).mpr ⟨trip_offset_lt trip_list pos y r h1 h4, h5⟩
    · intro r2 hr2 hc
      rw [Nat.zero_add] at hc
      exact h6 r2 hr2 ((assignments_getD _ _ _).mp hc).2

theorem solution_decoding_aux (ALGORITHM : Algorithm)
    (ASSIGNMENT_OBJECTIVE : AssignmentObjective) (heap : Heap) (E : Nat → Rat)
    (trip_list : List (Vehicle × List Trip)) (requests : List ReqPtr) (time : Int)
    (run : IlpRun)
    (h : ilp_assignment ALGORITHM ASSIGNMENT_OBJECTIVE heap (fun _ => some E) trip_list
      requests time = Except.ok run)
    (pos : Nat) (y : Vehicle × List Trip) (hy : trip_list[pos]? = some y) (r : Nat)
    (hr : r < y.2.length) (h1 : E (trip_offset trip_list pos + r) > half)
    (h2 : ∀ r2, r2 < r → ¬ E (trip_offset trip_list pos + r2) > half) (t : Trip) :
    (pos, t) ∈ run.assigned_trips ↔ t = y.2.getD r ⟨0, false, false, [], []⟩ := by
  rw [decoded_mem ALGORITHM ASSIGNMENT_OBJECTIVE heap E trip_list requests time run h]
  constructor
  · rintro ⟨y2, h3, r3, h4, h5, h6, h7⟩
    rw [hy] at h3
    simp only [Option.some.injEq] at h3
    subst h3
    have e : r3 = r := by
      rcases Nat.lt_trichotomy r3 r with h8 | h8 | h8
      · exact absurd h5 (h2 r3 h8)
      · exact h8
      · exact absurd h1 (h6 r h8)
    rw [h7, e]
  · intro ht
    exact ⟨y, hy, r, hr, h1, h2, ht⟩

/-- Claim C18: for every trip list and every level `E` of the variables `e` returned by
the solver, the map that `ilp_assignment` returns sends the vehicle at the position
`pos` to its trip at the least local index `r` with `E[offset(pos) + r] > 0.5`, where
`offset(pos)` is the number of trips of the vehicles before `pos`; a vehicle with no such
trip has no entry; when exactly one level of the vehicle exceeds 0.5 the entry is that
trip; the same indexing gives the cost vector (the coefficient at `offset(pos) + r` is
the cost of the trip `r` of the vehicle) and the slice of the first constraint of the
vehicle; and the map has entries for positions of the trip list only. -/
theorem solution_decoding (ALGORITHM : Algorithm) (ASSIGNMENT_OBJECTIVE : AssignmentObjective)
    (heap : Heap) (E : Nat → Rat) (trip_list : List (Vehicle × List Trip))
    (requests : List ReqPtr) (time : Int) (run : IlpRun)
    (h : ilp_assignment ALGORITHM ASSIGNMENT_OBJECTIVE heap (fun _ => some E) trip_list
      requests time = Except.ok run) :
    (∀ pos y, trip_list[pos]? = some y →
      (∀ r, r < y.2.length → E (trip_offset trip_list pos + r) > half →
        (∀ r2, r2 < r → ¬ E (trip_offset trip_list pos + r2) > half) →
        ∀ t, (pos, t) ∈ run.assigned_trips ↔ t = y.2.getD r ⟨0, false, false, [], []⟩)
      ∧ ((∀ r, r < y.2.length → ¬ E (trip_offset trip_list pos + r) > half) →
        ∀ t, (pos, t) ∉ run.assigned_trips)
      ∧ (∀ r, r < y.2.length → E (trip_offset trip_list pos + r) > half →
        (∀ r2, r2 < y.2.length → r2 ≠ r → ¬ E (trip_offset trip_list pos + r2) > half) →
        ∀ t, (pos, t) ∈ run.assigned_trips ↔ t = y.2.getD r ⟨0, false, false, [], []⟩)
      ∧ (∀ r, r < y.2.length →
        (build_model ALGORITHM ASSIGNMENT_OBJECTIVE heap trip_list requests).objective_e.getD
            (trip_offset trip_list pos + r) 0
          = (y.2.getD r ⟨0, false, false, [], []⟩).cost)
      ∧ (⟨ConstraintName.c1 y.1.id, List.range' (trip_offset trip_list pos) y.2.length, none,
          Domain.equalsTo 1⟩ : Constraint)
        ∈ (build_model ALGORITHM ASSIGNMENT_OBJECTIVE heap trip_list requests).constraints)
    ∧ ∀ pos t, (pos, t) ∈ run.assigned_trips → pos < trip_list.length := by
  have hmem := decoded_mem ALGORITHM ASSIGNMENT_OBJECTIVE heap E trip_list requests time
    run h
  have hfirst := solution_decoding_aux ALGORITHM ASSIGNMENT_OBJECTIVE heap E trip_list
    requests time run h
  constructor
  · intro pos y hy
    refine ⟨hfirst pos y hy, ?_, ?_, ?_, ?_⟩
    · intro hnone t hc
      obtain ⟨y2, h3, r3, h4, h5, _⟩ := (hmem pos t).mp hc
      rw [hy] at h3
      simp only [Option.some.injEq] at h3
      subst h3
      exact hnone r3 h4 h5
    · intro r hr h1 h2
      exact hfirst pos y hy r hr h1 (fun r2 hr2 => h2 r2 (by omega) (by omega))
    · intro r hr
      simp only [build_model]
      rw [(count_trips_spec heap trip_list 0).2.1]
      have hlt := trip_offset_lt trip_list pos y r hy hr
      rw [List.getD_eq_getElem _ _ (by simpa using hlt), List.getElem_map,
        ← all_trips_getD trip_list pos y r hy hr, List.getD_eq_getElem _ _ hlt]
    · simp only [build_model, List.mem_append]
      left
      have := constraint_one_mem ALGORITHM trip_list 0 pos y hy
      rw [Nat.zero_add] at this
      exact this
  · intro pos t hmem2
    obtain ⟨y, h3, _⟩ := (hmem pos t).mp hmem2
    by_contra hc
    rw [List.getElem?_eq_none (by omega)] at h3
    simp at h3

theorem solution_decoding_witness :
    ilp_assignment Algorithm.ILP_FULL AssignmentObjective.AO_SERVICERATE exHeap
        (fun _ => some (fun i => if i = 3 then 1 else 0)) [(exVehicle, exTrips)] [1, 2] 0
      = Except.ok ⟨[build_model Algorithm.ILP_FULL AssignmentObjective.AO_SERVICERATE exHeap
          [(exVehicle, exTrips)] [1, 2]], [(0, ⟨140, false, false, exPlan, [1, 2]⟩)]⟩
    ∧ ∀ t, (0, t) ∈ [((0 : Nat), (⟨140, false, false, exPlan, [1, 2]⟩ : Trip))]
        ↔ t = exTrips.getD 3 ⟨0, false, false, [], []⟩ :=
  ⟨by decide!,
    ((solution_decoding Algorithm.ILP_FULL AssignmentObjective.AO_SERVICERATE exHeap
      (fun i => if i = 3 then 1 else 0) [(exVehicle, exTrips)] [1, 2] 0
      ⟨[build_model Algorithm.ILP_FULL AssignmentObjective.AO_SERVICERATE exHeap
          [(exVehicle, exTrips)] [1, 2]], [(0, ⟨140, false, false, exPlan, [1, 2]⟩)]⟩
      (by decide!)).1 0 (exVehicle, exTrips) rfl).1 3 (by decide) (by decide!) (by decide!)⟩

theorem serving_indices_mem (heap : Heap) (id : Int) :
    ∀ (ts : List Trip) (i j : Nat),
      j ∈ serving_indices heap id ts i ↔ (i ≤ j ∧ j < i + ts.length
        ∧ (ts.getD (j - i) ⟨0, false, false, [], []⟩).serves heap id = true) := by
  intro ts
  induction ts with
  | nil => intro i j; simp [serving_indices]; omega
  | cons t rest ih =>
    intro i j
    rw [serving_indices]
    have hrest : j ∈ serving_indices heap id rest (i + 1) ↔ (i + 1 ≤ j ∧ j < i + (rest.length + 1)
        ∧ ((t :: rest).getD (j - i) ⟨0, false, false, [], []⟩).serves heap id = true) := by
      rw [ih]
      constructor
      · rintro ⟨h1, h2, h3⟩
        refine ⟨h1, by omega, ?_⟩
        have e : j - i = (j - (i + 1)) + 1 := by omega
        rw [e, List.getD_cons_succ]; exact h3
      · rintro ⟨h1, h2, h3⟩
        refine ⟨h1, by omega, ?_⟩
        have e : j - i = (j - (i + 1)) + 1 := by omega
        rw [e, List.getD_cons_succ] at h3; exact h3
    simp only [List.length_cons]
    split_ifs with h
    · rw [List.mem_cons, hrest]
      constructor
      · rintro (h1 | ⟨h1, h2, h3⟩)
        · rw [h1]; exact ⟨le_refl _, by omega, by simpa using h⟩
        · exact ⟨by omega, h2, h3⟩
      · rintro ⟨h1, h2, h3⟩
        by_cases hj : j = i
        · exact Or.inl hj
        · exact Or.inr ⟨by omega, h2, h3⟩
    · rw [hrest]
      constructor
      · rintro ⟨h1, h2, h3⟩; exact ⟨by omega, h2, h3⟩
      · rintro ⟨h1, h2, h3⟩
        refine ⟨?_, h2, h3⟩
        by_contra hc
        have hj : j = i := by omega
        rw [hj] at h3
        simp only [Nat.sub_self, List.getD_cons_zero] at h3
        exact h h3

theorem serving_indices_sorted (heap : Heap) (id : Int) :
    ∀ (ts : List Trip) (i : Nat), (serving_indices heap id ts i).Pairwise (fun a b => a < b) := by
  intro ts
  induction ts with
  | nil => intro i; simp [serving_indices]
  | cons t rest ih =>
    intro i
    rw [serving_indices]
    split_ifs with h
    · rw [List.pairwise_cons]
      refine ⟨?_, ih _⟩
      intro b hb
      have := ((serving_indices_mem heap id rest (i + 1) b).mp hb).1
      omega
    · exact ih _

theorem serving_indices_append (heap : Heap) (id : Int) :
    ∀ (a b : List Trip) (i : Nat),
      serving_indices heap id (a ++ b) i
        = serving_indices heap id a i ++ serving_indices heap id b (i + a.length) := by
  intro a
  induction a with
  | nil => intro b i; simp [serving_indices]
  | cons t rest ih =>
    intro b i
    rw [List.cons_append, serving_indices, serving_indices, List.length_cons]
    have e : i + (rest.length + 1) = i + 1 + rest.length := by omega
    split_ifs with h
    · rw [ih, e]; rfl
    · rw [ih, e]

theorem sum_all_zero (e : Nat → Rat) :
    ∀ l : List Nat, (∀ j ∈ l, e j = 0) → (l.map e).sum = 0 := by
  intro l
  induction l with
  | nil => intro _; simp
  | cons a rest ih =>
    intro h
    rw [List.map_cons, List.sum_cons, h a (List.mem_cons_self _ _),
      ih (fun j hj => h j (List.mem_cons_of_mem _ hj))]
    simp

theorem sum_single (e : Nat → Rat) :
    ∀ (l : List Nat) (a : Nat), l.Nodup → a ∈ l → (∀ j ∈ l, j ≠ a → e j = 0) →
      (l.map e).sum = e a := by
  intro l
  induction l with
  | nil => intro a _ ha; simp at ha
  | cons b rest ih =>
    intro a hnd ha h
    rw [List.nodup_cons] at hnd
    rw [List.map_cons, List.sum_cons]
    rcases List.mem_cons.mp ha with h1 | h1
    · rw [← h1, sum_all_zero e rest]
      · simp
      · intro j hj
        apply h j (List.mem_cons_of_mem _ hj)
        intro hc
        rw [hc, h1] at hj
        exact hnd.1 hj
    · rw [h b (List.mem_cons_self _ _) (by intro hc; rw [hc] at hnd; exact hnd.1 h1),
        ih a hnd.2 h1 (fun j hj => h j (List.mem_cons_of_mem _ hj))]
      simp

theorem sum01_nonneg (e : Nat → Rat) :
    ∀ l : List Nat, (∀ j ∈ l, e j = 0 ∨ e j = 1) → 0 ≤ (l.map e).sum := by
  intro l
  induction l with
  | nil => intro _; simp
  | cons a rest ih =>
    intro h
    rw [List.map_cons, List.sum_cons]
    have h1 := ih (fun j hj => h j (List.mem_cons_of_mem _ hj))
    rcases h a (List.mem_cons_self _ _) with h2 | h2 <;> rw [h2] <;> linarith

theorem sum01_zero (e : Nat → Rat) :
    ∀ l : List Nat, (∀ j ∈ l, e j = 0 ∨ e j = 1) → (l.map e).sum = 0 → ∀ j ∈ l, e j = 0 := by
  intro l
  induction l with
  | nil => intro _ _ j hj; simp at hj
  | cons a rest ih =>
    intro h hs j hj
    rw [List.map_cons, List.sum_cons] at hs
    have h1 := sum01_nonneg e rest (fun j hj => h j (List.mem_cons_of_mem _ hj))
    have ha : e a = 0 := by
      rcases h a (List.mem_cons_self _ _) with h2 | h2
      · exact h2
      · rw [h2] at hs; linarith
    rcases List.mem_cons.mp hj with h3 | h3
    · rw [h3]; exact ha
    · rw [ha] at hs
      exact ih (fun j hj => h j (List.mem_cons_of_mem _ hj)) (by linarith) j h3

/-- Levels 0 or 1 whose sum is 1: exactly one of them is 1. -/
theorem sum01_one (e : Nat → Rat) :
    ∀ l : List Nat, l.Nodup → (∀ j ∈ l, e j = 0 ∨ e j = 1) → (l.map e).sum = 1 →
      ∃ a ∈ l, e a = 1 ∧ ∀ j ∈ l, j ≠ a → e j = 0 := by
  intro l
  induction l with
  | nil => intro _ _ hs; simp at hs
  | cons b rest ih =>
    intro hnd h hs
    rw [List.nodup_cons] at hnd
    rw [List.map_cons, List.sum_cons] at hs
    rcases h b (List.mem_cons_self _ _) with h2 | h2
    · rw [h2] at hs
      obtain ⟨a, ha, h3, h4⟩ := ih hnd.2 (fun j hj => h j (List.mem_cons_of_mem _ hj))
        (by linarith)
      refine ⟨a, List.mem_cons_of_mem _ ha, h3, ?_⟩
      intro j hj hne
      rcases List.mem_cons.mp hj with h5 | h5
      · rw [h5]; exact h2
      · exact h4 j h5 hne
    · rw [h2] at hs
      have hz := sum01_zero e rest (fun j hj => h j (List.mem_cons_of_mem _ hj)) (by linarith)
      refine ⟨b, List.mem_cons_self _ _, h2, ?_⟩
      intro j hj hne
      rcases List.mem_cons.mp hj with h5 | h5
      · exact absurd h5 hne
      · exact hz j h5

/-- The levels of the trips of one vehicle that serve `id`, when exactly the trip `r` of
the vehicle has the level 1: their sum counts the trip `r` if it serves `id`. -/
theorem serving_sum_entry (heap : Heap) (id : Int) (e : Nat → Rat) (trips : List Trip)
    (c r : Nat) (hr : r < trips.length) (h1 : e (c + r) = 1)
    (h0 : ∀ r2, r2 < trips.length → r2 ≠ r → e (c + r2) = 0) :
    ((serving_indices heap id trips c).map e).sum
      = if (trips.getD r ⟨0, false, false, [], []⟩).serves heap id then 1 else 0 := by
  have hnd : (serving_indices heap id trips c).Nodup :=
    List.Pairwise.imp (fun h => Nat.ne_of_lt h) (serving_indices_sorted heap id trips c)
  have hz : ∀ j ∈ serving_indices heap id trips c, j ≠ c + r → e j = 0 := by
    intro j hj hne
    obtain ⟨h2, h3, _⟩ := (serving_indices_mem heap id trips c j).mp hj
    have e1 : j = c + (j - c) := by omega
    rw [e1]
    exact h0 (j - c) (by omega) (by omega)
  split_ifs with hs
  · rw [sum_single e _ (c + r) hnd ?_ hz, h1]
    rw [serving_indices_mem]
    refine ⟨by omega, by omega, ?_⟩
    rw [Nat.add_sub_cancel_left]; exact hs
  · apply sum_all_zero
    intro j hj
    apply hz j hj
    intro hc
    obtain ⟨_, _, h4⟩ := (serving_indices_mem heap id trips c j).mp hj
    rw [hc, Nat.add_sub_cancel_left] at h4
    exact hs h4

/-- The number of entries of the decoded map whose trip serves `id`, when exactly one
trip of each vehicle has the level 1, is the sum of the levels of the trips that serve
`id`. -/
theorem decode_count (heap : Heap) (id : Int) (A : List Int) (e : Nat → Rat) (n : Nat)
    (hA : ∀ j, j < n → (((A.getD j 0 : Int) : Rat) > half ↔ e j = 1)) :
    ∀ (l : List (Vehicle × List Trip)) (p c : Nat),
      c + (all_trips l).length ≤ n →
      (∀ i y, l[i]? = some y → ∃ r, r < y.2.length ∧ e (c + trip_offset l i + r) = 1
        ∧ ∀ r2, r2 < y.2.length → r2 ≠ r → e (c + trip_offset l i + r2) = 0) →
      (((decode A l p c).filter (fun d => d.2.serves heap id)).length : Rat)
        = ((serving_indices heap id (all_trips l) c).map e).sum := by
  intro l
  induction l with
  | nil => intro p c _ _; simp [decode, all_trips, serving_indices]
  | cons x rest ih =>
    intro p c hn h
    have hall : all_trips (x :: rest) = x.2 ++ all_trips rest := by simp [all_trips]
    rw [hall, List.length_append] at hn
    obtain ⟨r, hr, h1, h0⟩ := h 0 x (by simp)
    rw [trip_offset_zero, Nat.add_zero] at h1 h0
    have hfirst : first_assigned A x.2 c = some (x.2.getD r ⟨0, false, false, [], []⟩) := by
      rw [first_assigned_some]
      refine ⟨r, hr, (hA _ (by omega)).mpr h1, ?_, rfl⟩
      intro r2 hr2 hc
      have h2 := (hA _ (by omega)).mp hc
      rw [h0 r2 (by omega) (by omega)] at h2
      exact zero_ne_one h2
    have hrest := ih (p + 1) (c + x.2.length) (by omega) (by
      intro i y hy
      obtain ⟨r2, h3, h4, h5⟩ := h (i + 1) y (by simpa using hy)
      rw [trip_offset_succ, ← Nat.add_assoc] at h4 h5
      exact ⟨r2, h3, h4, h5⟩)
    rw [decode, hfirst]
    simp only
    rw [hall, serving_indices_append, List.map_append, List.sum_append,
      serving_sum_entry heap id e x.2 c r hr h1 h0, ← hrest, List.filter_cons]
    split_ifs with hs
    · simp only [List.length_cons, Nat.cast_add, Nat.cast_one]
      ring
    · simp

/-- The levels summed by the second constraint of a request: the levels of the trips that
serve it. -/
theorem lookup_sum (heap : Heap) (trip_list : List (Vehicle × List Trip)) (id : Int)
    (e : Nat → Rat) :
    ((ridsLookup id (count_trips heap trip_list).rids_to_trips).map e).sum
      = ((serving_indices heap id (all_trips trip_list) 0).map e).sum := by
  obtain ⟨_, _, h3, h4⟩ := count_trips_spec heap trip_list id
  have hnd1 : (ridsLookup id (count_trips heap trip_list).rids_to_trips).Nodup :=
    ptrLt_sorted_nodup _ h4
  have hnd2 : (serving_indices heap id (all_trips trip_list) 0).Nodup :=
    List.Pairwise.imp (fun h => Nat.ne_of_lt h)
      (serving_indices_sorted heap id (all_trips trip_list) 0)
  have hperm : (ridsLookup id (count_trips heap trip_list).rids_to_trips).Perm
      (serving_indices heap id (all_trips trip_list) 0) := by
    rw [List.perm_ext_iff_of_nodup hnd1 hnd2]
    intro j
    rw [h3, serving_indices_mem]
    simp
  exact (hperm.map e).sum_eq

/-- The first constraint of each vehicle, for levels 0 or 1: exactly one trip of the
vehicle has the level 1. -/
theorem constraint_one_unique (ALGORITHM : Algorithm)
    (ASSIGNMENT_OBJECTIVE : AssignmentObjective) (heap : Heap)
    (trip_list : List (Vehicle × List Trip)) (requests : List ReqPtr) (e x : Nat → Rat)
    (he : ∀ j, j < (all_trips trip_list).length → e j = 0 ∨ e j = 1)
    (hsat : ∀ c ∈ (build_model ALGORITHM ASSIGNMENT_OBJECTIVE heap trip_list
      requests).constraints, c.holds e x)
    (pos : Nat) (y : Vehicle × List Trip) (hy : trip_list[pos]? = some y) :
    ∃ r, r < y.2.length ∧ e (trip_offset trip_list pos + r) = 1
      ∧ ∀ r2, r2 < y.2.length → r2 ≠ r → e (trip_offset trip_list pos + r2) = 0 := by
  have hc : (⟨ConstraintName.c1 y.1.id, List.range' (trip_offset trip_list pos) y.2.length,
      none, Domain.equalsTo 1⟩ : Constraint)
      ∈ (build_model ALGORITHM ASSIGNMENT_OBJECTIVE heap trip_list requests).constraints := by
    simp only [build_model, List.mem_append]
    left
    have := constraint_one_mem ALGORITHM trip_list 0 pos y hy
    rw [Nat.zero_add] at this
    exact this
  have hh := hsat _ hc
  simp only [Constraint.holds, add_zero, Int.cast_one] at hh
  obtain ⟨a, ha, h1, h2⟩ := sum01_one e _ (List.nodup_range' _ _) (by
    intro j hj
    rw [List.mem_range'_1] at hj
    apply he
    have := trip_offset_lt trip_list pos y (j - trip_offset trip_list pos) hy (by omega)
    omega) hh
  rw [List.mem_range'_1] at ha
  refine ⟨a - trip_offset trip_list pos, by omega, ?_, ?_⟩
  · rw [Nat.add_sub_cancel' ha.1]; exact h1
  · intro r2 hr2 hne
    apply h2
    · rw [List.mem_range'_1]; omega
    · omega

/-- Claim C16: for every trip list and every solution `(e, x)` with levels 0 or 1 that
satisfies the constraints of the model built by `ilp_assignment`, the decoded map gives
the vehicle of every entry of the trip list (whose list of trips is then not empty)
exactly one trip, the one whose level is 1; every request of the list of the active
requests that is marked assigned is served by exactly one decoded trip, and every other
request of that list by at most one. -/
theorem feasible_solution_decodes (ALGORITHM : Algorithm)
    (ASSIGNMENT_OBJECTIVE : AssignmentObjective) (heap : Heap)
    (trip_list : List (Vehicle × List Trip)) (requests : List ReqPtr) (time : Int)
    (e x : Nat → Rat) (run : IlpRun)
    (he : ∀ j, j < (all_trips trip_list).length → e j = 0 ∨ e j = 1)
    (hx : ∀ k, k < requests.length → x k = 0 ∨ x k = 1)
    (hsat : ∀ c ∈ (build_model ALGORITHM ASSIGNMENT_OBJECTIVE heap trip_list
      requests).constraints, c.holds e x)
    (hrun : ilp_assignment ALGORITHM ASSIGNMENT_OBJECTIVE heap (fun _ => some e) trip_list
      requests time = Except.ok run) :
    (∀ pos y, trip_list[pos]? = some y →
      ∃ r, r < y.2.length ∧ e (trip_offset trip_list pos + r) = 1
        ∧ (∀ r2, r2 < y.2.length → r2 ≠ r → e (trip_offset trip_list pos + r2) = 0)
        ∧ ∀ t, (pos, t) ∈ run.assigned_trips ↔ t = y.2.getD r ⟨0, false, false, [], []⟩)
    ∧ (∀ k, k < requests.length → (heap (requests.getD k 0)).assigned = true →
        (run.assigned_trips.filter
          (fun d => d.2.serves heap (heap (requests.getD k 0)).id)).length = 1)
    ∧ (∀ k, k < requests.length → (heap (requests.getD k 0)).assigned = false →
        (run.assigned_trips.filter
          (fun d => d.2.serves heap (heap (requests.getD k 0)).id)).length ≤ 1) := by
  have huniq := constraint_one_unique ALGORITHM ASSIGNMENT_OBJECTIVE heap trip_list requests
    e x he hsat
  have hgt : ∀ j, j < (all_trips trip_list).length → (e j > half ↔ e j = 1) := by
    intro j hj
    rcases he j hj with h | h
    · rw [h]
      exact ⟨fun hc => absurd hc half_not_lt_zero, fun hc => absurd hc zero_ne_one⟩
    · rw [h]
      exact ⟨fun _ => rfl, fun _ => half_lt_one⟩
  have hdec := ilp_assignment_decoded ALGORITHM ASSIGNMENT_OBJECTIVE heap e trip_list requests
    time run hrun
  have hcount : ∀ id, (((run.assigned_trips.filter (fun d => d.2.serves heap id)).length : Nat)
      : Rat) = ((ridsLookup id (count_trips heap trip_list).rids_to_trips).map e).sum := by
    intro id
    rw [hdec, lookup_sum]
    refine decode_count heap id _ e (all_trips trip_list).length ?_ trip_list 0 0 (by omega) ?_
    · intro j hj
      rw [assignments_getD, hgt j hj]
      exact ⟨fun h => h.2, fun h => ⟨hj, h⟩⟩
    · intro i y hy
      obtain ⟨r, h1, h2, h3⟩ := huniq i y hy
      exact ⟨r, h1, by rw [Nat.zero_add]; exact h2,
        fun r2 hr2 hne => by rw [Nat.zero_add]; exact h3 r2 hr2 hne⟩
  have hc2 : ∀ k, k < requests.length →
      (⟨ConstraintName.c2 (heap (requests.getD k 0)).id,
        ridsLookup (heap (requests.getD k 0)).id (count_trips heap trip_list).rids_to_trips,
        if (heap (requests.getD k 0)).assigned then none else some k,
        Domain.equalsTo 1⟩ : Constraint).holds e x := by
    intro k hk
    apply hsat
    simp only [build_model, List.mem_append]
    right
    simp only [constraint_two, List.mem_map, List.mem_range]
    exact ⟨k, hk, rfl⟩
  refine ⟨?_, ?_, ?_⟩
  · intro pos y hy
    obtain ⟨r, h1, h2, h3⟩ := huniq pos y hy
    refine ⟨r, h1, h2, h3, ?_⟩
    have hsol := (solution_decoding_aux ALGORITHM ASSIGNMENT_OBJECTIVE heap e trip_list
      requests time run hrun pos y hy r h1
      ((hgt _ (trip_offset_lt trip_list pos y r hy h1)).mpr h2) ?_)
    · exact hsol
    · intro r2 hr2 hc
      have h4 := (hgt _ (trip_offset_lt trip_list pos y r2 hy (by omega))).mp hc
      rw [h3 r2 (by omega) (by omega)] at h4
      exact zero_ne_one h4
  · intro k hk ha
    have h1 := hc2 k hk
    simp only [Constraint.holds, ha, if_true, add_zero, Int.cast_one] at h1
    rw [← hcount] at h1
    exact_mod_cast h1
  · intro k hk ha
    have h1 := hc2 k hk
    simp only [Constraint.holds, ha, Int.cast_one] at h1
    rw [← hcount] at h1
    have h2 : (0 : Rat) ≤ x k := by
      rcases hx k hk with h3 | h3
      · exact le_of_eq h3.symm
      · rw [h3]; exact zero_le_one
    have h3 : (((run.assigned_trips.filter
        (fun d => d.2.serves heap (heap (requests.getD k 0)).id)).length : Nat) : Rat) ≤ 1 := by
      simp only [Bool.false_eq_true, if_false] at h1
      linarith
    exact_mod_cast h3

theorem feasible_solution_decodes_witness :
    (∀ j, j < (all_trips [(exVehicle, exTrips)]).length →
        (fun i => if i = 3 then (1 : Rat) else 0) j = 0
          ∨ (fun i => if i = 3 then (1 : Rat) else 0) j = 1)
    ∧ (∀ c ∈ (build_model Algorithm.ILP_FULL AssignmentObjective.AO_SERVICERATE exHeap
        [(exVehicle, exTrips)] [1, 2]).constraints,
        c.holds (fun i => if i = 3 then 1 else 0) (fun _ => 0))
    ∧ (∀ pos y, [(exVehicle, exTrips)][pos]? = some y →
        ∃ r, r < y.2.length
          ∧ (fun i => if i = 3 then (1 : Rat) else 0)
              (trip_offset [(exVehicle, exTrips)] pos + r) = 1
          ∧ (∀ r2, r2 < y.2.length → r2 ≠ r →
              (fun i => if i = 3 then (1 : Rat) else 0)
                (trip_offset [(exVehicle, exTrips)] pos + r2) = 0)
          ∧ ∀ t, (pos, t) ∈ [((0 : Nat), (⟨140, false, false, exPlan, [1, 2]⟩ : Trip))]
              ↔ t = y.2.getD r ⟨0, false, false, [], []⟩)
    ∧ (∀ k, k < [1, 2].length → (exHeap ([1, 2].getD k 0)).assigned = false →
        ([((0 : Nat), (⟨140, false, false, exPlan, [1, 2]⟩ : Trip))].filter
          (fun d => d.2.serves exHeap (exHeap ([1, 2].getD k 0)).id)).length ≤ 1) :=
  ⟨by decide!, by decide!,
    (feasible_solution_decodes Algorithm.ILP_FULL AssignmentObjective.AO_SERVICERATE exHeap
      [(exVehicle, exTrips)] [1, 2] 0 (fun i => if i = 3 then 1 else 0) (fun _ => 0)
      ⟨[build_model Algorithm.ILP_FULL AssignmentObjective.AO_SERVICERATE exHeap
          [(exVehicle, exTrips)] [1, 2]], [(0, ⟨140, false, false, exPlan, [1, 2]⟩)]⟩
      (by decide!) (fun _ _ => Or.inl rfl) (by decide!) (by decide!)).1,
    (feasible_solution_decodes Algorithm.ILP_FULL AssignmentObjective.AO_SERVICERATE exHeap
      [(exVehicle, exTrips)] [1, 2] 0 (fun i => if i = 3 then 1 else 0) (fun _ => 0)
      ⟨[build_model Algorithm.ILP_FULL AssignmentObjective.AO_SERVICERATE exHeap
          [(exVehicle, exTrips)] [1, 2]], [(0, ⟨140, false, false, exPlan, [1, 2]⟩)]⟩
      (by decide!) (fun _ _ => Or.inl rfl) (by decide!) (by decide!)).2.2⟩

/-! ## Time stamps, the request buffer and the active requests -/

theorem foldl_push_filter {α : Type} (p : α → Prop) [DecidablePred p] :
    ∀ (l acc : List α),
      l.foldl (fun buffer r => if p r then buffer ++ [r] else buffer) acc
        = acc ++ l.filter (fun r => decide (p r)) := by
  intro l
  induction l with
  | nil => intro acc; simp
  | cons a rest ih =>
    intro acc
    rw [List.foldl_cons, ih]
    by_cases h : p a
    · simp [h]
    · simp [h]

theorem foldl_push_append {α β : Type} (f : α → β) :
    ∀ (l : List α) (acc : List β),
      l.foldl (fun acc r => acc ++ [f r]) acc = acc ++ l.map f := by
  intro l
  induction l with
  | nil => intro acc; simp
  | cons a rest ih => intro acc; rw [List.foldl_cons, ih]; simp

/-- Claim C23: for every integer `s` with `0 <= s < 86400`, `decode_time` applied to
`encode_time s` gives `s`, and `encode_time s` is
`10000 * (s / 3600) + 100 * ((s / 60) mod 60) + (s mod 60)`. -/
theorem time_round_trip (s : Int) (h0 : 0 ≤ s) (h1 : s < 86400) :
    decode_time (encode_time s) = s
      ∧ encode_time s = 10000 * (s / 3600) + 100 * ((s / 60) % 60) + s % 60 := by
  have e : encode_time s = 10000 * (s / 3600) + 100 * ((s / 60) % 60) + s % 60 := by
    unfold encode_time
    simp only [Int.tdiv_one]
    rw [Int.tdiv_eq_ediv h0 (by norm_num), Int.tdiv_eq_ediv h0 (by norm_num),
      Int.tmod_eq_emod h0 (by norm_num),
      Int.tmod_eq_emod (by omega) (by norm_num)]
  refine ⟨?_, e⟩
  rw [e]
  have hn : 0 ≤ 10000 * (s / 3600) + 100 * ((s / 60) % 60) + s % 60 := by omega
  unfold decode_time
  simp only [Int.tdiv_one]
  rw [Int.tdiv_eq_ediv hn (by norm_num), Int.tdiv_eq_ediv hn (by norm_num),
    Int.tmod_eq_emod hn (by norm_num),
    Int.tmod_eq_emod (by omega) (by norm_num), Int.tmod_eq_emod (by omega) (by norm_num)]
  omega

theorem time_round_trip_witness :
    (0 : Int) ≤ 45296 ∧ (45296 : Int) < 86400
      ∧ decode_time (encode_time 45296) = 45296
      ∧ encode_time 45296 = 10000 * (45296 / 3600) + 100 * ((45296 / 60) % 60) + 45296 % 60 :=
  ⟨by decide, by decide, time_round_trip 45296 (by decide) (by decide)⟩

/-- Claim C24, amended: for every request vector and epoch time `t`,
`buffer::get_new_requests` returns, in input order, exactly the requests whose entry time
lies in `(t - INTERVAL, t]`: those that have entered, less than `INTERVAL` ago. -/
theorem newly_arrived_requests (INTERVAL : Int) (heap : Heap) (requests : List ReqPtr) (time : Int) :
    get_new_requests INTERVAL heap requests time
      = requests.filter (fun r =>
          decide (time - INTERVAL < (heap r).entry_time ∧ (heap r).entry_time ≤ time)) := by
  unfold get_new_requests
  rw [foldl_push_filter (fun r => (heap r).entry_time ≤ time
    ∧ time < (heap r).entry_time + INTERVAL), List.nil_append]
  congr 1
  funext r
  apply decide_eq_decide.mpr
  constructor
  · rintro ⟨h1, h2⟩; exact ⟨by omega, h1⟩
  · rintro ⟨h1, h2⟩; exact ⟨h2, by omega⟩

/-- Claim C24 fails as stated: with `INTERVAL = 60` at the epoch time 30, of two requests
that enter at the times 10 and 40 the function returns the first, whose entry time is not
in `[30, 90)`, and not the second, whose entry time is. -/
theorem newly_arrived_requests_counterexample :
    get_new_requests 60 entryHeap [1, 2] 30 = [1]
      ∧ [1, 2].filter (fun r => decide ((30 : Int) ≤ (entryHeap r).entry_time
          ∧ (entryHeap r).entry_time < 30 + 60)) = [2] :=
  ⟨by decide, by decide⟩

/-- Claim C25, amended: the update of the list of the active requests at the end of an
epoch keeps, in the order of the assigned trips, exactly the requests of the trips
assigned in the epoch whose id is not that of a request picked up during the epoch and
whose latest boarding time is later than the epoch time; every other request, whether
it was active or not, is absent from the new list. -/
theorem active_requests_update (heap : Heap) (just_boarded : List (List ReqPtr))
    (assigned_trips : List (Nat × Trip)) (time : Int) :
    update_active_requests heap just_boarded (assigned_requests_of assigned_trips) time
        = ((assigned_trips.map (fun t => t.2.requests)).flatten).filter (fun r =>
            decide ((∀ b ∈ just_boarded.flatten, (heap b).id ≠ (heap r).id)
              ∧ time < (heap r).latest_boarding)) := by
  have h1 : ∀ (l : List (Nat × Trip)) (acc : List ReqPtr),
      l.foldl (fun assigned_requests t =>
        t.2.requests.foldl (fun acc r => acc ++ [r]) assigned_requests) acc
        = acc ++ (l.map (fun t => t.2.requests)).flatten := by
    intro l
    induction l with
    | nil => intro acc; simp
    | cons a rest ih =>
      intro acc
      rw [List.foldl_cons, ih, foldl_push_append (fun r => r)]
      simp
  have h2 : ∀ (l : List (List ReqPtr)) (acc : List Int),
      l.foldl (fun boarded v => v.foldl (fun acc r => acc ++ [(heap r).id]) boarded) acc
        = acc ++ l.flatten.map (fun r => (heap r).id) := by
    intro l
    induction l with
    | nil => intro acc; simp
    | cons a rest ih =>
      intro acc
      rw [List.foldl_cons, ih, foldl_push_append]
      simp
  unfold update_active_requests assigned_requests_of boarded_requests
  rw [h1, h2, List.nil_append, List.nil_append, foldl_push_filter (fun r =>
    (heap r).id ∉ just_boarded.flatten.map (fun r => (heap r).id)
      ∧ time < (heap r).latest_boarding), List.nil_append]
  congr 1
  funext r
  apply decide_eq_decide.mpr
  simp only [List.mem_map, not_exists, not_and]

/-- Claim C25 fails as stated: at the epoch time 0, with the requests A and B active,
A alone in the assigned trip and nobody picked up, the new list holds A only: B, which
was not picked up and whose latest boarding time, 300, has not passed, is removed. -/
theorem active_requests_update_counterexample :
    update_active_requests exHeap [[]]
        (assigned_requests_of [(0, ⟨60, false, false, [⟨1, true, 0⟩, ⟨1, false, 1⟩], [1]⟩)]) 0
      = [1]
    ∧ 2 ∈ [1, 2] ∧ 2 ∉ [1]
    ∧ ((0 : Int) < (exHeap 2).latest_boarding)
    ∧ (∀ b ∈ ([[]] : List (List ReqPtr)).flatten, (exHeap b).id ≠ (exHeap 2).id) :=
  ⟨by decide, by decide, by decide, by decide, by decide⟩

theorem newly_arrived_requests_witness :
    get_new_requests 60 entryHeap [1, 2] 30
      = [1, 2].filter (fun r =>
          decide ((30 : Int) - 60 < (entryHeap r).entry_time ∧ (entryHeap r).entry_time ≤ 30)) :=
  newly_arrived_requests 60 entryHeap [1, 2] 30

theorem active_requests_update_witness :
    update_active_requests exHeap [[2]]
        (assigned_requests_of [(0, ⟨140, false, false, exPlan, [1, 2]⟩)]) 0
      = (([(0, (⟨140, false, false, exPlan, [1, 2]⟩ : Trip))].map
            (fun t => t.2.requests)).flatten).filter (fun r =>
          decide ((∀ b ∈ ([[2]] : List (List ReqPtr)).flatten, (exHeap b).id ≠ (exHeap r).id)
            ∧ (0 : Int) < (exHeap r).latest_boarding)) :=
  active_requests_update exHeap [[2]] [(0, ⟨140, false, false, exPlan, [1, 2]⟩)] 0

/-! ## The worked example -/

/-- Claim C22: on the three-node network of the worked example, with zero dwell times,
`MAX_WAITING = 300`, `MAX_DETOUR = 600`, the empty vehicle of capacity 2 at node 0 with
offset 0, the requests A (0 to 1) and B (0 to 2) entered at 0, at the epoch time 0, in
every precedence mode: the RV builder joins both requests to the vehicle, the RR builder
joins A and B in both directions, and the trip list of the vehicle is made of exactly
four trips, of request sets and costs `{} : 0`, `{A} : 60`, `{B} : 120`, `{A, B} : 140`,
the last in the order pick A, pick B, drop A, drop B. -/
theorem worked_example (mode : Ctsp) :
    mapE (make_rvgraph (exSettings mode) exNet exHeap 5 [exVehicle] 0) (requestSet [1, 2])
        = Except.ok [[0], [0]]
      ∧ mapE (make_rrgraph (exSettings mode) exNet exHeap 5 [1, 2] 0) (requestSet [1, 2])
        = Except.ok [[2], [1]]
      ∧ rtv_stage (exSettings mode) exNet exHeap 5 (fun _ => exClock) [exVehicle] [1, 2] 0
        = Except.ok [exTrips]
      ∧ exTrips.map (fun t => (t.requests, t.cost))
        = [([], 0), ([1], 60), ([2], 120), ([1, 2], 140)]
      ∧ (exTrips.getD 3 ⟨0, false, false, [], []⟩).order_record
        = [⟨1, true, 0⟩, ⟨2, true, 0⟩, ⟨1, false, 1⟩, ⟨2, false, 2⟩] := by
  cases mode <;> exact ⟨by decide!, by decide!, by decide!, by decide!, by decide!⟩

/-! ## The rejection of `FIX_PREFIX` -/

theorem requestSet_length (l : List ReqPtr) : (requestSet l).length = l.toFinset.card := by
  rw [← List.toFinset_card_of_nodup (ptrLt_sorted_nodup _ (requestSet_sorted l))]
  congr 1
  ext x
  simp [mem_requestSet]

/-- Claim C28: under `FIX_PREFIX`, for a vehicle and a request list whose stop universe,
the two stops of each request and the stops copied for the passengers, has more than 8
stops (and at least as many stops as passengers, so that no access leaves the vector):
when more than 4 distinct requests of the list are not pending on the vehicle, the
STANDARD oracle returns the cost -1 with the empty sequence, whatever the fuel, hence
without a search; with 4 or fewer such requests it goes on to the check of the previous
order and to the search on the frozen prefix. -/
theorem fix_prefix_rejection (S : Settings) (net : Network) (heap : Heap) (fuel : Nat)
    (v : Vehicle) (rs : List ReqPtr) (time : Int)
    (hS : S.CTSP = Ctsp.FIX_PREFIX)
    (hn : LP_LIMITVALUE < 2 * rs.length + (onboardStops (onboardSet v) v.order_record).length)
    (hp : v.passengers.length
      ≤ 2 * rs.length + (onboardStops (onboardSet v) v.order_record).length) :
    new_requests_size v rs
        = (rs.filter (fun r => decide (r ∉ v.pending_requests))).toFinset.card
      ∧ (LP_LIMITVALUE / 2 < new_requests_size v rs →
          new_travel S net heap fuel v rs time = Except.ok (-1, []))
      ∧ (new_requests_size v rs ≤ LP_LIMITVALUE / 2 →
          new_travel S net heap fuel v rs time
            = if (previous_order (build_stops heap v rs).nodes (build_stops heap v rs).meta_nodes
                  v.order_record).length
                < 2 * rs.length + (onboardStops (onboardSet v) v.order_record).length
                  - LP_LIMITVALUE then
                Except.error Error.algebra_done_incorrectly
              else run_search S net heap fuel v (fix_prefix_build v
                (link_onboard S rs.length v.passengers.length (build_stops heap v rs))) time) := by
  have hlen : (build_stops heap v rs).meta_nodes.length
      = 2 * rs.length + (onboardStops (onboardSet v) v.order_record).length := by
    rw [(build_stops_eq heap v rs).2.1, baseMetas_length]
  have hlink : link_onboard S rs.length v.passengers.length (build_stops heap v rs)
      = ⟨(build_stops heap v rs).nodes, (build_stops heap v rs).meta_nodes,
          (List.range v.passengers.length).foldl
            (fun s i => setInsert ptrLt ((build_stops heap v rs).meta_nodes.length - 1 - i) s)
            (build_stops heap v rs).initially_available⟩ := by
    unfold link_onboard
    rw [if_neg (by rw [hS]; rintro ⟨h, _⟩; cases h)]
  have h8 : LP_LIMITVALUE = 8 := rfl
  refine ⟨requestSet_length _, ?_, ?_⟩
  · intro h
    unfold new_travel
    simp only
    rw [if_neg (by omega), hlink]
    simp only
    rw [if_pos ⟨hS, by omega⟩, if_pos (by omega)]
  · intro h
    unfold new_travel
    simp only
    rw [if_neg (by omega), hlink]
    simp only
    rw [if_pos ⟨hS, by omega⟩, if_neg (by omega), hlen]

theorem fix_prefix_rejection_witness :
    (exSettings Ctsp.FIX_PREFIX).CTSP = Ctsp.FIX_PREFIX
      ∧ LP_LIMITVALUE
        < 2 * [1, 2, 3, 4, 5].length
          + (onboardStops (onboardSet exVehicle) exVehicle.order_record).length
      ∧ LP_LIMITVALUE / 2 < new_requests_size exVehicle [1, 2, 3, 4, 5]
      ∧ new_travel (exSettings Ctsp.FIX_PREFIX) exNet exHeap 0 exVehicle [1, 2, 3, 4, 5] 0
        = Except.ok (-1, []) :=
  ⟨rfl, by decide, by decide,
    (fix_prefix_rejection (exSettings Ctsp.FIX_PREFIX) exNet exHeap 0 exVehicle [1, 2, 3, 4, 5] 0
      rfl (by decide) (by decide)).2.1 (by decide)⟩

/-! ## Trips are RR cliques -/

/-- The RR test on two request sets, as a statement: a request of one set that is not in
the other is joined by an RR edge to every request of the other. -/
theorem rr_connected_spec (rr_edges : ReqPtr → List ReqPtr) (left right : List ReqPtr)
    (h : rr_connected rr_edges left right = true) :
    ∀ a ∈ left, a ∉ right → ∀ b ∈ right, b ∈ rr_edges a ∨ a ∈ rr_edges b := by
  intro a ha hna b hb
  unfold rr_connected at h
  rw [Bool.and_eq_true, List.all_eq_true] at h
  have h1 := h.1 a ha
  rw [Bool.or_eq_true, decide_eq_true_eq, List.all_eq_true] at h1
  rcases h1 with h1 | h1
  · exact absurd h1 hna
  · have h2 := h1 b hb
    rw [Bool.or_eq_true, decide_eq_true_eq, decide_eq_true_eq] at h2
    exact h2

/-- The trips that the enumeration of a rank keeps are RR cliques when those of the rank
below are. -/
theorem rtv_rank_clique (S : Settings) (net : Network) (heap : Heap) (fuel : Nat)
    (clock : Clock) (rr_edges : ReqPtr → List ReqPtr) (v : Vehicle) (time : Int) (rank : Nat)
    (previous_round : List Trip) (readings : Nat) (st : RankState)
    (h : rtv_rank S net heap fuel clock rr_edges v time rank previous_round readings
      = Except.ok st)
    (hprev : 1 < rank → ∀ t ∈ previous_round, ∀ a ∈ t.requests, ∀ b ∈ t.requests, a ≠ b →
      b ∈ rr_edges a ∨ a ∈ rr_edges b) :
    ∀ t ∈ compact st.trips.length st.trips 0, ∀ a ∈ t.requests, ∀ b ∈ t.requests, a ≠ b →
      b ∈ rr_edges a ∨ a ∈ rr_edges b := by
  intro t ht a ha b hb hab
  rw [mem_compact_iff] at ht
  obtain ⟨ht, hc⟩ := ht
  obtain ⟨first, second, h1, h2, _, _, h3, h4, _, h5⟩ :=
    (rtv_rank_spec S net heap fuel clock rr_edges v time rank previous_round readings st h).1 t ht
  rcases h5 with ⟨h6, _⟩ | ⟨_, h7, _, _⟩
  · omega
  · by_cases hr : 1 < rank
    · have hL : previous_round.getD first ⟨0, false, false, [], []⟩ ∈ previous_round := by
        rw [List.getD_eq_getElem _ _ (by omega)]
        exact List.getElem_mem _
      have hR : previous_round.getD second ⟨0, false, false, [], []⟩ ∈ previous_round := by
        rw [List.getD_eq_getElem _ _ h2]
        exact List.getElem_mem _
      rw [h3, mem_setInsertAll ptrLt separating_ptrLt] at ha hb
      have hrr := rr_connected_spec rr_edges _ _ h7
      have hrr2 : ∀ a ∈ requestSet
            (previous_round.getD second ⟨0, false, false, [], []⟩).requests,
          a ∉ requestSet (previous_round.getD first ⟨0, false, false, [], []⟩).requests →
          ∀ b ∈ requestSet (previous_round.getD first ⟨0, false, false, [], []⟩).requests,
            b ∈ rr_edges a ∨ a ∈ rr_edges b := by
        intro a ha hna b hb
        unfold rr_connected at h7
        rw [Bool.and_eq_true, List.all_eq_true, List.all_eq_true] at h7
        have h1 := h7.2 a ha
        rw [Bool.or_eq_true, decide_eq_true_eq, List.all_eq_true] at h1
        rcases h1 with h1 | h1
        · exact absurd h1 hna
        · have h2 := h1 b hb
          rw [Bool.or_eq_true, decide_eq_true_eq, decide_eq_true_eq] at h2
          exact h2
      by_cases haR : a ∈ requestSet
          (previous_round.getD second ⟨0, false, false, [], []⟩).requests
      · by_cases hbR : b ∈ requestSet
            (previous_round.getD second ⟨0, false, false, [], []⟩).requests
        · exact hprev hr _ hR a ((mem_requestSet _ _).mp haR) b ((mem_requestSet _ _).mp hbR) hab
        · have hbL := hb.resolve_left hbR
          by_cases haL : a ∈ requestSet
              (previous_round.getD first ⟨0, false, false, [], []⟩).requests
          · exact hprev hr _ hL a ((mem_requestSet _ _).mp haL) b
              ((mem_requestSet _ _).mp hbL) hab
          · exact hrr2 a haR haL b hbL
      · have haL := ha.resolve_left haR
        by_cases hbL : b ∈ requestSet
            (previous_round.getD first ⟨0, false, false, [], []⟩).requests
        · exact hprev hr _ hL a ((mem_requestSet _ _).mp haL) b ((mem_requestSet _ _).mp hbL) hab
        · have hbR := hb.resolve_right hbL
          exact hrr a haL haR b hbR
    · exfalso
      have hl : t.requests.length ≤ 1 := by omega
      match hq : t.requests, hl, ha, hb with
      | [], _, ha, _ => simp at ha
      | [x], _, ha, hb =>
        simp only [List.mem_singleton] at ha hb
        exact hab (ha.trans hb.symm)
      | _ :: _ :: _, hl, _, _ => simp at hl

/-- Claim C30: for every vehicle, when the enumeration of `make_rtvgraph` completes with
the lists `round` (`round[k]` is the final list of the rank `k`), every two distinct
requests `a`, `b` of a trip of a rank `k >= 2` are joined by an RR edge in at least one
direction: `b` is in the RR list of `a` or `a` is in the RR list of `b`. -/
theorem trips_are_rr_cliques (S : Settings) (net : Network) (heap : Heap) (fuel : Nat)
    (clock : Clock) (rr_edges : ReqPtr → List ReqPtr) (vr_edges : List ReqPtr) (v : Vehicle)
    (time : Int) (round : List (List Trip))
    (h : rtv_enumeration S net heap fuel clock rr_edges vr_edges v time = Except.ok round) :
    ∀ k, 2 ≤ k → ∀ t ∈ round.getD k [], ∀ a ∈ t.requests, ∀ b ∈ t.requests, a ≠ b →
      b ∈ rr_edges a ∨ a ∈ rr_edges b := by
  unfold rtv_enumeration at h
  cases hb : time_travel S net heap fuel clock v [] Purpose.STANDARD time 0 with
  | error e => rw [hb] at h; simp at h
  | ok result =>
    rw [hb] at h
    simp only at h
    cases h1 : foldE (rtv_single S net heap fuel clock v time) ([], result.2)
        (setInsertAll ptrLt v.pending_requests (requestSet vr_edges)) with
    | error e => rw [h1] at h; simp at h
    | ok first_round =>
      rw [h1] at h
      simp only at h
      have key := rtv_rounds_inv S net heap fuel clock rr_edges v time
        (fun prev k l => (1 < k → ∀ t ∈ prev, ∀ a ∈ t.requests, ∀ b ∈ t.requests, a ≠ b →
            b ∈ rr_edges a ∨ a ∈ rr_edges b) →
          ∀ t ∈ l, ∀ a ∈ t.requests, ∀ b ∈ t.requests, a ≠ b →
            b ∈ rr_edges a ∨ a ∈ rr_edges b) ?_ _ _ _ _ _ (by simp) ?_ h
      · have all : ∀ k, 1 ≤ k → ∀ t ∈ round.getD k [], ∀ a ∈ t.requests, ∀ b ∈ t.requests,
            a ≠ b → b ∈ rr_edges a ∨ a ∈ rr_edges b := by
          intro k hk
          induction k with
          | zero => omega
          | succ n ih =>
            intro t ht
            by_cases hlt : n + 1 < round.length
            · refine key (n + 1) hk hlt ?_ t ht
              intro hn
              exact ih (by omega)
            · rw [List.getD_eq_default _ _ (by omega)] at ht
              simp at ht
        intro k hk
        exact all k (by omega)
      · intro rank previous_round readings st hst hprev
        exact rtv_rank_clique S net heap fuel clock rr_edges v time rank previous_round
          readings st hst hprev
      · intro k hk1 hk2 _ t ht a ha b hb hab
        simp only [List.length_cons, List.length_singleton, List.length_nil] at hk2
        have hk : k = 1 := by omega
        subst hk
        simp only [List.getD_cons_succ, List.getD_cons_zero] at ht
        obtain ⟨r, _, h2, _⟩ := first_round_spec S net heap fuel clock v time _ _ _ h1 t ht
        rw [h2] at ha hb
        simp only [List.mem_singleton] at ha hb
        exact absurd (ha.trans hb.symm) hab

theorem trips_are_rr_cliques_witness :
    rtv_enumeration (exSettings Ctsp.FULL) exNet exHeap 5 exClock exRR [1, 2] exVehicle 0
        = Except.ok [exTrips.take 1, (exTrips.drop 1).take 2, exTrips.drop 3]
      ∧ ∀ k, 2 ≤ k →
          ∀ t ∈ [exTrips.take 1, (exTrips.drop 1).take 2, exTrips.drop 3].getD k [],
          ∀ a ∈ t.requests, ∀ b ∈ t.requests, a ≠ b → b ∈ exRR a ∨ a ∈ exRR b :=
  ⟨by decide!,
    trips_are_rr_cliques (exSettings Ctsp.FULL) exNet exHeap 5 exClock exRR [1, 2] exVehicle 0 _
      (by decide!)⟩

/-! ## One request and one vehicle -/

theorem foldl_add_onboard_empty : ∀ (order : List NodeStop) (b : Build),
    order.foldl add_onboard (b, []) = (b, []) := by
  intro order
  induction order with
  | nil => intro b; rfl
  | cons ns rest ih =>
    intro b
    rw [List.foldl_cons]
    have e : add_onboard (b, []) ns = (b, []) := by
      unfold add_onboard
      rw [if_neg (by simp)]
    rw [e, ih]

/-- The stops, the meta nodes and the available set that `new_travel` builds for one
request and a vehicle without passengers: the pickup is the meta node 1, which unlocks
the meta node 0 of the dropoff. -/
theorem build_stops_single (heap : Heap) (v : Vehicle) (r : ReqPtr) (hp : v.passengers = []) :
    build_stops heap v [r]
      = ⟨[⟨r, true, (heap r).origin⟩, ⟨r, false, (heap r).destination⟩],
          [⟨1, []⟩, ⟨0, [0]⟩], [1]⟩ := by
  unfold build_stops
  rw [hp]
  have e : setInsertAll ptrLt ([] : List ReqPtr) [] = [] := rfl
  rw [e, foldl_add_onboard_empty]
  simp [add_request, setInsert]

/-- The STANDARD oracle for one request and a vehicle without passengers is the search
on the two stops of the request, in every precedence mode. -/
theorem new_travel_single (S : Settings) (net : Network) (heap : Heap) (fuel : Nat)
    (v : Vehicle) (r : ReqPtr) (time : Int) (hp : v.passengers = []) :
    new_travel S net heap fuel v [r] time
      = run_search S net heap fuel v
          ⟨[⟨r, true, (heap r).origin⟩, ⟨r, false, (heap r).destination⟩],
            [⟨1, []⟩, ⟨0, [0]⟩], [1]⟩ time := by
  unfold new_travel
  simp only
  rw [build_stops_single heap v r hp, hp]
  have e : link_onboard S [r].length ([] : List ReqPtr).length
      ⟨[⟨r, true, (heap r).origin⟩, ⟨r, false, (heap r).destination⟩],
        [⟨1, []⟩, ⟨0, [0]⟩], [1]⟩
      = ⟨[⟨r, true, (heap r).origin⟩, ⟨r, false, (heap r).destination⟩],
        [⟨1, []⟩, ⟨0, [0]⟩], [1]⟩ := by
    unfold link_onboard
    simp
  rw [e]
  simp [LP_LIMITVALUE]

theorem arrival_first_pickup (S : Settings) (net : Network) (heap : Heap) (loc time : Int)
    (r : ReqPtr) (node : Int)
    (he : (heap r).entry_time ≤ time + net.get_time S loc node) :
    arrival S net heap loc time Action.NO_ACTION ⟨r, true, node⟩
      = time + net.get_time S loc node := by
  unfold arrival
  simp only [true_and, reduceCtorEq, false_and, if_false]
  rw [if_neg (by omega), if_neg (by omega)]

theorem arrival_dropoff_after_pickup (S : Settings) (net : Network) (heap : Heap)
    (loc time : Int) (r : ReqPtr) (node : Int) :
    arrival S net heap loc time Action.PICKUP ⟨r, false, node⟩
      = time + net.get_time S loc node + S.DWELL_PICKUP := by
  unfold arrival
  simp

/-- The search on the two stops of one request, from a state with a free seat: when the
pickup is reached after the entry time and within the waiting time and both stops are
reached within the deadlines, it returns the time of the dropoff with the dropoff and
the pickup as its reverse path. -/
theorem search_single (ctx : Ctx) (fuel : Nat) (loc cap T : Int) (r : ReqPtr) (o d : Int)
    (s1 : ctx.stop 1 = ⟨r, true, o⟩) (s0 : ctx.stop 0 = ⟨r, false, d⟩)
    (m1 : ctx.metaAt 1 = ⟨0, [0]⟩) (m0 : ctx.metaAt 0 = ⟨1, []⟩)
    (hcap : 1 ≤ cap)
    (he : (ctx.heap r).entry_time ≤ T + ctx.net.get_time ctx.S loc o)
    (hw : T + ctx.net.get_time ctx.S loc o ≤ (ctx.heap r).entry_time + ctx.S.MAX_WAITING)
    (h0 : 0 ≤ ctx.net.get_time ctx.S o d + ctx.S.DWELL_PICKUP)
    (hd : T + ctx.net.get_time ctx.S loc o + ctx.net.get_time ctx.S o d + ctx.S.DWELL_PICKUP
      ≤ (ctx.heap r).entry_time + (ctx.heap r).ideal_traveltime + ctx.S.MAX_DETOUR)
    (hl : T + ctx.net.get_time ctx.S loc o + ctx.net.get_time ctx.S o d
      ≤ (ctx.heap r).latest_alighting)
    (hne : T + ctx.net.get_time ctx.S loc o + ctx.net.get_time ctx.S o d + ctx.S.DWELL_PICKUP
      ≠ -1) :
    recursive_search ctx (fuel + 3) loc cap [1] T (-1) Action.NO_ACTION
      = some (T + ctx.net.get_time ctx.S loc o + ctx.net.get_time ctx.S o d
          + ctx.S.DWELL_PICKUP, [1, 0]) := by
  have q1 : ctx.req 1 = ctx.heap r := by unfold Ctx.req; rw [s1]
  have q0 : ctx.req 0 = ctx.heap r := by unfold Ctx.req; rw [s0]
  have a1 := arrival_first_pickup ctx.S ctx.net ctx.heap loc T r o he
  have a2 := arrival_dropoff_after_pickup ctx.S ctx.net ctx.heap o
    (T + ctx.net.get_time ctx.S loc o) r d
  have r1 : remaining_nodes ctx [1] 1 = [0] := by
    unfold remaining_nodes
    rw [m1]
    rfl
  have r0 : remaining_nodes ctx [0] 0 = [] := by
    unfold remaining_nodes
    rw [m0]
    rfl
  have inner : recursive_search ctx (fuel + 2) o (cap - 1) [0]
      (T + ctx.net.get_time ctx.S loc o) (-1) Action.PICKUP
      = some (T + ctx.net.get_time ctx.S loc o + ctx.net.get_time ctx.S o d
          + ctx.S.DWELL_PICKUP, [1]) := by
    rw [recursive_search]
    simp only [List.isEmpty_cons, Bool.false_eq_true, if_false, search_loop, Option.any_none,
      s0, q0, r0, m0, a2, new_residual, actionOf, get_alight_deadline,
      basic_reachability, List.all_nil]
    rw [if_neg (by simp), if_neg (by omega), if_neg (by simp), if_neg (by omega),
      if_neg (by simp), recursive_search]
    simp only [List.isEmpty_nil, if_true]
    rw [if_neg hne, if_pos (Or.inl trivial)]
    rfl
  rw [recursive_search]
  simp only [List.isEmpty_cons, Bool.false_eq_true, if_false, search_loop, Option.any_none,
    s1, q1, r1, m1, a1, new_residual, actionOf, get_alight_deadline, if_true,
    basic_reachability, List.all_cons, List.all_nil, s0, q0, Bool.and_true, inner]
  rw [if_neg (by simp), if_neg (by omega), if_neg (by simp; omega), if_neg (by omega),
    if_neg (by simp; omega), if_neg hne, if_pos (Or.inl trivial)]
  rfl

/-- Claim C21: under the VMT objective, for a vehicle without passengers and with a
capacity of at least 1, a request entered by the epoch time `t` and zero dwell times,
with an epoch time, an offset and travel times that are not negative, as the program
produces them: when the direct route reaches the pickup within the waiting time and the
dropoff within the deadline (the computed one and the stored `latest_alighting`), a
STANDARD call on the vehicle and the request alone, with a fuel of at least 3, returns
the cost `time_to(V, origin) + time(origin, destination)`, where
`time_to(V, n) = offset + time(node, n)`, with the sequence pickup, dropoff. -/
theorem single_request_empty_vehicle (S : Settings) (net : Network) (heap : Heap) (fuel : Nat)
    (v : Vehicle) (r : ReqPtr) (time : Int)
    (hv : S.CTSP_OBJECTIVE = CtspObjective.CTSP_VMT)
    (hp : v.passengers = []) (hcap : 1 ≤ v.capacity)
    (he : (heap r).entry_time ≤ time)
    (hda : S.DWELL_ALIGHT = 0) (hdp : S.DWELL_PICKUP = 0)
    (ht : 0 ≤ time) (hoff : 0 ≤ v.offset) (hm : ∀ a b, 0 ≤ net.time_matrix a b)
    (hw : time + net.get_vehicle_time S v (heap r).origin
      ≤ (heap r).entry_time + S.MAX_WAITING)
    (hd : time + net.get_vehicle_time S v (heap r).origin
        + net.get_time S (heap r).origin (heap r).destination
      ≤ (heap r).entry_time + (heap r).ideal_traveltime + S.MAX_DETOUR)
    (hl : time + net.get_vehicle_time S v (heap r).origin
        + net.get_time S (heap r).origin (heap r).destination
      ≤ (heap r).latest_alighting)
    (hfuel : 3 ≤ fuel) :
    travel S net heap fuel v [r] Purpose.STANDARD time
      = Except.ok (net.get_vehicle_time S v (heap r).origin
          + net.get_time S (heap r).origin (heap r).destination,
        [⟨r, true, (heap r).origin⟩, ⟨r, false, (heap r).destination⟩]) := by
  obtain ⟨f, rfl⟩ : ∃ f, fuel = f + 3 := ⟨fuel - 3, by omega⟩
  have g1 := get_time_nonneg S net hm (by omega) (by omega) v.node (heap r).origin
  have g2 := get_time_nonneg S net hm (by omega) (by omega) (heap r).origin (heap r).destination
  unfold Network.get_vehicle_time at hw hd hl ⊢
  have hs := search_single ⟨S, net, heap,
      [⟨r, true, (heap r).origin⟩, ⟨r, false, (heap r).destination⟩],
      [⟨1, []⟩, ⟨0, [0]⟩]⟩ f v.node (v.capacity - ([] : List ReqPtr).length) (time + v.offset) r
      (heap r).origin (heap r).destination rfl rfl rfl rfl
      (by simp only [List.length_nil, Nat.cast_zero]; omega)
      (by simp only; omega) (by simp only; omega) (by simp only; omega) (by simp only; omega)
      (by simp only; omega) (by simp only; omega)
  unfold travel
  rw [if_neg (by decide), if_neg (by decide), new_travel_single S net heap _ v r time hp]
  unfold run_search recursive_search_set
  simp only
  rw [if_pos hv, hp]
  have e0 : setInsertAll (mnsLt ⟨S, net, heap,
      [⟨r, true, (heap r).origin⟩, ⟨r, false, (heap r).destination⟩],
      [⟨1, []⟩, ⟨0, [0]⟩]⟩) [1] [] = [1] := rfl
  rw [e0, hs]
  simp only [format_path]
  rw [if_pos ⟨hv, by omega⟩]
  simp only [List.reverse_cons, List.reverse_nil, List.nil_append, List.singleton_append,
    List.map_cons, List.map_nil, Except.ok.injEq, Prod.mk.injEq]
  exact ⟨by omega, rfl⟩

theorem single_request_empty_vehicle_witness :
    travel (exSettings Ctsp.FULL) exNet exHeap 3 exVehicle [1] Purpose.STANDARD 0
      = Except.ok (exNet.get_vehicle_time (exSettings Ctsp.FULL) exVehicle (exHeap 1).origin
          + exNet.get_time (exSettings Ctsp.FULL) (exHeap 1).origin (exHeap 1).destination,
        [⟨1, true, (exHeap 1).origin⟩, ⟨1, false, (exHeap 1).destination⟩]) :=
  single_request_empty_vehicle (exSettings Ctsp.FULL) exNet exHeap 3 exVehicle 1 0 rfl rfl
    (by decide) (by decide) rfl rfl (by decide) (by decide)
    (matrixOf_nonneg _ (by decide))
    (by decide) (by decide) (by decide) (by decide)

/-- The search on the two stops of one request from a state without a free seat finds
nothing. -/
theorem search_single_full (ctx : Ctx) (fuel : Nat) (loc cap T : Int) (r : ReqPtr) (o : Int)
    (s1 : ctx.stop 1 = ⟨r, true, o⟩) (hcap : cap ≤ 0) :
    recursive_search ctx (fuel + 1) loc cap [1] T (-1) Action.NO_ACTION = some (-1, []) := by
  rw [recursive_search]
  simp only [List.isEmpty_cons, Bool.false_eq_true, if_false, search_loop, Option.any_none,
    s1, new_residual, if_true]
  rw [if_neg (by simp), if_pos (by omega)]

/-- Claim C27, amended: for a vehicle whose number of passengers equals its capacity and
a request `r`, no plan that a STANDARD call on the vehicle and `r` alone returns begins
with a pickup; and when the capacity is 0, under the VMT objective and with a fuel of at
least 1, the call returns the cost -1 with the empty sequence, so that with no time
limit the round of `r` adds no trip of rank 1 to the list of the vehicle. -/
theorem full_vehicle (S : Settings) (net : Network) (heap : Heap) (fuel : Nat)
    (v : Vehicle) (r : ReqPtr) (time : Int)
    (hK : (v.passengers.length : Int) = v.capacity) :
    (∀ res, travel S net heap fuel v [r] Purpose.STANDARD time = Except.ok res →
        ∀ ns rest, res.2 = ns :: rest → ns.is_pickup = false)
      ∧ (v.passengers = [] → S.CTSP_OBJECTIVE = CtspObjective.CTSP_VMT → 1 ≤ fuel →
          travel S net heap fuel v [r] Purpose.STANDARD time = Except.ok (-1, [])
          ∧ (S.RTV_TIMELIMIT = 0 → ∀ (clock : Clock) (st : List Trip × Nat),
              rtv_single S net heap fuel clock v time st r = Except.ok st)) := by
  constructor
  · intro res h ns rest hres
    rcases travel_ok S net heap fuel v [r] Purpose.STANDARD time res (by decide) h with h1 | h1
    · rw [h1] at hres
      simp at hres
    · have h2 := h1.1
      rw [hres] at h2
      unfold ReplayOk at h2
      have h3 := h2.2.2.1
      cases hp : ns.is_pickup with
      | false => rfl
      | true =>
        rw [hp] at h3
        simp only [if_true] at h3
        omega
  · intro hp hv hfuel
    obtain ⟨f, rfl⟩ : ∃ f, fuel = f + 1 := ⟨fuel - 1, by omega⟩
    have ht : travel S net heap (f + 1) v [r] Purpose.STANDARD time = Except.ok (-1, []) := by
      unfold travel
      rw [if_neg (by decide), if_neg (by decide), new_travel_single S net heap _ v r time hp]
      unfold run_search recursive_search_set
      simp only
      rw [if_pos hv]
      have e0 : setInsertAll (mnsLt ⟨S, net, heap,
          [⟨r, true, (heap r).origin⟩, ⟨r, false, (heap r).destination⟩],
          [⟨1, []⟩, ⟨0, [0]⟩]⟩) [1] [] = [1] := rfl
      rw [e0, search_single_full ⟨S, net, heap,
          [⟨r, true, (heap r).origin⟩, ⟨r, false, (heap r).destination⟩],
          [⟨1, []⟩, ⟨0, [0]⟩]⟩ f v.node _ (time + v.offset) r (heap r).origin rfl
          (by rw [hp] at hK ⊢; simp only [List.length_nil, Nat.cast_zero] at hK ⊢; omega)]
      simp [format_path]
    refine ⟨ht, ?_⟩
    intro hlim clock st
    unfold rtv_single time_travel
    rw [if_pos hlim, ht]
    simp

theorem full_vehicle_witness :
    ((exVehicleFull.passengers.length : Int) = exVehicleFull.capacity)
      ∧ travel (exSettings Ctsp.FULL) exNet exHeap 4 exVehicleFull [2] Purpose.STANDARD 0
        = Except.ok (240, [⟨1, false, 1⟩, ⟨2, true, 0⟩, ⟨2, false, 2⟩])
      ∧ (⟨1, false, 1⟩ : NodeStop).is_pickup = false :=
  ⟨by decide, by decide!,
    (full_vehicle (exSettings Ctsp.FULL) exNet exHeap 4 exVehicleFull 2 0 (by decide)).1
      (240, [⟨1, false, 1⟩, ⟨2, true, 0⟩, ⟨2, false, 2⟩]) (by decide!) ⟨1, false, 1⟩
      [⟨2, true, 0⟩, ⟨2, false, 2⟩] rfl⟩

/-- Claim C27 fails as stated: the vehicle of capacity 1 at node 0 carries A, whose
dropoff is in its order record, and B is not on board; the STANDARD oracle on the vehicle
and B returns the cost 240 with the plan that drops A and then serves B, and the trip
list of the vehicle holds a trip of rank 1 for B. -/
theorem full_vehicle_counterexample :
    ((exVehicleFull.passengers.length : Int) = exVehicleFull.capacity)
      ∧ (∀ p ∈ exVehicleFull.passengers,
          ∃ ns ∈ exVehicleFull.order_record, ns.r = p ∧ ns.is_pickup = false)
      ∧ 2 ∉ exVehicleFull.passengers
      ∧ travel (exSettings Ctsp.FULL) exNet exHeap 4 exVehicleFull [2] Purpose.STANDARD 0
        = Except.ok (240, [⟨1, false, 1⟩, ⟨2, true, 0⟩, ⟨2, false, 2⟩])
      ∧ make_rtvgraph (exSettings Ctsp.FULL) exNet exHeap 4 exClock (fun _ => []) [2]
          exVehicleFull 0
        = Except.ok [⟨60, false, false, [⟨1, false, 1⟩], []⟩,
            ⟨240, false, false, [⟨1, false, 1⟩, ⟨2, true, 0⟩, ⟨2, false, 2⟩], [2]⟩,
            ⟨60, false, true, [⟨1, false, 1⟩], []⟩] :=
  ⟨by decide, by decide, by decide, by decide!, by decide!⟩

/-! ## Same-node de-duplication -/

theorem search_loop_tried (ctx : Ctx) (rec : Search) (loc cap : Int) (avail : List Nat)
    (time : Int) (prev : Action) :
    ∀ (cands : List Nat) (previous : Option Nat) (best_time : Int) (best_tail : List Nat),
      search_loop ctx rec loc cap avail time prev cands previous best_time best_tail
        = search_body_loop ctx rec loc cap avail time prev
            (tried_candidates ctx cands previous) best_time best_tail := by
  intro cands
  induction cands with
  | nil => intro previous best_time best_tail; rfl
  | cons m rest ih =>
    intro previous best_time best_tail
    rw [search_loop, tried_candidates]
    by_cases h : previous.any (fun p => !(ctx.stop m).is_pickup
        && decide ((ctx.stop p).node = (ctx.stop m).node)) = true
    · rw [if_pos h, if_pos h]
      exact ih _ _ _
    · rw [if_neg h, if_neg h, search_body_loop]
      simp only [ih]

theorem mnsLt_node_le (ctx : Ctx) (a b : Nat) (h : mnsLt ctx a b = true) :
    (ctx.stop a).node ≤ (ctx.stop b).node := by
  unfold mnsLt at h
  by_contra hc
  rw [if_neg (by omega), if_pos (by omega)] at h
  exact Bool.false_ne_true h

theorem mnsLt_asymm (ctx : Ctx) (a b : Nat) (h1 : mnsLt ctx a b = true)
    (h2 : mnsLt ctx b a = true) : False := by
  have h3 := mnsLt_trans ctx a b a h1 h2
  rw [mnsLt_irrefl] at h3
  exact Bool.false_ne_true h3

theorem option_any_iff (q : Nat → Bool) (o : Option Nat) :
    o.any q = true ↔ ∃ p, o = some p ∧ q p = true := by
  cases o <;> simp

/-- The candidates that the loop tries, for a set in the order of `MnsSort` and a meta
node `previous` that comes before the whole set: every pickup, and each dropoff that is
not at the node of `previous` and is the first of the dropoffs of the set at its node. -/
theorem mem_tried_candidates (ctx : Ctx) :
    ∀ (cands : List Nat) (previous : Option Nat),
      cands.Pairwise (fun a b => mnsLt ctx a b = true) →
      (∀ p, previous = some p → ∀ x ∈ cands, mnsLt ctx p x = true) →
      ∀ m, m ∈ tried_candidates ctx cands previous
        ↔ m ∈ cands ∧ ((ctx.stop m).is_pickup = true
          ∨ ((∀ p, previous = some p → (ctx.stop p).node ≠ (ctx.stop m).node)
            ∧ ∀ x ∈ cands, x ≠ m → (ctx.stop x).node = (ctx.stop m).node →
                (ctx.stop x).is_pickup = false → mnsLt ctx m x = true)) := by
  intro cands
  induction cands with
  | nil => intro previous _ _ m; simp [tried_candidates]
  | cons a rest ih =>
    intro previous hs hp m
    rw [List.pairwise_cons] at hs
    rw [tried_candidates]
    by_cases h : previous.any (fun p => !(ctx.stop a).is_pickup
        && decide ((ctx.stop p).node = (ctx.stop a).node)) = true
    · rw [if_pos h, ih previous hs.2 (fun p hpp x hx => hp p hpp x (List.mem_cons_of_mem _ hx))]
      rw [option_any_iff] at h
      obtain ⟨p, hpp, hpa⟩ := h
      rw [Bool.and_eq_true, Bool.not_eq_true', decide_eq_true_eq] at hpa
      have hpp2 : previous = some p := hpp
      constructor
      · rintro ⟨hm, hor⟩
        refine ⟨List.mem_cons_of_mem _ hm, ?_⟩
        rcases hor with hor | ⟨h1, h2⟩
        · exact Or.inl hor
        · refine Or.inr ⟨h1, ?_⟩
          intro x hx hxm hxn hxp
          rcases List.mem_cons.mp hx with hxa | hxr
          · exfalso
            apply h1 p hpp2
            rw [hpa.2, ← hxa, hxn]
          · exact h2 x hxr hxm hxn hxp
      · rintro ⟨hm, hor⟩
        rcases hor with hor | ⟨h1, h2⟩
        · rcases List.mem_cons.mp hm with hma | hmr
          · rw [hma, hpa.1] at hor
            exact absurd hor (by decide)
          · exact ⟨hmr, Or.inl hor⟩
        · rcases List.mem_cons.mp hm with hma | hmr
          · exfalso
            apply h1 p hpp2
            rw [hpa.2, hma]
          · exact ⟨hmr, Or.inr ⟨h1, fun x hx => h2 x (List.mem_cons_of_mem _ hx)⟩⟩
    · rw [if_neg h, List.mem_cons,
        ih (some a) hs.2 (fun p hpp x hx => by
          simp only [Option.some.injEq] at hpp
          rw [← hpp]
          exact hs.1 x hx)]
      have hnot : ∀ p, previous = some p → (ctx.stop a).is_pickup = false →
          (ctx.stop p).node ≠ (ctx.stop a).node := by
        intro p hpp hpa hn
        apply h
        rw [option_any_iff]
        exact ⟨p, hpp, by rw [Bool.and_eq_true, Bool.not_eq_true', decide_eq_true_eq]
                          exact ⟨hpa, hn⟩⟩
      constructor
      · rintro (hma | ⟨hmr, hor⟩)
        · refine ⟨List.mem_cons.mpr (Or.inl hma), ?_⟩
          cases hpk : (ctx.stop m).is_pickup with
          | true => exact Or.inl rfl
          | false =>
            refine Or.inr ⟨fun p hpp => ?_, ?_⟩
            · rw [hma]
              exact hnot p hpp (by rw [← hma]; exact hpk)
            · intro x hx hxm _ _
              rcases List.mem_cons.mp hx with hxa | hxr
              · exact absurd (hxa.trans hma.symm) hxm
              · rw [hma]
                exact hs.1 x hxr
        · refine ⟨List.mem_cons.mpr (Or.inr hmr), ?_⟩
          rcases hor with hor | ⟨h1, h2⟩
          · exact Or.inl hor
          · have ham : (ctx.stop a).node ≠ (ctx.stop m).node := h1 a rfl
            refine Or.inr ⟨fun p hpp hn => ?_, ?_⟩
            · have l1 := mnsLt_node_le ctx p a (hp p hpp a (List.mem_cons_self _ _))
              have l2 := mnsLt_node_le ctx a m (hs.1 m hmr)
              omega
            · intro x hx hxm hxn hxp
              rcases List.mem_cons.mp hx with hxa | hxr
              · rw [hxa] at hxn
                exact absurd hxn ham
              · exact h2 x hxr hxm hxn hxp
      · rintro ⟨hm, hor⟩
        rcases List.mem_cons.mp hm with hma | hmr
        · exact Or.inl hma
        · by_cases hma : m = a
          · exact Or.inl hma
          · refine Or.inr ⟨hmr, ?_⟩
            rcases hor with hor | ⟨h1, h2⟩
            · exact Or.inl hor
            · cases hpk : (ctx.stop m).is_pickup with
              | true => exact Or.inl rfl
              | false =>
                refine Or.inr ⟨?_, fun x hx => h2 x (List.mem_cons_of_mem _ hx)⟩
                intro p hpp hn
                simp only [Option.some.injEq] at hpp
                rw [← hpp] at hn
                have ha := mnsLt_key ctx a m (hs.1 m hmr) hn hpk
                have := h2 a (List.mem_cons_self _ _) (fun e => hma e.symm) hn ha
                exact mnsLt_asymm ctx a m (hs.1 m hmr) this

/-- Claim C26, amended: at every level of the search, on an available set in the
canonical order (node id, then dropoff before pickup, then identity), the loop runs its
body for the tried candidates only, and these are every available pickup and, of the
available dropoffs that share a node, the first in the canonical order; the other
dropoffs at that node are skipped at that level.  The available set of the first level
and the one handed to the next level are in the canonical order. -/
theorem same_node_dedup (ctx : Ctx) (fuel : Nat) (loc cap : Int) (avail : List Nat)
    (time best_time : Int) (prev : Action)
    (hs : avail.Pairwise (fun a b => mnsLt ctx a b = true)) :
    recursive_search ctx (fuel + 1) loc cap avail time best_time prev
        = (if avail.isEmpty then some (time, [])
          else search_body_loop ctx (recursive_search ctx fuel) loc cap avail time prev
            (tried_candidates ctx avail none) best_time [])
      ∧ (∀ m, m ∈ tried_candidates ctx avail none
          ↔ m ∈ avail ∧ ((ctx.stop m).is_pickup = true
            ∨ ∀ x ∈ avail, x ≠ m → (ctx.stop x).node = (ctx.stop m).node →
                (ctx.stop x).is_pickup = false → mnsLt ctx m x = true))
      ∧ (∀ m, (remaining_nodes ctx avail m).Pairwise (fun a b => mnsLt ctx a b = true))
      ∧ (∀ init, (setInsertAll (mnsLt ctx) init []).Pairwise
          (fun a b => mnsLt ctx a b = true)) := by
  refine ⟨?_, ?_, fun m => remaining_nodes_sorted ctx avail m hs,
    fun init => setInsertAll_sorted (mnsLt ctx) (mnsLt_trans ctx) _ _ List.Pairwise.nil⟩
  · rw [recursive_search]
    simp only
    rw [search_loop_tried]
  · intro m
    rw [mem_tried_candidates ctx avail none hs (fun p hp => by simp at hp) m]
    simp

theorem same_node_dedup_witness :
    [1, 3].Pairwise (fun a b => mnsLt dedupCtx a b = true)
      ∧ (3 ∈ tried_candidates dedupCtx [1, 3] none
          ↔ 3 ∈ [1, 3] ∧ ((dedupCtx.stop 3).is_pickup = true
            ∨ ∀ x ∈ [1, 3], x ≠ 3 → (dedupCtx.stop x).node = (dedupCtx.stop 3).node →
                (dedupCtx.stop x).is_pickup = false → mnsLt dedupCtx 3 x = true)) :=
  ⟨by decide,
    (same_node_dedup dedupCtx 0 0 1 [1, 3] 200 (-1) Action.NO_ACTION (by decide)).2.1 3⟩

/-- Claim C26 fails as stated: at the epoch time 200, for the empty vehicle of capacity 1
at node 0 and the requests A, entered at 200, and B, entered at 0, both from node 0, the
available set of the first level holds the pickups of A and B, which share the node and
the flag, the pickup of A first in the canonical order; the pickup of B is tried all the
same, and the plan that the oracle returns begins with it. -/
theorem same_node_dedup_counterexample :
    setInsertAll (mnsLt dedupCtx) (build_stops dedupHeap exVehicleOne [1, 2]).initially_available []
        = [1, 3]
      ∧ dedupCtx.stop 1 = ⟨1, true, 0⟩ ∧ dedupCtx.stop 3 = ⟨2, true, 0⟩
      ∧ mnsLt dedupCtx 1 3 = true
      ∧ tried_candidates dedupCtx [1, 3] none = [1, 3]
      ∧ travel (exSettings Ctsp.FULL) exNet dedupHeap 5 exVehicleOne [1, 2] Purpose.STANDARD 200
        = Except.ok (300, [⟨2, true, 0⟩, ⟨2, false, 2⟩, ⟨1, true, 0⟩, ⟨1, false, 1⟩]) :=
  ⟨by decide, by decide, by decide, by decide, by decide, by decide!⟩

/-! ## The frozen prefix of `FIX_PREFIX` -/

theorem previous_order_lt (nodes : List NodeStop) (M : List MetaNodeStop)
    (order_record : List NodeStop) :
    ∀ x ∈ previous_order nodes M order_record, x < M.length := by
  intro x hx
  unfold previous_order at hx
  rw [List.mem_filterMap] at hx
  obtain ⟨ns, _, h⟩ := hx
  exact (node_to_meta_some nodes M ns x h).1

/-- A search cannot end from an available set that meets a set of meta nodes each of
which unlocks one of the set. -/
theorem run_never_ends (ctx : Ctx) (C : Nat → Prop)
    (hC : ∀ z, C z → ∃ w ∈ (ctx.metaAt z).unlocks, C w)
    (loc cap : Int) (avail : List Nat) (time : Int) (prev : Action) (ms : List Nat) (c : Int)
    (h : Run ctx loc cap avail time prev ms c) : ¬ ∃ z ∈ avail, C z := by
  induction h with
  | nil => simp
  | cons loc cap avail time prev m ms c hs _ ih =>
    rintro ⟨z, hz, hCz⟩
    apply ih
    by_cases hzm : z = m
    · obtain ⟨w, hw, hCw⟩ := hC m (hzm ▸ hCz)
      exact ⟨w, (mem_remaining_nodes ctx avail m w).mpr (Or.inr hw), hCw⟩
    · exact ⟨z, (mem_remaining_nodes ctx avail m z).mpr (Or.inl ⟨hz, hzm⟩), hCz⟩

theorem remaining_nodes_single (ctx : Ctx) (x : Nat) :
    remaining_nodes ctx [x] x = setInsertAll (mnsLt ctx) (ctx.metaAt x).unlocks [] := by
  unfold remaining_nodes
  simp

/-- A search from the first meta node of a chain, each meta node of which unlocks the
next one only, visits the chain in its order, and then hands to the next level what the
last meta node of the chain unlocks. -/
theorem run_chain (ctx : Ctx) (order : List Nat) (L : Nat)
    (hnext : ∀ i, i + 1 < L → (ctx.metaAt (order.getD i 0)).unlocks = [order.getD (i + 1) 0]) :
    ∀ (d j : Nat), j + d + 1 = L →
      ∀ (loc cap time : Int) (prev : Action) (ms : List Nat) (c : Int),
        Run ctx loc cap [order.getD j 0] time prev ms c →
        d + 1 ≤ ms.length ∧ (∀ i, i ≤ d → ms.getD i 0 = order.getD (j + i) 0)
          ∧ available_after ctx [order.getD j 0] (ms.take (d + 1))
            = setInsertAll (mnsLt ctx) (ctx.metaAt (order.getD (L - 1) 0)).unlocks [] := by
  intro d
  induction d with
  | zero =>
    intro j hj loc cap time prev ms c h
    cases h with
    | cons _ _ _ _ _ m ms2 _ hs hrun =>
      have hm : m = order.getD j 0 := by simpa using hs.1
      subst hm
      refine ⟨by simp, ?_, ?_⟩
      · intro i hi
        have : i = 0 := by omega
        subst this
        simp
      · have e : L - 1 = j := by omega
        rw [e]
        simp [available_after, remaining_nodes_single]
  | succ d ih =>
    intro j hj loc cap time prev ms c h
    cases h with
    | cons _ _ _ _ _ m ms2 _ hs hrun =>
      have hm : m = order.getD j 0 := by simpa using hs.1
      subst hm
      rw [remaining_nodes_single, hnext j (by omega)] at hrun
      have e1 : setInsertAll (mnsLt ctx) [order.getD (j + 1) 0] [] = [order.getD (j + 1) 0] := rfl
      rw [e1] at hrun
      obtain ⟨h1, h2, h3⟩ := ih (j + 1) (by omega) _ _ _ _ _ _ hrun
      refine ⟨by simp; omega, ?_, ?_⟩
      · intro i hi
        cases i with
        | zero => simp
        | succ i =>
          have := h2 i (by omega)
          simp only [List.getD_cons_succ]
          rw [this]
          congr 1
          omega
      · simp only [List.take_succ_cons, available_after]
        rw [remaining_nodes_single, hnext j (by omega), e1]
        exact h3

/-- The loop of lines 283-292 after `c` rounds, whatever the previous order: each meta
node among the first `c` of the order unlocks one of its successors in the order, or,
after the last round, the set `captured`; and once a meta node has come twice, the set
`captured` holds one of the meta nodes that came. -/
theorem fix_fold_dup (order : List Nat) (limit : Nat) (M0 : List MetaNodeStop) (C0 : List Nat)
    (h2 : ∀ i, i < limit → order.getD i 0 < M0.length) :
    ∀ c, c ≤ limit →
      (((List.range c).foldl (fix_step order limit) (M0, C0)).1.length = M0.length)
      ∧ (∀ z, chainSet order c z →
          (∃ i, i < c ∧ i + 1 < limit
            ∧ ((((List.range c).foldl (fix_step order limit) (M0, C0)).1).getD z ⟨0, []⟩).unlocks
              = [order.getD (i + 1) 0])
          ∨ (c = limit
            ∧ ((((List.range c).foldl (fix_step order limit) (M0, C0)).1).getD z ⟨0, []⟩).unlocks
              = ((List.range c).foldl (fix_step order limit) (M0, C0)).2))
      ∧ ((∃ i j, i < j ∧ j < c ∧ order.getD i 0 = order.getD j 0) →
          ∃ w ∈ ((List.range c).foldl (fix_step order limit) (M0, C0)).2, chainSet order c w) := by
  intro c
  induction c with
  | zero =>
    intro _
    refine ⟨rfl, ?_, ?_⟩
    · rintro z ⟨i, hi, _⟩
      omega
    · rintro ⟨i, j, _, hj, _⟩
      omega
  | succ c ih =>
    intro hc
    obtain ⟨a, hA, hJ⟩ := ih (by omega)
    simp only [List.range_succ, List.foldl_append, List.foldl_cons, List.foldl_nil]
    generalize hst : (List.range c).foldl (fix_step order limit) (M0, C0) = st at a hA hJ
    have hp : order.getD c 0 < st.1.length := by rw [a]; exact h2 c (by omega)
    have hget : ∀ (U : List Nat) (m : Nat),
        (set_unlocks st.1 (order.getD c 0) U).getD m ⟨0, []⟩
          = if m = order.getD c 0 then ⟨(st.1.getD (order.getD c 0) ⟨0, []⟩).node, U⟩
            else st.1.getD m ⟨0, []⟩ := by
      intro U m
      rw [set_unlocks_getD]
      by_cases hm : m = order.getD c 0
      · rw [if_pos ⟨hm, hp⟩, if_pos hm]
      · rw [if_neg (fun h => hm h.1), if_neg hm]
    have hold : ∀ z, chainSet order (c + 1) z → z ≠ order.getD c 0 →
        ∃ i, i < c ∧ i + 1 < limit ∧ (st.1.getD z ⟨0, []⟩).unlocks = [order.getD (i + 1) 0] := by
      rintro z ⟨i, hi, hz⟩ hne
      have hic : i < c := by
        rcases Nat.lt_or_ge i c with h | h
        · exact h
        · exfalso
          have : i = c := by omega
          rw [this] at hz
          exact hne hz
      rcases hA z ⟨i, hic, hz⟩ with h | ⟨h, _⟩
      · exact h
      · omega
    have hcap : (∃ i j, i < j ∧ j < c + 1 ∧ order.getD i 0 = order.getD j 0) →
        ∃ w ∈ setInsertAll ptrLt (st.1.getD (order.getD c 0) ⟨0, []⟩).unlocks
          (setErase ptrLt (order.getD c 0) st.2), chainSet order (c + 1) w := by
      rintro ⟨i, j, hij, hj, heq⟩
      by_cases hdup : ∃ i, i < c ∧ order.getD i 0 = order.getD c 0
      · obtain ⟨i0, hi0, he0⟩ := hdup
        rcases hA (order.getD c 0) ⟨i0, hi0, he0.symm⟩ with ⟨i1, h1, _, h3⟩ | ⟨h, _⟩
        · refine ⟨order.getD (i1 + 1) 0, ?_, ⟨i1 + 1, by omega, rfl⟩⟩
          rw [mem_setInsertAll ptrLt separating_ptrLt, h3]
          exact Or.inl (List.mem_singleton.mpr rfl)
        · omega
      · have hjc : j < c := by
          rcases Nat.lt_or_ge j c with h | h
          · exact h
          · exfalso
            have : j = c := by omega
            rw [this] at heq
            exact hdup ⟨i, by omega, heq⟩
        obtain ⟨w, hw, ⟨k, hk, hwk⟩⟩ := hJ ⟨i, j, hij, hjc, heq⟩
        refine ⟨w, ?_, ⟨k, by omega, hwk⟩⟩
        rw [mem_setInsertAll ptrLt separating_ptrLt, mem_setErase_ptrLt]
        refine Or.inr ⟨hw, ?_⟩
        intro hwc
        exact hdup ⟨k, hk, by rw [← hwk, hwc]⟩
    unfold fix_step
    simp only
    split_ifs with hlim
    · simp only
      refine ⟨by rw [set_unlocks_length, a], ?_, hcap⟩
      intro z hz
      left
      rw [hget]
      by_cases hzc : z = order.getD c 0
      · rw [if_pos hzc]
        exact ⟨c, by omega, hlim, rfl⟩
      · rw [if_neg hzc]
        obtain ⟨i, hi, hil, hu⟩ := hold z hz hzc
        exact ⟨i, by omega, hil, hu⟩
    · simp only
      refine ⟨by rw [set_unlocks_length, a], ?_, hcap⟩
      intro z hz
      rw [hget]
      by_cases hzc : z = order.getD c 0
      · rw [if_pos hzc]
        right
        exact ⟨by omega, rfl⟩
      · rw [if_neg hzc]
        left
        obtain ⟨i, hi, hil, hu⟩ := hold z hz hzc
        exact ⟨i, by omega, hil, hu⟩

theorem standard_build_fix (S : Settings) (heap : Heap) (v : Vehicle) (rs : List ReqPtr)
    (hS : S.CTSP = Ctsp.FIX_PREFIX) :
    (standard_build S heap v rs).nodes = (build_stops heap v rs).nodes
      ∧ (standard_build S heap v rs).meta_nodes = (build_stops heap v rs).meta_nodes := by
  unfold standard_build link_onboard
  rw [if_neg (by rw [hS]; rintro ⟨h, _⟩; cases h)]
  exact ⟨rfl, rfl⟩

/-- A STANDARD call that freezes a prefix and returns a plan ran the search on the
frozen meta nodes, from the first meta node of the previous order. -/
theorem new_travel_frozen (S : Settings) (net : Network) (heap : Heap) (fuel : Nat)
    (v : Vehicle) (rs : List ReqPtr) (time : Int) (r : Int × List NodeStop)
    (hS : S.CTSP = Ctsp.FIX_PREFIX)
    (hn : LP_LIMITVALUE < (standard_build S heap v rs).meta_nodes.length)
    (h : new_travel S net heap fuel v rs time = Except.ok r) (hr : r ≠ (-1, [])) :
    frozen_length S heap v rs ≤ (frozen_order S heap v rs).length
      ∧ ∃ ms c, Run (frozen_ctx S net heap v rs) v.node (v.capacity - v.passengers.length)
          [(frozen_order S heap v rs).getD 0 0] (time + v.offset) Action.NO_ACTION ms c
        ∧ r.2 = ms.map (frozen_ctx S net heap v rs).stop := by
  have hrun : run_search S net heap fuel v (fix_prefix_build v (standard_build S heap v rs)) time
        = Except.ok r
      ∧ frozen_length S heap v rs ≤ (frozen_order S heap v rs).length := by
    unfold new_travel at h
    simp only at h
    unfold standard_build at hn ⊢
    unfold frozen_length frozen_order standard_build
    split_ifs at h with h1 h2 h3 h4
    · simp only [Except.ok.injEq] at h
      exact absurd h.symm hr
    · exact ⟨h, by omega⟩
    · exact absurd ⟨hS, hn⟩ h2
  obtain ⟨hrun, hlen⟩ := hrun
  refine ⟨hlen, ?_⟩
  obtain ⟨_, h1 | ⟨ms, c, hR, hres⟩⟩ := run_search_ok S net heap fuel v _ time r hrun
  · exact absurd h1 hr
  · refine ⟨ms, c, ?_, ?_⟩
    · exact hR
    · rw [hres]
      rfl

theorem previous_order_keys (nodes : List NodeStop) (M : List MetaNodeStop) :
    ∀ (l : List NodeStop),
      List.Forall₂ sameKey
        ((previous_order nodes M l).map
          (fun m => nodes.getD (M.getD m ⟨0, []⟩).node ⟨0, false, 0⟩))
        (l.filter (fun ns => (node_to_meta nodes M ns).isSome)) := by
  intro l
  induction l with
  | nil => exact List.Forall₂.nil
  | cons ns rest ih =>
    unfold previous_order at ih ⊢
    cases hm : node_to_meta nodes M ns with
    | none =>
      rw [List.filterMap_cons_none hm, List.filter_cons_of_neg (by rw [hm]; simp)]
      exact ih
    | some m =>
      rw [List.filterMap_cons_some hm, List.filter_cons_of_pos (by rw [hm]; simp),
        List.map_cons]
      exact List.Forall₂.cons (node_to_meta_some nodes M ns m hm).2 ih

theorem take_eq_of_getD (l1 l2 : List Nat) (L : Nat) (h1 : L ≤ l1.length) (h2 : L ≤ l2.length)
    (h : ∀ i, i < L → l1.getD i 0 = l2.getD i 0) : l1.take L = l2.take L := by
  apply List.ext_getElem
  · simp [h1, h2]
  · intro i hi1 hi2
    simp only [List.length_take] at hi1 hi2
    rw [List.getElem_take, List.getElem_take]
    have := h i (by omega)
    rw [List.getD_eq_getElem l1 0 (by omega), List.getD_eq_getElem l2 0 (by omega)] at this
    exact this

/-- Claim C29: under `FIX_PREFIX`, for a vehicle and a request list whose stop universe
has `n > 8` stops, every plan that a STANDARD call returns (a result other than the
cost -1 with no stop) is the sequence of the stops of a run of the search that begins
with the first `n - 8` meta nodes of the previous order, the order record restricted to
the stop universe: the first `n - 8` stops of the plan have, one by one, the request and
the kind of the first `n - 8` stops of the restricted order record; and the set handed
to the search after the last frozen stop holds exactly the meta nodes that are available
after the visits of that prefix from the initial available set, each visit removing the
meta node visited and adding what it unlocks. -/
theorem fix_prefix_frozen_plan (S : Settings) (net : Network) (heap : Heap) (fuel : Nat)
    (v : Vehicle) (rs : List ReqPtr) (time : Int) (r : Int × List NodeStop)
    (hS : S.CTSP = Ctsp.FIX_PREFIX)
    (hn : LP_LIMITVALUE < (standard_build S heap v rs).meta_nodes.length)
    (h : new_travel S net heap fuel v rs time = Except.ok r) (hr : r ≠ (-1, [])) :
    (standard_build S heap v rs).meta_nodes.length
        = 2 * rs.length + (onboardStops (onboardSet v) v.order_record).length
      ∧ frozen_length S heap v rs ≤ (frozen_order S heap v rs).length
      ∧ ∃ ms c, Run (frozen_ctx S net heap v rs) v.node (v.capacity - v.passengers.length)
          [(frozen_order S heap v rs).getD 0 0] (time + v.offset) Action.NO_ACTION ms c
        ∧ r.2 = ms.map (frozen_ctx S net heap v rs).stop
        ∧ ms.take (frozen_length S heap v rs)
          = (frozen_order S heap v rs).take (frozen_length S heap v rs)
        ∧ List.Forall₂ sameKey (r.2.take (frozen_length S heap v rs))
            ((v.order_record.filter (fun ns =>
              (node_to_meta (standard_build S heap v rs).nodes
                (standard_build S heap v rs).meta_nodes ns).isSome)).take
              (frozen_length S heap v rs))
        ∧ ∀ x, x ∈ available_after (frozen_ctx S net heap v rs)
              [(frozen_order S heap v rs).getD 0 0] (ms.take (frozen_length S heap v rs))
            ↔ capAt (fun m => ((standard_build S heap v rs).meta_nodes.getD m ⟨0, []⟩).unlocks)
                (frozen_order S heap v rs)
                (fun y => y ∈ (standard_build S heap v rs).initially_available)
                (frozen_length S heap v rs) x := by
  obtain ⟨hlen, ms, c, hR, hres⟩ := new_travel_frozen S net heap fuel v rs time r hS hn h hr
  have hcount : (standard_build S heap v rs).meta_nodes.length
      = 2 * rs.length + (onboardStops (onboardSet v) v.order_record).length := by
    rw [(standard_build_fix S heap v rs hS).2, (build_stops_eq heap v rs).2.1, baseMetas_length]
  refine ⟨hcount, hlen, ms, c, hR, hres, ?_⟩
  have hL : 1 ≤ frozen_length S heap v rs := by unfold frozen_length; omega
  have h2 : ∀ i, i < frozen_length S heap v rs →
      (frozen_order S heap v rs).getD i 0 < (standard_build S heap v rs).meta_nodes.length := by
    intro i hi
    rw [List.getD_eq_getElem _ _ (by omega)]
    exact previous_order_lt _ _ _ _ (List.getElem_mem _)
  have hmeta : ∀ z, (frozen_ctx S net heap v rs).metaAt z
      = (((List.range (frozen_length S heap v rs)).foldl
          (fix_step (frozen_order S heap v rs) (frozen_length S heap v rs))
          ((standard_build S heap v rs).meta_nodes,
            (standard_build S heap v rs).initially_available)).1).getD z ⟨0, []⟩ := fun _ => rfl
  by_cases hd : ∃ i j, i < j ∧ j < frozen_length S heap v rs
      ∧ (frozen_order S heap v rs).getD i 0 = (frozen_order S heap v rs).getD j 0
  · exfalso
    obtain ⟨_, hA, hJ⟩ := fix_fold_dup (frozen_order S heap v rs) (frozen_length S heap v rs)
      (standard_build S heap v rs).meta_nodes (standard_build S heap v rs).initially_available
      h2 (frozen_length S heap v rs) (le_refl _)
    refine run_never_ends (frozen_ctx S net heap v rs)
      (chainSet (frozen_order S heap v rs) (frozen_length S heap v rs)) ?_ _ _ _ _ _ _ _ hR
      ⟨_, List.mem_singleton.mpr rfl, ⟨0, by omega, rfl⟩⟩
    intro z hz
    rw [hmeta]
    rcases hA z hz with ⟨i, hi, hil, hu⟩ | ⟨_, hu⟩
    · rw [hu]
      exact ⟨_, List.mem_singleton.mpr rfl, ⟨i + 1, hil, rfl⟩⟩
    · rw [hu]
      exact hJ hd
  · have h1 : ∀ i j, i < frozen_length S heap v rs → j < frozen_length S heap v rs →
        (frozen_order S heap v rs).getD i 0 = (frozen_order S heap v rs).getD j 0 → i = j := by
      intro i j hi hj heq
      by_contra hne
      apply hd
      rcases Nat.lt_or_gt_of_ne hne with hlt | hlt
      · exact ⟨i, j, hlt, hj, heq⟩
      · exact ⟨j, i, hlt, hi, heq.symm⟩
    obtain ⟨_, hnode, _, _, hnext, hlast⟩ := fix_fold (frozen_order S heap v rs)
      (frozen_length S heap v rs) (standard_build S heap v rs).meta_nodes
      (standard_build S heap v rs).initially_available h1 h2 (frozen_length S heap v rs)
      (le_refl _)
    obtain ⟨c1, c2, c3⟩ := run_chain (frozen_ctx S net heap v rs) (frozen_order S heap v rs)
      (frozen_length S heap v rs)
      (fun i hi => by rw [hmeta]; exact hnext i (by omega) hi)
      (frozen_length S heap v rs - 1) 0 (by omega) _ _ _ _ _ _ hR
    have e : frozen_length S heap v rs - 1 + 1 = frozen_length S heap v rs := by omega
    rw [e] at c1 c3
    have htake : ms.take (frozen_length S heap v rs)
        = (frozen_order S heap v rs).take (frozen_length S heap v rs) := by
      refine take_eq_of_getD _ _ _ c1 hlen (fun i hi => ?_)
      have := c2 i (by omega)
      rw [Nat.zero_add] at this
      exact this
    refine ⟨htake, ?_, ?_⟩
    · have hstop : ∀ m, (frozen_ctx S net heap v rs).stop m
          = (standard_build S heap v rs).nodes.getD
            (((standard_build S heap v rs).meta_nodes.getD m ⟨0, []⟩).node) ⟨0, false, 0⟩ := by
        intro m
        unfold Ctx.stop Ctx.nodeAt
        rw [hmeta, hnode]
        rfl
      have hk := previous_order_keys (standard_build S heap v rs).nodes
        (standard_build S heap v rs).meta_nodes v.order_record
      have hk2 := List.forall₂_take (frozen_length S heap v rs) hk
      rw [hres, ← List.map_take, htake, List.map_take]
      have e2 : (frozen_order S heap v rs).map (frozen_ctx S net heap v rs).stop
          = (previous_order (standard_build S heap v rs).nodes
              (standard_build S heap v rs).meta_nodes v.order_record).map
            (fun m => (standard_build S heap v rs).nodes.getD
              (((standard_build S heap v rs).meta_nodes.getD m ⟨0, []⟩).node) ⟨0, false, 0⟩) := by
        unfold frozen_order
        exact List.map_congr_left (fun m _ => hstop m)
      rw [e2]
      exact hk2
    · intro x
      rw [c3, mem_setInsertAll _ (separating_mnsLt _), hmeta]
      simp only [List.not_mem_nil, or_false]
      exact hlast (frozen_length S heap v rs - 1) (by omega) (by omega) x

theorem fix_prefix_frozen_plan_witness :
    (exSettings Ctsp.FIX_PREFIX).CTSP = Ctsp.FIX_PREFIX
      ∧ LP_LIMITVALUE
        < (standard_build (exSettings Ctsp.FIX_PREFIX) exHeap exVehicleFive
            [1, 2, 3, 4, 5]).meta_nodes.length
      ∧ new_travel (exSettings Ctsp.FIX_PREFIX) exNet exHeap 11 exVehicleFive [1, 2, 3, 4, 5] 0
        = Except.ok (140, [⟨1, true, 0⟩, ⟨2, true, 0⟩, ⟨3, true, 0⟩, ⟨3, false, 0⟩,
            ⟨4, true, 0⟩, ⟨4, false, 0⟩, ⟨5, true, 0⟩, ⟨5, false, 0⟩, ⟨1, false, 1⟩,
            ⟨2, false, 2⟩])
      ∧ frozen_length (exSettings Ctsp.FIX_PREFIX) exHeap exVehicleFive [1, 2, 3, 4, 5] = 2
      ∧ frozen_order (exSettings Ctsp.FIX_PREFIX) exHeap exVehicleFive [1, 2, 3, 4, 5]
        = [1, 3, 5, 7, 9, 0, 2, 4, 6, 8]
      ∧ ∃ ms c, Run (frozen_ctx (exSettings Ctsp.FIX_PREFIX) exNet exHeap exVehicleFive
            [1, 2, 3, 4, 5]) exVehicleFive.node
            (exVehicleFive.capacity - exVehicleFive.passengers.length)
            [(frozen_order (exSettings Ctsp.FIX_PREFIX) exHeap exVehicleFive
              [1, 2, 3, 4, 5]).getD 0 0] (0 + exVehicleFive.offset) Action.NO_ACTION ms c
          ∧ ms.take (frozen_length (exSettings Ctsp.FIX_PREFIX) exHeap exVehicleFive
              [1, 2, 3, 4, 5])
            = (frozen_order (exSettings Ctsp.FIX_PREFIX) exHeap exVehicleFive
              [1, 2, 3, 4, 5]).take
                (frozen_length (exSettings Ctsp.FIX_PREFIX) exHeap exVehicleFive
                  [1, 2, 3, 4, 5]) := by
  refine ⟨rfl, by decide, by decide!, by decide, by decide, ?_⟩
  obtain ⟨_, _, ms, c, h1, _, h3, _⟩ := fix_prefix_frozen_plan (exSettings Ctsp.FIX_PREFIX)
    exNet exHeap 11 exVehicleFive [1, 2, 3, 4, 5] 0
    (140, [⟨1, true, 0⟩, ⟨2, true, 0⟩, ⟨3, true, 0⟩, ⟨3, false, 0⟩,
      ⟨4, true, 0⟩, ⟨4, false, 0⟩, ⟨5, true, 0⟩, ⟨5, false, 0⟩, ⟨1, false, 1⟩,
      ⟨2, false, 2⟩]) rfl (by decide) (by decide!) (by decide)
  exact ⟨ms, c, h1, h3⟩

/-! ## Ranks, capacity, newness and duplicates in the RTV enumeration -/

/-- The list of a rank `k >= 2` of a completed enumeration is the compaction of the list
that the enumeration of the rank left. -/
theorem rank_list_compact (S : Settings) (net : Network) (heap : Heap) (fuel : Nat)
    (clock : Clock) (rr_edges : ReqPtr → List ReqPtr) (vr_edges : List ReqPtr) (v : Vehicle)
    (time : Int) (round : List (List Trip))
    (h : rtv_enumeration S net heap fuel clock rr_edges vr_edges v time = Except.ok round)
    (k : Nat) (hk : 2 ≤ k) (hne : round.getD k [] ≠ []) :
    ∃ readings st,
      rtv_rank S net heap fuel clock rr_edges v time k (round.getD (k - 1) []) readings
        = Except.ok st
      ∧ round.getD k [] = compact st.trips.length st.trips 0 := by
  have hlt : k < round.length := by
    by_contra hc
    exact hne (List.getD_eq_default _ _ (by omega))
  rcases (rtv_enumeration_ranks S net heap fuel clock rr_edges vr_edges v time round h k
    (by omega) hlt).2 with h1 | h1
  · omega
  · exact h1

/-- Claim C32: for every vehicle, when the enumeration of `make_rtvgraph` completes with
the lists `round`, every trip of a rank `k >= 2` holds at most 4 requests that are not
pending on the vehicle, so that the budget of 8 less 2 for each such request is not
negative, whatever the capacity of the vehicle is. -/
theorem newness_budget (S : Settings) (net : Network) (heap : Heap) (fuel : Nat)
    (clock : Clock) (rr_edges : ReqPtr → List ReqPtr) (vr_edges : List ReqPtr) (v : Vehicle)
    (time : Int) (round : List (List Trip))
    (h : rtv_enumeration S net heap fuel clock rr_edges vr_edges v time = Except.ok round) :
    ∀ k, 2 ≤ k → ∀ t ∈ round.getD k [],
      t.requests.Nodup
        ∧ (t.requests.filter (fun r => decide (r ∉ v.pending_requests))).length ≤ 4
        ∧ (0 : Int) ≤ 8 - 2 * (t.requests.filter
            (fun r => decide (r ∉ v.pending_requests))).length := by
  intro k hk t ht
  obtain ⟨readings, st, hst, he⟩ := rank_list_compact S net heap fuel clock rr_edges vr_edges
    v time round h k hk (List.ne_nil_of_mem ht)
  rw [he, mem_compact_iff] at ht
  have hrt := (rtv_rank_spec S net heap fuel clock rr_edges v time k _ readings st hst).1 t ht.1
  have hsorted := rankTrip_sorted S net heap fuel clock rr_edges v time k _ t hrt
  obtain ⟨_, _, _, _, _, _, _, _, h7, _⟩ := hrt
  have e : t.requests.filter (fun r => decide (r ∉ v.pending_requests))
      = t.requests.filter (fun r => decide (r ∉ requestSet v.pending_requests)) := by
    congr 1
    funext r
    exact decide_eq_decide.mpr (not_congr (mem_requestSet _ _).symm)
  rw [e]
  exact ⟨ptrLt_sorted_nodup _ hsorted, h7, by omega⟩

theorem newness_budget_witness :
    rtv_enumeration (exSettings Ctsp.FULL) exNet exHeap 5 exClock exRR [1, 2] exVehicle 0
        = Except.ok [exTrips.take 1, (exTrips.drop 1).take 2, exTrips.drop 3]
      ∧ ∀ k, 2 ≤ k →
          ∀ t ∈ [exTrips.take 1, (exTrips.drop 1).take 2, exTrips.drop 3].getD k [],
          t.requests.Nodup
            ∧ (t.requests.filter (fun r => decide (r ∉ exVehicle.pending_requests))).length ≤ 4
            ∧ (0 : Int) ≤ 8 - 2 * (t.requests.filter
                (fun r => decide (r ∉ exVehicle.pending_requests))).length :=
  ⟨by decide!,
    newness_budget (exSettings Ctsp.FULL) exNet exHeap 5 exClock exRR [1, 2] exVehicle 0 _
      (by decide!)⟩

theorem ptrLt_sorted_ext (l1 l2 : List Nat) (h1 : l1.Pairwise (fun a b => ptrLt a b = true))
    (h2 : l2.Pairwise (fun a b => ptrLt a b = true)) (h : ∀ x, x ∈ l1 ↔ x ∈ l2) : l1 = l2 := by
  have s1 : l1.Sorted (· < ·) := h1.imp (fun hab => by simpa [ptrLt] using hab)
  have s2 : l2.Sorted (· < ·) := h2.imp (fun hab => by simpa [ptrLt] using hab)
  exact List.eq_of_perm_of_sorted
    ((List.perm_ext_iff_of_nodup (ptrLt_sorted_nodup _ h1) (ptrLt_sorted_nodup _ h2)).mpr h)
    s1 s2

/-- The rounds of the loop over the initial pairing append, in its order, a trip of one
request for some of its requests. -/
theorem first_round_sublist (S : Settings) (net : Network) (heap : Heap) (fuel : Nat)
    (clock : Clock) (v : Vehicle) (time : Int) :
    ∀ (rs : List ReqPtr) (st res : List Trip × Nat),
      foldE (rtv_single S net heap fuel clock v time) st rs = Except.ok res →
      ∃ sub : List ReqPtr, sub.Sublist rs
        ∧ res.1.map (fun t => t.requests) = st.1.map (fun t => t.requests)
          ++ sub.map (fun r => [r]) := by
  intro rs
  induction rs with
  | nil =>
    intro st res h
    simp only [foldE, Except.ok.injEq] at h
    exact ⟨[], List.Sublist.refl _, by rw [h]; simp⟩
  | cons r rest ih =>
    intro st res h
    rw [foldE] at h
    cases hs : rtv_single S net heap fuel clock v time st r with
    | error e => rw [hs] at h; simp at h
    | ok st2 =>
      rw [hs] at h
      simp only at h
      obtain ⟨sub, hsub, he⟩ := ih st2 res h
      unfold rtv_single at hs
      cases ht : time_travel S net heap fuel clock v [r] Purpose.STANDARD time st.2 with
      | error e => rw [ht] at hs; simp at hs
      | ok path =>
        rw [ht] at hs
        simp only at hs
        split_ifs at hs with h1
        · simp only [Except.ok.injEq] at hs
          refine ⟨r :: sub, hsub.cons₂ r, ?_⟩
          rw [he, ← hs]
          simp
        · simp only [Except.ok.injEq] at hs
          refine ⟨sub, hsub.cons r, ?_⟩
          rw [he, ← hs]

theorem pairwise_sets_of_rank (S : Settings) (net : Network) (heap : Heap) (fuel : Nat)
    (clock : Clock) (rr_edges : ReqPtr → List ReqPtr) (v : Vehicle) (time : Int) (rank : Nat)
    (previous_round : List Trip) (readings : Nat) (st : RankState)
    (h : rtv_rank S net heap fuel clock rr_edges v time rank previous_round readings
      = Except.ok st) :
    st.trips.Pairwise (fun a b => ¬ ∀ x, x ∈ a.requests ↔ x ∈ b.requests) := by
  obtain ⟨h1, h2⟩ := rtv_rank_spec S net heap fuel clock rr_edges v time rank previous_round
    readings st h
  have h3 : st.trips.Pairwise (fun a b => a ∈ st.trips ∧ b ∈ st.trips
      ∧ requestSet a.requests ≠ b.requests) := by
    rw [List.pairwise_iff_forall_sublist] at h2 ⊢
    intro a b hab
    exact ⟨hab.subset (by simp), hab.subset (by simp), h2 hab⟩
  refine h3.imp ?_
  rintro a b ⟨_, hb, hne⟩ hall
  apply hne
  have hsb := rankTrip_sorted S net heap fuel clock rr_edges v time rank previous_round b
    (h1 b hb)
  exact ptrLt_sorted_ext _ _ (requestSet_sorted _) hsb
    (fun x => by rw [mem_requestSet]; exact hall x)

/-- Claim C40: for every vehicle and every rank `k >= 1`, no two trips of the list of the
rank have the same request set: the list that the enumeration of a rank `k >= 2` leaves,
placeholders included, has no two such trips, nor has its compaction, and when the
enumeration of `make_rtvgraph` completes with the lists `round`, no list of a rank
`k >= 1` has two such trips. -/
theorem no_duplicate_trips (S : Settings) (net : Network) (heap : Heap) (fuel : Nat)
    (clock : Clock) (rr_edges : ReqPtr → List ReqPtr) (vr_edges : List ReqPtr) (v : Vehicle)
    (time : Int) :
    (∀ rank previous_round readings st,
      rtv_rank S net heap fuel clock rr_edges v time rank previous_round readings
        = Except.ok st →
      st.trips.Pairwise (fun a b => ¬ ∀ x, x ∈ a.requests ↔ x ∈ b.requests)
        ∧ (compact st.trips.length st.trips 0).Pairwise
            (fun a b => ¬ ∀ x, x ∈ a.requests ↔ x ∈ b.requests))
    ∧ ∀ round, rtv_enumeration S net heap fuel clock rr_edges vr_edges v time
          = Except.ok round →
        ∀ k, 1 ≤ k → (round.getD k []).Pairwise
          (fun a b => ¬ ∀ x, x ∈ a.requests ↔ x ∈ b.requests) := by
  have hsymm : ∀ a b : Trip, (¬ ∀ x, x ∈ a.requests ↔ x ∈ b.requests) →
      ¬ ∀ x, x ∈ b.requests ↔ x ∈ a.requests := fun a b h1 h2 => h1 (fun x => (h2 x).symm)
  have hrank : ∀ rank previous_round readings st,
      rtv_rank S net heap fuel clock rr_edges v time rank previous_round readings
        = Except.ok st →
      st.trips.Pairwise (fun a b => ¬ ∀ x, x ∈ a.requests ↔ x ∈ b.requests)
        ∧ (compact st.trips.length st.trips 0).Pairwise
            (fun a b => ¬ ∀ x, x ∈ a.requests ↔ x ∈ b.requests) := by
    intro rank previous_round readings st hst
    have hp := pairwise_sets_of_rank S net heap fuel clock rr_edges v time rank previous_round
      readings st hst
    refine ⟨hp, ?_⟩
    exact ((compact_filter st.trips).pairwise_iff (fun {a b} h => hsymm a b h)).mpr
      (hp.filter _)
  refine ⟨hrank, ?_⟩
  intro round h k hk
  by_cases hne : round.getD k [] = []
  · rw [hne]
    exact List.Pairwise.nil
  · by_cases hk2 : 2 ≤ k
    · obtain ⟨readings, st, hst, he⟩ := rank_list_compact S net heap fuel clock rr_edges vr_edges
        v time round h k hk2 hne
      rw [he]
      exact (hrank _ _ _ _ hst).2
    · have hk1 : k = 1 := by omega
      subst hk1
      unfold rtv_enumeration at h
      cases hb : time_travel S net heap fuel clock v [] Purpose.STANDARD time 0 with
      | error e => rw [hb] at h; simp at h
      | ok result =>
        rw [hb] at h
        simp only at h
        cases h1 : foldE (rtv_single S net heap fuel clock v time) ([], result.2)
            (setInsertAll ptrLt v.pending_requests (requestSet vr_edges)) with
        | error e => rw [h1] at h; simp at h
        | ok first_round =>
          rw [h1] at h
          simp only at h
          obtain ⟨extra, hex, _⟩ := rtv_rounds_append S net heap fuel clock rr_edges v time _ _ _
            _ _ h
          rw [hex]
          simp only [List.cons_append, List.getD_cons_succ, List.getD_cons_zero]
          obtain ⟨sub, hsub, hmap⟩ := first_round_sublist S net heap fuel clock v time _ _ _ h1
          simp only [List.map_nil, List.nil_append] at hmap
          have hnd : sub.Nodup := by
            refine List.Nodup.sublist hsub ?_
            exact ptrLt_sorted_nodup _ (setInsertAll_sorted ptrLt ptrLt_trans _ _
              (requestSet_sorted _))
          have hp : (first_round.1.map (fun t => t.requests)).Pairwise
              (fun a b => ¬ ∀ x, x ∈ a ↔ x ∈ b) := by
            rw [hmap, List.pairwise_map]
            refine hnd.imp ?_
            intro a b hab hall
            exact hab (by simpa using (hall a).mp (by simp))
          exact List.pairwise_map.mp hp

theorem no_duplicate_trips_witness :
    rtv_enumeration (exSettings Ctsp.FULL) exNet exHeap 5 exClock exRR [1, 2] exVehicle 0
        = Except.ok [exTrips.take 1, (exTrips.drop 1).take 2, exTrips.drop 3]
      ∧ ∀ k, 1 ≤ k → ([exTrips.take 1, (exTrips.drop 1).take 2, exTrips.drop 3].getD k []).Pairwise
          (fun a b => ¬ ∀ x, x ∈ a.requests ↔ x ∈ b.requests) :=
  ⟨by decide!,
    (no_duplicate_trips (exSettings Ctsp.FULL) exNet exHeap 5 exClock exRR [1, 2] exVehicle 0).2
      _ (by decide!)⟩

/-- The loop over the ranks stops at the capacity: the vector `round` it returns has no
more lists than it was given or than the capacity plus 1. -/
theorem rtv_rounds_length (S : Settings) (net : Network) (heap : Heap) (fuel : Nat)
    (clock : Clock) (rr_edges : ReqPtr → List ReqPtr) (v : Vehicle) (time : Int) :
    ∀ (ranks : Nat) (round : List (List Trip)) (timeout : Bool) (readings : Nat)
      (round2 : List (List Trip)),
      rtv_rounds S net heap fuel clock rr_edges v time ranks round timeout readings
        = Except.ok round2 →
      (round2.length : Int) ≤ max (round.length : Int) (v.capacity + 1) := by
  intro ranks
  induction ranks with
  | zero => intro round timeout readings round2 h; simp [rtv_rounds] at h
  | succ n ih =>
    intro round timeout readings round2 h
    rw [rtv_rounds] at h
    split_ifs at h with h1 h2
    · simp only [Except.ok.injEq] at h
      rw [← h]
      exact le_max_left _ _
    · cases hr : rtv_rank S net heap fuel clock rr_edges v time round.length
          (round.getLastD []) readings with
      | error e => rw [hr] at h; simp at h
      | ok st =>
        rw [hr] at h
        simp only at h
        have := ih _ _ _ _ h
        simp only [List.length_append, List.length_singleton, Nat.cast_add, Nat.cast_one] at this
        have e : max ((round.length : Int) + 1) (v.capacity + 1) = v.capacity + 1 := by
          apply max_eq_right
          omega
        rw [e] at this
        exact le_trans this (le_max_right _ _)
    · simp only [Except.ok.injEq] at h
      rw [← h]
      exact le_max_left _ _

theorem new_time_travel_single (S : Settings) (net : Network) (heap : Heap) (fuel : Nat)
    (clock : Clock) (v : Vehicle) (r : ReqPtr) (time : Int) (k : Nat) (hp : v.passengers = []) :
    new_time_travel S net heap fuel clock v [r] time k
      = run_search_timed S net heap fuel clock v
          ⟨[⟨r, true, (heap r).origin⟩, ⟨r, false, (heap r).destination⟩],
            [⟨1, []⟩, ⟨0, [0]⟩], [1]⟩ time k := by
  unfold new_time_travel
  simp only
  rw [build_stops_single heap v r hp, hp]
  have e : link_onboard S [r].length ([] : List ReqPtr).length
      ⟨[⟨r, true, (heap r).origin⟩, ⟨r, false, (heap r).destination⟩],
        [⟨1, []⟩, ⟨0, [0]⟩], [1]⟩
      = ⟨[⟨r, true, (heap r).origin⟩, ⟨r, false, (heap r).destination⟩],
        [⟨1, []⟩, ⟨0, [0]⟩], [1]⟩ := by
    unfold link_onboard
    simp
  rw [e]
  simp [LP_LIMITVALUE]

theorem search_timed_single_full (ctx : Ctx) (clock : Clock) (fuel : Nat) (loc cap T : Int)
    (r : ReqPtr) (o : Int) (k : Nat)
    (s1 : ctx.stop 1 = ⟨r, true, o⟩) (hcap : cap ≤ 0) :
    ∃ k2, recursive_search_timed ctx clock (fuel + 1) loc cap [1] T (-1) k
      = some ((-1, []), k2) := by
  rw [recursive_search_timed]
  simp only [List.isEmpty_cons, Bool.false_eq_true, if_false, search_loop_timed,
    Option.any_none, s1, new_residual, if_true]
  split_ifs <;> first | exact ⟨_, rfl⟩ | (exfalso; omega)

/-- A vehicle without passengers and without a seat gets no plan for one request: a call
of `time_travel` that returns, returns the cost -1. -/
theorem time_travel_single_full (S : Settings) (net : Network) (heap : Heap) (fuel : Nat)
    (clock : Clock) (v : Vehicle) (r : ReqPtr) (time : Int) (k : Nat)
    (path : (Int × List NodeStop) × Nat)
    (hp : v.passengers = []) (hcap : v.capacity ≤ 0)
    (h : time_travel S net heap fuel clock v [r] Purpose.STANDARD time k = Except.ok path) :
    path.1.1 = -1 := by
  have hc : v.capacity - (v.passengers.length : Int) ≤ 0 := by
    rw [hp]
    simp only [List.length_nil, Nat.cast_zero]
    omega
  have e0 : setInsertAll (mnsLt ⟨S, net, heap,
      [⟨r, true, (heap r).origin⟩, ⟨r, false, (heap r).destination⟩],
      [⟨1, []⟩, ⟨0, [0]⟩]⟩) [1] [] = [1] := rfl
  unfold time_travel at h
  split_ifs at h with h1 h2
  · unfold travel at h
    rw [if_neg (by decide), if_neg (by decide), new_travel_single S net heap _ v r time hp] at h
    unfold run_search recursive_search_set at h
    simp only at h
    split_ifs at h with hv
    rw [e0] at h
    cases fuel with
    | zero => simp [recursive_search] at h
    | succ f =>
      rw [search_single_full ⟨S, net, heap,
        [⟨r, true, (heap r).origin⟩, ⟨r, false, (heap r).destination⟩],
        [⟨1, []⟩, ⟨0, [0]⟩]⟩ f v.node _ (time + v.offset) r (heap r).origin rfl hc] at h
      simp only [format_path, Except.ok.injEq] at h
      rw [← h]
      simp
  · rw [new_time_travel_single S net heap _ clock v r time k hp] at h
    unfold run_search_timed at h
    simp only at h
    split_ifs at h with hv
    rw [e0] at h
    cases fuel with
    | zero => simp [recursive_search_timed] at h
    | succ f =>
      obtain ⟨k2, hk2⟩ := search_timed_single_full ⟨S, net, heap,
        [⟨r, true, (heap r).origin⟩, ⟨r, false, (heap r).destination⟩],
        [⟨1, []⟩, ⟨0, [0]⟩]⟩ clock f v.node _ (time + v.offset) r (heap r).origin k rfl hc
      rw [hk2] at h
      simp only [format_path, Except.ok.injEq] at h
      rw [← h]
      simp

/-- Claim C31: for every vehicle, when the enumeration of `make_rtvgraph` completes with
the lists `round` (`round[k]` is the final list of the rank `k`), every trip of a rank
`k >= 1` has exactly `k` pairwise distinct requests, and, when the vehicle has no more
passengers than seats, the list of every rank `k >= 1` above the capacity is empty. -/
theorem rank_and_capacity (S : Settings) (net : Network) (heap : Heap) (fuel : Nat)
    (clock : Clock) (rr_edges : ReqPtr → List ReqPtr) (vr_edges : List ReqPtr) (v : Vehicle)
    (time : Int) (round : List (List Trip))
    (h : rtv_enumeration S net heap fuel clock rr_edges vr_edges v time = Except.ok round) :
    (∀ k, 1 ≤ k → ∀ t ∈ round.getD k [], t.requests.Nodup ∧ t.requests.length = k)
      ∧ ((v.passengers.length : Int) ≤ v.capacity →
          ∀ k : Nat, 1 ≤ k → v.capacity < k → round.getD k [] = []) := by
  have hfirst : ∃ (result : (Int × List NodeStop) × Nat) (first_round : List Trip × Nat),
      foldE (rtv_single S net heap fuel clock v time) ([], result.2)
          (setInsertAll ptrLt v.pending_requests (requestSet vr_edges)) = Except.ok first_round
        ∧ round.getD 1 [] = first_round.1
        ∧ (round.length : Int) ≤ max 2 (v.capacity + 1) := by
    unfold rtv_enumeration at h
    cases hb : time_travel S net heap fuel clock v [] Purpose.STANDARD time 0 with
    | error e => rw [hb] at h; simp at h
    | ok result =>
      rw [hb] at h
      simp only at h
      cases h1 : foldE (rtv_single S net heap fuel clock v time) ([], result.2)
          (setInsertAll ptrLt v.pending_requests (requestSet vr_edges)) with
      | error e => rw [h1] at h; simp at h
      | ok first_round =>
        rw [h1] at h
        simp only at h
        obtain ⟨extra, hex, _⟩ := rtv_rounds_append S net heap fuel clock rr_edges v time _ _ _
          _ _ h
        have hl := rtv_rounds_length S net heap fuel clock rr_edges v time _ _ _ _ _ h
        refine ⟨result, first_round, h1, ?_, ?_⟩
        · rw [hex]
          rfl
        · simpa using hl
  obtain ⟨result, first_round, h1, hr1, hlen⟩ := hfirst
  constructor
  · intro k hk t ht
    by_cases hk2 : 2 ≤ k
    · obtain ⟨readings, st, hst, he⟩ := rank_list_compact S net heap fuel clock rr_edges vr_edges
        v time round h k hk2 (List.ne_nil_of_mem ht)
      rw [he, mem_compact_iff] at ht
      have hrt := (rtv_rank_spec S net heap fuel clock rr_edges v time k _ readings st hst).1 t
        ht.1
      have hsorted := rankTrip_sorted S net heap fuel clock rr_edges v time k _ t hrt
      obtain ⟨_, _, _, _, _, _, _, h6, _⟩ := hrt
      exact ⟨ptrLt_sorted_nodup _ hsorted, h6⟩
    · have hk1 : k = 1 := by omega
      subst hk1
      rw [hr1] at ht
      obtain ⟨r, _, h2, _⟩ := first_round_spec S net heap fuel clock v time _ _ _ h1 t ht
      rw [h2]
      simp
  · intro hp k hk hcap
    by_cases hk2 : 2 ≤ k
    · apply List.getD_eq_default
      rcases le_max_iff.mp hlen with h3 | h3
      · omega
      · omega
    · have hk1 : k = 1 := by omega
      subst hk1
      have hc0 : v.capacity ≤ 0 := by omega
      have hp0 : v.passengers = [] := by
        apply List.eq_nil_of_length_eq_zero
        omega
      rw [hr1]
      refine foldE_inv (fun s : List Trip × Nat => s.1 = []) _ ?_ _ _ _ rfl h1
      intro s r s2 hs hf
      unfold rtv_single at hf
      cases ht : time_travel S net heap fuel clock v [r] Purpose.STANDARD time s.2 with
      | error e => rw [ht] at hf; simp at hf
      | ok path =>
        rw [ht] at hf
        simp only at hf
        have hneg := time_travel_single_full S net heap fuel clock v r time s.2 path hp0 hc0 ht
        rw [if_neg (by omega)] at hf
        simp only [Except.ok.injEq] at hf
        rw [← hf]
        exact hs

theorem rank_and_capacity_witness :
    rtv_enumeration (exSettings Ctsp.FULL) exNet exHeap 5 exClock exRR [1, 2] exVehicleOne 0
        = Except.ok [[⟨0, false, false, [], []⟩],
            [⟨60, false, false, [⟨1, true, 0⟩, ⟨1, false, 1⟩], [1]⟩,
              ⟨120, false, false, [⟨2, true, 0⟩, ⟨2, false, 2⟩], [2]⟩]]
      ∧ (exVehicleOne.passengers.length : Int) ≤ exVehicleOne.capacity
      ∧ ∀ k : Nat, 1 ≤ k → exVehicleOne.capacity < k →
          [[(⟨0, false, false, [], []⟩ : Trip)],
            [⟨60, false, false, [⟨1, true, 0⟩, ⟨1, false, 1⟩], [1]⟩,
              ⟨120, false, false, [⟨2, true, 0⟩, ⟨2, false, 2⟩], [2]⟩]].getD k [] = [] :=
  ⟨by decide!, by decide,
    (rank_and_capacity (exSettings Ctsp.FULL) exNet exHeap 5 exClock exRR [1, 2] exVehicleOne 0
      _ (by decide!)).2 (by decide)⟩

/-! ## The sentinel of the oracle and the epoch of a request -/

/-- Claim C38: when the epoch time, the offset of the vehicle, the travel times and the
dwell times are not negative, a result of the STANDARD or of the MEMORY oracle is the
cost -1 with no stop, or a cost that is at least the offset of the vehicle, hence not
negative, with stops whose replay from the vehicle keeps every window and the capacity
and ends at the cost plus the epoch time: no plan is returned with a negative cost and
no cost that is not negative comes without a feasible plan. -/
theorem sentinel_never_collides (S : Settings) (net : Network) (heap : Heap) (fuel : Nat)
    (v : Vehicle) (rs : List ReqPtr) (trigger : Purpose) (time : Int)
    (r : Int × List NodeStop)
    (hn : NonNegTimes S net v time)
    (ht : trigger = Purpose.STANDARD ∨ trigger = Purpose.MEMORY)
    (h : travel S net heap fuel v rs trigger time = Except.ok r) :
    (r = (-1, [])
        ∨ (v.offset ≤ r.1 ∧ 0 ≤ r.1
          ∧ ReplayOk S net heap v.capacity v.node (time + v.offset) Action.NO_ACTION
              v.passengers.length r.2
          ∧ r.1 = finalTime S net heap v.node (time + v.offset) Action.NO_ACTION r.2 - time))
      ∧ (r.1 < 0 → r = (-1, []))
      ∧ (r.1 = -1 ∨ v.offset ≤ r.1) := by
  have ht2 : trigger ≠ Purpose.REBALANCING := by
    rcases ht with ht | ht <;> rw [ht] <;> decide
  obtain ⟨h1, h2, h3, h4, h5⟩ := hn
  rcases travel_ok S net heap fuel v rs trigger time r ht2 h with hr | ⟨hrep, hc⟩
  · refine ⟨Or.inl hr, fun _ => hr, Or.inl ?_⟩
    rw [hr]
  · have hge := finalTime_ge S net heap h3 h4 h5 r.2 v.node (time + v.offset) Action.NO_ACTION
    rw [if_pos (by omega)] at hc
    refine ⟨Or.inr ⟨by omega, by omega, hrep, hc⟩, fun hlt => ?_, Or.inr (by omega)⟩
    exfalso
    omega

theorem sentinel_never_collides_witness :
    NonNegTimes (exSettings Ctsp.FULL) exNet exVehicle 0
      ∧ travel (exSettings Ctsp.FULL) exNet exHeap 5 exVehicle [1, 2] Purpose.STANDARD 0
        = Except.ok (140, exPlan)
      ∧ (((140 : Int), exPlan).1 = -1 ∨ exVehicle.offset ≤ ((140 : Int), exPlan).1) :=
  ⟨⟨by decide, by decide, matrixOf_nonneg _ (by decide), by decide, by decide⟩, by decide!,
    (sentinel_never_collides (exSettings Ctsp.FULL) exNet exHeap 5 exVehicle [1, 2]
      Purpose.STANDARD 0 (140, exPlan)
      ⟨by decide, by decide, matrixOf_nonneg _ (by decide), by decide, by decide⟩
      (Or.inl rfl) (by decide!)).2.2⟩

theorem mem_get_new_requests (INTERVAL : Int) (heap : Heap) (requests : List ReqPtr)
    (time : Int) (r : ReqPtr) :
    r ∈ get_new_requests INTERVAL heap requests time
      ↔ r ∈ requests ∧ (heap r).entry_time ≤ time ∧ time < (heap r).entry_time + INTERVAL := by
  unfold get_new_requests
  rw [foldl_push_filter (fun r => (heap r).entry_time ≤ time
    ∧ time < (heap r).entry_time + INTERVAL), List.nil_append, List.mem_filter]
  simp

/-- Claim C39: for a positive `INTERVAL` and the epoch times `t_k = t_0 + k * INTERVAL`
with `k = 0 .. m`, a request is returned by `buffer::get_new_requests` at no more than
one epoch, and a request of the vector whose entry time lies in `(t_0 - INTERVAL, t_m]`
is returned at one epoch. -/
theorem each_request_new_once (INTERVAL : Int) (heap : Heap) (requests : List ReqPtr)
    (t0 : Int) (m : Nat) (hI : 0 < INTERVAL) (r : ReqPtr) :
    (∀ j k : Nat, j ≤ m → k ≤ m →
        r ∈ get_new_requests INTERVAL heap requests (t0 + j * INTERVAL) →
        r ∈ get_new_requests INTERVAL heap requests (t0 + k * INTERVAL) → j = k)
      ∧ (r ∈ requests → t0 - INTERVAL < (heap r).entry_time →
          (heap r).entry_time ≤ t0 + m * INTERVAL →
          ∃ k : Nat, k ≤ m ∧ r ∈ get_new_requests INTERVAL heap requests (t0 + k * INTERVAL)) := by
  constructor
  · intro j k _ _ hj hk
    rw [mem_get_new_requests] at hj hk
    obtain ⟨_, j1, j2⟩ := hj
    obtain ⟨_, k1, k2⟩ := hk
    have key : ∀ a b : Nat, a < b → t0 + (a : Int) * INTERVAL + INTERVAL
        ≤ t0 + (b : Int) * INTERVAL := by
      intro a b hab
      have h1 : ((a : Int) + 1) ≤ (b : Int) := by omega
      have h2 := mul_le_mul_of_nonneg_right h1 hI.le
      linarith
    rcases Nat.lt_trichotomy j k with hlt | heq | hgt
    · have := key j k hlt
      omega
    · exact heq
    · have := key k j hgt
      omega
  · intro hr
    induction m with
    | zero =>
      intro h1 h2
      refine ⟨0, le_refl _, ?_⟩
      rw [mem_get_new_requests]
      simp only [Nat.cast_zero, zero_mul, add_zero] at h2 ⊢
      exact ⟨hr, h2, by omega⟩
    | succ n ih =>
      intro h1 h2
      by_cases hle : (heap r).entry_time ≤ t0 + (n : Int) * INTERVAL
      · obtain ⟨k, hk, hmem⟩ := ih h1 hle
        exact ⟨k, by omega, hmem⟩
      · refine ⟨n + 1, le_refl _, ?_⟩
        rw [mem_get_new_requests]
        refine ⟨hr, h2, ?_⟩
        push_cast
        have : ((n : Int) + 1) * INTERVAL = (n : Int) * INTERVAL + INTERVAL := by ring
        rw [this]
        omega

theorem each_request_new_once_witness :
    (0 : Int) < 60
      ∧ 1 ∈ get_new_requests 60 entryHeap [1, 2] (0 + ((1 : Nat) : Int) * 60)
      ∧ ∀ j k : Nat, j ≤ 3 → k ≤ 3 →
          1 ∈ get_new_requests 60 entryHeap [1, 2] (0 + j * 60) →
          1 ∈ get_new_requests 60 entryHeap [1, 2] (0 + k * 60) → j = k :=
  ⟨by decide, by decide,
    (each_request_new_once 60 entryHeap [1, 2] 0 3 (by decide) 1).1⟩

/-! ## The rounding to `double` -/

theorem log2_floor_spec (fuel : Nat) : ∀ n : Nat, 1 ≤ n → n ≤ fuel →
    2 ^ log2_floor fuel n ≤ n ∧ n < 2 ^ (log2_floor fuel n + 1) := by
  induction fuel with
  | zero => intro n h1 h2; omega
  | succ fuel ih =>
    intro n h1 h2
    rw [log2_floor]
    split
    · rename_i h
      obtain ⟨a, b⟩ := ih (n / 2) (by omega) (by omega)
      rw [pow_succ] at b ⊢
      rw [pow_succ]
      constructor <;> omega
    · simp
      omega

theorem ilog2_aux (n d a b : Nat) (hd : 0 < d) (ha1 : 2 ^ a ≤ n) (ha2 : n < 2 ^ (a + 1))
    (hb1 : 2 ^ b ≤ d) (hb2 : d < 2 ^ (b + 1)) :
    (2 : Rat) ^ ((a : Int) - (b : Int) - 1) ≤ (n : Rat) / (d : Rat)
      ∧ (n : Rat) / (d : Rat) < (2 : Rat) ^ ((a : Int) - (b : Int) + 1) := by
  have hdq : (0 : Rat) < (d : Rat) := by exact_mod_cast hd
  have ha1q : (2 : Rat) ^ a ≤ (n : Rat) := by exact_mod_cast ha1
  have ha2q : (n : Rat) < (2 : Rat) ^ (a + 1) := by exact_mod_cast ha2
  have hb1q : (2 : Rat) ^ b ≤ (d : Rat) := by exact_mod_cast hb1
  have hb2q : (d : Rat) < (2 : Rat) ^ (b + 1) := by exact_mod_cast hb2
  have e1 : (2 : Rat) ^ ((a : Int) - (b : Int) - 1) = (2 : Rat) ^ a / (2 : Rat) ^ (b + 1) := by
    rw [show (a : Int) - (b : Int) - 1 = ((a : Nat) : Int) - ((b + 1 : Nat) : Int) by
      push_cast; ring, zpow_sub₀ (by norm_num), zpow_natCast, zpow_natCast]
  have e2 : (2 : Rat) ^ ((a : Int) - (b : Int) + 1) = (2 : Rat) ^ (a + 1) / (2 : Rat) ^ b := by
    rw [show (a : Int) - (b : Int) + 1 = ((a + 1 : Nat) : Int) - ((b : Nat) : Int) by
      push_cast; ring, zpow_sub₀ (by norm_num), zpow_natCast, zpow_natCast]
  have hp1 : (0 : Rat) < (2 : Rat) ^ (b + 1) := by positivity
  have hp2 : (0 : Rat) < (2 : Rat) ^ b := by positivity
  have hp3 : (0 : Rat) < (2 : Rat) ^ a := by positivity
  constructor
  · rw [e1, div_le_div_iff₀ hp1 hdq]
    calc (2 : Rat) ^ a * (d : Rat) ≤ (n : Rat) * (d : Rat) :=
          mul_le_mul_of_nonneg_right ha1q hdq.le
      _ ≤ (n : Rat) * (2 : Rat) ^ (b + 1) :=
          mul_le_mul_of_nonneg_left hb2q.le (le_trans hp3.le ha1q)
  · rw [e2, div_lt_div_iff₀ hdq hp2]
    calc (n : Rat) * (2 : Rat) ^ b < (2 : Rat) ^ (a + 1) * (2 : Rat) ^ b :=
          mul_lt_mul_of_pos_right ha2q hp2
      _ ≤ (2 : Rat) ^ (a + 1) * (d : Rat) :=
          mul_le_mul_of_nonneg_left hb1q (by positivity)

theorem ilog2_spec (x : Rat) (hx : 0 < x) :
    (2 : Rat) ^ ilog2 x ≤ x ∧ x < (2 : Rat) ^ (ilog2 x + 1) := by
  have hn : 0 < x.num := Rat.num_pos.mpr hx
  obtain ⟨ha1, ha2⟩ := log2_floor_spec x.num.toNat x.num.toNat (by omega) le_rfl
  obtain ⟨hb1, hb2⟩ := log2_floor_spec x.den x.den x.den_pos le_rfl
  have hxe : ((x.num.toNat : Nat) : Rat) / (x.den : Rat) = x := by
    have h1 : ((x.num.toNat : Nat) : Rat) = ((x.num : Int) : Rat) := by
      have : ((x.num.toNat : Nat) : Int) = x.num := Int.toNat_of_nonneg hn.le
      exact_mod_cast this
    rw [h1]
    exact Rat.num_div_den x
  have key := ilog2_aux x.num.toNat x.den _ _ x.den_pos ha1 ha2 hb1 hb2
  rw [hxe] at key
  unfold ilog2
  simp only
  split
  · rename_i h
    exact ⟨h, key.2⟩
  · rename_i h
    refine ⟨key.1, ?_⟩
    rw [sub_add_cancel]
    exact lt_of_not_le h

theorem round_half_even_spec (y : Rat) : |((round_half_even y : Int) : Rat) - y| ≤ 1 / 2 := by
  have h1 := Int.floor_le y
  have h2 := Int.lt_floor_add_one y
  unfold round_half_even
  rw [abs_le]
  split
  · constructor <;> linarith
  · split
    · constructor <;> push_cast <;> linarith
    · split
      · constructor <;> linarith
      · constructor <;> push_cast <;> linarith

theorem round_half_even_int (n : Int) : round_half_even (n : Rat) = n := by
  simp [round_half_even]

theorem to_double_zero : to_double 0 = 0 := by
  simp [to_double]

theorem to_double_err (x : Rat) (hx : (2 : Rat) ^ (-1022 : Int) ≤ x) :
    |to_double x - x| ≤ x * (2 : Rat) ^ (-53 : Int) := by
  have hpos : 0 < x := lt_of_lt_of_le (by positivity) hx
  obtain ⟨hk1, hk2⟩ := ilog2_spec x hpos
  have hk : -1022 ≤ ilog2 x := by
    have := lt_of_le_of_lt hx hk2
    rw [zpow_lt_zpow_iff_right₀ (by norm_num)] at this
    omega
  unfold to_double
  rw [if_neg hpos.ne.symm]
  simp only
  rw [abs_of_pos hpos, max_eq_left (by omega)]
  have hE : (0 : Rat) < (2 : Rat) ^ (ilog2 x - 52) := by positivity
  have hr := round_half_even_spec (x / (2 : Rat) ^ (ilog2 x - 52))
  have e1 : ((round_half_even (x / (2 : Rat) ^ (ilog2 x - 52)) : Int) : Rat)
        * (2 : Rat) ^ (ilog2 x - 52) - x
      = (((round_half_even (x / (2 : Rat) ^ (ilog2 x - 52)) : Int) : Rat)
          - x / (2 : Rat) ^ (ilog2 x - 52)) * (2 : Rat) ^ (ilog2 x - 52) := by
    field_simp
  rw [e1, abs_mul, abs_of_pos hE]
  have e2 : (2 : Rat) ^ (ilog2 x - 52) = (2 : Rat) ^ ilog2 x * (2 : Rat) ^ (-52 : Int) := by
    rw [← zpow_add₀ (by norm_num)]
    rfl
  have e3 : (2 : Rat) ^ (-52 : Int) = 2 * (2 : Rat) ^ (-53 : Int) := by
    norm_num
  calc |((round_half_even (x / (2 : Rat) ^ (ilog2 x - 52)) : Int) : Rat)
          - x / (2 : Rat) ^ (ilog2 x - 52)| * (2 : Rat) ^ (ilog2 x - 52)
      ≤ 1 / 2 * (2 : Rat) ^ (ilog2 x - 52) := mul_le_mul_of_nonneg_right hr hE.le
    _ = (2 : Rat) ^ ilog2 x * (2 : Rat) ^ (-53 : Int) := by rw [e2, e3]; ring
    _ ≤ x * (2 : Rat) ^ (-53 : Int) := mul_le_mul_of_nonneg_right hk1 (by positivity)

theorem to_double_int (n : Int) (h0 : 0 ≤ n) (h : n < 2 ^ 53) : to_double (n : Rat) = n := by
  rcases eq_or_lt_of_le h0 with h0 | h0
  · rw [← h0]
    simp [to_double]
  have hpos : (0 : Rat) < (n : Rat) := by exact_mod_cast h0
  obtain ⟨hk1, hk2⟩ := ilog2_spec (n : Rat) hpos
  have hk : ilog2 (n : Rat) < 53 := by
    have h53 : (n : Rat) < (2 : Rat) ^ (53 : Int) := by
      rw [show (53 : Int) = ((53 : Nat) : Int) from rfl, zpow_natCast]
      exact_mod_cast h
    have := lt_of_le_of_lt hk1 h53
    rwa [zpow_lt_zpow_iff_right₀ (by norm_num)] at this
  unfold to_double
  rw [if_neg hpos.ne.symm]
  simp only
  rw [abs_of_pos hpos]
  obtain ⟨m, hm⟩ := Int.exists_eq_neg_ofNat
    (show max (ilog2 (n : Rat) - 52) (-1074) ≤ 0 from max_le (by omega) (by omega))
  rw [hm, zpow_neg, zpow_natCast, div_inv_eq_mul]
  have e : (n : Rat) * (2 : Rat) ^ m = ((n * 2 ^ m : Int) : Rat) := by push_cast; ring
  rw [e, round_half_even_int]
  push_cast
  field_simp

/-! ## The partition of `Threads::auto_thread` -/

theorem product_err (N J : Int) (i : Nat) (hN : 1 ≤ N) (hJ : 1 ≤ J) (hs : N * J < 2 ^ 51)
    (hi1 : 1 ≤ i) (hiN : (i : Int) ≤ N) :
    |to_double (to_double (i : Rat) * to_double (to_double (J : Rat) / to_double (N : Rat)))
        - (i : Rat) * ((J : Rat) / (N : Rat))| * (N : Rat) < 1 := by
  have hN51 : N < 2 ^ 51 := by nlinarith
  have hJ51 : J < 2 ^ 51 := by nlinarith
  have hi' : to_double (i : Rat) = (i : Rat) := by
    have := to_double_int (i : Int) (by omega) (by omega)
    simpa using this
  rw [to_double_int J (by omega) (by omega), to_double_int N (by omega) (by omega), hi']
  have hNq : (1 : Rat) ≤ (N : Rat) := by exact_mod_cast hN
  have hJq : (1 : Rat) ≤ (J : Rat) := by exact_mod_cast hJ
  have hiq : (1 : Rat) ≤ (i : Rat) := by exact_mod_cast hi1
  have hiNq : (i : Rat) ≤ (N : Rat) := by exact_mod_cast hiN
  have hsq : (N : Rat) * (J : Rat) < 2251799813685248 := by exact_mod_cast hs
  have hN51q : (N : Rat) < 2251799813685248 := by exact_mod_cast hN51
  have hu : (2 : Rat) ^ (-53 : Int) = 1 / 9007199254740992 := by norm_num
  have hmin : (2 : Rat) ^ (-1022 : Int) ≤ 1 / 9007199254740992 := by
    rw [← hu]
    exact zpow_le_zpow_right₀ (by norm_num) (by norm_num)
  generalize hu2 : (1 : Rat) / 9007199254740992 = u at hu hmin
  have hu0 : 0 < u := by rw [← hu2]; norm_num
  have hu1 : u * 9007199254740992 = 1 := by rw [← hu2]; norm_num
  generalize ht : (J : Rat) / (N : Rat) = t
  have htN : t * (N : Rat) = (J : Rat) := by
    rw [← ht]
    field_simp
  have htpos : 0 < t := by
    rw [← ht]
    positivity
  -- the quotient is at least 2 ^ (-51)
  have ht51 : 4 * u ≤ t := by
    by_contra hc
    push_neg at hc
    have h1 : t * (N : Rat) < 4 * u * 2251799813685248 := by
      calc t * (N : Rat) < 4 * u * (N : Rat) := mul_lt_mul_of_pos_right hc (by linarith)
        _ ≤ 4 * u * 2251799813685248 := mul_le_mul_of_nonneg_left hN51q.le (by linarith)
    linarith
  have hq := to_double_err t (by linarith)
  rw [hu] at hq
  generalize to_double t = q at hq
  rw [abs_le] at hq
  have htu : 0 < t * u := mul_pos htpos hu0
  have hule : u ≤ 1 / 2 := by linarith
  have htu2 : t * u ≤ t / 2 := by nlinarith
  have hqlo : 2 * u ≤ q := by linarith
  have hy0 : q ≤ (i : Rat) * q := by nlinarith
  have hp := to_double_err ((i : Rat) * q) (by linarith)
  rw [hu] at hp
  generalize to_double ((i : Rat) * q) = p at hp
  rw [abs_le] at hp
  -- the product of the index and the exact quotient
  have hx0 : 0 < (i : Rat) * t := by positivity
  have hxJ : (i : Rat) * t ≤ (J : Rat) := by
    rw [← htN, mul_comm t]
    exact mul_le_mul_of_nonneg_right hiNq htpos.le
  have hyx1 : (i : Rat) * q - (i : Rat) * t ≤ (i : Rat) * t * u := by
    have := mul_le_mul_of_nonneg_left hq.2 (by linarith : (0 : Rat) ≤ (i : Rat))
    linarith
  have hyx2 : -((i : Rat) * t * u) ≤ (i : Rat) * q - (i : Rat) * t := by
    have := mul_le_mul_of_nonneg_left hq.1 (by linarith : (0 : Rat) ≤ (i : Rat))
    linarith
  have hxu : (i : Rat) * t * u ≤ (J : Rat) * u := mul_le_mul_of_nonneg_right hxJ hu0.le
  have hxu0 : 0 < (i : Rat) * t * u := mul_pos hx0 hu0
  have hyu : (i : Rat) * q * u ≤ 2 * ((i : Rat) * t * u) := by
    have h1 : (i : Rat) * q ≤ (i : Rat) * t + (i : Rat) * t * u := by linarith
    have h2 : (i : Rat) * t * u * u ≤ (i : Rat) * t * u :=
      mul_le_of_le_one_right hxu0.le (by linarith)
    have h3 := mul_le_mul_of_nonneg_right h1 hu0.le
    linarith
  have hJN : (J : Rat) * u * (N : Rat) < 1 / 4 := by
    have : (J : Rat) * u * (N : Rat) = (N : Rat) * (J : Rat) * u := by ring
    rw [this]
    have := mul_lt_mul_of_pos_right hsq hu0
    linarith
  have hA : |p - (i : Rat) * t| ≤ 3 * ((J : Rat) * u) := by
    rw [abs_le]
    constructor <;> linarith
  calc |p - (i : Rat) * t| * (N : Rat) ≤ 3 * ((J : Rat) * u) * (N : Rat) :=
        mul_le_mul_of_nonneg_right hA (by linarith)
    _ < 1 := by linarith

theorem ceil_near (p x : Rat) (N K : Int) (hN : 1 ≤ N) (hK : x * (N : Rat) = (K : Rat))
    (h : |p - x| * (N : Rat) < 1) :
    Int.ceil p = Int.ceil x ∨ (Int.ceil p = Int.ceil x + 1 ∧ ∃ m : Int, x = (m : Rat)) := by
  have hNq : (1 : Rat) ≤ (N : Rat) := by exact_mod_cast hN
  have habs : |p - x| < 1 := by
    have h0 := abs_nonneg (p - x)
    nlinarith
  rw [abs_lt] at habs
  by_cases hint : ∃ m : Int, x = (m : Rat)
  · obtain ⟨m, hm⟩ := hint
    have hc : Int.ceil x = m := by rw [hm, Int.ceil_intCast]
    have h1 : Int.ceil p ≤ m + 1 := by
      rw [Int.ceil_le]
      push_cast
      linarith
    have h2 : m - 1 < Int.ceil p := by
      rw [Int.lt_ceil]
      push_cast
      linarith
    rcases (by omega : Int.ceil p = m ∨ Int.ceil p = m + 1) with h3 | h3
    · exact Or.inl (by rw [hc, h3])
    · exact Or.inr ⟨by rw [hc, h3], m, hm⟩
  · left
    have hle := Int.le_ceil x
    have hlt := Int.ceil_lt_add_one x
    have hne : x ≠ ((Int.ceil x : Int) : Rat) := fun e => hint ⟨_, e⟩
    have hxc : x < ((Int.ceil x : Int) : Rat) := lt_of_le_of_ne hle hne
    -- integrality of `x * N`
    have h1 : K + 1 ≤ Int.ceil x * N := by
      have : (K : Rat) < ((Int.ceil x * N : Int) : Rat) := by
        rw [← hK]
        push_cast
        exact mul_lt_mul_of_pos_right hxc (by linarith)
      have := Int.cast_lt.mp this
      omega
    have h2 : (Int.ceil x - 1) * N + 1 ≤ K := by
      have : (((Int.ceil x - 1) * N : Int) : Rat) < (K : Rat) := by
        rw [← hK]
        push_cast
        exact mul_lt_mul_of_pos_right (by linarith) (by linarith)
      have := Int.cast_lt.mp this
      omega
    have h1q : (K : Rat) + 1 ≤ ((Int.ceil x : Int) : Rat) * (N : Rat) := by exact_mod_cast h1
    have h2q : (((Int.ceil x : Int) : Rat) - 1) * (N : Rat) + 1 ≤ (K : Rat) := by
      exact_mod_cast h2
    have hN0 : (0 : Rat) ≤ (N : Rat) := by linarith
    have ha1 : (p - x) * (N : Rat) < 1 :=
      lt_of_le_of_lt (mul_le_mul_of_nonneg_right (le_abs_self _) hN0) h
    have ha2 : (x - p) * (N : Rat) < 1 := by
      have h3 : x - p ≤ |p - x| := by
        have := neg_le_abs (p - x)
        linarith
      exact lt_of_le_of_lt (mul_le_mul_of_nonneg_right h3 hN0) h
    have hp1 : p < ((Int.ceil x : Int) : Rat) := by
      have : p * (N : Rat) < ((Int.ceil x : Int) : Rat) * (N : Rat) := by linarith
      exact lt_of_mul_lt_mul_right this hN0
    have hp2 : ((Int.ceil x : Int) : Rat) - 1 < p := by
      have : (((Int.ceil x : Int) : Rat) - 1) * (N : Rat) < p * (N : Rat) := by linarith
      exact lt_of_mul_lt_mul_right this hN0
    have h3 : Int.ceil p ≤ Int.ceil x := Int.ceil_le.mpr hp1.le
    have h4 : Int.ceil x - 1 < Int.ceil p := by
      rw [Int.lt_ceil]
      push_cast
      exact hp2
    omega

theorem product_exact (N J : Int) (i : Nat) (a : Int) (hN : 1 ≤ N) (hJ : 0 ≤ J)
    (hN53 : N < 2 ^ 53) (hJ53 : J < 2 ^ 53) (hiN : (i : Int) ≤ N)
    (ha : (J : Rat) / (N : Rat) = (a : Rat)) :
    to_double (to_double (i : Rat) * to_double (to_double (J : Rat) / to_double (N : Rat)))
      = (i : Rat) * ((J : Rat) / (N : Rat)) := by
  have hi' : to_double (i : Rat) = (i : Rat) := by
    have := to_double_int (i : Int) (by omega) (by omega)
    simpa using this
  have hNq : (0 : Rat) < (N : Rat) := by exact_mod_cast (by omega : (0 : Int) < N)
  have haN : J = a * N := by
    have : (J : Rat) = (a : Rat) * (N : Rat) := by
      rw [← ha]
      field_simp
    exact_mod_cast this
  have ha0 : 0 ≤ a := by
    by_contra hc
    push_neg at hc
    have : a * N < 0 := Int.mul_neg_of_neg_of_pos hc (by omega)
    omega
  have haJ : a ≤ J := by nlinarith
  have hia : (i : Int) * a ≤ J := by
    rw [haN, mul_comm a N]
    exact Int.mul_le_mul_of_nonneg_right hiN ha0
  rw [to_double_int J hJ (by omega), to_double_int N (by omega) (by omega), hi', ha,
    to_double_int a ha0 (by omega)]
  have e : (i : Rat) * (a : Rat) = (((i : Int) * a : Int) : Rat) := by push_cast; ring
  rw [e, to_double_int _ (Int.mul_nonneg (by omega) ha0) (by omega)]

theorem ceil_shift (x t : Rat) (d1 d2 : Int)
    (h1 : d1 = 0 ∨ (d1 = 1 ∧ (∃ m : Int, x = (m : Rat)) ∧ ¬ ∃ a : Int, t = (a : Rat)))
    (h2 : d2 = 0 ∨ (d2 = 1 ∧ (∃ m : Int, x + t = (m : Rat)) ∧ ¬ ∃ a : Int, t = (a : Rat))) :
    Int.floor t ≤ (Int.ceil (x + t) + d2) - (Int.ceil x + d1)
      ∧ (Int.ceil (x + t) + d2) - (Int.ceil x + d1) ≤ Int.floor t + 1 := by
  have hfc : ∀ s : Rat, (¬ ∃ a : Int, s = (a : Rat)) → Int.ceil s = Int.floor s + 1 := by
    intro s hs
    have h3 := Int.ceil_le_floor_add_one s
    have h4 : Int.floor s < Int.ceil s := by
      by_contra hc
      push_neg at hc
      apply hs
      refine ⟨Int.floor s, le_antisymm ?_ (Int.floor_le s)⟩
      calc s ≤ ((Int.ceil s : Int) : Rat) := Int.le_ceil s
        _ ≤ ((Int.floor s : Int) : Rat) := by exact_mod_cast hc
    omega
  rcases h1 with h1 | ⟨h1, ⟨m, hm⟩, hn⟩ <;> rcases h2 with h2 | ⟨h2, ⟨m2, hm2⟩, hn2⟩
  · subst h1 h2
    have h3 : Int.ceil x + Int.floor t ≤ Int.ceil (x + t) := by
      rw [← Int.ceil_add_int]
      apply Int.ceil_mono
      have := Int.floor_le t
      linarith
    have h4 := Int.ceil_add_le x t
    have h5 := Int.ceil_le_floor_add_one t
    omega
  · subst h1 h2
    have e : x = ((m2 : Int) : Rat) + (-t) := by rw [← hm2]; ring
    have h3 : Int.ceil x = m2 - Int.floor t := by
      rw [e, add_comm, Int.ceil_add_int, Int.ceil_neg]
      ring
    have h4 : Int.ceil (x + t) = m2 := by rw [hm2, Int.ceil_intCast]
    omega
  · subst h1 h2
    have h3 : Int.ceil (x + t) = m + Int.ceil t := by rw [hm, add_comm, Int.ceil_add_int, add_comm]
    have h4 : Int.ceil x = m := by rw [hm, Int.ceil_intCast]
    have h5 := hfc t hn
    omega
  · exfalso
    apply hn
    refine ⟨m2 - m, ?_⟩
    push_cast
    rw [← hm2, ← hm]
    ring

theorem boundary_spec (N J : Int) (i : Nat) (hN : 1 ≤ N) (hJ : 1 ≤ J) (hs : N * J < 2 ^ 51)
    (hi1 : 1 ≤ i) (hiN : (i : Int) ≤ N) :
    ∃ d : Int,
      Int.ceil (to_double (to_double (i : Rat)
          * to_double (to_double (J : Rat) / to_double (N : Rat))))
        = Int.ceil ((i : Rat) * ((J : Rat) / (N : Rat))) + d
      ∧ (d = 0 ∨ (d = 1 ∧ (∃ m : Int, (i : Rat) * ((J : Rat) / (N : Rat)) = (m : Rat))
          ∧ ¬ ∃ a : Int, (J : Rat) / (N : Rat) = (a : Rat))) := by
  have hN51 : N < 2 ^ 51 := by nlinarith
  have hJ51 : J < 2 ^ 51 := by nlinarith
  by_cases hex : ∃ a : Int, (J : Rat) / (N : Rat) = (a : Rat)
  · obtain ⟨a, ha⟩ := hex
    refine ⟨0, ?_, Or.inl rfl⟩
    rw [product_exact N J i a hN (by omega) (by omega) (by omega) hiN ha, add_zero]
  · have hNq : (0 : Rat) < (N : Rat) := by exact_mod_cast (by omega : (0 : Int) < N)
    have hK : (i : Rat) * ((J : Rat) / (N : Rat)) * (N : Rat) = (((i : Int) * J : Int) : Rat) := by
      push_cast
      field_simp
    rcases ceil_near _ _ N _ hN hK (product_err N J i hN hJ hs hi1 hiN) with h | ⟨h, hm⟩
    · exact ⟨0, by rw [h, add_zero], Or.inl rfl⟩
    · exact ⟨1, h, Or.inr ⟨rfl, hm, hex⟩⟩

theorem auto_thread_getD (thread_count job_count : Int) (i : Nat) (hi : i < thread_count.toNat) :
    (auto_thread thread_count job_count).getD i (0, 0)
      = (Int.ceil (to_double (to_double (i : Rat)
            * to_double (to_double (job_count : Rat) / to_double (thread_count : Rat)))),
          if Int.ceil (to_double (to_double ((i : Rat) + 1)
              * to_double (to_double (job_count : Rat) / to_double (thread_count : Rat))))
            > job_count
          then job_count
          else Int.ceil (to_double (to_double ((i : Rat) + 1)
              * to_double (to_double (job_count : Rat) / to_double (thread_count : Rat))))) := by
  unfold auto_thread
  simp only
  rw [List.getD_eq_getElem _ _ (by simpa using hi)]
  simp

/-- Claim C35: for a job count `J >= 0` and a thread count `N >= 1` with `N * J < 2 ^ 51`,
`Threads::auto_thread`, with the quotient `jobs_per_thread` and its multiples rounded to
`double` as in the source, submits `N` ranges `[start_i, end_i)` with `start_0 = 0`,
`start_i <= end_i`, `end_i = start_(i+1)` and `end_(N-1) = J`, so that they are contiguous
and disjoint and cover exactly `0 .. J-1`, and the lengths of any two of them differ by at
most 1. -/
theorem auto_thread_partition (N J : Int) (hN : 1 ≤ N) (hJ : 0 ≤ J) (hsize : N * J < 2 ^ 51) :
    (auto_thread N J).length = N.toNat
      ∧ ((auto_thread N J).getD 0 (0, 0)).1 = 0
      ∧ ((auto_thread N J).getD (N.toNat - 1) (0, 0)).2 = J
      ∧ (∀ i, i < N.toNat →
          ((auto_thread N J).getD i (0, 0)).1 ≤ ((auto_thread N J).getD i (0, 0)).2)
      ∧ (∀ i, i + 1 < N.toNat →
          ((auto_thread N J).getD i (0, 0)).2 = ((auto_thread N J).getD (i + 1) (0, 0)).1)
      ∧ (∀ i j, i < N.toNat → j < N.toNat →
          (((auto_thread N J).getD i (0, 0)).2 - ((auto_thread N J).getD i (0, 0)).1)
            - (((auto_thread N J).getD j (0, 0)).2 - ((auto_thread N J).getD j (0, 0)).1)
            ≤ 1) := by
  rcases eq_or_lt_of_le hJ with hJ0 | hJ1
  · -- no job: every range is empty
    subst hJ0
    have hget : ∀ i : Nat, i < N.toNat → (auto_thread N 0).getD i (0, 0) = (0, 0) := by
      intro i hi
      rw [auto_thread_getD N 0 i hi]
      simp [to_double_zero]
    refine ⟨by simp [auto_thread], ?_, ?_, ?_, ?_, ?_⟩
    · rw [hget 0 (by omega)]
    · rw [hget (N.toNat - 1) (by omega)]
    · intro i hi
      rw [hget i hi]
    · intro i hi
      rw [hget i (by omega), hget (i + 1) hi]
    · intro i j hi hj
      rw [hget i hi, hget j hj]
      decide
  have hJ1 : 1 ≤ J := by omega
  have hNq : (0 : Rat) < (N : Rat) := by exact_mod_cast (by omega : (0 : Int) < N)
  have hJq : (0 : Rat) < (J : Rat) := by exact_mod_cast (by omega : (0 : Int) < J)
  have htpos : (0 : Rat) < (J : Rat) / (N : Rat) := div_pos hJq hNq
  have hNn : ((N.toNat : Nat) : Rat) = (N : Rat) := by
    have : ((N.toNat : Nat) : Int) = N := Int.toNat_of_nonneg (by omega)
    exact_mod_cast this
  -- the boundaries computed by the loop
  obtain ⟨B, hB⟩ : ∃ B : Nat → Int, ∀ i : Nat, B i
      = Int.ceil (to_double (to_double (i : Rat)
          * to_double (to_double (J : Rat) / to_double (N : Rat)))) := ⟨_, fun _ => rfl⟩
  have hgetB : ∀ i : Nat, i < N.toNat → (auto_thread N J).getD i (0, 0)
      = (B i, if B (i + 1) > J then J else B (i + 1)) := by
    intro i hi
    rw [hB i, hB (i + 1), Nat.cast_add, Nat.cast_one]
    exact auto_thread_getD N J i hi
  have hB0 : B 0 = 0 := by
    rw [hB 0]
    simp [to_double_zero]
  have hBd : ∀ i : Nat, 1 ≤ i → i ≤ N.toNat → ∃ d : Int,
      B i = Int.ceil ((i : Rat) * ((J : Rat) / (N : Rat))) + d
      ∧ (d = 0 ∨ (d = 1 ∧ (∃ m : Int, (i : Rat) * ((J : Rat) / (N : Rat)) = (m : Rat))
          ∧ ¬ ∃ a : Int, (J : Rat) / (N : Rat) = (a : Rat))) := by
    intro i hi1 hiN
    rw [hB i]
    exact boundary_spec N J i hN hJ1 hsize hi1 (by omega)
  have hXN : ((N.toNat : Nat) : Rat) * ((J : Rat) / (N : Rat)) = (J : Rat) := by
    rw [hNn]
    field_simp
  -- the boundaries after the cap of the last one
  obtain ⟨s, hs⟩ : ∃ s : Nat → Int, ∀ i : Nat, s i
      = if i = 0 then 0 else if i = N.toNat then J else B i := ⟨_, fun _ => rfl⟩
  have hsd : ∀ i : Nat, i ≤ N.toNat → ∃ d : Int,
      s i = Int.ceil ((i : Rat) * ((J : Rat) / (N : Rat))) + d
      ∧ (d = 0 ∨ (d = 1 ∧ (∃ m : Int, (i : Rat) * ((J : Rat) / (N : Rat)) = (m : Rat))
          ∧ ¬ ∃ a : Int, (J : Rat) / (N : Rat) = (a : Rat))) := by
    intro i hi
    rw [hs i]
    split
    · rename_i h0
      subst h0
      exact ⟨0, by simp, Or.inl rfl⟩
    · split
      · rename_i h0 h1
        subst h1
        refine ⟨0, ?_, Or.inl rfl⟩
        rw [hXN, Int.ceil_intCast, add_zero]
      · exact hBd i (by omega) hi
  have hBN : Int.ceil ((N.toNat : Rat) * ((J : Rat) / (N : Rat))) = J := by
    rw [hXN, Int.ceil_intCast]
  have hcap : ∀ i : Nat, 1 ≤ i → i < N.toNat → B i ≤ J := by
    intro i hi1 hiN
    obtain ⟨d, hd, hd2⟩ := hBd i hi1 hiN.le
    have hiq : (i : Rat) < (N : Rat) := by
      have : ((i : Nat) : Int) < N := by omega
      exact_mod_cast this
    have hlt : (i : Rat) * ((J : Rat) / (N : Rat)) < (J : Rat) := by
      calc (i : Rat) * ((J : Rat) / (N : Rat)) < (N : Rat) * ((J : Rat) / (N : Rat)) :=
            mul_lt_mul_of_pos_right hiq htpos
        _ = (J : Rat) := by field_simp
    rcases hd2 with h0 | ⟨h1, ⟨m, hm⟩, _⟩
    · have : Int.ceil ((i : Rat) * ((J : Rat) / (N : Rat))) ≤ J := Int.ceil_le.mpr hlt.le
      omega
    · rw [hm] at hlt
      have hmJ : m < J := by exact_mod_cast hlt
      rw [hm, Int.ceil_intCast] at hd
      omega
  have hget : ∀ i : Nat, i < N.toNat → (auto_thread N J).getD i (0, 0) = (s i, s (i + 1)) := by
    intro i hi
    rw [hgetB i hi, hs i, hs (i + 1)]
    have e1 : (if i = 0 then (0 : Int) else if i = N.toNat then J else B i) = B i := by
      split
      · rename_i h0
        rw [h0, hB0]
      · rw [if_neg (by omega)]
    rw [e1, if_neg (show ¬ (i + 1 = 0) by omega)]
    by_cases hl : i + 1 = N.toNat
    · rw [if_pos hl]
      obtain ⟨d, hd, hd2⟩ := hBd (i + 1) (by omega) (by omega)
      have e2 : ((i + 1 : Nat) : Rat) * ((J : Rat) / (N : Rat)) = (J : Rat) := by
        rw [hl]
        exact hXN
      rw [e2, Int.ceil_intCast] at hd
      have hd3 : d = 0 ∨ d = 1 := by
        rcases hd2 with h | h
        · exact Or.inl h
        · exact Or.inr h.1
      have e3 : (if B (i + 1) > J then J else B (i + 1)) = J := by
        split <;> omega
      rw [e3]
    · rw [if_neg hl, if_neg (by have := hcap (i + 1) (by omega) (by omega); omega)]
  have hlen : ∀ i : Nat, i < N.toNat →
      Int.floor ((J : Rat) / (N : Rat)) ≤ s (i + 1) - s i
        ∧ s (i + 1) - s i ≤ Int.floor ((J : Rat) / (N : Rat)) + 1 := by
    intro i hi
    obtain ⟨d1, hd1, hd1b⟩ := hsd i hi.le
    obtain ⟨d2, hd2, hd2b⟩ := hsd (i + 1) hi
    have e : ((i + 1 : Nat) : Rat) * ((J : Rat) / (N : Rat))
        = (i : Rat) * ((J : Rat) / (N : Rat)) + (J : Rat) / (N : Rat) := by
      push_cast
      ring
    rw [e] at hd2 hd2b
    rw [hd1, hd2]
    exact ceil_shift _ _ d1 d2 hd1b hd2b
  have hfl : 0 ≤ Int.floor ((J : Rat) / (N : Rat)) := Int.floor_nonneg.mpr htpos.le
  refine ⟨by simp [auto_thread], ?_, ?_, ?_, ?_, ?_⟩
  · rw [hget 0 (by omega), hs 0]
    simp
  · rw [hget (N.toNat - 1) (by omega)]
    have e : N.toNat - 1 + 1 = N.toNat := by omega
    show s (N.toNat - 1 + 1) = J
    rw [e, hs N.toNat, if_neg (by omega), if_pos rfl]
  · intro i hi
    rw [hget i hi]
    have := hlen i hi
    simp only
    omega
  · intro i hi
    rw [hget i (by omega), hget (i + 1) hi]
  · intro i j hi hj
    rw [hget i hi, hget j hj]
    have h1 := hlen i hi
    have h2 := hlen j hj
    simp only
    omega

theorem auto_thread_partition_witness :
    (1 : Int) ≤ 14 ∧ (0 : Int) ≤ 58 ∧ (14 : Int) * 58 < 2 ^ 51
      ∧ auto_thread 14 58 = [(0, 5), (5, 9), (9, 13), (13, 17), (17, 21), (21, 25), (25, 30),
          (30, 34), (34, 38), (38, 42), (42, 46), (46, 50), (50, 54), (54, 58)]
      ∧ ((auto_thread 14 58).getD (Int.toNat 14 - 1) (0, 0)).2 = 58 :=
  ⟨by decide, by decide, by decide, by decide!,
    (auto_thread_partition 14 58 (by decide) (by decide) (by decide)).2.2.1⟩

/-! ## The assignment step on an empty request list -/

/-- A completed `mapE` has one result for each element, in order. -/
theorem mapE_ok {α β : Type} (f : α → Except Error β) :
    ∀ (l : List α) (bs : List β), mapE f l = Except.ok bs →
      bs.length = l.length
        ∧ ∀ i (hi : i < l.length) (hb : i < bs.length), f (l.get ⟨i, hi⟩) = Except.ok (bs.get ⟨i, hb⟩) := by
  intro l
  induction l with
  | nil =>
    intro bs h
    simp only [mapE, Except.ok.injEq] at h
    subst h
    exact ⟨rfl, fun i hi => absurd hi (by simp)⟩
  | cons a rest ih =>
    intro bs h
    rw [mapE] at h
    cases hfa : f a with
    | error e => rw [hfa] at h; simp at h
    | ok b =>
      rw [hfa] at h
      simp only at h
      cases hr : mapE f rest with
      | error e => rw [hr] at h; simp at h
      | ok bs2 =>
        rw [hr] at h
        simp only [Except.ok.injEq] at h
        subst h
        obtain ⟨h1, h2⟩ := ih bs2 hr
        refine ⟨by simp [h1], ?_⟩
        intro i hi hb
        cases i with
        | zero => simpa using hfa
        | succ j =>
          simp only [List.length_cons, Nat.add_lt_add_iff_right] at hi hb
          simpa using h2 j hi hb

/-- A list of non-empty lists has at least as many elements as lists. -/
theorem length_le_flatten {α : Type} :
    ∀ (L : List (List α)), (∀ l ∈ L, l ≠ []) → L.length ≤ L.flatten.length := by
  intro L
  induction L with
  | nil => intro _; simp
  | cons a rest ih =>
    intro h
    have h1 : a ≠ [] := h a (List.mem_cons_self _ _)
    have h2 := ih (fun l hl => h l (List.mem_cons_of_mem _ hl))
    have h3 : 0 < a.length := List.length_pos.mpr h1
    simp only [List.flatten_cons, List.length_append, List.length_cons]
    omega

/-- The trips of a zipped trip list of matching length. -/
theorem all_trips_zip (vehicles : List Vehicle) (trip_list : List (List Trip))
    (h : trip_list.length = vehicles.length) :
    all_trips (vehicles.zip trip_list) = trip_list.flatten := by
  unfold all_trips
  rw [List.map_snd_zip]
  omega


/-- With an empty request list every vehicle gets a trip list that holds a trip without
requests. -/
theorem empty_requests_trip_list (S : Settings) (net : Network) (heap : Heap) (fuel : Nat)
    (clocks : Nat → Clock) (vehicles : List Vehicle) (time : Int) (trip_list : List (List Trip))
    (h : assignment_trip_list S net heap fuel clocks vehicles [] time = Except.ok trip_list) :
    trip_list.length = vehicles.length
      ∧ ∀ i, i < vehicles.length → ∃ t ∈ trip_list.getD i [], t.requests = [] := by
  unfold assignment_trip_list at h
  cases hs : rtv_stage S net heap fuel clocks vehicles [] time with
  | error e => rw [hs] at h; simp at h
  | ok tl =>
    rw [hs] at h
    simp only at h
    have htl : tl = trip_list := by
      cases hc : check_included heap vehicles [] tl with
      | error e => rw [hc] at h; simp at h
      | ok u =>
        rw [hc] at h
        simp only at h
        cases hr : check_replicated vehicles tl with
        | error e => rw [hr] at h; simp at h
        | ok u2 =>
          rw [hr] at h
          simpa using h
    subst htl
    unfold rtv_stage at hs
    have e0 : requestSet ([] : List ReqPtr) = [] := rfl
    simp only [e0, mapE] at hs
    obtain ⟨h1, h2⟩ := mapE_ok _ _ _ hs
    rw [List.length_range] at h1
    refine ⟨h1, ?_⟩
    intro i hi
    have hb : i < tl.length := by omega
    have h3 := h2 i (by simpa using hi) hb
    simp only [List.get_eq_getElem, List.getElem_range] at h3
    obtain ⟨result, round, _, _, h4, _, h5⟩ := make_rtvgraph_rounds _ _ _ _ _ _ _ _ _ _ h3
    rw [List.getD_eq_getElem _ _ hb]
    refine ⟨⟨result.1.1, false, false, result.1.2, []⟩, ?_, rfl⟩
    have hm : (⟨result.1.1, false, false, result.1.2, []⟩ : Trip) ∈ round.flatten := by
      cases round with
      | nil => simp at h4
      | cons a rest =>
        simp only [List.getD_cons_zero] at h4
        rw [h4]
        simp
    rcases h5 with ⟨_, h6⟩ | ⟨_, p, _, _, h6⟩
    · rw [h6]; exact hm
    · rw [h6]; exact List.mem_append_left _ hm

/-- Claim C33, amended: with an empty request list and an empty fleet the assignment
step returns the empty map and does not call the solver; with an empty request list and
a fleet that is not empty, every vehicle has a trip without requests in its trip list,
so that a step that completes has called the solver once, on a model with no variable
for a request and at least one variable for each vehicle, and returns the map decoded
from the levels of the solver. -/
theorem empty_requests_assignment (S : Settings) (net : Network) (heap : Heap) (fuel : Nat)
    (clocks : Nat → Clock) (ALGORITHM : Algorithm)
    (ASSIGNMENT_OBJECTIVE : AssignmentObjective) (solver : IlpModel → Option (Nat → Rat))
    (vehicles : List Vehicle) (time : Int) :
    (vehicles = [] →
      assignment S net heap fuel clocks ALGORITHM ASSIGNMENT_OBJECTIVE solver vehicles []
        time = Except.ok ⟨[], []⟩)
    ∧ (vehicles ≠ [] → ∀ run,
      assignment S net heap fuel clocks ALGORITHM ASSIGNMENT_OBJECTIVE solver vehicles []
        time = Except.ok run →
      ∃ trip_list E,
        assignment_trip_list S net heap fuel clocks vehicles [] time = Except.ok trip_list
        ∧ trip_list.length = vehicles.length
        ∧ (∀ i, i < vehicles.length → ∃ t ∈ trip_list.getD i [], t.requests = [])
        ∧ solver (build_model ALGORITHM ASSIGNMENT_OBJECTIVE heap (vehicles.zip trip_list) [])
            = some E
        ∧ (build_model ALGORITHM ASSIGNMENT_OBJECTIVE heap (vehicles.zip trip_list) []).K = 0
        ∧ vehicles.length
            ≤ (build_model ALGORITHM ASSIGNMENT_OBJECTIVE heap (vehicles.zip trip_list) []).index
        ∧ run.solved
            = [build_model ALGORITHM ASSIGNMENT_OBJECTIVE heap (vehicles.zip trip_list) []]
        ∧ run.assigned_trips
            = decode (assignments_of
                (build_model ALGORITHM ASSIGNMENT_OBJECTIVE heap (vehicles.zip trip_list) []).index
                E) (vehicles.zip trip_list) 0 0) := by
  constructor
  · intro hv
    subst hv
    rfl
  · intro hv run h
    unfold assignment at h
    cases ht : assignment_trip_list S net heap fuel clocks vehicles [] time with
    | error e => rw [ht] at h; simp at h
    | ok trip_list =>
      rw [ht] at h
      simp only at h
      obtain ⟨h1, h2⟩ := empty_requests_trip_list S net heap fuel clocks vehicles time
        trip_list ht
      have hidx : (count_trips heap (vehicles.zip trip_list)).index
          = trip_list.flatten.length := by
        rw [(count_trips_spec heap (vehicles.zip trip_list) 0).1, all_trips_zip _ _ h1]
      have hne : ∀ l ∈ trip_list, l ≠ [] := by
        intro l hl
        obtain ⟨i, hi, rfl⟩ := List.getElem_of_mem hl
        obtain ⟨t, ht2, _⟩ := h2 i (by omega)
        rw [List.getD_eq_getElem _ _ hi] at ht2
        exact List.ne_nil_of_mem ht2
      have hle := length_le_flatten trip_list hne
      have hpos : 0 < vehicles.length := List.length_pos.mpr hv
      unfold ilp_assignment at h
      rw [if_neg (by omega)] at h
      simp only at h
      cases hsol : solver (build_model ALGORITHM ASSIGNMENT_OBJECTIVE heap
          (vehicles.zip trip_list) []) with
      | none => rw [hsol] at h; simp at h
      | some E =>
        rw [hsol] at h
        simp only [Except.ok.injEq] at h
        subst h
        refine ⟨trip_list, E, rfl, h1, h2, hsol, rfl, ?_, rfl, rfl⟩
        show vehicles.length ≤ (count_trips heap (vehicles.zip trip_list)).index
        omega

theorem empty_requests_assignment_witness :
    assignment (exSettings Ctsp.FULL) exNet exHeap 10 (fun _ => exClock) Algorithm.ILP_FULL
      AssignmentObjective.AO_SERVICERATE exSolverOne [] [] 0 = Except.ok ⟨[], []⟩ :=
  (empty_requests_assignment (exSettings Ctsp.FULL) exNet exHeap 10 (fun _ => exClock)
    Algorithm.ILP_FULL AssignmentObjective.AO_SERVICERATE exSolverOne [] 0).1 rfl

/-- With the empty request list and the fleet of the worked example the assignment step
calls the solver, on a model with one variable, and returns a map that is not empty: it
gives the vehicle the trip without requests. -/
theorem empty_requests_solver_called :
    assignment (exSettings Ctsp.FULL) exNet exHeap 10 (fun _ => exClock) Algorithm.ILP_FULL
      AssignmentObjective.AO_SERVICERATE exSolverOne [exVehicle] [] 0
      = Except.ok ⟨[⟨1, 0, [0], [], [⟨ConstraintName.c1 0, [0], none, Domain.equalsTo 1⟩]⟩],
          [(0, ⟨0, false, false, [], []⟩)]⟩ := by
  decide!

/-! ## The timed and the untimed oracle -/

/-- Without dwell times the time of visit of the untimed search is that of the timed
one. -/
theorem arrival_no_dwell (S : Settings) (net : Network) (heap : Heap)
    (initial_location time : Int) (prev_action : Action) (ns : NodeStop)
    (hp : S.DWELL_PICKUP = 0) (ha : S.DWELL_ALIGHT = 0) :
    arrival S net heap initial_location time prev_action ns
      = arrival_timed S net heap initial_location time ns := by
  unfold arrival arrival_timed
  simp only [hp, ha, add_zero, ite_self]
  split_ifs <;> rfl

/-- Without dwell times and with a clock whose readings from the `k0`-th on are never
beyond the limit, the loop of the timed search returns what the loop of the untimed
search returns, when the recursive calls do. -/
theorem search_loop_timed_eq (ctx : Ctx) (clock : Clock) (rec : Search) (rect : TimedSearch)
    (k0 : Nat) (hp : ctx.S.DWELL_PICKUP = 0) (ha : ctx.S.DWELL_ALIGHT = 0)
    (hc : ∀ k, k0 ≤ k → ¬ (ctx.S.RTV_TIMELIMIT ≠ 0 ∧ clock k > ctx.S.RTV_TIMELIMIT))
    (hrec : ∀ loc res avail time best pa k, k0 ≤ k → ∃ k2, k ≤ k2 ∧
      rect loc res avail time best k = (rec loc res avail time best pa).map (fun r => (r, k2)))
    (initial_location residual_capacity : Int) (initially_available : List Nat) (time : Int)
    (prev_action : Action) :
    ∀ cands previous best_time best_tail k, k0 ≤ k → ∃ k2, k ≤ k2 ∧
      search_loop_timed ctx clock rect initial_location residual_capacity
          initially_available time cands previous best_time best_tail k
        = (search_loop ctx rec initial_location residual_capacity initially_available time
            prev_action cands previous best_time best_tail).map (fun r => (r, k2)) := by
  intro cands
  induction cands with
  | nil =>
    intro previous best_time best_tail k _
    exact ⟨k, le_refl _, by simp [search_loop_timed, search_loop]⟩
  | cons m rest ih =>
    intro previous best_time best_tail k hk0
    have hn : k ≤ next_reading ctx.S k := by
      unfold next_reading
      split_ifs <;> omega
    have step : ∀ previous best_time best_tail, ∃ k2, k ≤ k2 ∧
        search_loop_timed ctx clock rect initial_location residual_capacity
            initially_available time rest previous best_time best_tail (next_reading ctx.S k)
          = (search_loop ctx rec initial_location residual_capacity initially_available time
              prev_action rest previous best_time best_tail).map (fun r => (r, k2)) := by
      intro previous best_time best_tail
      obtain ⟨k2, h1, h2⟩ := ih previous best_time best_tail (next_reading ctx.S k)
        (by omega)
      exact ⟨k2, by omega, h2⟩
    rw [search_loop_timed, search_loop, if_neg (hc k hk0)]
    simp only [arrival_no_dwell ctx.S ctx.net ctx.heap initial_location time prev_action
      (ctx.stop m) hp ha]
    split
    · exact step _ _ _
    split
    · exact step _ _ _
    split
    · exact step _ _ _
    split
    · exact step _ _ _
    split
    · exact step _ _ _
    split
    · exact step _ _ _
    obtain ⟨k2, hk2, hk⟩ := hrec (ctx.stop m).node
      (new_residual (ctx.stop m) residual_capacity)
      (remaining_nodes ctx initially_available m)
      (arrival_timed ctx.S ctx.net ctx.heap initial_location time (ctx.stop m)) best_time
      (actionOf (ctx.stop m)) (next_reading ctx.S k) (by omega)
    rw [hk]
    cases hr : rec (ctx.stop m).node (new_residual (ctx.stop m) residual_capacity)
      (remaining_nodes ctx initially_available m)
      (arrival_timed ctx.S ctx.net ctx.heap initial_location time (ctx.stop m)) best_time
      (actionOf (ctx.stop m)) with
    | none => exact ⟨k, le_refl _, by simp⟩
    | some tail =>
      simp only [Option.map_some']
      have step2 : ∀ previous best_time best_tail, ∃ k3, k ≤ k3 ∧
          search_loop_timed ctx clock rect initial_location residual_capacity
              initially_available time rest previous best_time best_tail k2
            = (search_loop ctx rec initial_location residual_capacity initially_available
                time prev_action rest previous best_time best_tail).map
                (fun r => (r, k3)) := by
        intro previous best_time best_tail
        obtain ⟨k3, h1, h2⟩ := ih previous best_time best_tail k2 (by omega)
        exact ⟨k3, by omega, h2⟩
      split
      · exact step2 _ _ _
      split
      · exact step2 _ _ _
      exact step2 _ _ _

/-- Without dwell times and with a clock whose readings from the `k0`-th on are never
beyond the limit, the timed search returns what the untimed search returns. -/
theorem recursive_search_timed_eq (ctx : Ctx) (clock : Clock) (k0 : Nat)
    (hp : ctx.S.DWELL_PICKUP = 0) (ha : ctx.S.DWELL_ALIGHT = 0)
    (hc : ∀ k, k0 ≤ k → ¬ (ctx.S.RTV_TIMELIMIT ≠ 0 ∧ clock k > ctx.S.RTV_TIMELIMIT)) :
    ∀ fuel loc res avail time best pa k, k0 ≤ k → ∃ k2, k ≤ k2 ∧
      recursive_search_timed ctx clock fuel loc res avail time best k
        = (recursive_search ctx fuel loc res avail time best pa).map (fun r => (r, k2)) := by
  intro fuel
  induction fuel with
  | zero =>
    intro loc res avail time best pa k _
    exact ⟨k, le_refl _, by simp [recursive_search_timed, recursive_search]⟩
  | succ n ih =>
    intro loc res avail time best pa k hk0
    simp only [recursive_search_timed, recursive_search]
    split_ifs
    · exact ⟨k, le_refl _, by simp⟩
    · exact search_loop_timed_eq ctx clock _ _ k0 hp ha hc ih _ _ _ _ _ _ _ _ _ _ hk0

/-- Without dwell times and with a clock whose readings from the `k`-th on are never
beyond the limit, the timed search from the vehicle returns what the untimed one
returns. -/
theorem run_search_timed_eq (S : Settings) (net : Network) (heap : Heap) (fuel : Nat)
    (clock : Clock) (v : Vehicle) (b : Build) (time : Int) (k : Nat)
    (hp : S.DWELL_PICKUP = 0) (ha : S.DWELL_ALIGHT = 0)
    (hc : ∀ j, k ≤ j → ¬ (S.RTV_TIMELIMIT ≠ 0 ∧ clock j > S.RTV_TIMELIMIT))
    (r : Int × List NodeStop) :
    run_search S net heap fuel v b time = Except.ok r
      ↔ ∃ k2, run_search_timed S net heap fuel clock v b time k = Except.ok (r, k2) := by
  unfold run_search run_search_timed recursive_search_set
  split_ifs with hobj
  · obtain ⟨k2, _, h⟩ := recursive_search_timed_eq ⟨S, net, heap, b.nodes, b.meta_nodes⟩ clock
      k hp ha hc fuel v.node (v.capacity - v.passengers.length)
      (setInsertAll (mnsLt ⟨S, net, heap, b.nodes, b.meta_nodes⟩) b.initially_available [])
      (time + v.offset) (-1) Action.NO_ACTION k (le_refl _)
    rw [h]
    cases recursive_search ⟨S, net, heap, b.nodes, b.meta_nodes⟩ fuel v.node
      (v.capacity - v.passengers.length)
      (setInsertAll (mnsLt ⟨S, net, heap, b.nodes, b.meta_nodes⟩) b.initially_available [])
      (time + v.offset) (-1) Action.NO_ACTION with
    | none => simp
    | some optimal =>
      simp only [Option.map_some', Except.ok.injEq, Prod.mk.injEq]
      constructor
      · intro h1
        exact ⟨k2, h1, rfl⟩
      · rintro ⟨_, h1, _⟩
        exact h1
  · simp

/-- Claim C37, for a planner without dwell times: when `DWELL_PICKUP` and `DWELL_ALIGHT`
are 0 and no reading of the clock from the `k`-th on is beyond `RTV_TIMELIMIT`, the
timed STANDARD oracle, called after `k` readings, returns a cost and a stop sequence
exactly when the untimed STANDARD oracle returns them on the same inputs, and so does
`time_travel` with respect to `travel`. -/
theorem timed_untimed_agree (S : Settings) (net : Network) (heap : Heap) (fuel : Nat)
    (clock : Clock) (v : Vehicle) (rs : List ReqPtr) (time : Int) (k : Nat)
    (hp : S.DWELL_PICKUP = 0) (ha : S.DWELL_ALIGHT = 0)
    (hc : ∀ j, k ≤ j → ¬ (S.RTV_TIMELIMIT ≠ 0 ∧ clock j > S.RTV_TIMELIMIT))
    (r : Int × List NodeStop) :
    (new_travel S net heap fuel v rs time = Except.ok r
      ↔ ∃ k2, new_time_travel S net heap fuel clock v rs time k = Except.ok (r, k2))
    ∧ (travel S net heap fuel v rs Purpose.STANDARD time = Except.ok r
      ↔ ∃ k2, time_travel S net heap fuel clock v rs Purpose.STANDARD time k
          = Except.ok (r, k2)) := by
  have h1 : new_travel S net heap fuel v rs time = Except.ok r
      ↔ ∃ k2, new_time_travel S net heap fuel clock v rs time k = Except.ok (r, k2) := by
    unfold new_travel new_time_travel
    simp only
    split_ifs
    · simp
    · simp only [Except.ok.injEq, Prod.mk.injEq]
      constructor
      · intro h; exact ⟨k, h, rfl⟩
      · rintro ⟨_, h, _⟩; exact h
    · simp
    · exact run_search_timed_eq S net heap fuel clock v _ time k hp ha hc r
    · exact run_search_timed_eq S net heap fuel clock v _ time k hp ha hc r
  refine ⟨h1, ?_⟩
  have h2 : travel S net heap fuel v rs Purpose.STANDARD time
      = new_travel S net heap fuel v rs time := by
    simp [travel]
  unfold time_travel
  split_ifs with hl
  · rw [h2]
    cases new_travel S net heap fuel v rs time with
    | error e => simp
    | ok r2 =>
      simp only [Except.ok.injEq, Prod.mk.injEq]
      constructor
      · intro h; exact ⟨k, h, rfl⟩
      · rintro ⟨_, h, _⟩; exact h
  · exact absurd rfl (by assumption)
  · rw [h2]
    exact h1

theorem timed_untimed_agree_witness :
    (new_travel (⟨Ctsp.FULL, CtspObjective.CTSP_VMT, 0, 0, 600, 300, 1000⟩ : Settings) exNet
        exHeap 10 exVehicle [1, 2] 0 = Except.ok (140, exPlan)
      ↔ ∃ k2, new_time_travel (⟨Ctsp.FULL, CtspObjective.CTSP_VMT, 0, 0, 600, 300, 1000⟩ : Settings)
          exNet exHeap 10 exClock exVehicle [1, 2] 0 0 = Except.ok ((140, exPlan), k2)) :=
  (timed_untimed_agree ⟨Ctsp.FULL, CtspObjective.CTSP_VMT, 0, 0, 600, 300, 1000⟩ exNet exHeap
    10 exClock exVehicle [1, 2] 0 0 rfl rfl (fun _ _ h => absurd h.2 (show ¬ ((0 : Int) > 1000) by decide))
    (140, exPlan)).1

/-- With a pickup dwell of 30 seconds, a time limit of 1000 milliseconds and a clock
that stays at 0, the untimed STANDARD oracle returns the cost 90 for the request A of
the worked example and the timed one the cost 60. -/
theorem timed_untimed_differ :
    new_travel exSettingsDwellTimed exNet exHeap 10 exVehicle [1] 0
        = Except.ok (90, [⟨1, true, 0⟩, ⟨1, false, 1⟩])
      ∧ new_time_travel exSettingsDwellTimed exNet exHeap 10 exClock exVehicle [1] 0 0
        = Except.ok ((60, [⟨1, true, 0⟩, ⟨1, false, 1⟩]), 2)
      ∧ (∀ j, ¬ (exSettingsDwellTimed.RTV_TIMELIMIT ≠ 0
          ∧ exClock j > exSettingsDwellTimed.RTV_TIMELIMIT)) := by
  refine ⟨by decide!, by decide!, ?_⟩
  intro j h
  exact absurd h.2 (show ¬ ((0 : Int) > 1000) by decide)

/-! ## The position of a vehicle after a step of the simulator -/

/-- Serving a stop leaves the position of the vehicle, the time left and the clock as
they were. -/
theorem serve_stop_position (stop : NodeStop) (st : Moving) :
    (serve_stop stop st).prev_node = st.prev_node
      ∧ (serve_stop stop st).node = st.node
      ∧ (serve_stop stop st).offset = st.offset
      ∧ (serve_stop stop st).traveltime_left = st.traveltime_left
      ∧ (serve_stop stop st).current_time = st.current_time := by
  unfold serve_stop
  split <;> simp

/-- The loop over the way points, entered with the offset 0 and time left: when it is
interrupted the vehicle is on an edge, not further from its end than the edge is long;
when it is not, the offset is still 0 and there is still time left. -/
theorem travel_legs_position (S : Settings) (net : Network)
    (hself : ∀ a, 0 ≤ net.get_time S a a) :
    ∀ (waypoints : List Int) (st : Moving), st.offset = 0 → 0 < st.traveltime_left →
      (st.prev_node = -30 ∨ 0 ≤ net.get_time S st.prev_node st.node) →
      ((travel_legs S net waypoints st).2 = true →
        0 ≤ (travel_legs S net waypoints st).1.offset
          ∧ (travel_legs S net waypoints st).1.offset
            ≤ net.get_time S (travel_legs S net waypoints st).1.prev_node
                (travel_legs S net waypoints st).1.node)
      ∧ ((travel_legs S net waypoints st).2 = false →
        (travel_legs S net waypoints st).1.offset = 0
          ∧ 0 < (travel_legs S net waypoints st).1.traveltime_left
          ∧ ((travel_legs S net waypoints st).1.prev_node = -30
            ∨ 0 ≤ net.get_time S (travel_legs S net waypoints st).1.prev_node
                (travel_legs S net waypoints st).1.node)) := by
  intro waypoints
  induction waypoints with
  | nil =>
    intro st h0 ht hp
    simp only [travel_legs]
    exact ⟨fun h => absurd h (by simp), fun _ => ⟨h0, ht, hp⟩⟩
  | cons origin rest ih =>
    intro st h0 ht hp
    cases rest with
    | nil =>
      simp only [travel_legs]
      exact ⟨fun h => absurd h (by simp), fun _ => ⟨h0, ht, hp⟩⟩
    | cons destination rest2 =>
      rw [travel_legs]
      split
      · rename_i hge
        refine ⟨fun _ => ⟨?_, ?_⟩, fun h => absurd h (by simp)⟩
        · show 0 ≤ net.get_time S origin destination - st.traveltime_left
          omega
        · show net.get_time S origin destination - st.traveltime_left
            ≤ net.get_time S origin destination
          omega
      · rename_i hlt
        exact ih _ h0 (by show 0 < st.traveltime_left - net.get_time S origin destination; omega)
          (Or.inr (hself destination))

/-- The loop of `move_vehicle` over the path, without `LAST_MINUTE_SERVICE`: entered with
no time left or with the offset 0, it leaves an offset that is not negative and, unless
the vehicle waits for a request, not more than the time between `prev_node` and
`node`. -/
theorem visit_loop_position (S : Settings) (net : Network)
    (adjacency_list : List (List neighbor)) (fuel : Nat) (rebalancing : Bool)
    (rebalance_origin : Int) (hself : ∀ a, 0 ≤ net.get_time S a a) :
    ∀ (path : List NodeStop) (starts : List Int) (st r : Moving),
      0 ≤ st.offset → (st.prev_node = -30 ∨ st.offset ≤ net.get_time S st.prev_node st.node) →
      (st.traveltime_left ≤ 0 ∨ st.offset = 0) →
      visit_loop S net adjacency_list fuel false rebalancing rebalance_origin path starts st
        = Except.ok r →
      0 ≤ r.offset ∧ (r.prev_node = -30 ∨ r.offset ≤ net.get_time S r.prev_node r.node) := by
  intro path
  induction path with
  | nil =>
    intro starts st r h0 hp _ h
    simp only [visit_loop, Except.ok.injEq] at h
    subst h
    exact ⟨h0, hp⟩
  | cons stop rest ih =>
    intro starts st r h0 hp hz h
    rw [visit_loop] at h
    split at h
    · simp only [Except.ok.injEq] at h
      subst h
      exact ⟨h0, hp⟩
    rename_i htl
    have hoff : st.offset = 0 := by omega
    simp only [Bool.false_eq_true, false_and, if_false] at h
    cases hd : dijkstra S net adjacency_list fuel st.node stop.node with
    | error e => rw [hd] at h; simp at h
    | ok waypoints =>
      rw [hd] at h
      simp only at h
      have key : ∀ st1 : Moving, st1.offset = 0 → 0 < st1.traveltime_left →
          (st1.prev_node = -30 ∨ 0 ≤ net.get_time S st1.prev_node st1.node) →
          (if (travel_legs S net waypoints st1).2 = true then
              Except.ok (travel_legs S net waypoints st1).1
            else if (travel_legs S net waypoints st1).1.traveltime_left ≤ 0 then
              Except.ok (travel_legs S net waypoints st1).1
            else
              let st := (travel_legs S net waypoints st1).1
              let waiting_time := (st.heap stop.r).entry_time - st.current_time
              if (st.heap stop.r).entry_time ≥ st.current_time
                  ∧ waiting_time ≥ st.traveltime_left then
                Except.ok
                  { st with prev_node := -30, offset := waiting_time - st.traveltime_left }
              else
                let st : Moving :=
                  if (st.heap stop.r).entry_time ≥ st.current_time then
                    { st with current_time := st.current_time + waiting_time,
                              traveltime_left := st.traveltime_left - waiting_time }
                  else st
                let st : Moving := { st with jobs_completed := st.jobs_completed + 1 }
                if rebalancing = true ∧ stop.node = rebalance_origin then Except.ok st
                else
                  let st := serve_stop stop st
                  match dwell_node stop rest with
                  | Except.error e => Except.error e
                  | Except.ok node =>
                    let dwell := net.get_time S node st.node
                    if dwell ≥ st.traveltime_left then
                      Except.ok
                        { st with prev_node := node, offset := dwell - st.traveltime_left }
                    else
                      visit_loop S net adjacency_list fuel false rebalancing
                        rebalance_origin rest (starts.drop 1)
                        { st with traveltime_left := st.traveltime_left - dwell,
                                  current_time := st.current_time + dwell }) = Except.ok r →
          0 ≤ r.offset ∧ (r.prev_node = -30 ∨ r.offset ≤ net.get_time S r.prev_node r.node) := by
        intro st1 h1 h2 h3 h
        obtain ⟨ha, hb⟩ := travel_legs_position S net hself waypoints st1 h1 h2 h3
        split at h
        · rename_i hi
          simp only [Except.ok.injEq] at h
          subst h
          exact ⟨(ha hi).1, Or.inr (ha hi).2⟩
        rename_i hi
        obtain ⟨hb1, hb2, hb3⟩ := hb (by simpa using hi)
        split at h
        · omega
        simp only at h
        split at h
        · rename_i hw
          simp only [Except.ok.injEq] at h
          subst h
          exact ⟨by show 0 ≤ _ - _; omega, Or.inl rfl⟩
        rename_i hw
        split at h
        · simp only [Except.ok.injEq] at h
          subst h
          refine ⟨?_, ?_⟩
          · split <;> simp [hb1]
          · split
            · rcases hb3 with h3 | h3
              · exact Or.inl h3
              · exact Or.inr (by simpa [hb1] using h3)
            · rcases hb3 with h3 | h3
              · exact Or.inl h3
              · exact Or.inr (by simpa [hb1] using h3)
        rename_i hr
        have tail : ∀ st2 : Moving, st2.offset = 0 → 0 < st2.traveltime_left →
            (st2.prev_node = -30 ∨ 0 ≤ net.get_time S st2.prev_node st2.node) →
            (match dwell_node stop rest with
              | Except.error e => Except.error e
              | Except.ok node =>
                if net.get_time S node (serve_stop stop st2).node
                    ≥ (serve_stop stop st2).traveltime_left then
                  Except.ok
                    { serve_stop stop st2 with
                      prev_node := node,
                      offset := net.get_time S node (serve_stop stop st2).node
                        - (serve_stop stop st2).traveltime_left }
                else
                  visit_loop S net adjacency_list fuel false rebalancing
                    rebalance_origin rest (starts.drop 1)
                    { serve_stop stop st2 with
                      traveltime_left := (serve_stop stop st2).traveltime_left
                        - net.get_time S node (serve_stop stop st2).node,
                      current_time := (serve_stop stop st2).current_time
                        + net.get_time S node (serve_stop stop st2).node }) = Except.ok r →
            0 ≤ r.offset
              ∧ (r.prev_node = -30 ∨ r.offset ≤ net.get_time S r.prev_node r.node) := by
          intro st2 g1 g2 g3 h
          obtain ⟨s1, s2, s3, s4, s5⟩ := serve_stop_position stop st2
          cases hdn : dwell_node stop rest with
          | error e => rw [hdn] at h; simp at h
          | ok node =>
            rw [hdn] at h
            simp only at h
            split at h
            · rename_i hdw
              simp only [Except.ok.injEq] at h
              subst h
              refine ⟨?_, Or.inr ?_⟩
              · show 0 ≤ _ - _
                omega
              · show _ - _ ≤ net.get_time S node (serve_stop stop st2).node
                omega
            · rename_i hdw
              refine ih _ _ _ ?_ ?_ ?_ h
              · show 0 ≤ (serve_stop stop st2).offset
                omega
              · show (serve_stop stop st2).prev_node = -30
                  ∨ (serve_stop stop st2).offset
                    ≤ net.get_time S (serve_stop stop st2).prev_node (serve_stop stop st2).node
                rw [s1, s2, s3, g1]
                exact g3
              · right
                show (serve_stop stop st2).offset = 0
                omega
        by_cases hge : ((travel_legs S net waypoints st1).1.heap stop.r).entry_time
            ≥ (travel_legs S net waypoints st1).1.current_time
        · rw [if_pos hge] at h
          have hw2 : ¬ (((travel_legs S net waypoints st1).1.heap stop.r).entry_time
              - (travel_legs S net waypoints st1).1.current_time
              ≥ (travel_legs S net waypoints st1).1.traveltime_left) := fun hc => hw ⟨hge, hc⟩
          refine tail _ ?_ ?_ ?_ h
          · exact hb1
          · show 0 < (travel_legs S net waypoints st1).1.traveltime_left
              - (((travel_legs S net waypoints st1).1.heap stop.r).entry_time
                - (travel_legs S net waypoints st1).1.current_time)
            omega
          · exact hb3
        · rw [if_neg hge] at h
          refine tail _ ?_ ?_ ?_ h
          · exact hb1
          · exact hb2
          · exact hb3
      by_cases hone : waypoints.length = 1
      · rw [if_pos hone] at h
        exact key _ rfl (by show 0 < st.traveltime_left; omega) (Or.inr (hself _)) h
      · rw [if_neg hone] at h
        refine key st hoff (by omega) ?_ h
        rcases hp with hp | hp
        · exact Or.inl hp
        · exact Or.inr (by omega)

/-- Claim C34, amended: with `INTERVAL >= 0`, times from a node to itself and dwell times
that are not negative, and `LAST_MINUTE_SERVICE` off, a vehicle whose offset is not
negative and, unless it waits for a request (`prev_node = -30`), not more than the time
between `prev_node` and `node`, is in such a position again after `simulate_vehicle`,
whether the step goes through `move_vehicle` or `move_jobless_vehicle` or moves nothing;
after a step that ends in a wait the offset is the rest of the wait and can exceed the
time 0 of the sentinel -30. -/
theorem position_invariant (S : Settings) (net : Network)
    (adjacency_list : List (List neighbor)) (INTERVAL : Int) (heap : Heap) (fuel : Nat)
    (vehicle : Vehicle) (assignment : Option Trip) (time : Int) (r : Simulated)
    (hI : 0 ≤ INTERVAL) (hm : ∀ a, 0 ≤ net.time_matrix a a)
    (hda : 0 ≤ S.DWELL_ALIGHT) (hdp : 0 ≤ S.DWELL_PICKUP)
    (h0 : 0 ≤ vehicle.offset)
    (hp : vehicle.prev_node = -30
      ∨ vehicle.offset ≤ net.get_time S vehicle.prev_node vehicle.node)
    (h : simulate_vehicle S net adjacency_list INTERVAL false heap fuel vehicle assignment
      time = Except.ok r) :
    0 ≤ r.vehicle.offset
      ∧ (r.vehicle.prev_node = -30
        ∨ r.vehicle.offset ≤ net.get_time S r.vehicle.prev_node r.vehicle.node) := by
  have hself : ∀ a, 0 ≤ net.get_time S a a := by
    intro a
    unfold Network.get_time
    split_ifs
    · exact hdp
    · exact hda
    · exact le_refl _
    · exact hm a
  unfold simulate_vehicle at h
  simp only at h
  split at h
  · unfold move_vehicle at h
    simp only at h
    split at h
    · simp at h
    split at h
    · simp at h
    rename_i raw hraw
    split at h
    · simp at h
    split at h
    · simp at h
    rename_i st hst
    simp only [Except.ok.injEq] at h
    subst h
    simp only [Bool.false_eq_true, if_false] at hst
    by_cases hlt : vehicle.offset < INTERVAL
    · rw [if_pos hlt] at hst
      exact visit_loop_position S net adjacency_list fuel _ _ hself _ _ _ _ (le_refl _)
        (Or.inr (hself _)) (Or.inr rfl) hst
    · rw [if_neg hlt] at hst
      refine visit_loop_position S net adjacency_list fuel _ _ hself _ _ _ _ ?_ ?_
        (Or.inl (le_refl _)) hst
      · show 0 ≤ vehicle.offset - INTERVAL
        omega
      · rcases hp with hp | hp
        · exact Or.inl hp
        · right
          show vehicle.offset - INTERVAL ≤ net.get_time S vehicle.prev_node vehicle.node
          omega
  split at h
  · simp only [Except.ok.injEq] at h
    subst h
    unfold move_jobless_vehicle
    split
    · exact ⟨le_refl _, Or.inr (hself _)⟩
    · rename_i hgt
      have hgt2 : ¬ vehicle.offset ≤ INTERVAL := hgt
      refine ⟨?_, ?_⟩
      · show 0 ≤ vehicle.offset - INTERVAL
        omega
      · rcases hp with hp | hp
        · exact Or.inl hp
        · right
          show vehicle.offset - INTERVAL ≤ net.get_time S vehicle.prev_node vehicle.node
          omega
  · simp only [Except.ok.injEq] at h
    subst h
    exact ⟨h0, hp⟩

theorem position_invariant_witness :
    ∃ r, simulate_vehicle (exSettings Ctsp.FULL) exNet exAdjacency 60 false exHeap 10 exVehicle
        (some ⟨0, false, false, [], [1, 2]⟩) 0 = Except.ok r
      ∧ (r.vehicle.prev_node, r.vehicle.node, r.vehicle.offset) = (0, 1, 0)
      ∧ 0 ≤ r.vehicle.offset
      ∧ (r.vehicle.prev_node = -30
        ∨ r.vehicle.offset
          ≤ exNet.get_time (exSettings Ctsp.FULL) r.vehicle.prev_node r.vehicle.node) := by
  have e : (simulate_vehicle (exSettings Ctsp.FULL) exNet exAdjacency 60 false exHeap 10
      exVehicle (some ⟨0, false, false, [], [1, 2]⟩) 0).map
      (fun r => (r.vehicle.prev_node, r.vehicle.node, r.vehicle.offset))
      = Except.ok (0, 1, 0) := by decide!
  cases hr : simulate_vehicle (exSettings Ctsp.FULL) exNet exAdjacency 60 false exHeap 10
      exVehicle (some ⟨0, false, false, [], [1, 2]⟩) 0 with
  | error err => rw [hr] at e; simp [Except.map] at e
  | ok r =>
    rw [hr] at e
    simp only [Except.map, Except.ok.injEq] at e
    exact ⟨r, rfl, e,
      position_invariant (exSettings Ctsp.FULL) exNet exAdjacency 60 exHeap 10 exVehicle
        (some ⟨0, false, false, [], [1, 2]⟩) 0 r (by decide)
        (fun a => matrixOf_nonneg _ (by decide) a a) (by decide) (by decide) (by decide)
        (Or.inr (by decide)) hr⟩

/-- Four steps of the simulator from a position that the data model describes to one
that it does not.  A vehicle at node 0 whose trip starts with a pickup at node 0 of a
request that enters 100 seconds after the epoch ends the step of 60 seconds waiting,
with `prev_node = -30` and the offset 40, more than the time 0 of the sentinel.  Under
`LAST_MINUTE_SERVICE` a vehicle at node 1 that idles 240 seconds before it leaves for
node 0 ends the step with the offset 240 on an edge of 60 seconds.  With `INTERVAL = -60`
a vehicle without a job 10 seconds before node 1 ends the step 70 seconds before it, on
an edge of 60 seconds.  With a time of -5 from a node to itself a vehicle that arrives
ends the step with the offset 0, more than that time. -/
theorem position_not_kept :
    (PositionOk (exSettings Ctsp.FULL) exNet exVehicle
      ∧ (simulate_vehicle (exSettings Ctsp.FULL) exNet exAdjacency 60 false exHeapLate 10
          exVehicle (some ⟨0, false, false, [], [1]⟩) 0).map
          (fun r => (r.vehicle.prev_node, r.vehicle.node, r.vehicle.offset,
            decide (PositionOk (exSettings Ctsp.FULL) exNet r.vehicle)))
        = Except.ok (-30, 0, 40, false))
    ∧ (PositionOk (exSettings Ctsp.FULL) exNet exVehicleAtOne
      ∧ (simulate_vehicle (exSettings Ctsp.FULL) exNet exAdjacency 60 true exHeap 10
          exVehicleAtOne (some ⟨0, false, false, [], [1]⟩) 0).map
          (fun r => (r.vehicle.prev_node, r.vehicle.node, r.vehicle.offset,
            decide (PositionOk (exSettings Ctsp.FULL) exNet r.vehicle)))
        = Except.ok (1, 0, 240, false))
    ∧ (PositionOk (exSettings Ctsp.FULL) exNet exVehicleOnTheWay
      ∧ (simulate_vehicle (exSettings Ctsp.FULL) exNet exAdjacency (-60) false exHeap 10
          exVehicleOnTheWay none 0).map
          (fun r => (r.vehicle.prev_node, r.vehicle.node, r.vehicle.offset,
            decide (PositionOk (exSettings Ctsp.FULL) exNet r.vehicle)))
        = Except.ok (0, 1, 70, false))
    ∧ (PositionOk (exSettings Ctsp.FULL) exNetSelf exVehicleOnTheWay
      ∧ (simulate_vehicle (exSettings Ctsp.FULL) exNetSelf exAdjacency 60 false exHeap 10
          exVehicleOnTheWay none 0).map
          (fun r => (r.vehicle.prev_node, r.vehicle.node, r.vehicle.offset,
            decide (PositionOk (exSettings Ctsp.FULL) exNetSelf r.vehicle)))
        = Except.ok (1, 1, 0, false)) := by
  refine ⟨⟨by decide!, by decide!⟩, ⟨by decide!, by decide!⟩, ⟨by decide!, by decide!⟩,
    ⟨by decide!, by decide!⟩⟩

/-! ## Feasibility and the removal of requests -/

/-- Without dwell times, going to a stop directly is not slower than going there by
another stop. -/
theorem arrival_skip (S : Settings) (net : Network) (heap : Heap) {V : Int → Prop}
    (hM : Metric S net V) (hdp : S.DWELL_PICKUP = 0) (hda : S.DWELL_ALIGHT = 0)
    (loc time : Int) (prev prev2 : Action) (a y : NodeStop)
    (hloc : V loc) (han : V a.node) (hyn : V y.node) :
    arrival S net heap loc time prev y
      ≤ arrival S net heap a.node (arrival S net heap loc time prev a) prev2 y := by
  have h3 := hM.triangle loc a.node y.node hloc han hyn
  have h4 := hM.nonneg loc a.node
  have h5 := hM.nonneg a.node y.node
  rw [arrival_no_dwell S net heap loc time prev y hdp hda,
    arrival_no_dwell S net heap loc time prev a hdp hda,
    arrival_no_dwell S net heap a.node _ prev2 y hdp hda]
  unfold arrival_timed
  cases hy : y.is_pickup <;> cases ha : a.is_pickup <;>
    simp only [Bool.false_eq_true, false_and, if_false, true_and] <;>
    omega

/-- Without dwell times, a replay that keeps every promise from a stop keeps them when
the vehicle does not go to that stop first, and does not end later. -/
theorem replay_skip_head (S : Settings) (net : Network) (heap : Heap) {V : Int → Prop}
    (hM : Metric S net V) (hdp : S.DWELL_PICKUP = 0) (hda : S.DWELL_ALIGHT = 0)
    (capacity : Int) (a : NodeStop) (loc time : Int) (prev prev2 : Action) (ob : Int)
    (hloc : V loc) (han : V a.node) (l : List NodeStop) (hl : ∀ ns ∈ l, V ns.node)
    (h : ReplayOk S net heap capacity a.node (arrival S net heap loc time prev a) prev2 ob l) :
    ReplayOk S net heap capacity loc time prev ob l := by
  cases l with
  | nil => trivial
  | cons y rest =>
    obtain ⟨h1, h2, h3, h4⟩ := h
    have hle := arrival_skip S net heap hM hdp hda loc time prev prev2 a y hloc han
      (hl y (List.mem_cons_self _ _))
    refine ⟨fun hp => le_trans hle (h1 hp), fun hp => le_trans hle (h2 hp), h3, ?_⟩
    exact (replay_mono S net heap capacity rest y.node _ _ (actionOf y) _ _ hle (le_refl _)
      h4).1

/-- Without dwell times, a replay that keeps every promise keeps them without the pickup
`p` and the dropoff `d` that follows it. -/
theorem replay_remove_pair (S : Settings) (net : Network) (heap : Heap) {V : Int → Prop}
    (hM : Metric S net V) (hdp : S.DWELL_PICKUP = 0) (hda : S.DWELL_ALIGHT = 0)
    (capacity : Int) (p d : NodeStop) (ys post : List NodeStop)
    (hp : p.is_pickup = true) (hd : d.is_pickup = false)
    (hpn : V p.node) (hdn : V d.node) (hys : ∀ ns ∈ ys, V ns.node)
    (hpost : ∀ ns ∈ post, V ns.node) :
    ∀ (xs : List NodeStop) (loc time : Int) (prev : Action) (ob : Int),
      V loc → (∀ ns ∈ xs, V ns.node) →
      ReplayOk S net heap capacity loc time prev ob (xs ++ p :: (ys ++ d :: post)) →
      ReplayOk S net heap capacity loc time prev ob (xs ++ (ys ++ post)) := by
  intro xs
  induction xs with
  | nil =>
    intro loc time prev ob hloc _ h
    obtain ⟨_, _, _, h4⟩ := h
    simp only [List.nil_append, hp, if_true] at h4 ⊢
    have ea : actionOf p = Action.PICKUP := by simp [actionOf, hp]
    rw [ea] at h4
    have h5 := (replay_delete S net heap hM capacity d post hd hdn hpost ys p.node _
      Action.PICKUP (ob + 1) (by decide) hpn hys h4).1
    have e : ob + 1 - 1 = ob := by omega
    rw [e] at h5
    refine replay_skip_head S net heap hM hdp hda capacity p loc time prev Action.PICKUP ob
      hloc hpn _ ?_ h5
    intro ns hns
    rcases List.mem_append.mp hns with h | h
    · exact hys ns h
    · exact hpost ns h
  | cons x xs ih =>
    intro loc time prev ob hloc hxs h
    obtain ⟨h1, h2, h3, h4⟩ := h
    exact ⟨h1, h2, h3, ih x.node _ (actionOf x) _ (hxs x (List.mem_cons_self _ _))
      (fun ns hns => hxs ns (List.mem_cons_of_mem _ hns)) h4⟩

theorem dropMeta_lift (i m : Nat) : dropMeta i (liftMeta i m) = some m := by
  unfold dropMeta liftMeta
  split_ifs <;> first | omega | rfl

theorem dropMeta_some (i m x : Nat) (h : dropMeta i m = some x) : liftMeta i x = m := by
  unfold dropMeta at h
  unfold liftMeta
  split_ifs at h with h1 h2 <;> simp only [Option.some.injEq] at h <;> subst h <;>
    split_ifs <;> omega

theorem dropMeta_none (i m : Nat) : dropMeta i m = none ↔ (m = 2 * i ∨ m = 2 * i + 1) := by
  unfold dropMeta
  split_ifs with h <;> simp [h]

theorem liftMeta_ne (i m : Nat) : liftMeta i m ≠ 2 * i ∧ liftMeta i m ≠ 2 * i + 1 := by
  unfold liftMeta
  split_ifs <;> omega

theorem liftMeta_inj (i a b : Nat) (h : liftMeta i a = liftMeta i b) : a = b := by
  unfold liftMeta at h
  split_ifs at h <;> omega

/-- The stop of a meta node of the universe without `q` is the stop of the meta node
that stands for it in the universe with `q`. -/
theorem universeStop_lift (heap : Heap) (v : Vehicle) (R1 R2 : List ReqPtr) (q : ReqPtr)
    (m : Nat) :
    universeStop heap v (R1 ++ R2) m
      = universeStop heap v (R1 ++ q :: R2) (liftMeta R1.length m) := by
  unfold universeStop liftMeta
  simp only [List.length_append, List.length_cons]
  by_cases h1 : m < 2 * R1.length
  · have e1 : (R1 ++ R2).getD (m / 2) 0 = (R1 ++ q :: R2).getD (m / 2) 0 := by
      rw [List.getD_append _ _ _ _ (by omega), List.getD_append _ _ _ _ (by omega)]
    simp only [if_pos h1, show m < 2 * (R1.length + R2.length) by omega,
      show m < 2 * (R1.length + (R2.length + 1)) by omega, if_true, e1]
  · by_cases h2 : m < 2 * (R1.length + R2.length)
    · have e1 : (R1 ++ R2).getD (m / 2) 0 = (R1 ++ q :: R2).getD ((m + 2) / 2) 0 := by
        rw [List.getD_append_right _ _ _ _ (by omega),
          List.getD_append_right _ _ _ _ (by omega)]
        have e2 : (m + 2) / 2 - R1.length = (m / 2 - R1.length) + 1 := by omega
        rw [e2, List.getD_cons_succ]
      have e3 : (m + 2) % 2 = m % 2 := by omega
      simp only [if_neg h1, if_pos h2, show m + 2 < 2 * (R1.length + (R2.length + 1)) by omega,
        if_true, e1, e3]
    · have e4 : m + 2 - 2 * (R1.length + (R2.length + 1)) = m - 2 * (R1.length + R2.length) := by
        omega
      simp only [if_neg h1, if_neg h2,
        show ¬ m + 2 < 2 * (R1.length + (R2.length + 1)) by omega, if_false, e4]

/-- Without a chain, a meta node of the universe without `q` has no parent exactly when
the meta node that stands for it has none, and its parent stands for the parent. -/
theorem parOf_lift (chain chain2 : Prop) [Decidable chain] [Decidable chain2]
    (hc : ¬ chain) (hc2 : ¬ chain2) (i j k m : Nat) :
    (parOf chain2 (i + j) (2 * (i + j) + k) m = none
      ↔ parOf chain (i + (j + 1)) (2 * (i + (j + 1)) + k) (liftMeta i m) = none)
    ∧ ∀ y, (parOf chain2 (i + j) (2 * (i + j) + k) m = some y
      ↔ parOf chain (i + (j + 1)) (2 * (i + (j + 1)) + k) (liftMeta i m)
          = some (liftMeta i y)) := by
  unfold parOf liftMeta
  simp only [hc, hc2, false_and, if_false]
  constructor
  · split_ifs <;> first | omega | simp
  · intro y
    split_ifs <;> simp only [Option.some.injEq, reduceCtorEq] <;> omega

/-- The available set of the universe without `q` after `W2` is the available set of
the universe with `q` after `W`, when `W2` holds the meta nodes whose stand-ins `W`
holds. -/
theorem avail_lift (chain chain2 : Prop) [Decidable chain] [Decidable chain2]
    (hc : ¬ chain) (hc2 : ¬ chain2) (i j k : Nat) (W W2 : Nat → Prop)
    (hW : ∀ x, W2 x ↔ W (liftMeta i x)) (m : Nat) :
    availAfter (2 * (i + j) + k) (parOf chain2 (i + j) (2 * (i + j) + k)) W2 m
      ↔ availAfter (2 * (i + (j + 1)) + k)
          (parOf chain (i + (j + 1)) (2 * (i + (j + 1)) + k)) W (liftMeta i m) := by
  obtain ⟨p1, p2⟩ := parOf_lift chain chain2 hc hc2 i j k m
  unfold availAfter
  rw [hW m, p1]
  have hlt : m < 2 * (i + j) + k ↔ liftMeta i m < 2 * (i + (j + 1)) + k := by
    unfold liftMeta
    split_ifs <;> omega
  rw [hlt]
  constructor
  · rintro ⟨h1, h2, h3⟩
    refine ⟨h1, h2, ?_⟩
    rcases h3 with h3 | ⟨y, h3, h4⟩
    · exact Or.inl h3
    · exact Or.inr ⟨liftMeta i y, (p2 y).mp h3, (hW y).mp h4⟩
  · rintro ⟨h1, h2, h3⟩
    refine ⟨h1, h2, ?_⟩
    rcases h3 with h3 | ⟨y, h3, h4⟩
    · exact Or.inl h3
    · right
      -- the parent of a stand-in is a stand-in
      have hy : ∃ y2, y = liftMeta i y2 := by
        unfold parOf at h3
        simp only [hc, false_and, if_false] at h3
        split_ifs at h3 with a1 a2
        · simp only [Option.some.injEq] at h3
          have hne := liftMeta_ne i m
          unfold liftMeta at h3 hne a2 ⊢
          split_ifs at h3 hne a2 with b1
          · exact ⟨m + 1, by rw [if_pos (by omega)]; omega⟩
          · exact ⟨m + 1, by rw [if_neg (by omega)]; omega⟩
      obtain ⟨y2, rfl⟩ := hy
      exact ⟨y2, (p2 y2).mpr h3, (hW y2).mpr h4⟩

/-- A sequence of visits of the universe with `q`, without the two meta nodes of `q`,
is a sequence of visits of the universe without `q`. -/
theorem visits_remove (chain chain2 : Prop) [Decidable chain] [Decidable chain2]
    (hc : ¬ chain) (hc2 : ¬ chain2) (i j k : Nat) :
    ∀ (ms : List Nat) (W W2 : Nat → Prop),
      (∀ m, W m → ∀ y, parOf chain (i + (j + 1)) (2 * (i + (j + 1)) + k) m = some y → W y) →
      (∀ m, W2 m → ∀ y, parOf chain2 (i + j) (2 * (i + j) + k) m = some y → W2 y) →
      (∀ x, W2 x ↔ W (liftMeta i x)) →
      Visits (unlOf chain (i + (j + 1)) (2 * (i + (j + 1)) + k))
        (availAfter (2 * (i + (j + 1)) + k)
          (parOf chain (i + (j + 1)) (2 * (i + (j + 1)) + k)) W) ms →
      Visits (unlOf chain2 (i + j) (2 * (i + j) + k))
        (availAfter (2 * (i + j) + k) (parOf chain2 (i + j) (2 * (i + j) + k)) W2)
        (ms.filterMap (dropMeta i)) := by
  have hf := forest_parOf chain (i + (j + 1)) (2 * (i + (j + 1)) + k) (by omega)
  have hf2 := forest_parOf chain2 (i + j) (2 * (i + j) + k) (by omega)
  intro ms
  induction ms with
  | nil =>
    intro W W2 _ _ hW h
    simp only [List.filterMap_nil]
    refine Visits.nil _ (fun x hx => ?_)
    exact visits_nil_inv _ _ h _ ((avail_lift chain chain2 hc hc2 i j k W W2 hW x).mp hx)
  | cons m ms ih =>
    intro W W2 hcl hcl2 hW h
    obtain ⟨hm, hrest⟩ := visits_cons_inv _ _ _ _ h
    obtain ⟨n1, n2⟩ := forest_next _ _ _ _ hf W hcl m hm
    have hrest2 := visits_congr _ _ _ _ hrest n2
    cases hd : dropMeta i m with
    | none =>
      rw [List.filterMap_cons_none hd]
      refine ih _ W2 n1 hcl2 (fun x => ?_) hrest2
      rw [hW x]
      constructor
      · exact Or.inl
      · rintro (h1 | h1)
        · exact h1
        · exfalso
          have := liftMeta_ne i x
          rcases (dropMeta_none i m).mp hd with e | e <;> omega
    | some x =>
      rw [List.filterMap_cons_some hd]
      have hx := dropMeta_some i m x hd
      have hax : availAfter (2 * (i + j) + k) (parOf chain2 (i + j) (2 * (i + j) + k)) W2 x := by
        rw [avail_lift chain chain2 hc hc2 i j k W W2 hW x, hx]
        exact hm
      obtain ⟨k1, k2⟩ := forest_next _ _ _ _ hf2 W2 hcl2 x hax
      refine Visits.cons _ x _ hax (visits_congr _ _ _ _ ?_ (fun y => (k2 y).symm))
      refine ih _ _ n1 k1 (fun y => ?_) hrest2
      rw [hW y]
      constructor
      · rintro (h1 | h1)
        · exact Or.inl h1
        · right; rw [h1, hx]
      · rintro (h1 | h1)
        · exact Or.inl h1
        · right
          exact liftMeta_inj i _ _ (by rw [h1, hx])

/-- The stops of the meta nodes that are kept are the stops of their stand-ins. -/
theorem filterMap_kept (heap : Heap) (v : Vehicle) (R1 R2 : List ReqPtr) (q : ReqPtr) :
    ∀ l : List Nat, (∀ m ∈ l, m ≠ 2 * R1.length ∧ m ≠ 2 * R1.length + 1) →
      (l.filterMap (dropMeta R1.length)).map (universeStop heap v (R1 ++ R2))
        = l.map (universeStop heap v (R1 ++ q :: R2)) := by
  intro l
  induction l with
  | nil => intro _; rfl
  | cons m rest ih =>
    intro h
    have hm := h m (List.mem_cons_self _ _)
    cases hd : dropMeta R1.length m with
    | none =>
      exfalso
      rcases (dropMeta_none _ _).mp hd with e | e
      · exact hm.1 e
      · exact hm.2 e
    | some x =>
      rw [List.filterMap_cons_some hd, List.map_cons, List.map_cons,
        ih (fun y hy => h y (List.mem_cons_of_mem _ hy)),
        universeStop_lift heap v R1 R2 q x, dropMeta_some _ _ _ hd]

/-- Without dwell times, a feasible ordering of the universe of `R1 ++ q :: R2`, without
the two meta nodes of `q`, is a feasible ordering of the universe of `R1 ++ R2`. -/
theorem feasible_remove (S : Settings) (net : Network) (heap : Heap) (v : Vehicle)
    (R1 R2 : List ReqPtr) (q : ReqPtr) (time : Int) {V : Int → Prop}
    (hM : Metric S net V) (hdp : S.DWELL_PICKUP = 0) (hda : S.DWELL_ALIGHT = 0)
    (hnodes : ValidNodes V heap v (R1 ++ q :: R2)) (hvn : V v.node)
    (hpl : PassengersListed v) (ms : List Nat)
    (h : FeasibleOrdering S net heap v (R1 ++ q :: R2) time ms) :
    FeasibleOrdering S net heap v (R1 ++ R2) time (ms.filterMap (dropMeta R1.length)) := by
  have hk := onboardStops_length v hpl.1 hpl.2
  obtain ⟨h1, h2, h3⟩ := h
  have hlen : (R1 ++ q :: R2).length = R1.length + (R2.length + 1) := by simp
  have hlen2 : (R1 ++ R2).length = R1.length + R2.length := by simp
  rw [hlen] at h1 h2
  have hvis := (ordering_visits False (fun h => h) (R1.length + (R2.length + 1))
    (2 * (R1.length + (R2.length + 1)) + v.passengers.length) (by omega) ms).mp ⟨h1, h2⟩
  have hvis2 := visits_remove False False (fun h => h) (fun h => h) R1.length R2.length
    v.passengers.length ms (fun _ => False) (fun _ => False) (fun _ h => h.elim)
    (fun _ h => h.elim) (fun _ => Iff.rfl) hvis
  obtain ⟨g1, g2⟩ := (ordering_visits False (fun h => h) (R1.length + R2.length)
    (2 * (R1.length + R2.length) + v.passengers.length) (by omega) _).mpr hvis2
  refine ⟨by rw [hlen2]; exact g1, by rw [hlen2]; exact g2, ?_⟩
  -- the list of the visits around the two meta nodes of `q`
  obtain ⟨f1, f2, f3⟩ := forest_visits _ _ _ _
    (forest_parOf False (R1.length + (R2.length + 1))
      (2 * (R1.length + (R2.length + 1)) + v.passengers.length) (by omega))
    ms (fun _ => False) (fun _ h => h.elim) hvis
  have hd : 2 * R1.length ∈ ms := (f2 _).mpr ⟨by omega, fun h => h⟩
  obtain ⟨pre, post, e1⟩ := List.append_of_mem hd
  have hpar : parOf False (R1.length + (R2.length + 1))
      (2 * (R1.length + (R2.length + 1)) + v.passengers.length) (2 * R1.length)
      = some (2 * R1.length + 1) := by
    unfold parOf
    rw [if_pos (by omega), if_pos (by omega)]
  have hp : 2 * R1.length + 1 ∈ pre := by
    rcases f3 pre _ post _ e1 hpar with h | h
    · exact h.elim
    · exact h
  obtain ⟨xs, ys, e2⟩ := List.append_of_mem hp
  subst e2
  subst e1
  simp only [List.append_assoc, List.cons_append] at f1 f2 h3 ⊢
  have hnd := f1
  rw [List.nodup_append] at hnd
  obtain ⟨nx, nrest, dx⟩ := hnd
  rw [List.nodup_cons] at nrest
  obtain ⟨np, nrest2⟩ := nrest
  rw [List.nodup_append] at nrest2
  obtain ⟨ny, nrest3, dy⟩ := nrest2
  rw [List.nodup_cons] at nrest3
  obtain ⟨nd, npost⟩ := nrest3
  have kx : ∀ m ∈ xs, m ≠ 2 * R1.length ∧ m ≠ 2 * R1.length + 1 := by
    intro m hm
    constructor
    · intro e
      exact dx hm (by simp [e])
    · intro e
      exact dx hm (by simp [e])
  have ky : ∀ m ∈ ys, m ≠ 2 * R1.length ∧ m ≠ 2 * R1.length + 1 := by
    intro m hm
    constructor
    · intro e
      exact dy hm (by simp [e])
    · intro e
      exact np (by simp [← e, hm])
  have kp : ∀ m ∈ post, m ≠ 2 * R1.length ∧ m ≠ 2 * R1.length + 1 := by
    intro m hm
    constructor
    · intro e
      exact nd (by rw [← e]; exact hm)
    · intro e
      exact np (by simp [← e, hm])
  have hvalid : ∀ l : List Nat, (∀ m ∈ l, m ∈ xs ++ (2 * R1.length + 1) :: (ys ++ 2 * R1.length :: post)) →
      ∀ ns ∈ l.map (universeStop heap v (R1 ++ q :: R2)), V ns.node := by
    intro l hl ns hns
    obtain ⟨m, hm, rfl⟩ := List.mem_map.mp hns
    have hm2 := ((f2 m).mp (hl m hm)).1
    exact universe_nodes_valid V heap v _ hnodes _
      (universeStop_mem heap v _ m (by rw [hk, hlen]; exact hm2))
  have hn1 := dropMeta_none R1.length (2 * R1.length)
  have hn2 := dropMeta_none R1.length (2 * R1.length + 1)
  rw [List.filterMap_append, List.filterMap_cons_none (hn2.mpr (Or.inr rfl)),
    List.filterMap_append, List.filterMap_cons_none (hn1.mpr (Or.inl rfl)),
    List.map_append, List.map_append, filterMap_kept heap v R1 R2 q xs kx,
    filterMap_kept heap v R1 R2 q ys ky, filterMap_kept heap v R1 R2 q post kp]
  rw [List.map_append, List.map_cons, List.map_append, List.map_cons] at h3
  have hP : (universeStop heap v (R1 ++ q :: R2) (2 * R1.length + 1)).is_pickup = true := by
    unfold universeStop
    rw [if_pos (by rw [hlen]; omega), if_neg (by omega)]
  have hD : (universeStop heap v (R1 ++ q :: R2) (2 * R1.length)).is_pickup = false := by
    unfold universeStop
    rw [if_pos (by rw [hlen]; omega), if_pos (by omega)]
  exact replay_remove_pair S net heap hM hdp hda v.capacity _ _ _ _ hP hD
    (hvalid [2 * R1.length + 1] (by simp) _ (by simp))
    (hvalid [2 * R1.length] (by simp) _ (by simp))
    (hvalid ys (fun m hm => by simp [hm]))
    (hvalid post (fun m hm => by simp [hm]))
    _ v.node _ _ _ hvn (hvalid xs (fun m hm => by simp [hm])) h3

/-- Under the conditions in which the search is exact, a STANDARD call with more fuel
than stops returns, and its cost is -1 exactly when the stop universe has no feasible
ordering. -/
theorem oracle_decides (S : Settings) (net : Network) (heap : Heap) (fuel : Nat)
    (v : Vehicle) (rs : List ReqPtr) (time : Int)
    (hv : S.CTSP_OBJECTIVE = CtspObjective.CTSP_VMT)
    (hchain : ¬ LinkChain S rs.length v.passengers.length)
    (hfrozen : ¬ PrefixFrozen S v rs)
    (V : Int → Prop) (hMet : Metric S net V) (htime : 0 ≤ time) (hoff : 0 ≤ v.offset)
    (hnodes : ValidNodes V heap v rs) (hwin : ModelWindows S heap)
    (hpl : PassengersListed v)
    (hdrop : ∀ ns ∈ v.order_record, ns.r ∈ v.passengers → ns.is_pickup = false)
    (hfuel : 2 * rs.length + v.passengers.length < fuel) :
    ∃ cost path, travel S net heap fuel v rs Purpose.STANDARD time = Except.ok (cost, path)
      ∧ (cost = -1 ↔ ∀ ms, ¬ FeasibleOrdering S net heap v rs time ms)
      ∧ (cost ≠ -1 → 0 ≤ cost) := by
  have hk := onboardStops_length v hpl.1 hpl.2
  obtain ⟨e1, e2, e3, e4⟩ := link_onboard_eq S heap v rs hk
  have hN : (link_onboard S rs.length v.passengers.length
      (build_stops heap v rs)).meta_nodes.length = 2 * rs.length + v.passengers.length := by
    rw [e2.1, baseMetas_length]
  have env := universe_env S net heap v rs _ (LinkChain S rs.length v.passengers.length)
    V hpl hdrop e2 e3 hMet hnodes hwin
  have hop := fun ms => ordering_plan S net heap v rs time _
    (LinkChain S rs.length v.passengers.length) hchain hpl e2 e3 ms
  rw [← e1] at env hop
  have hunl2 : Ctx.unl ⟨S, net, heap, (link_onboard S rs.length v.passengers.length
      (build_stops heap v rs)).nodes, (link_onboard S rs.length v.passengers.length
      (build_stops heap v rs)).meta_nodes⟩
      = unlOf (LinkChain S rs.length v.passengers.length) rs.length
        (2 * rs.length + v.passengers.length) := funext e3
  have havail : ∀ x, x ∈ setInsertAll (mnsLt ⟨S, net, heap,
      (link_onboard S rs.length v.passengers.length (build_stops heap v rs)).nodes,
      (link_onboard S rs.length v.passengers.length (build_stops heap v rs)).meta_nodes⟩)
      (link_onboard S rs.length v.passengers.length (build_stops heap v rs)).initially_available
      [] ↔ availAfter (2 * rs.length + v.passengers.length)
        (parOf (LinkChain S rs.length v.passengers.length) rs.length
          (2 * rs.length + v.passengers.length)) (fun _ => False) x := by
    intro x
    rw [mem_setInsertAll _ (separating_mnsLt _), e4]
    simp [availAfter]
  have hud := universe_depth (LinkChain S rs.length v.passengers.length) rs.length
    (2 * rs.length + v.passengers.length) (by omega)
  obtain ⟨r0, hr0⟩ := search_terminates ⟨S, net, heap,
      (link_onboard S rs.length v.passengers.length (build_stops heap v rs)).nodes,
      (link_onboard S rs.length v.passengers.length (build_stops heap v rs)).meta_nodes⟩
    (2 * rs.length + v.passengers.length) fuel v.node (v.capacity - v.passengers.length)
    _ (time + v.offset) (-1) Action.NO_ACTION
    (by
      rw [hunl2]
      exact depth_congr _ _ _ _ (fun x => (havail x).symm) hud) (by omega)
  have htr : travel S net heap fuel v rs Purpose.STANDARD time
      = Except.ok (format_path S (link_onboard S rs.length v.passengers.length
        (build_stops heap v rs)).nodes r0 time) := by
    have hb : ¬ (build_stops heap v rs).meta_nodes.length < v.passengers.length := by
      rw [(build_stops_eq heap v rs).2.1, baseMetas_length]
      omega
    have hp : ¬ (S.CTSP = Ctsp.FIX_PREFIX ∧ (link_onboard S rs.length v.passengers.length
        (build_stops heap v rs)).meta_nodes.length > LP_LIMITVALUE) := by
      rw [hN]
      exact hfrozen
    simp only [travel, new_travel, if_neg hb, if_neg hp, run_search, if_pos hv,
      recursive_search_set, hr0, reduceCtorEq, if_false]
  have hcomp := search_complete _ _ _ _ env v.capacity fuel v.node
    (v.capacity - v.passengers.length) _ (time + v.offset) (-1) Action.NO_ACTION
    (fun _ => False) r0 (fun _ h => h.elim) havail
    (setInsertAll_sorted _ (mnsLt_trans _) _ _ List.Pairwise.nil) (by omega) hr0
  rcases recursive_search_sound _ _ _ _ _ _ _ _ _ hr0 with hb | ⟨ms0, hrun, htail⟩
  · have hnone : ∀ ms, ¬ FeasibleOrdering S net heap v rs time ms := by
      intro ms hms
      have := (hcomp ms ((hop ms).1.mp hms)).1
      rw [hb] at this
      exact this rfl
    refine ⟨-1, [], ?_, ⟨fun _ => hnone, fun _ => rfl⟩, fun h => absurd rfl h⟩
    rw [htr, hb]
    simp [format_path]
  · have hfin := run_finalTime _ _ _ _ _ _ _ _ hrun
    have hrep := run_replayOk _ v.capacity _ _ _ _ _ _ _ hrun
    have hvis := visits_congr _ _ _ _ (run_visits _ _ _ _ _ _ _ _ hrun) havail
    have hplan0 : PlanFrom ⟨S, net, heap,
        (link_onboard S rs.length v.passengers.length (build_stops heap v rs)).nodes,
        (link_onboard S rs.length v.passengers.length (build_stops heap v rs)).meta_nodes⟩
        (2 * rs.length + v.passengers.length)
        (parOf (LinkChain S rs.length v.passengers.length) rs.length
          (2 * rs.length + v.passengers.length)) v.capacity (fun _ => False) v.node
        (v.capacity - v.passengers.length) (time + v.offset) Action.NO_ACTION ms0 :=
      ⟨hvis, hrep⟩
    have hfeas0 := (hop ms0).1.mpr hplan0
    have hmap0 := (hop ms0).2 (fun x hx => List.mem_range.mp (hfeas0.1.mem_iff.mp hx))
    have hge := metric_finalTime_ge S net heap hMet
      (ms0.map (universeStop heap v rs)) v.node (time + v.offset) Action.NO_ACTION
    simp only at hfin
    rw [hmap0] at hfin
    have e : r0 = (r0.1, tailOf ⟨S, net, heap,
        (link_onboard S rs.length v.passengers.length (build_stops heap v rs)).nodes,
        (link_onboard S rs.length v.passengers.length (build_stops heap v rs)).meta_nodes⟩
        ms0) := by
      rw [← htail]
    have hfmt := format_path_tailOf ⟨S, net, heap,
        (link_onboard S rs.length v.passengers.length (build_stops heap v rs)).nodes,
        (link_onboard S rs.length v.passengers.length (build_stops heap v rs)).meta_nodes⟩
      ms0 r0.1 time
    simp only [hv, true_and, hmap0] at hfmt
    rw [if_pos (by omega), ← e] at hfmt
    exact ⟨r0.1 - time, ms0.map (universeStop heap v rs), by rw [htr, hfmt],
      ⟨fun h => by omega, fun h => absurd hfeas0 (h ms0)⟩, fun _ => by omega⟩

/-- Without dwell times, under the conditions in which the search is exact, a request
list that the STANDARD oracle finds feasible stays feasible without one of its
requests. -/
theorem removal_step (S : Settings) (net : Network) (heap : Heap) (fuel : Nat)
    (v : Vehicle) (R1 R2 : List ReqPtr) (q : ReqPtr) (time : Int)
    (hfull : S.CTSP = Ctsp.FULL) (hv : S.CTSP_OBJECTIVE = CtspObjective.CTSP_VMT)
    (V : Int → Prop) (hMet : Metric S net V)
    (hdp : S.DWELL_PICKUP = 0) (hda : S.DWELL_ALIGHT = 0)
    (htime : 0 ≤ time) (hoff : 0 ≤ v.offset)
    (hnodes : ValidNodes V heap v (R1 ++ q :: R2)) (hvn : V v.node)
    (hwin : ModelWindows S heap) (hpl : PassengersListed v)
    (hdrop : ∀ ns ∈ v.order_record, ns.r ∈ v.passengers → ns.is_pickup = false)
    (hfuel : 2 * (R1 ++ q :: R2).length + v.passengers.length < fuel)
    (h : ∃ cost path, travel S net heap fuel v (R1 ++ q :: R2) Purpose.STANDARD time
      = Except.ok (cost, path) ∧ cost ≠ -1) :
    ∃ cost path, travel S net heap fuel v (R1 ++ R2) Purpose.STANDARD time
      = Except.ok (cost, path) ∧ cost ≠ -1 := by
  have hch : ∀ n, ¬ LinkChain S n v.passengers.length := by
    intro n hc
    rw [LinkChain, hfull] at hc
    exact absurd hc.1 (by decide)
  have hfr : ∀ rs, ¬ PrefixFrozen S v rs := by
    intro rs hc
    rw [PrefixFrozen, hfull] at hc
    exact absurd hc.1 (by decide)
  obtain ⟨cost, path, h1, h2⟩ := h
  obtain ⟨c1, p1, a1, a2, _⟩ := oracle_decides S net heap fuel v (R1 ++ q :: R2) time hv
    (hch _) (hfr _) V hMet htime hoff hnodes hwin hpl hdrop hfuel
  rw [h1] at a1
  simp only [Except.ok.injEq, Prod.mk.injEq] at a1
  obtain ⟨ms, hms⟩ : ∃ ms, FeasibleOrdering S net heap v (R1 ++ q :: R2) time ms := by
    by_contra hne
    exact h2 (by rw [a1.1]; exact a2.mpr (fun ms hms => hne ⟨ms, hms⟩))
  have hfeas := feasible_remove S net heap v R1 R2 q time hMet hdp hda hnodes hvn hpl ms hms
  have hnodes2 : ValidNodes V heap v (R1 ++ R2) := by
    refine ⟨fun x hx => hnodes.1 x ?_, hnodes.2⟩
    rcases List.mem_append.mp hx with hx | hx
    · exact List.mem_append_left _ hx
    · exact List.mem_append_right _ (List.mem_cons_of_mem _ hx)
  obtain ⟨c2, p2, b1, b2, _⟩ := oracle_decides S net heap fuel v (R1 ++ R2) time hv
    (hch _) (hfr _) V hMet htime hoff hnodes2 hwin hpl hdrop
    (by simp only [List.length_append, List.length_cons] at hfuel ⊢; omega)
  exact ⟨c2, p2, b1, fun e => b2.mp e _ hfeas⟩

/-- The closure under the removal of one request, repeated along a sub-list. -/
theorem removal_sublist (S : Settings) (net : Network) (heap : Heap) (fuel : Nat)
    (v : Vehicle) (time : Int)
    (hfull : S.CTSP = Ctsp.FULL) (hv : S.CTSP_OBJECTIVE = CtspObjective.CTSP_VMT)
    (V : Int → Prop) (hMet : Metric S net V)
    (hdp : S.DWELL_PICKUP = 0) (hda : S.DWELL_ALIGHT = 0)
    (htime : 0 ≤ time) (hoff : 0 ≤ v.offset) (hvn : V v.node)
    (hwin : ModelWindows S heap) (hpl : PassengersListed v)
    (hdrop : ∀ ns ∈ v.order_record, ns.r ∈ v.passengers → ns.is_pickup = false) :
    ∀ (l1 l2 : List ReqPtr), l1.Sublist l2 → ∀ P : List ReqPtr,
      ValidNodes V heap v (P ++ l2) →
      2 * (P ++ l2).length + v.passengers.length < fuel →
      (∃ cost path, travel S net heap fuel v (P ++ l2) Purpose.STANDARD time
        = Except.ok (cost, path) ∧ cost ≠ -1) →
      ∃ cost path, travel S net heap fuel v (P ++ l1) Purpose.STANDARD time
        = Except.ok (cost, path) ∧ cost ≠ -1 := by
  intro l1 l2 hsub
  induction hsub with
  | slnil => intro P _ _ h; exact h
  | cons a _ ih =>
    rename_i k1 k2 _
    intro P hnodes hfuel h
    have h2 := removal_step S net heap fuel v P k2 a time hfull hv V hMet hdp hda htime hoff
      hnodes hvn hwin hpl hdrop hfuel h
    refine ih P ⟨fun x hx => hnodes.1 x ?_, hnodes.2⟩
      (by simp only [List.length_append, List.length_cons] at hfuel ⊢; omega) h2
    rcases List.mem_append.mp hx with hx | hx
    · exact List.mem_append_left _ hx
    · exact List.mem_append_right _ (List.mem_cons_of_mem _ hx)
  | cons₂ a _ ih =>
    rename_i k1 k2 _
    intro P hnodes hfuel h
    have e1 : P ++ a :: k1 = (P ++ [a]) ++ k1 := by simp
    have e2 : P ++ a :: k2 = (P ++ [a]) ++ k2 := by simp
    rw [e1]
    rw [e2] at hnodes hfuel h
    exact ih (P ++ [a]) hnodes hfuel h

/-- Claim C36, amended: with `CTSP = FULL`, travel times that are not negative, zero
self-times and the triangle inequality between the nodes of the stops and of the vehicle,
dwell times 0, an epoch time and an offset that are not negative, requests with the
windows of the data model, and a vehicle whose passengers are pairwise distinct with a
stop each in the order record, all dropoffs: when the STANDARD oracle finds a request
list feasible (it returns a cost other than -1), a call with more fuel than stops on any
sub-list returns and finds the sub-list feasible, with a cost that is not negative. -/
theorem removal_closed (S : Settings) (net : Network) (heap : Heap) (fuel : Nat)
    (v : Vehicle) (R R2 : List ReqPtr) (time : Int)
    (hfull : S.CTSP = Ctsp.FULL)
    (V : Int → Prop) (hMet : Metric S net V)
    (hdp : S.DWELL_PICKUP = 0) (hda : S.DWELL_ALIGHT = 0)
    (htime : 0 ≤ time) (hoff : 0 ≤ v.offset)
    (hnodes : ValidNodes V heap v R) (hvn : V v.node)
    (hwin : ModelWindows S heap) (hpl : PassengersListed v)
    (hdrop : ∀ ns ∈ v.order_record, ns.r ∈ v.passengers → ns.is_pickup = false)
    (hfuel : 2 * R.length + v.passengers.length < fuel)
    (hsub : R2.Sublist R) (cost : Int) (path : List NodeStop)
    (h : travel S net heap fuel v R Purpose.STANDARD time = Except.ok (cost, path))
    (hc : cost ≠ -1) :
    ∃ cost2 path2, travel S net heap fuel v R2 Purpose.STANDARD time
        = Except.ok (cost2, path2) ∧ cost2 ≠ -1 ∧ 0 ≤ cost2 := by
  have hv : S.CTSP_OBJECTIVE = CtspObjective.CTSP_VMT := by
    by_contra hne
    unfold travel new_travel at h
    simp only [reduceCtorEq, if_false, hfull, false_and] at h
    split_ifs at h
    unfold run_search at h
    rw [if_neg hne] at h
    simp at h
  obtain ⟨c2, p2, h2, hc2⟩ := removal_sublist S net heap fuel v time hfull hv V hMet hdp hda
    htime hoff hvn hwin hpl hdrop R2 R hsub [] (by simpa using hnodes) (by simpa using hfuel)
    ⟨cost, path, by simpa using h, hc⟩
  simp only [List.nil_append] at h2
  have hch : ¬ LinkChain S R2.length v.passengers.length := by
    intro hcc
    rw [LinkChain, hfull] at hcc
    exact absurd hcc.1 (by decide)
  have hfr : ¬ PrefixFrozen S v R2 := by
    intro hcc
    rw [PrefixFrozen, hfull] at hcc
    exact absurd hcc.1 (by decide)
  obtain ⟨c3, p3, b1, _, b3⟩ := oracle_decides S net heap fuel v R2 time hv hch hfr V hMet
    htime hoff ⟨fun x hx => hnodes.1 x (hsub.subset hx), hnodes.2⟩ hwin hpl hdrop
    (by have := hsub.length_le; omega)
  rw [h2] at b1
  simp only [Except.ok.injEq, Prod.mk.injEq] at b1
  exact ⟨c2, p2, h2, hc2, by rw [b1.1]; exact b3 (by rw [← b1.1]; exact hc2)⟩

theorem removal_closed_witness :
    ∃ cost2 path2, travel (exSettings Ctsp.FULL) exNet exHeap 5 exVehicle [1]
        Purpose.STANDARD 0 = Except.ok (cost2, path2) ∧ cost2 ≠ -1 ∧ 0 ≤ cost2 :=
  removal_closed (exSettings Ctsp.FULL) exNet exHeap 5 exVehicle [1, 2] [1] 0 rfl exNodes
    exNet_metric rfl rfl (by decide) (by decide) (by unfold ValidNodes exNodes; decide)
    (by unfold exNodes; decide) exHeap_windows ⟨by decide, by decide⟩ (by decide) (by decide)
    (List.Sublist.cons₂ 1 (List.Sublist.cons 2 List.Sublist.slnil)) 140 exPlan
    (by decide!) (by decide)

/-- Claim C36 fails as stated. First input: on a network whose travel times are all 0,
with an alight dwell of 2 and a pickup dwell of 1, the STANDARD oracle finds the
requests 1, 2, 3 feasible for an empty vehicle at node 1, with the cost 2, and the
requests 1 and 3 infeasible: with request 2 the pickup dwell after request 3 passes
while the vehicle would wait for request 1 anyway; without request 2 the wait for
request 1 comes first and the dwell after it, and one of the two dropoffs is late.
Second input: for the vehicle of the worked example with the offset -1 the oracle finds
request A feasible and the empty list infeasible, the end time -1 of the empty plan
being the sentinel. -/
theorem removal_not_closed :
    (waitSettings.CTSP = Ctsp.FULL ∧ 0 ≤ waitSettings.DWELL_ALIGHT
      ∧ 0 ≤ waitSettings.DWELL_PICKUP
      ∧ (∀ a b, zeroNet.time_matrix a b = 0)
      ∧ ModelWindows waitSettings waitHeap
      ∧ travel waitSettings zeroNet waitHeap 7 waitVehicle [1, 2, 3] Purpose.STANDARD 0
        = Except.ok (2, [⟨3, true, 1⟩, ⟨2, true, 0⟩, ⟨1, true, 0⟩, ⟨1, false, 0⟩,
            ⟨2, false, 0⟩, ⟨3, false, 0⟩])
      ∧ [1, 3].Sublist [1, 2, 3]
      ∧ travel waitSettings zeroNet waitHeap 7 waitVehicle [1, 3] Purpose.STANDARD 0
        = Except.ok (-1, []))
    ∧ (travel (exSettings Ctsp.FULL) exNet exHeap 3 exVehicleMinusOne [1] Purpose.STANDARD 0
        = Except.ok (60, [⟨1, true, 0⟩, ⟨1, false, 1⟩])
      ∧ travel (exSettings Ctsp.FULL) exNet exHeap 3 exVehicleMinusOne [] Purpose.STANDARD 0
        = Except.ok (-1, [])) := by
  refine ⟨⟨rfl, by decide, by decide, fun _ _ => rfl, ?_, by decide!,
    List.Sublist.cons₂ 1 (List.Sublist.cons 2 (List.Sublist.cons₂ 3 List.Sublist.slnil)),
    by decide!⟩, by decide!, by decide!⟩
  intro p
  unfold waitHeap
  split_ifs <;> exact ⟨rfl, rfl⟩

end RollingHorizon
